import Mathlib

/-!
Preview: the memory-mapped data source and the frame (viewport).

A shallow embedding of `src/common/data-mmap.c` (tokenizer `get_tok_r`, row
access `get_row`, column access `get_col`, `data_open`, `Data_mmap_init`, the
renderer `mvaddntok`), of `src/common/frame.c` (`Frame_init`, `Frame_load`,
`Frame_shift_row`, `Frame_shift_col`) and of `include/argparse.h` (`parse_opt`).

Conventions of the embedding.

* C `int` / `ssize_t` values are `Int`.  Offsets are assumed to stay below
  `2^31` (files smaller than 2 GiB), so no arithmetic wraps.
* A `char *` into the mapping is the byte offset from the start of the mapping
  (`some off`), and `NULL` is `none`.
* The mapping is the list of mapped bytes: the file's bytes followed by the
  zero bytes with which the kernel fills the rest of the last page.  A read
  outside the mapping, an array access outside the array, and a failed
  assertion of the deque library have no defined result: the embedding
  returns `none` for the whole call.
* Functions that mutate their arguments return the new values next to the
  return code.
* A call of the curses function `mvaddch` is recorded as the triple of its
  arguments; `mvaddntok` returns the calls it made, in order.
* The constants `MAX_ROWS` and `MAX_COLS` (their header is not among the
  sources) and the page size of the system are parameters.
* A `for` loop over a counter is a recursion on the number of iterations left.
  The two `while (1)` loops of `get_row` carry an iteration bound of one more than
  the number of mapped bytes; `get_row_scan_fuel` and `get_row_cached_fuel` show that
  the bound never cuts a loop short.
-/

namespace Preview

/-- Modelled from the spec: the return codes `E_OK` / `E_DTA_*` that `data-mmap.c`
and `frame.c` use.  The header that defines them is not part of the sources at
hand (the `errorcodes.h` present is an older revision); the codes are taken to
be pairwise distinct, as the error kinds of the specification are. -/
inductive Code where
  | E_OK
  | E_DTA_COL_OOB
  | E_DTA_ROW_OOB
  | E_DTA_EOF
  | E_DTA_BAD_INPUT
  | E_DTA_PARSE_ERROR
  | E_DTA_MISSING_FIELD
  | E_DTA_MAX_ROWS
  | E_DTA_FILE_ERROR
  | E_DTA_RESOURCE_ERROR
  deriving DecidableEq, Repr

open Code

/-- `#define TOK_OK 1` -/
def TOK_OK : Nat := 1
/-- `#define TOK_EOL 2` -/
def TOK_EOL : Nat := 2
/-- `#define TOK_EOF 4` -/
def TOK_EOF : Nat := 4
/-- `#define TOK_ERR 8` -/
def TOK_ERR : Nat := 8

/-- A `char *` into the mapping: `none` is `NULL`, `some off` is `ptr + off`. -/
abbrev Ptr := Option Int

/-- Array read `a[i]`; `none` when the index is outside the array. -/
def arr_get {α : Type} (a : List α) (i : Int) : Option α :=
  if i < 0 then none else a[i.toNat]?

/-- Array write `a[i] = v`; `none` when the index is outside the array. -/
def arr_set {α : Type} (a : List α) (i : Int) (v : α) : Option (List α) :=
  if 0 ≤ i ∧ i.toNat < a.length then some (a.set i.toNat v) else none

/-- The `for (i = 0; ; i++, (*nbytes)++)` loop of `get_tok_r`.  The list is the
mapping from `field + i` on, `lim` is `str + len`, and the result is the
return code with the index `i` at which the loop returned. -/
def get_tok_r_loop (delim : Nat) (field lim : Int) : List Nat → Nat → Bool → Option (Nat × Nat)
  | [], _, _ => none
  | c :: rest, i, in_quote =>
    if c = 0 then
      if field + i ≥ lim then some (TOK_EOF, i) else some (TOK_OK, i)
    else if c = 10 then some (TOK_EOL, i)
    else if c = 34 then get_tok_r_loop delim field lim rest (i + 1) (!in_quote)
    else if c = delim ∧ in_quote = false then some (TOK_OK, i)
    else get_tok_r_loop delim field lim rest (i + 1) in_quote

/-- What a call of `get_tok_r` leaves behind: the return code and the values
of `*tok`, `*nbytes` and `*saveptr`. -/
structure TokRes where
  err : Nat
  tok : Ptr
  nbytes : Int
  saveptr : Ptr
  deriving DecidableEq, Repr

/-- `get_tok_r(&tok, &nbytes, str, delim, &saveptr, len)` over the mapping `mem`;
`str` is an offset into the mapping. -/
def get_tok_r (mem : List Nat) (tok : Ptr) (str : Int) (delim : Nat) (saveptr : Ptr)
    (len : Int) : Option TokRes :=
  let field := saveptr.getD str
  if field < 0 then none
  else
    match get_tok_r_loop delim field (str + len) (mem.drop field.toNat) 0 false with
    | none => none
    | some (k, i) =>
      if k = TOK_EOF then some ⟨k, tok, i + 1, some field⟩
      else some ⟨k, some field, i + 1, some (field + i + 1)⟩

/-- Modelled from the spec: `struct Data_T` (the `frame.h` present is an older
revision without the offset cache).  The fields are those that `data-mmap.c`
reads and writes; `ptr` is the mapping `((mmap_args) data->args)->ptr`. -/
structure Data_T where
  path : String
  delim : Nat
  ncols : Int
  nrows : Int
  row_offsets : List Int
  st_size : Int
  ptr : List Nat
  deriving DecidableEq, Repr

/-- The `while (1)` loop of the `parsed` branch of `get_row`.  The first
argument bounds the number of iterations; `get_row` passes one more than the
number of mapped bytes, which the loop cannot use up because every iteration
that continues has consumed a byte of the mapping. -/
def get_row_cached (mem : List Nat) (delim : Nat) (str len col_start col_end : Int) :
    Nat → Ptr → Ptr → Int → Int → List Ptr → Option (Code × List Ptr)
  | 0, _, _, _, _, _ => none
  | fuel + 1, saveptr, tok, icol, i, buf =>
    match get_tok_r mem tok str delim saveptr len with
    | none => none
    | some r =>
      if r.err &&& (TOK_ERR ||| TOK_EOF) ≠ 0 then some (E_DTA_PARSE_ERROR, buf)
      else
        match (if col_start ≤ icol ∧ icol ≤ col_end then arr_set buf i r.tok else some buf) with
        | none => none
        | some buf1 =>
          let i1 := if col_start ≤ icol ∧ icol ≤ col_end then i + 1 else i
          if icol = col_end then some (E_OK, buf1)
          else get_row_cached mem delim str len col_start col_end fuel r.saveptr r.tok
            (icol + 1) i1 buf1

/-- The `while (1)` loop of the first-visit branch of `get_row`.  The result
is the code (`E_OK` when the loop was left by `break`), `total_bytes`,
`data->ncols` and the buffer. -/
def get_row_scan (mem : List Nat) (delim : Nat) (str len col_start col_end : Int) :
    Nat → Ptr → Ptr → Int → Int → Int → Int → List Ptr → Option (Code × Int × Int × List Ptr)
  | 0, _, _, _, _, _, _, _ => none
  | fuel + 1, saveptr, tok, icol, i, total_bytes, ncols, buf =>
    match get_tok_r mem tok str delim saveptr len with
    | none => none
    | some r =>
      if r.err = TOK_ERR then some (E_DTA_PARSE_ERROR, total_bytes, ncols, buf)
      else if r.err = TOK_EOF then some (E_OK, total_bytes, ncols, buf)
      else
        match (if col_start ≤ icol ∧ (icol ≤ col_end ∨ col_end = -1)
               then arr_set buf i r.tok else some buf) with
        | none => none
        | some buf1 =>
          let i1 := if col_start ≤ icol ∧ (icol ≤ col_end ∨ col_end = -1) then i + 1 else i
          let total1 := total_bytes + r.nbytes
          if r.err = TOK_EOL then
            let ncols1 := if ncols = 0 then icol + 1 else ncols
            if icol ≠ ncols1 - 1 then some (E_DTA_MISSING_FIELD, total1, ncols1, buf1)
            else some (E_OK, total1, ncols1, buf1)
          else get_row_scan mem delim str len col_start col_end fuel r.saveptr r.tok
            (icol + 1) i1 total1 ncols buf1

/-- `get_row(data, buf, row, col_start, col_end)`.  `row_offsets[row]` is read on
every path that passes the column check (in the `row > 0` test, or for
`total_bytes` / `len`), so it is read once here. -/
def get_row (data : Data_T) (buf : List Ptr) (row col_start col_end : Int) :
    Option (Code × Data_T × List Ptr) :=
  if data.ncols ≠ 0 ∧ col_end ≥ data.ncols then some (E_DTA_COL_OOB, data, buf)
  else
    let col_end1 := if data.ncols ≠ 0 ∧ col_end = -1 then data.ncols - 1 else col_end
    match arr_get data.row_offsets row with
    | none => none
    | some cur =>
      if 0 < row ∧ cur = data.st_size then some (E_DTA_EOF, data, buf)
      else if 0 < row ∧ cur = 0 then some (E_DTA_ROW_OOB, data, buf)
      else
        match arr_get data.row_offsets (row + 1) with
        | none => none
        | some next =>
          if next ≠ 0 then
            if data.ncols = 0 then some (E_DTA_BAD_INPUT, data, buf)
            else
              match get_row_cached data.ptr data.delim cur (next - cur) col_start col_end1
                  (data.ptr.length + 1) none none 0 0 buf with
              | none => none
              | some (ret, buf1) => some (ret, data, buf1)
          else
            match get_row_scan data.ptr data.delim cur data.st_size col_start col_end1
                (data.ptr.length + 1) none none 0 0 cur data.ncols buf with
            | none => none
            | some (ret, total_bytes, ncols1, buf1) =>
              if ret ≠ E_OK then some (ret, { data with ncols := ncols1 }, buf1)
              else
                match arr_set data.row_offsets (row + 1) total_bytes with
                | none => none
                | some ro1 =>
                  some (E_OK, { data with ncols := ncols1, row_offsets := ro1,
                                          nrows := data.nrows + 1 }, buf1)

/-- The inner `for (icol = 0; icol <= col; icol++)` loop of `get_col`; the first
argument is the number of iterations left.  The result is `none` for an
undefined read, `some (Sum.inl code)` for the early return, and
`some (Sum.inr (tok, saveptr))` when the loop ran to its end. -/
def get_col_toks (mem : List Nat) (delim : Nat) (str len : Int) :
    Nat → Ptr → Ptr → Option (Code ⊕ (Ptr × Ptr))
  | 0, tok, saveptr => some (Sum.inr (tok, saveptr))
  | k + 1, tok, saveptr =>
    match get_tok_r mem tok str delim saveptr len with
    | none => none
    | some r =>
      if r.err &&& (TOK_ERR ||| TOK_EOF) ≠ 0 then some (Sum.inl E_DTA_PARSE_ERROR)
      else get_col_toks mem delim str len k r.tok r.saveptr

/-- The outer `for (irow = row_start, i = 0; irow <= row_end; irow++, i++)` loop of
`get_col`; the first argument is the number of iterations left. -/
def get_col_rows (data : Data_T) (col : Int) :
    Nat → Int → Int → Ptr → List Ptr → Option (Code × List Ptr)
  | 0, _, _, _, buf => some (E_OK, buf)
  | k + 1, irow, i, tok, buf =>
    match arr_get data.row_offsets (irow + 1), arr_get data.row_offsets irow with
    | some next, some cur =>
      match get_col_toks data.ptr data.delim cur (next - cur) (col + 1).toNat tok none with
      | none => none
      | some (Sum.inl ret) => some (ret, buf)
      | some (Sum.inr (tok1, _)) =>
        match arr_set buf i tok1 with
        | none => none
        | some buf1 => get_col_rows data col k (irow + 1) (i + 1) tok1 buf1
    | _, _ => none

/-- `get_col(data, buf, col, row_start, row_end)`; it does not change `data`. -/
def get_col (data : Data_T) (buf : List Ptr) (col row_start row_end : Int) :
    Option (Code × List Ptr) :=
  if col > data.ncols - 1 then some (E_DTA_COL_OOB, buf)
  else if row_end > data.nrows - 1 then some (E_DTA_ROW_OOB, buf)
  else get_col_rows data col (row_end - row_start + 1).toNat row_start 0 none buf

/-- `Data_mmap_init(path, delim)`: `NULL` for a zero delimiter or an empty path,
otherwise a zeroed source with a zeroed offset array of `MAX_ROWS` entries.
`MAX_ROWS` is a constant of a header that is not part of the sources at hand
and is a parameter here. -/
def Data_mmap_init (MAX_ROWS : Nat) (path : String) (delim : Nat) : Option Data_T :=
  if delim = 0 ∨ path.length = 0 then none
  else some { path := path, delim := delim, ncols := 0, nrows := 0,
              row_offsets := List.replicate MAX_ROWS 0, st_size := 0, ptr := [] }

/-- `data_open(data)` for a file with the given bytes on a system whose page
size is `PAGESIZE`: a size that is a multiple of the page size is refused,
otherwise the file is mapped, its last page zero-filled past the file's end. -/
def data_open (PAGESIZE : Nat) (file : List Nat) (data : Data_T) : Code × Data_T :=
  if file.length % PAGESIZE = 0 then (E_DTA_FILE_ERROR, data)
  else (E_OK, { data with
    st_size := file.length,
    ptr := file ++ List.replicate (PAGESIZE - file.length % PAGESIZE) 0 })

/-- Modelled from the spec: the deque library (`deque.h`) is not part of the
sources at hand.  A deque is a double-ended buffer, modelled as the list of
its elements from the low end to the high end; `Deque_new` is the empty one. -/
def Deque_new {α : Type} : List α := []

/-- Modelled from the spec: `Deque_addhi` (from the absent `deque.h`) appends
an element at the high end. -/
def Deque_addhi {α : Type} (d : List α) (x : α) : List α := d ++ [x]

/-- Modelled from the spec: `Deque_addlo` (from the absent `deque.h`) adds an
element at the low end. -/
def Deque_addlo {α : Type} (d : List α) (x : α) : List α := x :: d

/-- Modelled from the spec: `Deque_remlo` (from the absent `deque.h`) removes
and returns the element at the low end; it fails on an empty deque. -/
def Deque_remlo {α : Type} : List α → Option (α × List α)
  | [] => none
  | x :: d => some (x, d)

/-- Modelled from the spec: `Deque_remhi` (from the absent `deque.h`) removes
and returns the element at the high end; it fails on an empty deque. -/
def Deque_remhi {α : Type} (d : List α) : Option (α × List α) :=
  match d.getLast? with
  | none => none
  | some x => some (x, d.dropLast)

/-- Modelled from the spec: `Deque_get` (from the absent `deque.h`) returns
the `i`-th element counted from the low end; it fails outside the deque. -/
def Deque_get {α : Type} (d : List α) (i : Int) : Option α := arr_get d i

/-- `struct cursor` of `frame.h`. -/
structure Cursor where
  row : Int
  col : Int
  deriving DecidableEq, Repr

/-- Modelled from the spec: the `data_loaded` member of `struct Frame_T` (absent
from the `frame.h` present), the window `(first_row, last_row, first_col,
last_col)` with the fields that `frame.c` reads and writes. -/
structure Window where
  first_row : Int
  last_row : Int
  first_col : Int
  last_col : Int
  deriving DecidableEq, Repr

/-- Modelled from the spec: `struct Frame_T` as `frame.c` uses it (the `frame.h`
present is an older revision without `data_loaded`).  `headers` is `none` for a
`NULL` deque; `data` is the deque of column deques, a mutation of a column
through the pointer `Deque_get` returned being a replacement of that entry. -/
structure Frame_T where
  col_width : Int
  max_cols : Int
  max_rows : Int
  ncols : Int
  nrows : Int
  cursor : Cursor
  headers : Option (List Ptr)
  data : List (List Ptr)
  data_loaded : Window
  deriving DecidableEq, Repr

/-- `Frame_init(col_width, max_cols, max_rows, headers)`; `none` is `NULL`. -/
def Frame_init (col_width max_cols max_rows headers : Int) : Option Frame_T :=
  if col_width = 0 ∨ max_cols = 0 ∨ max_rows = 0 then none
  else some {
    col_width := col_width, max_cols := max_cols, max_rows := max_rows,
    ncols := 0, nrows := 0, cursor := ⟨0, 0⟩,
    headers := if headers ≠ 0 then some Deque_new else none,
    data := Deque_new,
    data_loaded := ⟨0, 0, 0, 0⟩ }

/-- A variable-length array `char *buf[n]`: its entries are not initialised
(`none` stands for the indeterminate pointer); a negative size has no defined
meaning, a zero size is the empty array. -/
def vla (n : Int) : Option (List Ptr) :=
  if n < 0 then none else some (List.replicate n.toNat none)

/-- The first `for (icol = 0; icol < frame->ncols; icol++)` loop of `Frame_load`
on the header deque and the deque of columns; the first argument is the
number of iterations left. -/
def Frame_load_cols (buf : List Ptr) :
    Nat → Int → Option (List Ptr) → List (List Ptr) → Option (Option (List Ptr) × List (List Ptr))
  | 0, _, headers, data => some (headers, data)
  | k + 1, icol, headers, data =>
    match arr_get buf icol with
    | none => none
    | some x =>
      match headers with
      | some h =>
        Frame_load_cols buf k (icol + 1) (some (Deque_addhi h x)) (Deque_addhi data Deque_new)
      | none =>
        Frame_load_cols buf k (icol + 1) none (Deque_addhi data (Deque_addhi Deque_new x))

/-- The inner `for (icol = 0; icol < frame->ncols; icol++)` loop of the second
part of `Frame_load`: the row in `buf` is appended to the columns. -/
def Frame_load_fill (buf : List Ptr) : Nat → Int → List (List Ptr) → Option (List (List Ptr))
  | 0, _, cols => some cols
  | k + 1, icol, cols =>
    match Deque_get cols icol, arr_get buf icol with
    | some col, some x =>
      match arr_set cols icol (Deque_addhi col x) with
      | none => none
      | some cols1 => Frame_load_fill buf k (icol + 1) cols1
    | _, _ => none

/-- The `for (irow = 1; irow < frame->max_rows; irow++)` loop of `Frame_load`; the
first argument is the number of iterations left.  The code of the result is
`E_OK` when the loop was left (at its end or by `break`) and the code
`Frame_load` returns otherwise. -/
def Frame_load_rows : Nat → Int → Frame_T → Data_T → List Ptr → Option (Code × Frame_T × Data_T)
  | 0, _, frame, data, _ => some (E_OK, frame, data)
  | k + 1, irow, frame, data, buf =>
    match get_row data buf irow 0 (frame.ncols - 1) with
    | none => none
    | some (ret, data1, buf1) =>
      if ret = E_DTA_EOF then some (E_OK, frame, data1)
      else if ret ≠ E_OK then some (E_DTA_PARSE_ERROR, frame, data1)
      else
        match Frame_load_fill buf1 frame.ncols.toNat 0 frame.data with
        | none => none
        | some cols =>
          Frame_load_rows k (irow + 1) { frame with data := cols, nrows := frame.nrows + 1 }
            data1 buf1

/-- `Frame_load(frame, data)`.  `MAX_COLS`, the size of the local `buf`, is a
constant of a header that is not part of the sources at hand and is a
parameter here. -/
def Frame_load (MAX_COLS : Nat) (frame : Frame_T) (data : Data_T) :
    Option (Code × Frame_T × Data_T) :=
  match get_row data (List.replicate MAX_COLS none) 0 0 (frame.max_cols - 1) with
  | none => none
  | some (ret, data1, buf1) =>
    if ret ≠ E_OK then some (E_DTA_PARSE_ERROR, frame, data1)
    else
      let ncols := if data1.ncols < frame.max_cols then data1.ncols else frame.max_cols
      match Frame_load_cols buf1 ncols.toNat 0 frame.headers frame.data with
      | none => none
      | some (headers1, cols1) =>
        match Frame_load_rows (frame.max_rows - 1).toNat 1
            { frame with ncols := ncols, headers := headers1, data := cols1,
                         nrows := frame.nrows + 1 } data1 buf1 with
        | none => none
        | some (ret2, frame2, data2) =>
          if ret2 ≠ E_OK then some (ret2, frame2, data2)
          else
            some (E_OK,
              { frame2 with data_loaded :=
                  { frame2.data_loaded with
                    first_row := if frame2.headers.isSome then 1 else 0,
                    last_col := frame2.ncols - 1,
                    last_row := data2.nrows - 1 } },
              data2)

/-- The `while (icol <= frame->data_loaded.last_col)` loop of `Frame_shift_row`:
`pop` then `push` on the `i`-th column; the first argument is the number of
iterations left. -/
def Frame_shift_row_cols (n : Int) (buf : List Ptr) :
    Nat → Int → List (List Ptr) → Option (List (List Ptr))
  | 0, _, cols => some cols
  | k + 1, i, cols =>
    match Deque_get cols i with
    | none => none
    | some col =>
      match (if n = 1 then Deque_remlo col else Deque_remhi col) with
      | none => none
      | some (_, col1) =>
        match arr_get buf i with
        | none => none
        | some x =>
          match arr_set cols i (if n = 1 then Deque_addhi col1 x else Deque_addlo col1 x) with
          | none => none
          | some cols1 => Frame_shift_row_cols n buf k (i + 1) cols1

/-- `Frame_shift_row(frame, data, n)`, with the constant `MAX_ROWS` as a
parameter. -/
def Frame_shift_row (MAX_ROWS : Nat) (frame : Frame_T) (data : Data_T) (n : Int) :
    Option (Code × Frame_T × Data_T) :=
  if n ≠ 1 ∧ n ≠ -1 then some (E_DTA_BAD_INPUT, frame, data)
  else
    let new_row_ind :=
      if n = 1 then frame.data_loaded.last_row + 1 else frame.data_loaded.first_row - 1
    if new_row_ind + 1 = MAX_ROWS then some (E_DTA_MAX_ROWS, frame, data)
    else
      match vla frame.ncols with
      | none => none
      | some buf =>
        match get_row data buf new_row_ind 0 (frame.ncols - 1) with
        | none => none
        | some (ret, data1, buf1) =>
          if ret = E_DTA_EOF then some (E_DTA_EOF, frame, data1)
          else if ret ≠ E_OK then some (E_DTA_PARSE_ERROR, frame, data1)
          else
            match Frame_shift_row_cols n buf1
                (frame.data_loaded.last_col - frame.data_loaded.first_col + 1).toNat 0
                frame.data with
            | none => none
            | some cols =>
              some (E_OK,
                { frame with
                  data := cols,
                  data_loaded :=
                    { frame.data_loaded with
                      first_row := frame.data_loaded.first_row + n,
                      last_row := frame.data_loaded.last_row + n } },
                data1)

/-- The `for (i = 0; i < frame->nrows - !!frame->headers; i++)` loop of
`Frame_shift_col`, which fills the new column from `data_buf`. -/
def Frame_shift_col_fill (data_buf : List Ptr) : Nat → Int → List Ptr → Option (List Ptr)
  | 0, _, col => some col
  | k + 1, i, col =>
    match arr_get data_buf i with
    | none => none
    | some x => Frame_shift_col_fill data_buf k (i + 1) (Deque_addhi col x)

/-- The step `if (frame->headers) { pop(frame->headers); push(frame->headers,
header_buf); }` of `Frame_shift_col`, `header_buf` being the one entry of `hbuf`. -/
def Frame_shift_col_headers (n : Int) (hbuf : List Ptr) :
    Option (List Ptr) → Option (Option (List Ptr))
  | none => some none
  | some h =>
    match (if n = 1 then Deque_remlo h else Deque_remhi h), arr_get hbuf 0 with
    | some (_, h1), some x =>
      some (some (if n = 1 then Deque_addhi h1 x else Deque_addlo h1 x))
    | _, _ => none

/-- `Frame_shift_col(frame, data, n)`; `get_col` leaves `data` as it is, so only
the frame is returned. -/
def Frame_shift_col (frame : Frame_T) (data : Data_T) (n : Int) : Option (Code × Frame_T) :=
  if n ≠ 1 ∧ n ≠ -1 then some (E_DTA_BAD_INPUT, frame)
  else
    let new_col_ind :=
      if n = 1 then frame.data_loaded.last_col + 1 else frame.data_loaded.first_col - 1
    if new_col_ind ≥ data.ncols then some (E_DTA_COL_OOB, frame)
    else
      match vla frame.nrows with
      | none => none
      | some data_buf0 =>
        match (if frame.headers.isSome then get_col data [none] new_col_ind 0 0
               else some (E_OK, [none])) with
        | none => none
        | some (hret, hbuf) =>
          if hret ≠ E_OK then some (E_DTA_PARSE_ERROR, frame)
          else
            match get_col data data_buf0 new_col_ind frame.data_loaded.first_row
                frame.data_loaded.last_row with
            | none => none
            | some (ret, data_buf) =>
              if ret ≠ E_OK then some (E_DTA_PARSE_ERROR, frame)
              else
                match Frame_shift_col_headers n hbuf frame.headers,
                    (if n = 1 then Deque_remlo frame.data else Deque_remhi frame.data),
                    Frame_shift_col_fill data_buf
                      (frame.nrows - (if frame.headers.isSome then 1 else 0)).toNat 0 Deque_new with
                | some hs, some (_, cols1), some col =>
                  some (E_OK,
                    { frame with
                      headers := hs,
                      data := if n = 1 then Deque_addhi cols1 col else Deque_addlo cols1 col,
                      data_loaded :=
                        { frame.data_loaded with
                          first_col := frame.data_loaded.first_col + n,
                          last_col := frame.data_loaded.last_col + n } })
                | _, _, _ => none

/-- The source's field at row `row` and column `col`, for a row whose offsets
are cached: the row is tokenized from its start offset, within its recorded
length, and the field is the token number `col` (counted from 0).  This is
how the specification describes column access; it is used to state what
`Frame_shift_col` puts into the frame. -/
def field_at (data : Data_T) (row col : Int) : Option Ptr :=
  match arr_get data.row_offsets (row + 1), arr_get data.row_offsets row with
  | some next, some cur =>
    match get_col_toks data.ptr data.delim cur (next - cur) (col + 1).toNat none none with
    | some (Sum.inr (tok, _)) => some tok
    | _ => none
  | _, _ => none

/-! ## Command-line arguments (`argparse.h`) -/

/-- The `struct arguments` of `argparse.h`; strings are lists of bytes, `none`
is the null pointer. -/
structure arguments where
  path : Option (List Nat)
  delim : Nat
  headers : Int
  deriving DecidableEq, Repr

/-- The key glibc passes for a positional argument. -/
def ARGP_KEY_ARG : Int := 0

/-- The key glibc passes once all arguments are handled. -/
def ARGP_KEY_END : Int := 0x1000001

/-- The key glibc passes when there was no positional argument. -/
def ARGP_KEY_NO_ARGS : Int := 0x1000002

/-- The key glibc passes before anything is handled. -/
def ARGP_KEY_INIT : Int := 0x1000003

/-- The value `E2BIG` glibc uses for an unhandled key. -/
def ARGP_ERR_UNKNOWN : Int := 7

/-- What a call of `parse_opt` does: it returns a code and leaves the
arguments structure in some state, or it calls `argp_usage`, which prints the
usage message and exits with a non-zero status. -/
inductive Parsed where
  | ret (code : Int) (args : arguments)
  | usage
  deriving DecidableEq, Repr

/-- The `parse_opt` of `argparse.h`: `key` is the option character or one of
glibc's special keys, `arg` its string, `arg_num` the field `state->arg_num`,
`args` the structure `state->input` points to. Reading `arg[0]` of a null
pointer has no defined meaning. -/
def parse_opt (key : Int) (arg : Option (List Nat)) (arg_num : Int) (args : arguments) :
    Option Parsed :=
  if key = 100 then
    match arg with
    | none => none
    | some s => some (.ret 0 { args with delim := s.headD 0 })
  else if key = 104 then some (.ret 0 { args with headers := 0 })
  else if key = ARGP_KEY_ARG then
    if arg_num > 1 then some .usage
    else some (.ret 0 { args with path := arg })
  else if key = ARGP_KEY_END then
    if arg_num < 1 then some .usage
    else some (.ret 0 args)
  else some (.ret ARGP_ERR_UNKNOWN args)

/-- One item of a command line the option table of `argparse.h` accepts:
`-d DELIM`, `-h`, or a positional argument. -/
inductive Item where
  | opt_d (arg : List Nat)
  | opt_h
  | pos (arg : List Nat)
  deriving DecidableEq, Repr

/-- The number of positional arguments of a command line. -/
def count_pos : List Item → Nat
  | [] => 0
  | .pos _ :: rest => count_pos rest + 1
  | _ :: rest => count_pos rest

/-- The calls glibc's `argp_parse` makes for the items of a command line, in
order: each option with its key, each positional argument with
`ARGP_KEY_ARG` and `state->arg_num` the number of positional arguments
handled before it, then `ARGP_KEY_NO_ARGS` if there was none, then
`ARGP_KEY_END` with `state->arg_num` their total number. A call of
`argp_usage` ends the run. -/
def argp_items : List Item → Int → arguments → Option Parsed
  | [], arg_num, args =>
    if arg_num = 0 then
      match parse_opt ARGP_KEY_NO_ARGS none arg_num args with
      | some (.ret _ args1) => parse_opt ARGP_KEY_END none arg_num args1
      | r => r
    else parse_opt ARGP_KEY_END none arg_num args
  | .opt_d s :: rest, arg_num, args =>
    match parse_opt 100 (some s) arg_num args with
    | some (.ret _ args1) => argp_items rest arg_num args1
    | r => r
  | .opt_h :: rest, arg_num, args =>
    match parse_opt 104 none arg_num args with
    | some (.ret _ args1) => argp_items rest arg_num args1
    | r => r
  | .pos s :: rest, arg_num, args =>
    match parse_opt ARGP_KEY_ARG (some s) arg_num args with
    | some (.ret _ args1) => argp_items rest (arg_num + 1) args1
    | r => r

/-- The run of `argp_parse` over a command line: `ARGP_KEY_INIT` first, then
the items, with no positional argument handled yet. -/
def argp_parse (items : List Item) (args : arguments) : Option Parsed :=
  match parse_opt ARGP_KEY_INIT none 0 args with
  | some (.ret _ args1) => argp_items items 0 args1
  | r => r

/-! ## Rows as sequences of bytes -/

/-- The number of fields up to the first newline of a list of bytes: a double
quote toggles the quote flag, every delimiter met with the flag off ends a
field, and the first newline ends the count, whatever the flag.  There is no
count (`none`) when a NUL byte or the end of the list comes before the
newline.  The second argument is the quote flag at the first byte.  This
is not the count of the specification, for which a newline inside open quotes
is content and a NUL byte is a byte like any other: that count is `spec_fields`.
The two agree on a row without NUL byte whose only newline is its last byte
(`spec_fields_count`). -/
def count_fields (delim : Nat) : List Nat → Bool → Option Nat
  | [], _ => none
  | c :: rest, in_quote =>
    if c = 0 then none
    else if c = 10 then some 1
    else if c = 34 then count_fields delim rest (!in_quote)
    else if c = delim ∧ in_quote = false then
      match count_fields delim rest false with
      | none => none
      | some k => some (k + 1)
    else count_fields delim rest in_quote

/-- The number of bytes of the row that a list of bytes starts with, its
newline included; `none` when a NUL byte or the end of the list comes before the
newline. -/
def row_length : List Nat → Option Nat
  | [] => none
  | c :: rest =>
    if c = 0 then none
    else if c = 10 then some 1
    else
      match row_length rest with
      | none => none
      | some n => some (n + 1)

/-- The number of fields of the row that a list of bytes starts with, as the
specification counts them: a double quote toggles the quote state, a delimiter
or a newline inside open quotes is content, a delimiter outside quotes ends a
field, and the first newline outside quotes ends the row.  Every other byte,
the NUL byte too, is content.  There is no count (`none`) when the list ends
before a newline outside quotes.  The second argument is the quote state at
the first byte. -/
def spec_fields (delim : Nat) : List Nat → Bool → Option Nat
  | [], _ => none
  | c :: rest, in_quote =>
    if c = 34 then spec_fields delim rest (!in_quote)
    else if in_quote = true then spec_fields delim rest true
    else if c = 10 then some 1
    else if c = delim then
      match spec_fields delim rest false with
      | none => none
      | some k => some (k + 1)
    else spec_fields delim rest false

/-- Modelled from the spec: a call `mvaddch(row, col, ch)` of the curses library
(the rendering surface, which is not part of the sources): the character `ch`
is drawn at the screen position `(row, col)`. -/
structure Draw where
  row : Int
  col : Int
  ch : Nat
  deriving DecidableEq, Repr

/-- The `for (c = 0; c < n; c++)` loop of `mvaddntok`; the first argument is the
number of iterations left, the result the calls of `mvaddch` in the order in
which they are made.  `tok` is dereferenced in every iteration. -/
def mvaddntok_loop (mem : List Nat) (row : Int) (delim : Nat) :
    Nat → Int → Ptr → Option (List Draw)
  | 0, _, _ => some []
  | k + 1, col, tok =>
    match tok with
    | none => none
    | some t =>
      match arr_get mem t with
      | none => none
      | some ch =>
        if ch = delim ∨ ch = 10 then some []
        else
          match mvaddntok_loop mem row delim k (col + 1) (some (t + 1)) with
          | none => none
          | some rest => some (⟨row, col, ch⟩ :: rest)

/-- `mvaddntok(row, col, tok, n, delim)` over the mapping `mem`: the return value
(always 1) and the calls of `mvaddch` it made. -/
def mvaddntok (mem : List Nat) (row col : Int) (tok : Ptr) (n : Int) (delim : Nat) :
    Option (Int × List Draw) :=
  match mvaddntok_loop mem row delim n.toNat col tok with
  | none => none
  | some ds => some (1, ds)

/-- What the specification asks of the renderer for a field with the given
bytes: each byte is drawn once, in order, in consecutive screen columns from
`col` on. -/
def draw_field (row : Int) : Int → List Nat → List Draw
  | _, [] => []
  | col, b :: rest => ⟨row, col, b⟩ :: draw_field row (col + 1) rest

/-! ## Mappings cut short -/

/-- The source with its mapping cut off behind the first `n` bytes.  A read
outside the mapping has no defined result in the embedding, so a call on
`cut_mapping n data` that has a result has dereferenced no byte index from `n`
on (`get_tok_r_reads`), and it has the same result on `data` (`get_row_cut`,
`get_col_cut`). -/
def cut_mapping (n : Nat) (data : Data_T) : Data_T :=
  { data with ptr := data.ptr.take n }

/-! ## Loaded frames -/

/-- The window invariant of a frame: the number of column buffers is the column
span of `data_loaded`, every column buffer has the length of its row span, and
`ncols` and `nrows` (which counts the header row) agree with the spans. -/
structure WindowInv (frame : Frame_T) : Prop where
  cols : (frame.data.length : Int)
    = frame.data_loaded.last_col - frame.data_loaded.first_col + 1
  rows : ∀ col ∈ frame.data, (col.length : Int)
    = frame.data_loaded.last_row - frame.data_loaded.first_row + 1
  ncols_eq : frame.ncols = frame.data_loaded.last_col - frame.data_loaded.first_col + 1
  nrows_eq : frame.nrows - (if frame.headers.isSome then 1 else 0)
    = frame.data_loaded.last_row - frame.data_loaded.first_row + 1

/-- The frames and sources a session can be in: a frame from `Frame_init` with a
positive `max_cols`, loaded once with a successful `Frame_load` from a source
that `Data_mmap_init` created and `data_open` opened, and then any number of
calls of `Frame_shift_row` and `Frame_shift_col` (whatever they return). -/
inductive Reach (MAX_ROWS MAX_COLS PAGESIZE : Nat) : Frame_T → Data_T → Prop where
  | load (col_width max_cols max_rows headers : Int) (path : String) (delim : Nat)
      (file : List Nat) (frame0 : Frame_T) (data0 data1 : Data_T)
      (frame : Frame_T) (data : Data_T)
      (hpos : 0 < max_cols)
      (hinit : Frame_init col_width max_cols max_rows headers = some frame0)
      (hsrc : Data_mmap_init MAX_ROWS path delim = some data0)
      (hopen : data_open PAGESIZE file data0 = (E_OK, data1))
      (hload : Frame_load MAX_COLS frame0 data1 = some (E_OK, frame, data)) :
      Reach MAX_ROWS MAX_COLS PAGESIZE frame data
  | shift_row (frame : Frame_T) (data : Data_T) (n : Int) (ret : Code)
      (frame1 : Frame_T) (data1 : Data_T)
      (hprev : Reach MAX_ROWS MAX_COLS PAGESIZE frame data)
      (hshift : Frame_shift_row MAX_ROWS frame data n = some (ret, frame1, data1)) :
      Reach MAX_ROWS MAX_COLS PAGESIZE frame1 data1
  | shift_col (frame : Frame_T) (data : Data_T) (n : Int) (ret : Code)
      (frame1 : Frame_T)
      (hprev : Reach MAX_ROWS MAX_COLS PAGESIZE frame data)
      (hshift : Frame_shift_col frame data n = some (ret, frame1)) :
      Reach MAX_ROWS MAX_COLS PAGESIZE frame1 data

/-! ## Opened sources -/

/-- A row whose end offset is recorded, in a source with a column count: both
offsets are in the array, the start is not negative and is not the size of the
file unless the row is row 0, the row has at least one byte for each column, the
start is not before the end of row 0, and the inner loop of `get_col` goes
through every number of rounds up to the column count within the row. -/
def RowCached (data : Data_T) (r : Int) : Prop :=
  ∃ cur next, arr_get data.row_offsets r = some cur ∧
    arr_get data.row_offsets (r + 1) = some next ∧
    0 ≤ cur ∧ cur + data.ncols ≤ next ∧ (0 < r → cur ≠ data.st_size) ∧
    (0 < r → ∃ e, arr_get data.row_offsets 1 = some e ∧ e ≤ cur) ∧
    ∀ k : Nat, (k : Int) ≤ data.ncols →
      ∃ t s, get_col_toks data.ptr data.delim cur (next - cur) k none none
          = some (Sum.inr (t, s)) ∧ s.getD cur ≤ next

/-- The invariant of an opened source: the mapping is longer than the file
and zero from the end of the file on; the first offset is 0; while there is no
column count, either nothing has been recorded or the mapping holds no
newline; once there is a column count it is positive and at most the size of
the file, the rows below `nrows` are cached, and no offset is recorded past
index `nrows`. -/
structure SrcInv (data : Data_T) : Prop where
  size_nonneg : 0 ≤ data.st_size
  size_lt : data.st_size.toNat < data.ptr.length
  zeros : ∀ q, data.st_size.toNat ≤ q → q < data.ptr.length → data.ptr[q]? = some 0
  first : ∀ v, arr_get data.row_offsets 0 = some v → v = 0
  unset : data.ncols = 0 →
    (data.nrows = 0 ∧ ∀ j v, arr_get data.row_offsets j = some v → v = 0) ∨
    (∀ q : Nat, data.ptr[q]? ≠ some 10)
  rows : data.ncols ≠ 0 →
    0 < data.ncols ∧ data.ncols ≤ data.st_size ∧ 1 ≤ data.nrows ∧
    (∀ r, 0 ≤ r → r < data.nrows → RowCached data r) ∧
    (∀ j v, data.nrows < j → arr_get data.row_offsets j = some v → v = 0)

/-- The sources a program can hold: one that `Data_mmap_init` created and
`data_open` opened, and then any number of calls of `get_row` (with any
arguments, whatever they return). -/
inductive SrcReach (MAX_ROWS PAGESIZE : Nat) : Data_T → Prop where
  | opened (path : String) (delim : Nat) (file : List Nat) (data0 data1 : Data_T)
      (hsrc : Data_mmap_init MAX_ROWS path delim = some data0)
      (hopen : data_open PAGESIZE file data0 = (E_OK, data1)) :
      SrcReach MAX_ROWS PAGESIZE data1
  | row (data : Data_T) (buf : List Ptr) (row cs ce : Int) (ret : Code)
      (data1 : Data_T) (buf1 : List Ptr)
      (hprev : SrcReach MAX_ROWS PAGESIZE data)
      (hrow : get_row data buf row cs ce = some (ret, data1, buf1)) :
      SrcReach MAX_ROWS PAGESIZE data1

/-- The source of a file made of the rows `rows`, each of `c` fields, ending at
its only newline and free of NUL bytes, after the first visits of its rows
`0 .. n - 1` in order: the mapping starts with the file, the column count is
`c` once a row has been visited, `n` rows are counted, the offsets up to index
`n` are the ends of the rows and no later offset is recorded. -/
structure RowsVisited (rows : List (List Nat)) (M c n : Nat) (data : Data_T) : Prop where
  mapping : ∃ pad, data.ptr = rows.flatten ++ pad
  size : data.st_size = rows.flatten.length
  fields : ∀ r ∈ rows, count_fields data.delim r false = some c ∧
    row_length r = some r.length
  len : data.row_offsets.length = M
  ncols_eq : data.ncols = if n = 0 then 0 else (c : Int)
  nrows_eq : data.nrows = n
  recorded : ∀ j : Nat, j ≤ n →
    arr_get data.row_offsets j = some ((rows.take j).flatten.length : Int)
  unrecorded : ∀ j : Nat, n < j → j < M → arr_get data.row_offsets j = some 0

/-! ## Example inputs -/

/-- The bytes of the row `"a,b",c,d` followed by a newline. -/
def quoted_row : List Nat := [34, 97, 44, 98, 34, 44, 99, 44, 100, 10]

/-- The bytes of `"a`, newline, `b",c`, newline: a newline inside double quotes. -/
def quoted_newline : List Nat := [34, 97, 10, 98, 34, 44, 99, 10]

/-- The bytes of `a,,b` followed by a newline: two adjacent delimiters. -/
def adjacent_delims : List Nat := [97, 44, 44, 98, 10]

/-- The bytes of a file of two rows and two columns: `a,b` newline `c,d` newline. -/
def csv2 : List Nat := [97, 44, 98, 10, 99, 44, 100, 10]

/-- The source `Data_mmap_init` returns for the delimiter `,` with `MAX_ROWS = 8`. -/
def csv2_init : Data_T :=
  { path := "f", delim := 44, ncols := 0, nrows := 0, row_offsets := List.replicate 8 0,
    st_size := 0, ptr := [] }

/-- The source for `csv2` after `data_open` on a system with pages of 16 bytes. -/
def csv2_open : Data_T :=
  { csv2_init with st_size := 8, ptr := csv2 ++ List.replicate 8 0 }

/-- The source for `csv2` once row 0 has been visited. -/
def csv2_row0 : Data_T :=
  { csv2_open with ncols := 2, nrows := 1, row_offsets := [0, 4, 0, 0, 0, 0, 0, 0] }

/-- The source for `csv2` once rows 0 and 1 have been visited. -/
def csv2_rows01 : Data_T :=
  { csv2_open with ncols := 2, nrows := 2, row_offsets := [0, 4, 8, 0, 0, 0, 0, 0] }

/-- The frame `Frame_init(10, 1, 1, 0)`: one column, one row, no headers. -/
def narrow0 : Frame_T :=
  { col_width := 10, max_cols := 1, max_rows := 1, ncols := 0, nrows := 0, cursor := ⟨0, 0⟩,
    headers := none, data := [], data_loaded := ⟨0, 0, 0, 0⟩ }

/-- The frame `narrow0` loaded from `csv2`: it holds the field `a` (offset 0). -/
def narrow1 : Frame_T :=
  { narrow0 with ncols := 1, nrows := 1, data := [[some 0]] }

/-- The frame `narrow1` shifted one column to the right: it holds the field `b`
(offset 2) of source column 1. -/
def narrow2 : Frame_T :=
  { narrow1 with data := [[some 2]], data_loaded := ⟨0, 0, 1, 1⟩ }

/-- What `Frame_shift_row(+1)` makes of `narrow2`: the column holds offset 4, the
field `c` of source column 0. -/
def narrow3 : Frame_T :=
  { narrow2 with data := [[some 4]], data_loaded := ⟨1, 1, 1, 1⟩ }

/-- What `Frame_shift_row(-1)` makes of `narrow3`: the column holds offset 0, the
field `a` of source column 0. -/
def narrow4 : Frame_T :=
  { narrow3 with data := [[some 0]], data_loaded := ⟨0, 0, 1, 1⟩ }

/-- The frame `Frame_init(10, 2, 2, 0)`: two columns, two rows, no headers. -/
def wide0 : Frame_T :=
  { col_width := 10, max_cols := 2, max_rows := 2, ncols := 0, nrows := 0, cursor := ⟨0, 0⟩,
    headers := none, data := [], data_loaded := ⟨0, 0, 0, 0⟩ }

/-- The frame `wide0` loaded from `csv2`: both columns, both rows. -/
def wide1 : Frame_T :=
  { wide0 with ncols := 2, nrows := 2, data := [[some 0, some 4], [some 2, some 6]],
               data_loaded := ⟨0, 1, 0, 1⟩ }

/-- What `Frame_shift_col(-1)` makes of `wide1`: a column of `NULL` pointers at the
low edge and `first_col = -1`. -/
def wide_left : Frame_T :=
  { wide1 with data := [[none, none], [some 0, some 4]], data_loaded := ⟨0, 1, -1, 0⟩ }

/-- The bytes of a file of two rows of one column: `a` newline `b` newline. -/
def two_lines : List Nat := [97, 10, 98, 10]

/-- The opened source for `two_lines` when `MAX_ROWS` is 3. -/
def two_lines_open : Data_T :=
  { path := "f", delim := 44, ncols := 0, nrows := 0, row_offsets := List.replicate 3 0,
    st_size := 4, ptr := two_lines ++ List.replicate 12 0 }

/-- The source for `two_lines` once both rows have been visited. -/
def two_lines_done : Data_T :=
  { two_lines_open with ncols := 1, nrows := 2, row_offsets := [0, 2, 4] }

/-- The frame `Frame_init(10, 1, 2, 0)`: one column, two rows, no headers. -/
def tall0 : Frame_T :=
  { col_width := 10, max_cols := 1, max_rows := 2, ncols := 0, nrows := 0, cursor := ⟨0, 0⟩,
    headers := none, data := [], data_loaded := ⟨0, 0, 0, 0⟩ }

/-- The frame `tall0` loaded from `two_lines`: the whole file. -/
def tall1 : Frame_T :=
  { tall0 with ncols := 1, nrows := 2, data := [[some 0, some 2]],
               data_loaded := ⟨0, 1, 0, 0⟩ }

/-- The bytes of `a,b` newline `c,d` with no newline at the end of the file. -/
def csv2_unterminated : List Nat := [97, 44, 98, 10, 99, 44, 100]

/-- The opened source for `csv2_unterminated` (`MAX_ROWS = 8`, pages of 32 bytes). -/
def csv2_unterminated_open : Data_T :=
  { path := "f", delim := 44, ncols := 0, nrows := 0, row_offsets := List.replicate 8 0,
    st_size := 7, ptr := csv2_unterminated ++ List.replicate 25 0 }

/-- The bytes of `a,"b`: the last field opens a double quote that is never
closed, and the file ends there. -/
def open_quote : List Nat := [97, 44, 34, 98]

/-- The opened source for `open_quote` (`MAX_ROWS = 8`, pages of 16 bytes). -/
def open_quote_open : Data_T :=
  { csv2_init with st_size := 4, ptr := open_quote ++ List.replicate 12 0 }

/-- The bytes of `a,b` newline `c`: the last row has one field and no newline. -/
def short_last : List Nat := [97, 44, 98, 10, 99]

/-- The opened source for `short_last` (`MAX_ROWS = 8`, pages of 16 bytes) once
row 0 has been visited. -/
def short_last_row0 : Data_T :=
  { csv2_init with st_size := 5, ptr := short_last ++ List.replicate 11 0,
                   ncols := 2, nrows := 1, row_offsets := [0, 4, 0, 0, 0, 0, 0, 0] }

/-- The bytes of `a,b`: one row without a newline. -/
def one_row : List Nat := [97, 44, 98]

/-- The opened source for `one_row` (`MAX_ROWS = 8`, pages of 16 bytes). -/
def one_row_open : Data_T :=
  { csv2_init with st_size := 3, ptr := one_row ++ List.replicate 13 0 }

/-- The bytes of a file of five rows and three columns, the first row being the
header: `x,y,z`, `a,b,c`, `d,e,f`, `g,h,i`, `j,k,l`, each followed by a newline.
Row `r` starts at offset `6 * r`. -/
def table5 : List Nat :=
  [120, 44, 121, 44, 122, 10, 97, 44, 98, 44, 99, 10, 100, 44, 101, 44, 102, 10,
   103, 44, 104, 44, 105, 10, 106, 44, 107, 44, 108, 10]

/-- The opened source for `table5` (`MAX_ROWS = 8`, pages of 32 bytes). -/
def table5_open : Data_T :=
  { csv2_init with st_size := 30, ptr := table5 ++ List.replicate 2 0 }

/-- The source for `table5` once rows 0 to `n - 1` have been visited, for
`n` from 3 to 5. -/
def table5_rows (n : Nat) : Data_T :=
  { table5_open with
    ncols := 3, nrows := n,
    row_offsets := if n = 3 then [0, 6, 12, 18, 0, 0, 0, 0]
                   else if n = 4 then [0, 6, 12, 18, 24, 0, 0, 0]
                   else [0, 6, 12, 18, 24, 30, 0, 0] }

/-- The frame `Frame_init(10, 2, 3, 1)`: two columns, three rows, headers. -/
def headed0 : Frame_T :=
  { col_width := 10, max_cols := 2, max_rows := 3, ncols := 0, nrows := 0, cursor := ⟨0, 0⟩,
    headers := some [], data := [], data_loaded := ⟨0, 0, 0, 0⟩ }

/-- The frame `headed0` loaded from `table5`: the header buffer holds `x` and
`y`, the two column buffers the first two fields of rows 1 and 2. -/
def headed1 : Frame_T :=
  { headed0 with ncols := 2, nrows := 3, headers := some [some 0, some 2],
                 data := [[some 6, some 12], [some 8, some 14]],
                 data_loaded := ⟨1, 2, 0, 1⟩ }

/-- The frame `headed1` shifted down by one row: rows 2 and 3. -/
def headed2 : Frame_T :=
  { headed1 with data := [[some 12, some 18], [some 14, some 20]],
                 data_loaded := ⟨2, 3, 0, 1⟩ }

/-- The frame `headed2` shifted down by one row: rows 3 and 4. -/
def headed3 : Frame_T :=
  { headed2 with data := [[some 18, some 24], [some 20, some 26]],
                 data_loaded := ⟨3, 4, 0, 1⟩ }

/-- The bytes of `a,b,c` newline `d,e` newline: a row of three fields, then a
row of two. -/
def ragged : List Nat := [97, 44, 98, 44, 99, 10, 100, 44, 101, 10]

/-- The opened source for `ragged` (`MAX_ROWS = 8`, pages of 16 bytes) once row
0 has been visited: three columns. -/
def ragged_row0 : Data_T :=
  { csv2_init with st_size := 10, ptr := ragged ++ List.replicate 6 0,
                   ncols := 3, nrows := 1, row_offsets := [0, 6, 0, 0, 0, 0, 0, 0] }

/-- The frame `Frame_init(10, 3, 1, 0)` loaded from `ragged`: row 0. -/
def ragged_frame : Frame_T :=
  { col_width := 10, max_cols := 3, max_rows := 1, ncols := 3, nrows := 1, cursor := ⟨0, 0⟩,
    headers := none, data := [[some 0], [some 2], [some 4]], data_loaded := ⟨0, 0, 0, 2⟩ }

/-- The bytes of `ab`: one field, no delimiter and no newline. -/
def single_field : List Nat := [97, 98]

/-- The opened source for `single_field` (`MAX_ROWS = 8`, pages of 16 bytes). -/
def single_field_open : Data_T :=
  { csv2_init with st_size := 2, ptr := single_field ++ List.replicate 14 0 }

/-- What `Frame_shift_row(-1)` makes of `headed1`: the fields `x` and `y` of the
header row (offsets 0 and 2) are at the low end of the two column buffers,
and the window is rows 0 to 1. -/
def headed_up : Frame_T :=
  { headed1 with data := [[some 0, some 6], [some 2, some 8]],
                 data_loaded := ⟨0, 1, 0, 1⟩ }

/-- The two rows of `csv2`, one list of bytes for each row. -/
def csv2_lines : List (List Nat) := [[97, 44, 98, 10], [99, 44, 100, 10]]

/-- The opened source for `short_last` (`a,b` newline `c`, 5 bytes) on a system
with pages of 8 bytes (`MAX_ROWS = 8`): three zero bytes follow the file. -/
def short_last_open8 : Data_T :=
  { csv2_init with st_size := 5, ptr := short_last ++ List.replicate 3 0 }

/-- The source `short_last_open8` once row 0 has been visited. -/
def short_last_row0_8 : Data_T :=
  { short_last_open8 with ncols := 2, nrows := 1, row_offsets := [0, 4, 0, 0, 0, 0, 0, 0] }

/-- The bytes of `a,b` newline `c,"d` newline `",e` newline: the second row of the
file has the three fields `c`, `"d` newline `"` and `e`, the newline at offset 8
standing between double quotes. -/
def quoted_ragged : List Nat := [97, 44, 98, 10, 99, 44, 34, 100, 10, 34, 44, 101, 10]

/-- The opened source for `quoted_ragged` (`MAX_ROWS = 8`, pages of 16 bytes). -/
def quoted_ragged_open : Data_T :=
  { csv2_init with st_size := 13, ptr := quoted_ragged ++ List.replicate 3 0 }

/-- The source `quoted_ragged_open` once row 0 has been visited: two columns. -/
def quoted_ragged_row0 : Data_T :=
  { quoted_ragged_open with ncols := 2, nrows := 1, row_offsets := [0, 4, 0, 0, 0, 0, 0, 0] }

/-- The bytes of `a,b` newline `c` NUL `d` newline: the second row is one field
that holds a NUL byte. -/
def nul_ragged : List Nat := [97, 44, 98, 10, 99, 0, 100, 10]

/-- The opened source for `nul_ragged` (`MAX_ROWS = 8`, pages of 16 bytes). -/
def nul_ragged_open : Data_T :=
  { csv2_init with st_size := 8, ptr := nul_ragged ++ List.replicate 8 0 }

/-- The source `nul_ragged_open` once row 0 has been visited: two columns. -/
def nul_ragged_row0 : Data_T :=
  { nul_ragged_open with ncols := 2, nrows := 1, row_offsets := [0, 4, 0, 0, 0, 0, 0, 0] }

/-- The frame `Frame_init(10, -2, 3, 0)`: a negative `max_cols`, no headers. -/
def negcols0 : Frame_T :=
  { col_width := 10, max_cols := -2, max_rows := 3, ncols := 0, nrows := 0, cursor := ⟨0, 0⟩,
    headers := none, data := [], data_loaded := ⟨0, 0, 0, 0⟩ }

/-- What `Frame_load` makes of `negcols0` on the file `csv2`: no column buffer,
`ncols = -2` and `last_col = -3`. -/
def negcols1 : Frame_T :=
  { negcols0 with ncols := -2, nrows := 2, data_loaded := ⟨0, 1, 0, -3⟩ }

/-- The frame `Frame_init(10, -2, 3, 1)`: a negative `max_cols`, headers. -/
def neghead0 : Frame_T :=
  { col_width := 10, max_cols := -2, max_rows := 3, ncols := 0, nrows := 0, cursor := ⟨0, 0⟩,
    headers := some [], data := [], data_loaded := ⟨0, 0, 0, 0⟩ }

/-- What `Frame_load` makes of `neghead0` on the file `table5`: an empty header
buffer, no column buffer, `ncols = -2` and `last_col = -3`. -/
def neghead1 : Frame_T :=
  { neghead0 with ncols := -2, nrows := 3, data_loaded := ⟨1, 2, 0, -3⟩ }

/-! ## The tokenizer -/

/-- What the loop of `get_tok_r` has seen when it returns at index `j`: the byte
there is the terminator, no byte before it is a NUL or a newline, and a
delimiter terminator is met with the quote flag off. -/
theorem get_tok_r_loop_spec (d : Nat) (field lim : Int) :
    ∀ (l : List Nat) (i : Nat) (q : Bool) (k j : Nat),
      get_tok_r_loop d field lim l i q = some (k, j) →
      ∃ m c, j = i + m ∧ l[m]? = some c ∧ (∀ x ∈ l.take m, x ≠ 0 ∧ x ≠ 10) ∧
        ((c = 0 ∧ ((k = TOK_EOF ∧ lim ≤ field + j) ∨ (k = TOK_OK ∧ field + j < lim))) ∨
         (c = 10 ∧ k = TOK_EOL) ∨
         (c ≠ 0 ∧ c ≠ 10 ∧ c ≠ 34 ∧ c = d ∧ k = TOK_OK ∧
            (q = true ↔ (l.take m).count 34 % 2 = 1))) := by
  intro l
  induction l with
  | nil => intro i q k j h; simp [get_tok_r_loop] at h
  | cons c rest ih =>
    intro i q k j h
    unfold get_tok_r_loop at h
    split_ifs at h with h0 hlim h10 h34 hd
    · simp only [Option.some.injEq, Prod.mk.injEq] at h
      obtain ⟨rfl, rfl⟩ := h
      exact ⟨0, c, by simp, by simp, by simp, Or.inl ⟨h0, Or.inl ⟨rfl, by simpa using hlim⟩⟩⟩
    · simp only [Option.some.injEq, Prod.mk.injEq] at h
      obtain ⟨rfl, rfl⟩ := h
      exact ⟨0, c, by simp, by simp, by simp, Or.inl ⟨h0, Or.inr ⟨rfl, by simpa using hlim⟩⟩⟩
    · simp only [Option.some.injEq, Prod.mk.injEq] at h
      obtain ⟨rfl, rfl⟩ := h
      exact ⟨0, c, by simp, by simp, by simp, Or.inr (Or.inl ⟨h10, rfl⟩)⟩
    · obtain ⟨m, c', hj, hc', hall, hcase⟩ := ih (i + 1) (!q) k j h
      refine ⟨m + 1, c', by omega, by simpa using hc', ?_, ?_⟩
      · intro x hx
        simp only [List.take_succ_cons, List.mem_cons] at hx
        rcases hx with rfl | hx
        · exact ⟨h0, h10⟩
        · exact hall x hx
      · rcases hcase with hA | hB | ⟨a1, a2, a3, a4, a5, a6⟩
        · exact Or.inl hA
        · exact Or.inr (Or.inl hB)
        · refine Or.inr (Or.inr ⟨a1, a2, a3, a4, a5, ?_⟩)
          subst h34
          simp only [List.take_succ_cons, List.count_cons_self]
          cases q <;> simp at a6 ⊢ <;> omega
    · simp only [Option.some.injEq, Prod.mk.injEq] at h
      obtain ⟨rfl, rfl⟩ := h
      refine ⟨0, c, by simp, by simp, by simp, Or.inr (Or.inr ⟨h0, h10, h34, hd.1, rfl, ?_⟩)⟩
      simp [hd.2]
    · obtain ⟨m, c', hj, hc', hall, hcase⟩ := ih (i + 1) q k j h
      refine ⟨m + 1, c', by omega, by simpa using hc', ?_, ?_⟩
      · intro x hx
        simp only [List.take_succ_cons, List.mem_cons] at hx
        rcases hx with rfl | hx
        · exact ⟨h0, h10⟩
        · exact hall x hx
      · rcases hcase with hA | hB | ⟨a1, a2, a3, a4, a5, a6⟩
        · exact Or.inl hA
        · exact Or.inr (Or.inl hB)
        · refine Or.inr (Or.inr ⟨a1, a2, a3, a4, a5, ?_⟩)
          rw [a6]
          simp [List.take_succ_cons, List.count_cons, h34]

/-- What a returning call of `get_tok_r` has done, in terms of the mapping: with
`m` the index of the terminator relative to the cursor, `nbytes` is `m + 1`;
on `TOK_EOF` the cursor stays, otherwise the token is the old cursor and the new
cursor is the byte after the terminator. -/
theorem get_tok_r_spec (mem : List Nat) (tok : Ptr) (str : Int) (d : Nat) (saveptr : Ptr)
    (len : Int) (r : TokRes) (h : get_tok_r mem tok str d saveptr len = some r) :
    0 ≤ saveptr.getD str ∧
    ∃ (m : Nat) (c : Nat), r.nbytes = (m : Int) + 1 ∧ mem[(saveptr.getD str).toNat + m]? = some c ∧
      (∀ x ∈ (mem.drop (saveptr.getD str).toNat).take m, x ≠ 0 ∧ x ≠ 10) ∧
      ((c = 0 ∧ r.err = TOK_EOF ∧ str + len ≤ saveptr.getD str + m ∧ r.tok = tok ∧
          r.saveptr = some (saveptr.getD str)) ∨
       (r.tok = some (saveptr.getD str) ∧ r.saveptr = some (saveptr.getD str + m + 1) ∧
          ((c = 0 ∧ r.err = TOK_OK ∧ saveptr.getD str + m < str + len) ∨
           (c = 10 ∧ r.err = TOK_EOL) ∨
           (c ≠ 0 ∧ c ≠ 10 ∧ c ≠ 34 ∧ c = d ∧ r.err = TOK_OK ∧
              ((mem.drop (saveptr.getD str).toNat).take m).count 34 % 2 = 0)))) := by
  unfold get_tok_r at h
  simp only at h
  split_ifs at h with hneg
  have hnn : 0 ≤ saveptr.getD str := by omega
  refine ⟨hnn, ?_⟩
  cases hl : get_tok_r_loop d (saveptr.getD str) (str + len)
      (mem.drop (saveptr.getD str).toNat) 0 false with
  | none => rw [hl] at h; simp at h
  | some kj =>
    obtain ⟨k, j⟩ := kj
    rw [hl] at h
    obtain ⟨m, c, hj, hc, hall, hcase⟩ := get_tok_r_loop_spec d _ _ _ _ _ _ _ hl
    have hjm : j = m := by omega
    subst hjm
    refine ⟨j, c, ?_, by simpa [List.getElem?_drop] using hc, hall, ?_⟩
    · simp only at h
      split_ifs at h <;> (simp only [Option.some.injEq] at h; subst h; rfl)
    · simp only at h
      rcases hcase with ⟨c0, ⟨k1, k2⟩ | ⟨k1, k2⟩⟩ | ⟨c10, k1⟩ | ⟨a1, a2, a3, a4, a5, a6⟩
      · subst k1
        simp only [if_true, Option.some.injEq] at h
        subst h
        exact Or.inl ⟨c0, rfl, k2, rfl, rfl⟩
      · subst k1
        simp only [TOK_OK, TOK_EOF, show ¬ ((1 : Nat) = 4) by decide, if_false,
          Option.some.injEq] at h
        subst h
        exact Or.inr ⟨rfl, rfl, Or.inl ⟨c0, rfl, k2⟩⟩
      · subst k1
        simp only [TOK_EOL, TOK_EOF, show ¬ ((2 : Nat) = 4) by decide, if_false,
          Option.some.injEq] at h
        subst h
        exact Or.inr ⟨rfl, rfl, Or.inr (Or.inl ⟨c10, rfl⟩)⟩
      · subst a5
        simp only [TOK_OK, TOK_EOF, show ¬ ((1 : Nat) = 4) by decide, if_false,
          Option.some.injEq] at h
        subst h
        refine Or.inr ⟨rfl, rfl, Or.inr (Or.inr ⟨a1, a2, a3, a4, rfl, ?_⟩)⟩
        have := a6
        simp only [Bool.false_eq_true, false_iff] at this
        omega

/-- C8: for a delimiter `d` that is not a double quote, a newline or NUL, whenever
`get_tok_r` returns and the byte at which it ended the field (the byte at
`cursor + nbytes - 1`) equals `d`, the call returned `TOK_OK` and the number of
double-quote bytes between the start of the field and that byte is even: a
delimiter inside an odd number of quotes never ends a field. -/
theorem get_tok_r_delim_outside_quotes (mem : List Nat) (tok : Ptr) (str : Int) (d : Nat)
    (saveptr : Ptr) (len : Int) (r : TokRes)
    (hd : d ≠ 34 ∧ d ≠ 10 ∧ d ≠ 0)
    (h : get_tok_r mem tok str d saveptr len = some r)
    (hend : arr_get mem (saveptr.getD str + r.nbytes - 1) = some d) :
    r.err = TOK_OK ∧ r.saveptr = some (saveptr.getD str + r.nbytes) ∧
    ((mem.drop (saveptr.getD str).toNat).take (r.nbytes - 1).toNat).count 34 % 2 = 0 := by
  obtain ⟨hnn, m, c, hnb, hc, -, hcase⟩ := get_tok_r_spec mem tok str d saveptr len r h
  have hidx : (saveptr.getD str + r.nbytes - 1).toNat = (saveptr.getD str).toNat + m := by omega
  have hm : (r.nbytes - 1).toNat = m := by omega
  have hcd : c = d := by
    unfold arr_get at hend
    rw [if_neg (by omega), hidx, hc] at hend
    simpa using hend
  rw [hm, hnb]
  rcases hcase with ⟨c0, -⟩ | ⟨-, hs, ⟨c0, -⟩ | ⟨c10, -⟩ | ⟨-, -, -, -, hk, hq⟩⟩
  · omega
  · omega
  · omega
  · exact ⟨hk, by rw [hs]; congr 1; omega, hq⟩

/-- Witness of C8: the row `"a,b",c,d` with delimiter `,` is tokenized by three
successive calls into the fields at offsets 0, 6 and 8 of lengths 5, 1 and 1
(`"a,b"` with its embedded comma, `c`, `d`), ended by a delimiter, a delimiter
and the end of the line; the comma that ends the first field has two quotes
before it. -/
theorem get_tok_r_quoted_row_witness :
    get_tok_r quoted_row none 0 44 none 10 = some ⟨TOK_OK, some 0, 6, some 6⟩ ∧
    get_tok_r quoted_row (some 0) 0 44 (some 6) 10 = some ⟨TOK_OK, some 6, 2, some 8⟩ ∧
    get_tok_r quoted_row (some 6) 0 44 (some 8) 10 = some ⟨TOK_EOL, some 8, 2, some 10⟩ ∧
    (quoted_row.take 5).count 34 % 2 = 0 :=
  ⟨by decide, by decide, by decide,
   (get_tok_r_delim_outside_quotes quoted_row none 0 44 none 10 ⟨TOK_OK, some 0, 6, some 6⟩
      (by decide) (by decide) (by decide)).2.2⟩

/-- C9 (the code differs from the claim): on the bytes `"a`, newline, `b",c`,
newline with delimiter `,` the first call of `get_tok_r` returns `TOK_EOL` with
`nbytes = 3`: it ends the field at the newline at offset 2, although exactly one
double quote (offset 0) precedes that newline in the field. -/
theorem get_tok_r_newline_in_quotes :
    arr_get quoted_newline 2 = some 10 ∧
    (quoted_newline.take 2).count 34 = 1 ∧
    get_tok_r quoted_newline none 0 44 none 8 = some ⟨TOK_EOL, some 0, 3, some 3⟩ := by
  decide

/-- C10 as stated fails when the delimiter is the double quote: on the bytes
`"`, newline with delimiter `"` the cursor is on a byte equal to the delimiter,
yet the call returns a field of length 1 with `nbytes = 2`. -/
theorem get_tok_r_quote_delim_counterexample :
    arr_get [34, 10] 0 = some 34 ∧
    get_tok_r [34, 10] none 0 34 none 2 = some ⟨TOK_EOL, some 0, 2, some 2⟩ := by
  decide

/-- C10 (amended): when `get_tok_r` returns `TOK_OK` or `TOK_EOL`, the token is the
old cursor, `nbytes - 1` is the length of the field (the byte at
`cursor + nbytes - 1` is a NUL, a newline or the delimiter and no byte of the
field is a NUL or a newline), the new cursor is `cursor + nbytes`, and a
following successful call returns the token `cursor + nbytes`: the fields with
their terminators tile the input.  When the cursor is on a byte equal to the
delimiter and the delimiter is neither the double quote nor NUL, the call
succeeds with an empty field and `nbytes = 1`. -/
theorem get_tok_r_tiles (mem : List Nat) (tok : Ptr) (str : Int) (d : Nat) (saveptr : Ptr)
    (len : Int) :
    (∀ r, get_tok_r mem tok str d saveptr len = some r → (r.err = TOK_OK ∨ r.err = TOK_EOL) →
      r.tok = some (saveptr.getD str) ∧ 1 ≤ r.nbytes ∧
      r.saveptr = some (saveptr.getD str + r.nbytes) ∧
      (∃ c, arr_get mem (saveptr.getD str + r.nbytes - 1) = some c ∧
        (c = 0 ∨ c = 10 ∨ c = d)) ∧
      (∀ p, saveptr.getD str ≤ p → p < saveptr.getD str + r.nbytes - 1 →
        ∃ c, arr_get mem p = some c ∧ c ≠ 0 ∧ c ≠ 10) ∧
      (∀ r2, get_tok_r mem r.tok str d r.saveptr len = some r2 →
        (r2.err = TOK_OK ∨ r2.err = TOK_EOL) →
        r2.tok = some (saveptr.getD str + r.nbytes) ∧
        r2.saveptr = some (saveptr.getD str + r.nbytes + r2.nbytes))) ∧
    (d ≠ 34 → d ≠ 0 → 0 ≤ saveptr.getD str → arr_get mem (saveptr.getD str) = some d →
      ∃ k, (k = TOK_OK ∨ k = TOK_EOL) ∧
        get_tok_r mem tok str d saveptr len =
          some ⟨k, some (saveptr.getD str), 1, some (saveptr.getD str + 1)⟩) := by
  have key : ∀ (tok : Ptr) (saveptr : Ptr) (r : TokRes),
      get_tok_r mem tok str d saveptr len = some r → (r.err = TOK_OK ∨ r.err = TOK_EOL) →
      r.tok = some (saveptr.getD str) ∧ 1 ≤ r.nbytes ∧
      r.saveptr = some (saveptr.getD str + r.nbytes) ∧
      (∃ c, arr_get mem (saveptr.getD str + r.nbytes - 1) = some c ∧
        (c = 0 ∨ c = 10 ∨ c = d)) ∧
      (∀ p, saveptr.getD str ≤ p → p < saveptr.getD str + r.nbytes - 1 →
        ∃ c, arr_get mem p = some c ∧ c ≠ 0 ∧ c ≠ 10) := by
    intro tok saveptr r h hk
    obtain ⟨hnn, m, c, hnb, hc, hall, hcase⟩ := get_tok_r_spec mem tok str d saveptr len r h
    have hidx : (saveptr.getD str + r.nbytes - 1).toNat = (saveptr.getD str).toNat + m := by
      omega
    have hterm : arr_get mem (saveptr.getD str + r.nbytes - 1) = some c := by
      unfold arr_get
      rw [if_neg (by omega), hidx, hc]
    have hbefore : ∀ p, saveptr.getD str ≤ p → p < saveptr.getD str + r.nbytes - 1 →
        ∃ c, arr_get mem p = some c ∧ c ≠ 0 ∧ c ≠ 10 := by
      intro p hp1 hp2
      have hlen : (saveptr.getD str).toNat + m < mem.length := by
        rcases Nat.lt_or_ge ((saveptr.getD str).toNat + m) mem.length with hl | hl
        · exact hl
        · rw [List.getElem?_eq_none hl] at hc; simp at hc
      have hp : p.toNat < mem.length := by omega
      refine ⟨mem[p.toNat], ?_, ?_⟩
      · unfold arr_get
        rw [if_neg (by omega), List.getElem?_eq_getElem hp]
      · apply hall
        rw [List.mem_take_iff_getElem]
        refine ⟨p.toNat - (saveptr.getD str).toNat, ?_, ?_⟩
        · simp only [List.length_drop]; omega
        · simp only [List.getElem_drop]
          congr 1; omega
    rcases hcase with ⟨-, hE, -⟩ | ⟨ht, hs, hc3⟩
    · rcases hk with hk | hk <;> (rw [hE] at hk; exact absurd hk (by decide))
    · refine ⟨ht, by omega, by rw [hs]; congr 1; omega, ⟨c, hterm, ?_⟩, hbefore⟩
      rcases hc3 with ⟨c0, -⟩ | ⟨c10, -⟩ | ⟨-, -, -, hcd, -⟩
      · exact Or.inl c0
      · exact Or.inr (Or.inl c10)
      · exact Or.inr (Or.inr hcd)
  refine ⟨?_, ?_⟩
  · intro r h hk
    obtain ⟨k1, k2, k3, k4, k5⟩ := key tok saveptr r h hk
    refine ⟨k1, k2, k3, k4, k5, ?_⟩
    intro r2 h2 hk2
    obtain ⟨j1, j2, j3, -, -⟩ := key r.tok r.saveptr r2 h2 hk2
    rw [k3] at j1 j3
    simp only [Option.getD_some] at j1 j3
    exact ⟨j1, j3⟩
  · intro h34 h0 hnn hcur
    unfold arr_get at hcur
    rw [if_neg (by omega)] at hcur
    have hlt : (saveptr.getD str).toNat < mem.length := by
      rcases Nat.lt_or_ge (saveptr.getD str).toNat mem.length with hl | hl
      · exact hl
      · rw [List.getElem?_eq_none hl] at hcur; simp at hcur
    have hdrop : mem.drop (saveptr.getD str).toNat
        = d :: mem.drop ((saveptr.getD str).toNat + 1) := by
      rw [List.drop_eq_getElem_cons hlt]
      rw [List.getElem?_eq_getElem hlt] at hcur
      simp only [Option.some.injEq] at hcur
      rw [hcur]
    unfold get_tok_r
    simp only
    rw [if_neg (by omega), hdrop]
    unfold get_tok_r_loop
    rw [if_neg h0]
    by_cases h10 : d = 10
    · refine ⟨TOK_EOL, Or.inr rfl, ?_⟩
      rw [if_pos h10]
      simp [TOK_EOL, TOK_EOF]
    · refine ⟨TOK_OK, Or.inl rfl, ?_⟩
      rw [if_neg h10, if_neg h34, if_pos ⟨rfl, rfl⟩]
      simp [TOK_OK, TOK_EOF]

/-- Witness of C10: on `a,,b` with delimiter `,` the first call returns the
field `a` (`nbytes = 2`), the next call starts at the cursor 2, which is on the
second delimiter, and returns an empty field with `nbytes = 1`. -/
theorem get_tok_r_tiles_witness :
    get_tok_r adjacent_delims none 0 44 none 5 = some ⟨TOK_OK, some 0, 2, some 2⟩ ∧
    ∃ k, (k = TOK_OK ∨ k = TOK_EOL) ∧
      get_tok_r adjacent_delims (some 0) 0 44 (some 2) 5 = some ⟨k, some 2, 1, some 3⟩ :=
  ⟨by decide,
   (get_tok_r_tiles adjacent_delims (some 0) 0 44 (some 2) 5).2
     (by decide) (by decide) (by decide) (by decide)⟩

/-! ## Arrays and deques -/

theorem arr_get_natCast {α : Type} (a : List α) (i : Nat) : arr_get a (i : Int) = a[i]? := by
  unfold arr_get
  rw [if_neg (by omega)]
  simp

theorem arr_set_natCast {α : Type} (a a' : List α) (i : Nat) (v : α)
    (h : arr_set a (i : Int) v = some a') : i < a.length ∧ a' = a.set i v := by
  unfold arr_set at h
  split_ifs at h with hc
  simp only [Int.toNat_ofNat, Option.some.injEq] at h hc
  exact ⟨hc.2, h.symm⟩

theorem arr_set_length {α : Type} (a a' : List α) (i : Int) (v : α)
    (h : arr_set a i v = some a') : a'.length = a.length := by
  unfold arr_set at h
  split_ifs at h
  simp only [Option.some.injEq] at h
  subst h
  simp

theorem Deque_remlo_eq_some {α : Type} (d d1 : List α) (y : α) :
    Deque_remlo d = some (y, d1) ↔ d = y :: d1 := by
  cases d with
  | nil => simp [Deque_remlo]
  | cons a t => simp [Deque_remlo]

theorem Deque_remhi_eq_some {α : Type} (d d1 : List α) (y : α) :
    Deque_remhi d = some (y, d1) ↔ d = d1 ++ [y] := by
  unfold Deque_remhi
  constructor
  · intro h
    cases hl : d.getLast? with
    | none => rw [hl] at h; simp at h
    | some x =>
      rw [hl] at h
      simp only [Option.some.injEq, Prod.mk.injEq] at h
      obtain ⟨rfl, rfl⟩ := h
      exact (List.dropLast_append_getLast? x (by simp [hl])).symm
  · intro h
    subst h
    simp

/-- The columns after the loop of `Frame_shift_row`: the loop touches the columns
`i .. i + k - 1`, each of which loses the element at one end and gains the
buffer entry of its index at the other. -/
theorem Frame_shift_row_cols_spec (n : Int) (buf : List Ptr) :
    ∀ (k i : Nat) (cols cols' : List (List Ptr)),
      Frame_shift_row_cols n buf k (i : Int) cols = some cols' →
      cols'.length = cols.length ∧
      (∀ j, (j < i ∨ i + k ≤ j) → cols'[j]? = cols[j]?) ∧
      (∀ j, i ≤ j → j < i + k → ∃ col col1 x y,
        cols[j]? = some col ∧ buf[j]? = some x ∧
        (if n = 1 then Deque_remlo col else Deque_remhi col) = some (y, col1) ∧
        cols'[j]? = some (if n = 1 then Deque_addhi col1 x else Deque_addlo col1 x)) := by
  intro k
  induction k with
  | zero =>
    intro i cols cols' h
    simp only [Frame_shift_row_cols, Option.some.injEq] at h
    subst h
    exact ⟨rfl, fun _ _ => rfl, fun j h1 h2 => by omega⟩
  | succ k ih =>
    intro i cols cols' h
    unfold Frame_shift_row_cols at h
    simp only [Deque_get, arr_get_natCast] at h
    cases hcol : cols[i]? with
    | none => rw [hcol] at h; simp at h
    | some col =>
      rw [hcol] at h
      simp only at h
      cases hpop : (if n = 1 then Deque_remlo col else Deque_remhi col) with
      | none => rw [hpop] at h; simp at h
      | some yc =>
        obtain ⟨y, col1⟩ := yc
        rw [hpop] at h
        simp only at h
        cases hx : buf[i]? with
        | none => rw [hx] at h; simp at h
        | some x =>
          rw [hx] at h
          simp only at h
          cases hset : arr_set cols (i : Int)
              (if n = 1 then Deque_addhi col1 x else Deque_addlo col1 x) with
          | none => rw [hset] at h; simp at h
          | some cols1 =>
            rw [hset] at h
            simp only at h
            obtain ⟨hi, hc1⟩ := arr_set_natCast _ _ _ _ hset
            have h' : Frame_shift_row_cols n buf k ((i + 1 : Nat) : Int) cols1 = some cols' := by
              simpa using h
            obtain ⟨e1, e3, e4⟩ := ih (i + 1) cols1 cols' h'
            have hlen1 : cols1.length = cols.length := by rw [hc1]; simp
            refine ⟨by omega, ?_, ?_⟩
            · intro j hj
              rw [e3 j (by omega), hc1, List.getElem?_set_ne (by omega)]
            · intro j hj1 hj2
              rcases Nat.eq_or_lt_of_le hj1 with hji | hji
              · subst hji
                refine ⟨col, col1, x, y, hcol, hx, hpop, ?_⟩
                rw [e3 i (by omega), hc1]
                simp [hi]
              · obtain ⟨c, c1, x', y', a1, a2, a3, a4⟩ := e4 j (by omega) (by omega)
                refine ⟨c, c1, x', y', ?_, a2, a3, a4⟩
                rw [← a1, hc1, List.getElem?_set_ne (by omega)]

/-! ## The frame -/

/-- A successful `Frame_shift_row` has fetched the new row with `get_row` into a
buffer of `frame->ncols` entries, and its result is the frame with the columns
the loop produced and the row bounds moved by `n`. -/
theorem Frame_shift_row_ok (M : Nat) (frame : Frame_T) (data : Data_T) (n : Int)
    (frame' : Frame_T) (data' : Data_T)
    (h : Frame_shift_row M frame data n = some (E_OK, frame', data')) :
    (n = 1 ∨ n = -1) ∧
    (if n = 1 then frame.data_loaded.last_row + 1 else frame.data_loaded.first_row - 1) + 1
      ≠ (M : Int) ∧
    ∃ buf buf1 cols, vla frame.ncols = some buf ∧
      get_row data buf
        (if n = 1 then frame.data_loaded.last_row + 1 else frame.data_loaded.first_row - 1)
        0 (frame.ncols - 1) = some (E_OK, data', buf1) ∧
      Frame_shift_row_cols n buf1
        (frame.data_loaded.last_col - frame.data_loaded.first_col + 1).toNat 0 frame.data
        = some cols ∧
      frame' = { frame with
                  data := cols,
                  data_loaded :=
                    { frame.data_loaded with
                      first_row := frame.data_loaded.first_row + n,
                      last_row := frame.data_loaded.last_row + n } } := by
  unfold Frame_shift_row at h
  by_cases hn : n ≠ 1 ∧ n ≠ -1
  · rw [if_pos hn] at h
    simp at h
  rw [if_neg hn] at h
  dsimp only at h
  by_cases hM : (if n = 1 then frame.data_loaded.last_row + 1
      else frame.data_loaded.first_row - 1) + 1 = (M : Int)
  · rw [if_pos hM] at h
    simp at h
  rw [if_neg hM] at h
  have hn' : n = 1 ∨ n = -1 := by
    by_cases h1 : n = 1
    · exact Or.inl h1
    · right; by_contra h2; exact hn ⟨h1, h2⟩
  refine ⟨hn', hM, ?_⟩
  cases hv : vla frame.ncols with
  | none => rw [hv] at h; simp at h
  | some buf =>
    rw [hv] at h
    simp only at h
    cases hg : get_row data buf
        (if n = 1 then frame.data_loaded.last_row + 1 else frame.data_loaded.first_row - 1)
        0 (frame.ncols - 1) with
    | none => rw [hg] at h; simp at h
    | some res =>
      obtain ⟨ret, data1, buf1⟩ := res
      rw [hg] at h
      dsimp only at h
      by_cases hE : ret = E_DTA_EOF
      · rw [if_pos hE] at h
        simp at h
      rw [if_neg hE] at h
      by_cases hO : ret ≠ E_OK
      · rw [if_pos hO] at h
        simp at h
      rw [if_neg hO] at h
      have hret : ret = E_OK := by simpa using hO
      subst hret
      cases hc : Frame_shift_row_cols n buf1
          (frame.data_loaded.last_col - frame.data_loaded.first_col + 1).toNat 0 frame.data with
      | none => rw [hc] at h; simp at h
      | some cols =>
        rw [hc] at h
        simp only [Option.some.injEq, Prod.mk.injEq, true_and] at h
        obtain ⟨h1, h2⟩ := h
        subst h2
        exact ⟨buf, buf1, cols, rfl, hg, hc, h1.symm⟩

/-- C2: for a frame whose number of column buffers is `last_col - first_col + 1`
(a loaded frame), when `Frame_shift_row` returns `E_OK` then `n` is `+1` or `-1`,
every column buffer was non-empty and is now its previous contents without the
lowest element and with one element added at the high end (`n = +1`), or
without the highest element and with one element added at the low end
(`n = -1`); `first_row` and `last_row` are increased by `n`, and `first_col`,
`last_col`, `ncols`, `nrows` and the header buffer are unchanged. -/
theorem Frame_shift_row_ok_shape (M : Nat) (frame : Frame_T) (data : Data_T) (n : Int)
    (frame' : Frame_T) (data' : Data_T)
    (hcols : (frame.data.length : Int)
      = frame.data_loaded.last_col - frame.data_loaded.first_col + 1)
    (h : Frame_shift_row M frame data n = some (E_OK, frame', data')) :
    (n = 1 ∨ n = -1) ∧
    frame'.data.length = frame.data.length ∧
    (∀ j, j < frame.data.length → ∃ x y rest,
      (n = 1 → frame.data[j]? = some (y :: rest) ∧ frame'.data[j]? = some (rest ++ [x])) ∧
      (n = -1 → frame.data[j]? = some (rest ++ [y]) ∧ frame'.data[j]? = some (x :: rest))) ∧
    frame'.data_loaded.first_row = frame.data_loaded.first_row + n ∧
    frame'.data_loaded.last_row = frame.data_loaded.last_row + n ∧
    frame'.data_loaded.first_col = frame.data_loaded.first_col ∧
    frame'.data_loaded.last_col = frame.data_loaded.last_col ∧
    frame'.ncols = frame.ncols ∧ frame'.nrows = frame.nrows ∧
    frame'.headers = frame.headers := by
  obtain ⟨hn, -, buf, buf1, cols, -, -, hc, hf⟩ := Frame_shift_row_ok M frame data n frame' data' h
  have hc' : Frame_shift_row_cols n buf1
      (frame.data_loaded.last_col - frame.data_loaded.first_col + 1).toNat ((0 : Nat) : Int)
      frame.data = some cols := by simpa using hc
  obtain ⟨e1, -, e4⟩ := Frame_shift_row_cols_spec n buf1 _ 0 frame.data cols hc'
  subst hf
  refine ⟨hn, e1, ?_, rfl, rfl, rfl, rfl, rfl, rfl, rfl⟩
  intro j hj
  obtain ⟨col, col1, x, y, a1, -, a3, a4⟩ := e4 j (by omega) (by omega)
  refine ⟨x, y, col1, ?_, ?_⟩
  · intro h1
    rw [if_pos h1] at a3 a4
    rw [Deque_remlo_eq_some] at a3
    subst a3
    exact ⟨a1, a4⟩
  · intro h1
    have hne : ¬ (n = 1) := by omega
    rw [if_neg hne] at a3 a4
    rw [Deque_remhi_eq_some] at a3
    subst a3
    exact ⟨a1, a4⟩

/-! ## Row access -/

/-- The first-visit loop of `get_row` keeps the length of the buffer and never
lowers a non-negative column count. -/
theorem get_row_scan_spec (mem : List Nat) (delim : Nat) (str len cs ce : Int) :
    ∀ (fuel : Nat) (saveptr tok : Ptr) (icol i total ncols : Int) (buf : List Ptr)
      (ret : Code) (total1 ncols1 : Int) (buf1 : List Ptr),
      get_row_scan mem delim str len cs ce fuel saveptr tok icol i total ncols buf
        = some (ret, total1, ncols1, buf1) →
      buf1.length = buf.length ∧ (0 ≤ icol → 0 ≤ ncols → ncols ≤ ncols1) := by
  intro fuel
  induction fuel with
  | zero => intro saveptr tok icol i total ncols buf ret total1 ncols1 buf1 h
            simp [get_row_scan] at h
  | succ fuel ih =>
    intro saveptr tok icol i total ncols buf ret total1 ncols1 buf1 h
    unfold get_row_scan at h
    cases hg : get_tok_r mem tok str delim saveptr len with
    | none => rw [hg] at h; simp at h
    | some r =>
      rw [hg] at h
      dsimp only at h
      by_cases hE : r.err = TOK_ERR
      · rw [if_pos hE] at h
        simp only [Option.some.injEq, Prod.mk.injEq] at h
        obtain ⟨-, -, rfl, rfl⟩ := h
        exact ⟨rfl, fun _ _ => le_refl _⟩
      rw [if_neg hE] at h
      by_cases hF : r.err = TOK_EOF
      · rw [if_pos hF] at h
        simp only [Option.some.injEq, Prod.mk.injEq] at h
        obtain ⟨-, -, rfl, rfl⟩ := h
        exact ⟨rfl, fun _ _ => le_refl _⟩
      rw [if_neg hF] at h
      cases hb : (if cs ≤ icol ∧ (icol ≤ ce ∨ ce = -1) then arr_set buf i r.tok
          else some buf) with
      | none => rw [hb] at h; simp at h
      | some buf2 =>
        rw [hb] at h
        dsimp only at h
        have hlen2 : buf2.length = buf.length := by
          by_cases hw : cs ≤ icol ∧ (icol ≤ ce ∨ ce = -1)
          · rw [if_pos hw] at hb
            exact arr_set_length _ _ _ _ hb
          · rw [if_neg hw] at hb
            simp only [Option.some.injEq] at hb
            rw [hb]
        by_cases hL : r.err = TOK_EOL
        · rw [if_pos hL] at h
          by_cases hm : icol ≠ (if ncols = 0 then icol + 1 else ncols) - 1
          · rw [if_pos hm] at h
            simp only [Option.some.injEq, Prod.mk.injEq] at h
            obtain ⟨-, -, rfl, rfl⟩ := h
            refine ⟨hlen2, fun h1 h2 => ?_⟩
            split_ifs <;> omega
          · rw [if_neg hm] at h
            simp only [Option.some.injEq, Prod.mk.injEq] at h
            obtain ⟨-, -, rfl, rfl⟩ := h
            refine ⟨hlen2, fun h1 h2 => ?_⟩
            split_ifs <;> omega
        · rw [if_neg hL] at h
          obtain ⟨e1, e2⟩ := ih _ _ _ _ _ _ _ _ _ _ _ h
          exact ⟨by omega, fun h1 h2 => e2 (by omega) h2⟩

/-- The repeat-visit loop of `get_row` keeps the length of the buffer. -/
theorem get_row_cached_spec (mem : List Nat) (delim : Nat) (str len cs ce : Int) :
    ∀ (fuel : Nat) (saveptr tok : Ptr) (icol i : Int) (buf : List Ptr)
      (ret : Code) (buf1 : List Ptr),
      get_row_cached mem delim str len cs ce fuel saveptr tok icol i buf = some (ret, buf1) →
      buf1.length = buf.length := by
  intro fuel
  induction fuel with
  | zero => intro saveptr tok icol i buf ret buf1 h
            simp [get_row_cached] at h
  | succ fuel ih =>
    intro saveptr tok icol i buf ret buf1 h
    unfold get_row_cached at h
    cases hg : get_tok_r mem tok str delim saveptr len with
    | none => rw [hg] at h; simp at h
    | some r =>
      rw [hg] at h
      dsimp only at h
      by_cases hE : r.err &&& (TOK_ERR ||| TOK_EOF) ≠ 0
      · rw [if_pos hE] at h
        simp only [Option.some.injEq, Prod.mk.injEq] at h
        obtain ⟨-, rfl⟩ := h
        rfl
      rw [if_neg hE] at h
      cases hb : (if cs ≤ icol ∧ icol ≤ ce then arr_set buf i r.tok else some buf) with
      | none => rw [hb] at h; simp at h
      | some buf2 =>
        rw [hb] at h
        dsimp only at h
        have hlen2 : buf2.length = buf.length := by
          by_cases hw : cs ≤ icol ∧ icol ≤ ce
          · rw [if_pos hw] at hb
            exact arr_set_length _ _ _ _ hb
          · rw [if_neg hw] at hb
            simp only [Option.some.injEq] at hb
            rw [hb]
        by_cases hL : icol = ce
        · rw [if_pos hL] at h
          simp only [Option.some.injEq, Prod.mk.injEq] at h
          obtain ⟨-, rfl⟩ := h
          exact hlen2
        · rw [if_neg hL] at h
          have := ih _ _ _ _ _ _ _ h
          omega

/-- What `get_row` changes: never the mapping, its size or the delimiter, nor the
length of the buffer; a non-negative `ncols` is never lowered; a call that does not return
`E_OK` leaves `nrows` and the offsets alone; a successful call on a row whose
end offset was not recorded records it and counts the row. -/
theorem get_row_effect (data : Data_T) (buf : List Ptr) (row cs ce : Int) (ret : Code)
    (data1 : Data_T) (buf1 : List Ptr)
    (h : get_row data buf row cs ce = some (ret, data1, buf1)) :
    data1.st_size = data.st_size ∧ data1.ptr = data.ptr ∧ data1.delim = data.delim ∧
    buf1.length = buf.length ∧ (0 ≤ data.ncols → data.ncols ≤ data1.ncols) ∧
    (ret ≠ E_OK → data1.nrows = data.nrows ∧ data1.row_offsets = data.row_offsets) ∧
    (ret = E_OK → ∃ next, arr_get data.row_offsets (row + 1) = some next) ∧
    (ret = E_OK → arr_get data.row_offsets (row + 1) = some 0 →
      data1.nrows = data.nrows + 1 ∧
      ∃ t, arr_set data.row_offsets (row + 1) t = some data1.row_offsets) := by
  unfold get_row at h
  by_cases hc : data.ncols ≠ 0 ∧ ce ≥ data.ncols
  · rw [if_pos hc] at h
    simp only [Option.some.injEq, Prod.mk.injEq] at h
    obtain ⟨rfl, rfl, rfl⟩ := h
    exact ⟨rfl, rfl, rfl, rfl, fun _ => le_refl _, fun _ => ⟨rfl, rfl⟩, fun h => by simp at h,
        fun h => by simp at h⟩
  rw [if_neg hc] at h
  dsimp only at h
  cases hcur : arr_get data.row_offsets row with
  | none => rw [hcur] at h; simp at h
  | some cur =>
    rw [hcur] at h
    dsimp only at h
    by_cases h1 : 0 < row ∧ cur = data.st_size
    · rw [if_pos h1] at h
      simp only [Option.some.injEq, Prod.mk.injEq] at h
      obtain ⟨rfl, rfl, rfl⟩ := h
      exact ⟨rfl, rfl, rfl, rfl, fun _ => le_refl _, fun _ => ⟨rfl, rfl⟩, fun h => by simp at h,
        fun h => by simp at h⟩
    rw [if_neg h1] at h
    by_cases h2 : 0 < row ∧ cur = 0
    · rw [if_pos h2] at h
      simp only [Option.some.injEq, Prod.mk.injEq] at h
      obtain ⟨rfl, rfl, rfl⟩ := h
      exact ⟨rfl, rfl, rfl, rfl, fun _ => le_refl _, fun _ => ⟨rfl, rfl⟩, fun h => by simp at h,
        fun h => by simp at h⟩
    rw [if_neg h2] at h
    cases hnext : arr_get data.row_offsets (row + 1) with
    | none => rw [hnext] at h; simp at h
    | some next =>
      rw [hnext] at h
      dsimp only at h
      by_cases h3 : next ≠ 0
      · rw [if_pos h3] at h
        by_cases h4 : data.ncols = 0
        · rw [if_pos h4] at h
          simp only [Option.some.injEq, Prod.mk.injEq] at h
          obtain ⟨rfl, rfl, rfl⟩ := h
          exact ⟨rfl, rfl, rfl, rfl, fun _ => le_refl _, fun _ => ⟨rfl, rfl⟩, fun h => by simp at h,
        fun h => by simp at h⟩
        rw [if_neg h4] at h
        cases hl : get_row_cached data.ptr data.delim cur (next - cur) cs
            (if data.ncols ≠ 0 ∧ ce = -1 then data.ncols - 1 else ce)
            (data.ptr.length + 1) none none 0 0 buf with
        | none => rw [hl] at h; simp at h
        | some res =>
          obtain ⟨ret2, buf2⟩ := res
          rw [hl] at h
          simp only [Option.some.injEq, Prod.mk.injEq] at h
          obtain ⟨rfl, rfl, rfl⟩ := h
          have := get_row_cached_spec _ _ _ _ _ _ _ _ _ _ _ _ _ _ hl
          refine ⟨rfl, rfl, rfl, this, fun _ => le_refl _, fun _ => ⟨rfl, rfl⟩,
            fun _ => ⟨next, rfl⟩,
            fun _ hz => ?_⟩
          simp only [Option.some.injEq] at hz
          exact absurd hz h3
      · rw [if_neg h3] at h
        cases hl : get_row_scan data.ptr data.delim cur data.st_size cs
            (if data.ncols ≠ 0 ∧ ce = -1 then data.ncols - 1 else ce)
            (data.ptr.length + 1) none none 0 0 cur data.ncols buf with
        | none => rw [hl] at h; simp at h
        | some res =>
          obtain ⟨ret2, total, ncols2, buf2⟩ := res
          rw [hl] at h
          dsimp only at h
          obtain ⟨e1, e2⟩ := get_row_scan_spec _ _ _ _ _ _ _ _ _ _ _ _ _ _ _ _ _ _ hl
          by_cases h5 : ret2 ≠ E_OK
          · rw [if_pos h5] at h
            simp only [Option.some.injEq, Prod.mk.injEq] at h
            obtain ⟨rfl, rfl, rfl⟩ := h
            exact ⟨rfl, rfl, rfl, e1, fun h => e2 (le_refl 0) h, fun _ => ⟨rfl, rfl⟩,
              fun h => absurd h h5, fun h => absurd h h5⟩
          · rw [if_neg h5] at h
            cases hs : arr_set data.row_offsets (row + 1) total with
            | none => rw [hs] at h; simp at h
            | some ro1 =>
              rw [hs] at h
              simp only [Option.some.injEq, Prod.mk.injEq] at h
              obtain ⟨rfl, rfl, rfl⟩ := h
              exact ⟨rfl, rfl, rfl, e1, fun h => e2 (le_refl 0) h, fun h => absurd rfl h,
                fun _ => ⟨next, rfl⟩, fun _ _ => ⟨rfl, total, hs⟩⟩

/-! ## Loading a frame -/

theorem arr_get_of_arr_set_ne {α : Type} (a a' : List α) (i j : Int) (v : α)
    (h : arr_set a i v = some a') (hne : j ≠ i) : arr_get a' j = arr_get a j := by
  unfold arr_set at h
  split_ifs at h with hc
  simp only [Option.some.injEq] at h
  subst h
  unfold arr_get
  by_cases hj : j < 0
  · rw [if_pos hj, if_pos hj]
  · rw [if_neg hj, if_neg hj, List.getElem?_set_ne (by omega)]

/-- The first loop of `Frame_load` appends `k` columns, each empty when there is
a header deque and holding one element otherwise, and keeps the presence of
the header deque. -/
theorem Frame_load_cols_spec (buf : List Ptr) :
    ∀ (k : Nat) (i : Int) (headers : Option (List Ptr)) (data : List (List Ptr))
      (headers1 : Option (List Ptr)) (data1 : List (List Ptr)),
      Frame_load_cols buf k i headers data = some (headers1, data1) →
      data1.length = data.length + k ∧ headers1.isSome = headers.isSome ∧
      ∀ col ∈ data1, col ∈ data ∨ (col.length : Int) = 1 - (if headers.isSome then 1 else 0) := by
  intro k
  induction k with
  | zero =>
    intro i headers data headers1 data1 h
    simp only [Frame_load_cols, Option.some.injEq, Prod.mk.injEq] at h
    obtain ⟨rfl, rfl⟩ := h
    exact ⟨rfl, rfl, fun col hc => Or.inl hc⟩
  | succ k ih =>
    intro i headers data headers1 data1 h
    unfold Frame_load_cols at h
    cases hx : arr_get buf i with
    | none => rw [hx] at h; simp at h
    | some x =>
      rw [hx] at h
      dsimp only at h
      cases headers with
      | none =>
        dsimp only at h
        obtain ⟨e1, e2, e3⟩ := ih _ _ _ _ _ h
        refine ⟨?_, e2, ?_⟩
        · rw [e1]; simp [Deque_addhi]; omega
        · intro col hc
          rcases e3 col hc with hm | hl
          · simp only [Deque_addhi, Deque_new, List.nil_append, List.mem_append,
              List.mem_singleton] at hm
            rcases hm with hm | rfl
            · exact Or.inl hm
            · right; simp
          · exact Or.inr hl
      | some hd =>
        dsimp only at h
        obtain ⟨e1, e2, e3⟩ := ih _ _ _ _ _ h
        refine ⟨?_, e2, ?_⟩
        · rw [e1]; simp [Deque_addhi]; omega
        · intro col hc
          rcases e3 col hc with hm | hl
          · simp only [Deque_addhi, Deque_new, List.mem_append, List.mem_singleton] at hm
            rcases hm with hm | rfl
            · exact Or.inl hm
            · right; simp
          · exact Or.inr (by simpa using hl)

/-- The inner loop of the second part of `Frame_load` appends the buffer entry of
its index to each of the columns `i .. i + k - 1` and leaves the others. -/
theorem Frame_load_fill_spec (buf : List Ptr) :
    ∀ (k i : Nat) (cols cols1 : List (List Ptr)),
      Frame_load_fill buf k (i : Int) cols = some cols1 →
      cols1.length = cols.length ∧
      (∀ j, (j < i ∨ i + k ≤ j) → cols1[j]? = cols[j]?) ∧
      (∀ j, i ≤ j → j < i + k → ∃ col x,
        cols[j]? = some col ∧ buf[j]? = some x ∧ cols1[j]? = some (Deque_addhi col x)) := by
  intro k
  induction k with
  | zero =>
    intro i cols cols1 h
    simp only [Frame_load_fill, Option.some.injEq] at h
    subst h
    exact ⟨rfl, fun _ _ => rfl, fun j h1 h2 => by omega⟩
  | succ k ih =>
    intro i cols cols1 h
    unfold Frame_load_fill at h
    simp only [Deque_get, arr_get_natCast] at h
    cases hcol : cols[i]? with
    | none => rw [hcol] at h; simp at h
    | some col =>
      cases hx : buf[i]? with
      | none => rw [hcol, hx] at h; simp at h
      | some x =>
        rw [hcol, hx] at h
        dsimp only at h
        cases hset : arr_set cols (i : Int) (Deque_addhi col x) with
        | none => rw [hset] at h; simp at h
        | some cols2 =>
          rw [hset] at h
          dsimp only at h
          obtain ⟨hi, hc1⟩ := arr_set_natCast _ _ _ _ hset
          have h' : Frame_load_fill buf k ((i + 1 : Nat) : Int) cols2 = some cols1 := by
            simpa using h
          obtain ⟨e1, e3, e4⟩ := ih (i + 1) cols2 cols1 h'
          have hlen1 : cols2.length = cols.length := by rw [hc1]; simp
          refine ⟨by omega, ?_, ?_⟩
          · intro j hj
            rw [e3 j (by omega), hc1, List.getElem?_set_ne (by omega)]
          · intro j hj1 hj2
            rcases Nat.eq_or_lt_of_le hj1 with hji | hji
            · subst hji
              refine ⟨col, x, hcol, hx, ?_⟩
              rw [e3 i (by omega), hc1]
              simp [hi]
            · obtain ⟨c, x', a1, a2, a4⟩ := e4 j (by omega) (by omega)
              refine ⟨c, x', ?_, a2, a4⟩
              rw [← a1, hc1, List.getElem?_set_ne (by omega)]

/-- Invariant of the row loop of `Frame_load` on a source whose offsets past
the current row are still zero: the frame and the source count the same rows,
and every column holds one element for each row counted, the header row apart. -/
theorem Frame_load_rows_inv :
    ∀ (k : Nat) (irow : Int) (frame : Frame_T) (data : Data_T) (buf : List Ptr)
      (ret : Code) (frame1 : Frame_T) (data1 : Data_T),
      Frame_load_rows k irow frame data buf = some (ret, frame1, data1) →
      (∀ j v, irow + 1 ≤ j → arr_get data.row_offsets j = some v → v = 0) →
      frame.nrows = data.nrows →
      (frame.data.length : Int) = frame.ncols →
      (∀ col ∈ frame.data,
        (col.length : Int) = frame.nrows - (if frame.headers.isSome then 1 else 0)) →
      frame1.nrows = data1.nrows ∧
      (∀ col ∈ frame1.data,
        (col.length : Int) = frame1.nrows - (if frame.headers.isSome then 1 else 0)) ∧
      frame1.data.length = frame.data.length ∧ frame1.ncols = frame.ncols ∧
      frame1.headers = frame.headers ∧ frame1.data_loaded = frame.data_loaded ∧
      (0 ≤ data.ncols → data.ncols ≤ data1.ncols) := by
  intro k
  induction k with
  | zero =>
    intro irow frame data buf ret frame1 data1 h hz hn hc hl
    simp only [Frame_load_rows, Option.some.injEq, Prod.mk.injEq] at h
    obtain ⟨-, rfl, rfl⟩ := h
    exact ⟨hn, hl, rfl, rfl, rfl, rfl, fun _ => le_refl _⟩
  | succ k ih =>
    intro irow frame data buf ret frame1 data1 h hz hn hc hl
    unfold Frame_load_rows at h
    cases hg : get_row data buf irow 0 (frame.ncols - 1) with
    | none => rw [hg] at h; simp at h
    | some res =>
      obtain ⟨ret2, data2, buf2⟩ := res
      rw [hg] at h
      dsimp only at h
      obtain ⟨-, -, -, -, g0, g1, g2, g3⟩ := get_row_effect _ _ _ _ _ _ _ _ hg
      by_cases hE : ret2 = E_DTA_EOF
      · rw [if_pos hE] at h
        simp only [Option.some.injEq, Prod.mk.injEq] at h
        obtain ⟨-, rfl, rfl⟩ := h
        have := g1 (by rw [hE]; decide)
        exact ⟨by omega, hl, rfl, rfl, rfl, rfl, g0⟩
      rw [if_neg hE] at h
      by_cases hO : ret2 ≠ E_OK
      · rw [if_pos hO] at h
        simp only [Option.some.injEq, Prod.mk.injEq] at h
        obtain ⟨-, rfl, rfl⟩ := h
        have := g1 hO
        exact ⟨by omega, hl, rfl, rfl, rfl, rfl, g0⟩
      rw [if_neg hO] at h
      have hok : ret2 = E_OK := by simpa using hO
      obtain ⟨next, hnext⟩ := g2 hok
      have hnz : next = 0 := hz _ _ (le_refl _) hnext
      subst hnz
      obtain ⟨n1, t, hset⟩ := g3 hok hnext
      cases hf : Frame_load_fill buf2 frame.ncols.toNat 0 frame.data with
      | none => rw [hf] at h; simp at h
      | some cols =>
        rw [hf] at h
        dsimp only at h
        have hf' : Frame_load_fill buf2 frame.ncols.toNat ((0 : Nat) : Int) frame.data
            = some cols := by simpa using hf
        obtain ⟨f1, -, f3⟩ := Frame_load_fill_spec buf2 _ 0 frame.data cols hf'
        have hcols : ∀ col ∈ cols,
            (col.length : Int) = frame.nrows + 1 - (if frame.headers.isSome then 1 else 0) := by
          intro col hm
          obtain ⟨j, hj⟩ := List.mem_iff_getElem?.mp hm
          have hjlt : j < cols.length := by
            rcases Nat.lt_or_ge j cols.length with hl' | hl'
            · exact hl'
            · rw [List.getElem?_eq_none hl'] at hj; simp at hj
          obtain ⟨c0, x, a1, -, a3⟩ := f3 j (by omega) (by omega)
          rw [a3] at hj
          simp only [Option.some.injEq] at hj
          subst hj
          have hc0 := hl c0 (List.mem_iff_getElem?.mpr ⟨j, a1⟩)
          simp only [Deque_addhi, List.length_append, List.length_singleton, Nat.cast_add,
            Nat.cast_one]
          omega
        have hz2 : ∀ j v, irow + 1 + 1 ≤ j → arr_get data2.row_offsets j = some v → v = 0 := by
          intro j v hj hv
          rw [arr_get_of_arr_set_ne _ _ _ _ _ hset (by omega)] at hv
          exact hz j v (by omega) hv
        obtain ⟨r1, r2, r3, r4, r5, r6, r7⟩ := ih (irow + 1)
          { frame with data := cols, nrows := frame.nrows + 1 } data2 buf2 ret frame1 data1 h
          hz2 (by simp only; omega) (by simp only; omega) hcols
        exact ⟨r1, r2, by rw [r3]; exact f1, r4, r5, r6,
          fun h0 => le_trans (g0 h0) (r7 (le_trans h0 (g0 h0)))⟩

/-- The frame `Frame_init` returns. -/
theorem Frame_init_some (col_width max_cols max_rows headers : Int) (frame0 : Frame_T)
    (h : Frame_init col_width max_cols max_rows headers = some frame0) :
    frame0.col_width = col_width ∧ frame0.max_cols = max_cols ∧ frame0.max_rows = max_rows ∧
    frame0.ncols = 0 ∧ frame0.nrows = 0 ∧ frame0.data = [] ∧
    frame0.headers = (if headers ≠ 0 then some [] else none) ∧
    frame0.data_loaded = ⟨0, 0, 0, 0⟩ := by
  unfold Frame_init at h
  by_cases hz : col_width = 0 ∨ max_cols = 0 ∨ max_rows = 0
  · rw [if_pos hz] at h
    simp at h
  · rw [if_neg hz] at h
    simp only [Option.some.injEq] at h
    subst h
    exact ⟨rfl, rfl, rfl, rfl, rfl, rfl, rfl, rfl⟩

/-- The source after `Data_mmap_init` and a successful `data_open`. -/
theorem fresh_source (M P : Nat) (path : String) (delim : Nat) (file : List Nat)
    (data0 data1 : Data_T)
    (hsrc : Data_mmap_init M path delim = some data0)
    (hopen : data_open P file data0 = (E_OK, data1)) :
    data1.row_offsets = List.replicate M 0 ∧ data1.nrows = 0 ∧ data1.ncols = 0 ∧
    data1.delim = delim ∧ delim ≠ 0 ∧ data1.st_size = file.length ∧
    data1.ptr = file ++ List.replicate (P - file.length % P) 0 ∧ file.length % P ≠ 0 := by
  unfold Data_mmap_init at hsrc
  by_cases hd : delim = 0 ∨ path.length = 0
  · rw [if_pos hd] at hsrc
    simp at hsrc
  rw [if_neg hd] at hsrc
  simp only [Option.some.injEq] at hsrc
  subst hsrc
  unfold data_open at hopen
  by_cases hp : file.length % P = 0
  · rw [if_pos hp] at hopen
    simp at hopen
  rw [if_neg hp] at hopen
  simp only [Prod.mk.injEq, true_and] at hopen
  subst hopen
  exact ⟨rfl, rfl, rfl, rfl, fun h => hd (Or.inl h), rfl, rfl, hp⟩

/-- A successful `Frame_load` of a fresh frame with a positive `max_cols` from a
freshly opened source establishes the window invariant, with a column count of
the frame between 0 and the column count of the source. -/
theorem Frame_load_fresh (M C P : Nat) (col_width max_cols max_rows headers : Int)
    (path : String) (delim : Nat) (file : List Nat) (frame0 : Frame_T) (data0 data1 : Data_T)
    (frame : Frame_T) (data : Data_T)
    (hpos : 0 < max_cols)
    (hinit : Frame_init col_width max_cols max_rows headers = some frame0)
    (hsrc : Data_mmap_init M path delim = some data0)
    (hopen : data_open P file data0 = (E_OK, data1))
    (hload : Frame_load C frame0 data1 = some (E_OK, frame, data)) :
    WindowInv frame ∧ 0 ≤ frame.ncols ∧ frame.ncols ≤ data.ncols := by
  obtain ⟨-, hf0m, -, -, hf0n, hf0d, -, hf0w⟩ := Frame_init_some _ _ _ _ _ hinit
  obtain ⟨hro, hnr, hnc, -⟩ := fresh_source _ _ _ _ _ _ _ hsrc hopen
  have hzero : ∀ j v, arr_get data1.row_offsets j = some v → v = 0 := by
    intro j v hv
    rw [hro] at hv
    unfold arr_get at hv
    by_cases hj : j < 0
    · rw [if_pos hj] at hv
      simp at hv
    rw [if_neg hj, List.getElem?_replicate] at hv
    by_cases hj2 : j.toNat < M
    · rw [if_pos hj2] at hv
      simp only [Option.some.injEq] at hv
      exact hv.symm
    · rw [if_neg hj2] at hv
      simp at hv
  -- the first row
  unfold Frame_load at hload
  cases hg : get_row data1 (List.replicate C none) 0 0 (frame0.max_cols - 1) with
  | none => rw [hg] at hload; simp at hload
  | some res =>
    obtain ⟨ret, data2, buf2⟩ := res
    rw [hg] at hload
    dsimp only at hload
    by_cases hO : ret ≠ E_OK
    · rw [if_pos hO] at hload
      simp at hload
    rw [if_neg hO] at hload
    have hok : ret = E_OK := by simpa using hO
    obtain ⟨-, -, -, -, g0, -, g2, g3⟩ := get_row_effect _ _ _ _ _ _ _ _ hg
    obtain ⟨next, hnext⟩ := g2 hok
    have hnz : next = 0 := hzero _ _ hnext
    subst hnz
    obtain ⟨n1, t, hset⟩ := g3 hok hnext
    have hnc2 : 0 ≤ data2.ncols := by
      have := g0 (by omega)
      omega
    cases hc : Frame_load_cols buf2
        (if data2.ncols < frame0.max_cols then data2.ncols else frame0.max_cols).toNat 0
        frame0.headers frame0.data with
    | none => rw [hc] at hload; simp at hload
    | some res2 =>
      obtain ⟨headers1, cols1⟩ := res2
      rw [hc] at hload
      dsimp only at hload
      obtain ⟨c1, c2, c3⟩ := Frame_load_cols_spec _ _ _ _ _ _ _ hc
      cases hr : Frame_load_rows (frame0.max_rows - 1).toNat 1
          { frame0 with
            ncols := if data2.ncols < frame0.max_cols then data2.ncols else frame0.max_cols,
            headers := headers1, data := cols1, nrows := frame0.nrows + 1 } data2 buf2 with
      | none => rw [hr] at hload; simp at hload
      | some res3 =>
        obtain ⟨ret3, frame3, data3⟩ := res3
        rw [hr] at hload
        dsimp only at hload
        by_cases hO3 : ret3 ≠ E_OK
        · rw [if_pos hO3] at hload
          simp only [Option.some.injEq, Prod.mk.injEq] at hload
          exact absurd hload.1 hO3
        rw [if_neg hO3] at hload
        simp only [Option.some.injEq, Prod.mk.injEq, true_and] at hload
        obtain ⟨hfr, hdt⟩ := hload
        have hncols : 0 ≤ (if data2.ncols < frame0.max_cols then data2.ncols
            else frame0.max_cols) := by
          split_ifs <;> omega
        obtain ⟨r1, r2, r3, r4, r5, r6, r7⟩ := Frame_load_rows_inv _ _ _ _ _ _ _ _ hr
          (by
            intro j v hj hv
            rw [arr_get_of_arr_set_ne _ _ _ _ _ hset (by omega)] at hv
            exact hzero j v hv)
          (by simp only; omega)
          (by
            simp only
            rw [c1, hf0d]
            simp only [List.length_nil, Nat.zero_add]
            omega)
          (by
            intro col hm
            simp only at hm ⊢
            rcases c3 col hm with hm0 | hl
            · rw [hf0d] at hm0; simp at hm0
            · rw [hl, hf0n, c2]
              omega)
        simp only at r2 r3 r4 r5 r6
        have hlenI : (frame3.data.length : Int) = frame3.ncols := by
          rw [r3, c1, hf0d, r4]
          simp only [List.length_nil, Nat.zero_add]
          omega
        have hfc : frame3.data_loaded.first_col = 0 := by rw [r6, hf0w]
        have hmono := r7 hnc2
        subst hfr
        subst hdt
        refine ⟨⟨?_, ?_, ?_, ?_⟩, ?_, ?_⟩
        · simp only
          omega
        · intro col hm
          simp only at hm ⊢
          have h2 := r2 col hm
          rw [r1] at h2
          rw [r5]
          split_ifs at h2 ⊢ <;> omega
        · simp only
          omega
        · simp only
          rw [r5, r1]
          split_ifs <;> omega
        · simp only
          rw [r4]
          exact hncols
        · simp only
          rw [r4]
          split_ifs <;> omega

/-! ## Shifting a frame -/

/-- A call of `Frame_shift_row` that does not return `E_OK` returns the frame
unchanged. -/
theorem Frame_shift_row_keeps (M : Nat) (frame : Frame_T) (data : Data_T) (n : Int)
    (ret : Code) (frame1 : Frame_T) (data1 : Data_T)
    (h : Frame_shift_row M frame data n = some (ret, frame1, data1)) (hret : ret ≠ E_OK) :
    frame1 = frame := by
  unfold Frame_shift_row at h
  by_cases hn : n ≠ 1 ∧ n ≠ -1
  · rw [if_pos hn] at h
    simp only [Option.some.injEq, Prod.mk.injEq] at h
    exact h.2.1.symm
  rw [if_neg hn] at h
  dsimp only at h
  by_cases hM : (if n = 1 then frame.data_loaded.last_row + 1
      else frame.data_loaded.first_row - 1) + 1 = (M : Int)
  · rw [if_pos hM] at h
    simp only [Option.some.injEq, Prod.mk.injEq] at h
    exact h.2.1.symm
  rw [if_neg hM] at h
  cases hv : vla frame.ncols with
  | none => rw [hv] at h; simp at h
  | some buf =>
    rw [hv] at h
    dsimp only at h
    cases hg : get_row data buf
        (if n = 1 then frame.data_loaded.last_row + 1 else frame.data_loaded.first_row - 1)
        0 (frame.ncols - 1) with
    | none => rw [hg] at h; simp at h
    | some res =>
      obtain ⟨ret2, data2, buf2⟩ := res
      rw [hg] at h
      dsimp only at h
      by_cases hE : ret2 = E_DTA_EOF
      · rw [if_pos hE] at h
        simp only [Option.some.injEq, Prod.mk.injEq] at h
        exact h.2.1.symm
      rw [if_neg hE] at h
      by_cases hO : ret2 ≠ E_OK
      · rw [if_pos hO] at h
        simp only [Option.some.injEq, Prod.mk.injEq] at h
        exact h.2.1.symm
      rw [if_neg hO] at h
      cases hc : Frame_shift_row_cols n buf2
          (frame.data_loaded.last_col - frame.data_loaded.first_col + 1).toNat 0 frame.data with
      | none => rw [hc] at h; simp at h
      | some cols =>
        rw [hc] at h
        simp only [Option.some.injEq, Prod.mk.injEq] at h
        exact absurd h.1.symm hret

/-- `Frame_shift_row` preserves the window invariant, whatever it returns. -/
theorem Frame_shift_row_inv (M : Nat) (frame : Frame_T) (data : Data_T) (n : Int)
    (ret : Code) (frame1 : Frame_T) (data1 : Data_T)
    (h : Frame_shift_row M frame data n = some (ret, frame1, data1))
    (hw : WindowInv frame) : WindowInv frame1 := by
  by_cases hret : ret = E_OK
  · subst hret
    obtain ⟨-, -, buf, buf1, cols, -, -, hc, hf⟩ := Frame_shift_row_ok M frame data n _ _ h
    have hc' : Frame_shift_row_cols n buf1
        (frame.data_loaded.last_col - frame.data_loaded.first_col + 1).toNat ((0 : Nat) : Int)
        frame.data = some cols := by simpa using hc
    obtain ⟨e1, e3, e4⟩ := Frame_shift_row_cols_spec n buf1 _ 0 frame.data cols hc'
    subst hf
    refine ⟨?_, ?_, ?_, ?_⟩
    · simp only
      rw [e1]
      exact hw.cols
    · intro col hm
      simp only at hm ⊢
      obtain ⟨j, hj⟩ := List.mem_iff_getElem?.mp hm
      have hlen : ∃ c0 ∈ frame.data, col.length = c0.length := by
        by_cases hin : j < 0 + (frame.data_loaded.last_col
            - frame.data_loaded.first_col + 1).toNat
        · obtain ⟨c0, c1, x, y, a1, -, a3, a4⟩ := e4 j (by omega) hin
          rw [a4] at hj
          simp only [Option.some.injEq] at hj
          refine ⟨c0, List.mem_iff_getElem?.mpr ⟨j, a1⟩, ?_⟩
          subst hj
          by_cases h1 : n = 1
          · rw [if_pos h1] at a3 ⊢
            rw [Deque_remlo_eq_some] at a3
            subst a3
            simp [Deque_addhi]
          · rw [if_neg h1] at a3 ⊢
            rw [Deque_remhi_eq_some] at a3
            subst a3
            simp [Deque_addlo]
        · rw [e3 j (by omega)] at hj
          exact ⟨col, List.mem_iff_getElem?.mpr ⟨j, hj⟩, rfl⟩
      obtain ⟨c0, hc0, hl⟩ := hlen
      have := hw.rows c0 hc0
      omega
    · simp only
      exact hw.ncols_eq
    · simp only
      have := hw.nrows_eq
      omega
  · rw [Frame_shift_row_keeps M frame data n ret frame1 data1 h hret]
    exact hw

/-- The loop that fills the new column of `Frame_shift_col` appends the entries
`i .. i + k - 1` of `data_buf` to the column. -/
theorem Frame_shift_col_fill_spec (data_buf : List Ptr) :
    ∀ (k i : Nat) (col col1 : List Ptr),
      Frame_shift_col_fill data_buf k (i : Int) col = some col1 →
      col1 = col ++ (data_buf.drop i).take k ∧ (k = 0 ∨ i + k ≤ data_buf.length) := by
  intro k
  induction k with
  | zero =>
    intro i col col1 h
    simp only [Frame_shift_col_fill, Option.some.injEq] at h
    subst h
    simp
  | succ k ih =>
    intro i col col1 h
    unfold Frame_shift_col_fill at h
    rw [arr_get_natCast] at h
    cases hx : data_buf[i]? with
    | none => rw [hx] at h; simp at h
    | some x =>
      rw [hx] at h
      dsimp only at h
      have h' : Frame_shift_col_fill data_buf k ((i + 1 : Nat) : Int) (Deque_addhi col x)
          = some col1 := by simpa using h
      obtain ⟨e1, e2⟩ := ih (i + 1) _ _ h'
      obtain ⟨hi, hxi⟩ := List.getElem?_eq_some.mp hx
      refine ⟨?_, Or.inr (by omega)⟩
      rw [e1, List.drop_eq_getElem_cons hi, hxi]
      simp [Deque_addhi]

/-- A successful `Frame_shift_col`: the column index is below `data->ncols`, the
header field and the column were fetched with `get_col`, and the result is
the frame with the header deque and the column deque shifted and the column
bounds moved by `n`. -/
theorem Frame_shift_col_ok (frame : Frame_T) (data : Data_T) (n : Int) (frame1 : Frame_T)
    (h : Frame_shift_col frame data n = some (E_OK, frame1)) :
    (n = 1 ∨ n = -1) ∧
    (if n = 1 then frame.data_loaded.last_col + 1 else frame.data_loaded.first_col - 1)
      < data.ncols ∧
    ∃ data_buf0 hbuf data_buf hs c0 cols1 col,
      vla frame.nrows = some data_buf0 ∧
      (if frame.headers.isSome then
          get_col data [none]
            (if n = 1 then frame.data_loaded.last_col + 1 else frame.data_loaded.first_col - 1)
            0 0
        else some (E_OK, [none])) = some (E_OK, hbuf) ∧
      get_col data data_buf0
        (if n = 1 then frame.data_loaded.last_col + 1 else frame.data_loaded.first_col - 1)
        frame.data_loaded.first_row frame.data_loaded.last_row = some (E_OK, data_buf) ∧
      Frame_shift_col_headers n hbuf frame.headers = some hs ∧
      (if n = 1 then Deque_remlo frame.data else Deque_remhi frame.data) = some (c0, cols1) ∧
      Frame_shift_col_fill data_buf
        (frame.nrows - (if frame.headers.isSome then 1 else 0)).toNat 0 Deque_new = some col ∧
      frame1 = { frame with
                  headers := hs,
                  data := if n = 1 then Deque_addhi cols1 col else Deque_addlo cols1 col,
                  data_loaded :=
                    { frame.data_loaded with
                      first_col := frame.data_loaded.first_col + n,
                      last_col := frame.data_loaded.last_col + n } } := by
  unfold Frame_shift_col at h
  by_cases hn : n ≠ 1 ∧ n ≠ -1
  · rw [if_pos hn] at h
    simp at h
  rw [if_neg hn] at h
  dsimp only at h
  by_cases hM : (if n = 1 then frame.data_loaded.last_col + 1
      else frame.data_loaded.first_col - 1) ≥ data.ncols
  · rw [if_pos hM] at h
    simp at h
  rw [if_neg hM] at h
  have hn' : n = 1 ∨ n = -1 := by
    by_cases h1 : n = 1
    · exact Or.inl h1
    · right; by_contra h2; exact hn ⟨h1, h2⟩
  refine ⟨hn', by omega, ?_⟩
  cases hv : vla frame.nrows with
  | none => rw [hv] at h; simp at h
  | some data_buf0 =>
    rw [hv] at h
    dsimp only at h
    cases hh : (if frame.headers.isSome then
          get_col data [none]
            (if n = 1 then frame.data_loaded.last_col + 1 else frame.data_loaded.first_col - 1)
            0 0
        else some (E_OK, [none])) with
    | none => rw [hh] at h; simp at h
    | some res =>
      obtain ⟨hret, hbuf⟩ := res
      rw [hh] at h
      dsimp only at h
      by_cases hO : hret ≠ E_OK
      · rw [if_pos hO] at h
        simp at h
      rw [if_neg hO] at h
      have hok : hret = E_OK := by simpa using hO
      subst hok
      cases hg : get_col data data_buf0
          (if n = 1 then frame.data_loaded.last_col + 1 else frame.data_loaded.first_col - 1)
          frame.data_loaded.first_row frame.data_loaded.last_row with
      | none => rw [hg] at h; simp at h
      | some res2 =>
        obtain ⟨ret, data_buf⟩ := res2
        rw [hg] at h
        dsimp only at h
        by_cases hO2 : ret ≠ E_OK
        · rw [if_pos hO2] at h
          simp at h
        rw [if_neg hO2] at h
        have hok2 : ret = E_OK := by simpa using hO2
        subst hok2
        cases hhs : Frame_shift_col_headers n hbuf frame.headers with
        | none => rw [hhs] at h; simp at h
        | some hs =>
          cases hp : (if n = 1 then Deque_remlo frame.data else Deque_remhi frame.data) with
          | none => rw [hhs, hp] at h; simp at h
          | some pc =>
            obtain ⟨c0, cols1⟩ := pc
            cases hfill : Frame_shift_col_fill data_buf
                (frame.nrows - (if frame.headers.isSome then 1 else 0)).toNat 0 Deque_new with
            | none => rw [hhs, hp, hfill] at h; simp at h
            | some col =>
              rw [hhs, hp, hfill] at h
              simp only [Option.some.injEq, Prod.mk.injEq, true_and] at h
              exact ⟨data_buf0, hbuf, data_buf, hs, c0, cols1, col,
                rfl, rfl, hg, hhs, rfl, hfill, h.symm⟩

/-- A call of `Frame_shift_col` that does not return `E_OK` returns the frame
unchanged. -/
theorem Frame_shift_col_keeps (frame : Frame_T) (data : Data_T) (n : Int)
    (ret : Code) (frame1 : Frame_T)
    (h : Frame_shift_col frame data n = some (ret, frame1)) (hret : ret ≠ E_OK) :
    frame1 = frame := by
  unfold Frame_shift_col at h
  by_cases hn : n ≠ 1 ∧ n ≠ -1
  · rw [if_pos hn] at h
    simp only [Option.some.injEq, Prod.mk.injEq] at h
    exact h.2.symm
  rw [if_neg hn] at h
  dsimp only at h
  by_cases hM : (if n = 1 then frame.data_loaded.last_col + 1
      else frame.data_loaded.first_col - 1) ≥ data.ncols
  · rw [if_pos hM] at h
    simp only [Option.some.injEq, Prod.mk.injEq] at h
    exact h.2.symm
  rw [if_neg hM] at h
  cases hv : vla frame.nrows with
  | none => rw [hv] at h; simp at h
  | some data_buf0 =>
    rw [hv] at h
    dsimp only at h
    cases hh : (if frame.headers.isSome then
          get_col data [none]
            (if n = 1 then frame.data_loaded.last_col + 1 else frame.data_loaded.first_col - 1)
            0 0
        else some (E_OK, [none])) with
    | none => rw [hh] at h; simp at h
    | some res =>
      obtain ⟨hret2, hbuf⟩ := res
      rw [hh] at h
      dsimp only at h
      by_cases hO : hret2 ≠ E_OK
      · rw [if_pos hO] at h
        simp only [Option.some.injEq, Prod.mk.injEq] at h
        exact h.2.symm
      rw [if_neg hO] at h
      cases hg : get_col data data_buf0
          (if n = 1 then frame.data_loaded.last_col + 1 else frame.data_loaded.first_col - 1)
          frame.data_loaded.first_row frame.data_loaded.last_row with
      | none => rw [hg] at h; simp at h
      | some res2 =>
        obtain ⟨ret2, data_buf⟩ := res2
        rw [hg] at h
        dsimp only at h
        by_cases hO2 : ret2 ≠ E_OK
        · rw [if_pos hO2] at h
          simp only [Option.some.injEq, Prod.mk.injEq] at h
          exact h.2.symm
        rw [if_neg hO2] at h
        cases hhs : Frame_shift_col_headers n hbuf frame.headers with
        | none => rw [hhs] at h; simp at h
        | some hs =>
          cases hp : (if n = 1 then Deque_remlo frame.data else Deque_remhi frame.data) with
          | none => rw [hhs, hp] at h; simp at h
          | some pc =>
            obtain ⟨c0, cols1⟩ := pc
            cases hfill : Frame_shift_col_fill data_buf
                (frame.nrows - (if frame.headers.isSome then 1 else 0)).toNat 0 Deque_new with
            | none => rw [hhs, hp, hfill] at h; simp at h
            | some col =>
              rw [hhs, hp, hfill] at h
              simp only [Option.some.injEq, Prod.mk.injEq] at h
              exact absurd h.1.symm hret

/-- `Frame_shift_col` preserves the window invariant, whatever it returns. -/
theorem Frame_shift_col_inv (frame : Frame_T) (data : Data_T) (n : Int)
    (ret : Code) (frame1 : Frame_T)
    (h : Frame_shift_col frame data n = some (ret, frame1))
    (hw : WindowInv frame) : WindowInv frame1 := by
  by_cases hret : ret = E_OK
  · subst hret
    obtain ⟨hn, -, data_buf0, hbuf, data_buf, hs, c0, cols1, col, -, -, -, hhs, hp, hfill, hf⟩ :=
      Frame_shift_col_ok frame data n frame1 h
    have hfill' : Frame_shift_col_fill data_buf
        (frame.nrows - (if frame.headers.isSome then 1 else 0)).toNat ((0 : Nat) : Int) []
        = some col := by simpa [Deque_new] using hfill
    obtain ⟨e1, -⟩ := Frame_shift_col_fill_spec data_buf _ 0 [] col hfill'
    -- the header deque is present afterwards exactly when it was before
    have hsome : hs.isSome = frame.headers.isSome := by
      unfold Frame_shift_col_headers at hhs
      cases hhd : frame.headers with
      | none =>
        rw [hhd] at hhs
        simp only [Option.some.injEq] at hhs
        subst hhs
        rfl
      | some hd =>
        rw [hhd] at hhs
        dsimp only at hhs
        cases hpop : (if n = 1 then Deque_remlo hd else Deque_remhi hd) with
        | none => rw [hpop] at hhs; simp at hhs
        | some pc =>
          cases hx : arr_get hbuf 0 with
          | none => rw [hpop, hx] at hhs; simp at hhs
          | some x =>
            rw [hpop, hx] at hhs
            simp only [Option.some.injEq] at hhs
            subst hhs
            rfl
    -- the column taken out and the columns left
    have hdata : frame.data = (if n = 1 then c0 :: cols1 else cols1 ++ [c0]) := by
      by_cases h1 : n = 1
      · rw [if_pos h1] at hp ⊢
        exact (Deque_remlo_eq_some _ _ _).mp hp
      · rw [if_neg h1] at hp ⊢
        exact (Deque_remhi_eq_some _ _ _).mp hp
    have hc0 : c0 ∈ frame.data := by
      rw [hdata]
      split_ifs <;> simp
    have hsub : ∀ c ∈ cols1, c ∈ frame.data := by
      intro c hc
      rw [hdata]
      split_ifs <;> simp [hc]
    have hlen0 := hw.rows c0 hc0
    have hnr := hw.nrows_eq
    have hcollen : (col.length : Int)
        = frame.data_loaded.last_row - frame.data_loaded.first_row + 1 := by
      rw [e1]
      simp only [List.nil_append, List.drop_zero, List.length_take]
      have hfl : (frame.nrows - (if frame.headers.isSome then 1 else 0)).toNat
          ≤ data_buf.length := by
        have h2 := (Frame_shift_col_fill_spec data_buf _ 0 [] col hfill').2
        omega
      omega
    have hlenD : (if n = 1 then Deque_addhi cols1 col else Deque_addlo cols1 col).length
        = frame.data.length := by
      rw [hdata]
      split_ifs <;> simp [Deque_addhi, Deque_addlo]
    subst hf
    refine ⟨?_, ?_, ?_, ?_⟩
    · simp only
      rw [hlenD]
      have := hw.cols
      omega
    · intro c hm
      simp only at hm ⊢
      have hcases : c ∈ cols1 ∨ c = col := by
        by_cases h1 : n = 1
        · rw [if_pos h1] at hm
          simpa [Deque_addhi] using hm
        · rw [if_neg h1] at hm
          simp only [Deque_addlo, List.mem_cons] at hm
          exact hm.symm
      rcases hcases with hc | rfl
      · exact hw.rows c (hsub c hc)
      · exact hcollen
    · simp only
      have := hw.ncols_eq
      omega
    · simp only
      rw [hsome]
      exact hnr
  · rw [Frame_shift_col_keeps frame data n ret frame1 h hret]
    exact hw

/-- Every state a session reaches satisfies the window invariant. -/
theorem reach_window (M C P : Nat) (frame : Frame_T) (data : Data_T)
    (h : Reach M C P frame data) : WindowInv frame := by
  induction h with
  | load cw mc mr hd path delim file frame0 data0 data1 frame data hpos hinit hsrc hopen
      hload =>
    exact (Frame_load_fresh M C P cw mc mr hd path delim file frame0 data0 data1 frame data
      hpos hinit hsrc hopen hload).1
  | shift_row frame data n ret frame1 data1 _ hshift ih =>
    exact Frame_shift_row_inv M frame data n ret frame1 data1 hshift ih
  | shift_col frame data n ret frame1 _ hshift ih =>
    exact Frame_shift_col_inv frame data n ret frame1 hshift ih

/-- C4 (window invariant), amended: in every state a session reaches from a
fresh frame (`Frame_init` with `max_cols > 0`) and a freshly opened source by a
successful `Frame_load` followed by any calls of `Frame_shift_row` and
`Frame_shift_col`, the number of column buffers in `frame->data` is
`last_col - first_col + 1` and every column buffer has length
`last_row - first_row + 1`. -/
theorem window_invariant (M C P : Nat) (frame : Frame_T) (data : Data_T)
    (h : Reach M C P frame data) :
    (frame.data.length : Int)
      = frame.data_loaded.last_col - frame.data_loaded.first_col + 1 ∧
    ∀ col ∈ frame.data, (col.length : Int)
      = frame.data_loaded.last_row - frame.data_loaded.first_row + 1 :=
  ⟨(reach_window M C P frame data h).cols, (reach_window M C P frame data h).rows⟩

/-! ## The claims about the frame -/

/-- Witness of C2: the loaded one-column frame `narrow2` is shifted down by one
row; its only column loses its lowest element and gains one at the high end. -/
theorem Frame_shift_row_ok_shape_witness :
    Frame_shift_row 8 narrow2 csv2_row0 1 = some (E_OK, narrow3, csv2_rows01) ∧
    (∃ x y rest, narrow2.data[0]? = some (y :: rest) ∧ narrow3.data[0]? = some (rest ++ [x])) ∧
    narrow3.data_loaded.first_row = narrow2.data_loaded.first_row + 1 ∧
    narrow3.data_loaded.last_row = narrow2.data_loaded.last_row + 1 := by
  have h := Frame_shift_row_ok_shape 8 narrow2 csv2_row0 1 narrow3 csv2_rows01
    (by decide) (by decide)
  obtain ⟨-, -, hcol, hfr, hlr, -⟩ := h
  obtain ⟨x, y, rest, h1, -⟩ := hcol 0 (by decide)
  exact ⟨by decide, ⟨x, y, rest, h1 rfl⟩, hfr, hlr⟩

/-- C1 (the code differs from the claim): the one-column frame loaded from the
file `a,b` / `c,d` and shifted one column to the right holds source column 1
(`first_col = 1`).  `Frame_shift_row(+1)` then returns `E_OK` and adds to its
column the token at offset 4, which is the field of row 1 and source column 0
(`c`), while the field of row 1 and source column `first_col + 0 = 1` is at
offset 6 (`d`). -/
theorem Frame_shift_row_ignores_first_col :
    Frame_load 4 narrow0 csv2_open = some (E_OK, narrow1, csv2_row0) ∧
    Frame_shift_col narrow1 csv2_row0 1 = some (E_OK, narrow2) ∧
    narrow2.data_loaded.first_col = 1 ∧
    Frame_shift_row 8 narrow2 csv2_row0 1 = some (E_OK, narrow3, csv2_rows01) ∧
    narrow3.data = [[some 4]] ∧
    get_row csv2_row0 [none] 1 0 0 = some (E_OK, csv2_rows01, [some 4]) ∧
    get_row csv2_row0 [none] 1 1 1 = some (E_OK, csv2_rows01, [some 6]) := by
  decide

/-- C3 (the code differs from the claim): on the frame loaded from `a,b` / `c,d`
with `first_col = 0`, `Frame_shift_col(-1)` asks `get_col` for column `-1`, which
returns `E_OK` with `NULL` for every row, and the frame gets a new column of
`NULL` pointers at the low edge: its elements are not fields of the source. -/
theorem Frame_shift_col_null_column :
    Frame_load 4 wide0 csv2_open = some (E_OK, wide1, csv2_rows01) ∧
    wide1.data_loaded.first_col = 0 ∧
    get_col csv2_rows01 [none, none] (-1) 0 1 = some (E_OK, [none, none]) ∧
    (Frame_shift_col wide1 csv2_rows01 (-1)).map (fun r => (r.1, r.2.data))
      = some (E_OK, [[none, none], [some 0, some 4]]) := by
  decide

/-- Witness of C4, amended: the frame `narrow3` is reached by `Frame_load`, one
`Frame_shift_col(+1)` and one `Frame_shift_row(+1)`; it has one column buffer for
the column span 1..1 and that buffer has one element for the row span 1..1. -/
theorem window_invariant_witness :
    (narrow3.data.length : Int)
      = narrow3.data_loaded.last_col - narrow3.data_loaded.first_col + 1 ∧
    ∀ col ∈ narrow3.data, (col.length : Int)
      = narrow3.data_loaded.last_row - narrow3.data_loaded.first_row + 1 :=
  window_invariant 8 4 16 narrow3 csv2_rows01
    (Reach.shift_row narrow2 csv2_row0 1 E_OK narrow3 csv2_rows01
      (Reach.shift_col narrow1 csv2_row0 1 E_OK narrow2
        (Reach.load 10 1 1 0 "f" 44 csv2 narrow0 csv2_init csv2_open narrow1 csv2_row0
          (by decide) (by decide) (by decide) (by decide) (by decide))
        (by decide))
      (by decide))

/-- C5 (the code differs from the claim): from the loaded frame `narrow2`
(`first_col = 1`, holding offset 2, the field `b`), `Frame_shift_row(+1)` returns
`E_OK` and the following `Frame_shift_row(-1)` returns `E_OK` and restores the
bounds, but the column now holds offset 0 (the field `a` of source column 0)
instead of offset 2. -/
theorem Frame_shift_row_down_up_differs :
    Frame_load 4 narrow0 csv2_open = some (E_OK, narrow1, csv2_row0) ∧
    Frame_shift_col narrow1 csv2_row0 1 = some (E_OK, narrow2) ∧
    Frame_shift_row 8 narrow2 csv2_row0 1 = some (E_OK, narrow3, csv2_rows01) ∧
    Frame_shift_row 8 narrow3 csv2_rows01 (-1) = some (E_OK, narrow4, csv2_rows01) ∧
    narrow4.data_loaded = narrow2.data_loaded ∧
    narrow2.data = [[some 2]] ∧ narrow4.data = [[some 0]] := by
  decide

/-- C6 as stated fails when the row after the last one would need the last
entry of the offset array: with `MAX_ROWS = 3` the two-row file `a` / `b` is
loaded whole, the end offset of its last row is recorded as the file's size,
and `Frame_shift_row(+1)` returns `E_DTA_MAX_ROWS`, not `E_DTA_EOF`. -/
theorem Frame_shift_row_max_rows_before_eof :
    Frame_load 4 tall0 two_lines_open = some (E_OK, tall1, two_lines_done) ∧
    arr_get two_lines_done.row_offsets (tall1.data_loaded.last_row + 1)
      = some two_lines_done.st_size ∧
    Frame_shift_row 3 tall1 two_lines_done 1 = some (E_DTA_MAX_ROWS, tall1, two_lines_done) := by
  decide

/-- C7 (the code differs from the claim): on the frame loaded from `a,b` / `c,d`
with `first_col = 0`, the new column index of `Frame_shift_col(-1)` is `-1`, outside
`[0, ncols)`, yet the call returns `E_OK` and changes the frame: `first_col`
becomes `-1`, `last_col` becomes 0 and the column buffers are replaced. -/
theorem Frame_shift_col_negative_index :
    Frame_load 4 wide0 csv2_open = some (E_OK, wide1, csv2_rows01) ∧
    wide1.data_loaded.first_col - 1 = -1 ∧
    Frame_shift_col wide1 csv2_rows01 (-1) = some (E_OK, wide_left) ∧
    wide_left.data_loaded.first_col = -1 ∧ wide_left.data_loaded.last_col = 0 ∧
    wide_left.data ≠ wide1.data := by
  decide

/-! ## The iteration bound of the row loops -/

/-- A call of `get_tok_r` whose cursor is outside the mapping has no result. -/
theorem get_tok_r_outside (mem : List Nat) (tok : Ptr) (str : Int) (d : Nat) (saveptr : Ptr)
    (len : Int) (h : mem.length ≤ (saveptr.getD str).toNat) :
    get_tok_r mem tok str d saveptr len = none := by
  unfold get_tok_r
  dsimp only
  by_cases hneg : saveptr.getD str < 0
  · rw [if_pos hneg]
  · rw [if_neg hneg, List.drop_eq_nil_of_le h]
    rfl

/-- A call of `get_tok_r` that does not return `TOK_EOF` moves the cursor forward. -/
theorem get_tok_r_advance (mem : List Nat) (tok : Ptr) (str : Int) (d : Nat) (saveptr : Ptr)
    (len : Int) (r : TokRes) (h : get_tok_r mem tok str d saveptr len = some r)
    (hk : r.err ≠ TOK_EOF) :
    (saveptr.getD str).toNat + 1 ≤ (r.saveptr.getD str).toNat := by
  obtain ⟨hnn, m, c, -, -, -, hcase⟩ := get_tok_r_spec mem tok str d saveptr len r h
  rcases hcase with ⟨-, hE, -⟩ | ⟨-, hs, -⟩
  · exact absurd hE hk
  · rw [hs]
    simp only [Option.getD_some]
    omega

/-- The first-visit loop of `get_row` does not depend on its iteration bound once
the bound exceeds the number of mapped bytes from the cursor on: the bound
that `get_row` passes never cuts the loop short. -/
theorem get_row_scan_fuel (mem : List Nat) (delim : Nat) (str len cs ce : Int) :
    ∀ (f1 f2 : Nat) (saveptr tok : Ptr) (icol i total ncols : Int) (buf : List Ptr),
      mem.length + 1 ≤ f1 + (saveptr.getD str).toNat →
      mem.length + 1 ≤ f2 + (saveptr.getD str).toNat →
      get_row_scan mem delim str len cs ce f1 saveptr tok icol i total ncols buf
        = get_row_scan mem delim str len cs ce f2 saveptr tok icol i total ncols buf := by
  intro f1
  induction f1 with
  | zero =>
    intro f2 saveptr tok icol i total ncols buf h1 h2
    cases f2 with
    | zero => rfl
    | succ j =>
      unfold get_row_scan
      rw [get_tok_r_outside mem tok str delim saveptr len (by omega)]
  | succ k ih =>
    intro f2 saveptr tok icol i total ncols buf h1 h2
    cases f2 with
    | zero =>
      unfold get_row_scan
      rw [get_tok_r_outside mem tok str delim saveptr len (by omega)]
    | succ j =>
      unfold get_row_scan
      cases hg : get_tok_r mem tok str delim saveptr len with
      | none => rfl
      | some r =>
        dsimp only
        by_cases hE : r.err = TOK_ERR
        · rw [if_pos hE, if_pos hE]
        rw [if_neg hE, if_neg hE]
        by_cases hF : r.err = TOK_EOF
        · rw [if_pos hF, if_pos hF]
        rw [if_neg hF, if_neg hF]
        cases hb : (if cs ≤ icol ∧ (icol ≤ ce ∨ ce = -1) then arr_set buf i r.tok
            else some buf) with
        | none => rfl
        | some buf1 =>
          dsimp only
          by_cases hL : r.err = TOK_EOL
          · rw [if_pos hL, if_pos hL]
          rw [if_neg hL, if_neg hL]
          have hadv := get_tok_r_advance mem tok str delim saveptr len r hg hF
          exact ih j _ _ _ _ _ _ _ (by omega) (by omega)

/-- The repeat-visit loop of `get_row` does not depend on its iteration bound
once the bound exceeds the number of mapped bytes from the cursor on. -/
theorem get_row_cached_fuel (mem : List Nat) (delim : Nat) (str len cs ce : Int) :
    ∀ (f1 f2 : Nat) (saveptr tok : Ptr) (icol i : Int) (buf : List Ptr),
      mem.length + 1 ≤ f1 + (saveptr.getD str).toNat →
      mem.length + 1 ≤ f2 + (saveptr.getD str).toNat →
      get_row_cached mem delim str len cs ce f1 saveptr tok icol i buf
        = get_row_cached mem delim str len cs ce f2 saveptr tok icol i buf := by
  intro f1
  induction f1 with
  | zero =>
    intro f2 saveptr tok icol i buf h1 h2
    cases f2 with
    | zero => rfl
    | succ j =>
      unfold get_row_cached
      rw [get_tok_r_outside mem tok str delim saveptr len (by omega)]
  | succ k ih =>
    intro f2 saveptr tok icol i buf h1 h2
    cases f2 with
    | zero =>
      unfold get_row_cached
      rw [get_tok_r_outside mem tok str delim saveptr len (by omega)]
    | succ j =>
      unfold get_row_cached
      cases hg : get_tok_r mem tok str delim saveptr len with
      | none => rfl
      | some r =>
        dsimp only
        by_cases hE : r.err &&& (TOK_ERR ||| TOK_EOF) ≠ 0
        · rw [if_pos hE, if_pos hE]
        rw [if_neg hE, if_neg hE]
        cases hb : (if cs ≤ icol ∧ icol ≤ ce then arr_set buf i r.tok else some buf) with
        | none => rfl
        | some buf1 =>
          dsimp only
          by_cases hL : icol = ce
          · rw [if_pos hL, if_pos hL]
          rw [if_neg hL, if_neg hL]
          have hF : r.err ≠ TOK_EOF := by
            intro hF
            apply hE
            rw [hF]
            decide
          have hadv := get_tok_r_advance mem tok str delim saveptr len r hg hF
          exact ih j _ _ _ _ _ (by omega) (by omega)

/-! ## The end-of-file boundary -/

/-- `Frame_shift_row` keeps `frame->ncols` and never lowers a non-negative
`data->ncols`, whatever it returns. -/
theorem Frame_shift_row_ncols (M : Nat) (frame : Frame_T) (data : Data_T) (n : Int)
    (ret : Code) (frame1 : Frame_T) (data1 : Data_T)
    (h : Frame_shift_row M frame data n = some (ret, frame1, data1)) :
    frame1.ncols = frame.ncols ∧ (0 ≤ data.ncols → data.ncols ≤ data1.ncols) := by
  unfold Frame_shift_row at h
  by_cases hn : n ≠ 1 ∧ n ≠ -1
  · rw [if_pos hn] at h
    simp only [Option.some.injEq, Prod.mk.injEq] at h
    obtain ⟨-, rfl, rfl⟩ := h
    exact ⟨rfl, fun _ => le_refl _⟩
  rw [if_neg hn] at h
  dsimp only at h
  by_cases hM : (if n = 1 then frame.data_loaded.last_row + 1
      else frame.data_loaded.first_row - 1) + 1 = (M : Int)
  · rw [if_pos hM] at h
    simp only [Option.some.injEq, Prod.mk.injEq] at h
    obtain ⟨-, rfl, rfl⟩ := h
    exact ⟨rfl, fun _ => le_refl _⟩
  rw [if_neg hM] at h
  cases hv : vla frame.ncols with
  | none => rw [hv] at h; simp at h
  | some buf =>
    rw [hv] at h
    dsimp only at h
    cases hg : get_row data buf
        (if n = 1 then frame.data_loaded.last_row + 1 else frame.data_loaded.first_row - 1)
        0 (frame.ncols - 1) with
    | none => rw [hg] at h; simp at h
    | some res =>
      obtain ⟨ret2, data2, buf2⟩ := res
      rw [hg] at h
      dsimp only at h
      obtain ⟨-, -, -, -, g0, -⟩ := get_row_effect _ _ _ _ _ _ _ _ hg
      by_cases hE : ret2 = E_DTA_EOF
      · rw [if_pos hE] at h
        simp only [Option.some.injEq, Prod.mk.injEq] at h
        obtain ⟨-, rfl, rfl⟩ := h
        exact ⟨rfl, g0⟩
      rw [if_neg hE] at h
      by_cases hO : ret2 ≠ E_OK
      · rw [if_pos hO] at h
        simp only [Option.some.injEq, Prod.mk.injEq] at h
        obtain ⟨-, rfl, rfl⟩ := h
        exact ⟨rfl, g0⟩
      rw [if_neg hO] at h
      cases hc : Frame_shift_row_cols n buf2
          (frame.data_loaded.last_col - frame.data_loaded.first_col + 1).toNat 0 frame.data with
      | none => rw [hc] at h; simp at h
      | some cols =>
        rw [hc] at h
        simp only [Option.some.injEq, Prod.mk.injEq] at h
        obtain ⟨-, rfl, rfl⟩ := h
        exact ⟨rfl, g0⟩

/-- `Frame_shift_col` keeps `frame->ncols`, whatever it returns. -/
theorem Frame_shift_col_ncols (frame : Frame_T) (data : Data_T) (n : Int)
    (ret : Code) (frame1 : Frame_T)
    (h : Frame_shift_col frame data n = some (ret, frame1)) :
    frame1.ncols = frame.ncols := by
  by_cases hret : ret = E_OK
  · subst hret
    obtain ⟨-, -, _, _, _, _, _, _, _, -, -, -, -, -, -, hf⟩ :=
      Frame_shift_col_ok frame data n frame1 h
    rw [hf]
  · rw [Frame_shift_col_keeps frame data n ret frame1 h hret]

/-- In every state a session reaches, the column count of the frame lies between
0 and the column count of the source. -/
theorem reach_ncols (M C P : Nat) (frame : Frame_T) (data : Data_T)
    (h : Reach M C P frame data) : 0 ≤ frame.ncols ∧ frame.ncols ≤ data.ncols := by
  induction h with
  | load cw mc mr hd path delim file frame0 data0 data1 frame data hpos hinit hsrc hopen
      hload =>
    exact (Frame_load_fresh M C P cw mc mr hd path delim file frame0 data0 data1 frame data
      hpos hinit hsrc hopen hload).2
  | shift_row frame data n ret frame1 data1 _ hshift ih =>
    obtain ⟨e1, e2⟩ := Frame_shift_row_ncols M frame data n ret frame1 data1 hshift
    have := e2 (by omega)
    rw [e1]
    exact ⟨ih.1, by omega⟩
  | shift_col frame data n ret frame1 _ hshift ih =>
    rw [Frame_shift_col_ncols frame data n ret frame1 hshift]
    exact ih

/-- C6 (amended): in every state a session reaches (a loaded frame) with
`last_row >= 0` in which the last loaded row ends at the end of the file
(`row_offsets[last_row + 1] == st_size`), unless `last_row + 2 == MAX_ROWS`,
`Frame_shift_row(frame, data, +1)` returns `E_DTA_EOF` and leaves the frame (bounds
and column buffers) and the source unchanged. -/
theorem Frame_shift_row_eof (M C P : Nat) (frame : Frame_T) (data : Data_T)
    (hreach : Reach M C P frame data)
    (hr : 0 ≤ frame.data_loaded.last_row)
    (hM : frame.data_loaded.last_row + 2 ≠ (M : Int))
    (heof : arr_get data.row_offsets (frame.data_loaded.last_row + 1) = some data.st_size) :
    Frame_shift_row M frame data 1 = some (E_DTA_EOF, frame, data) := by
  obtain ⟨hn, hc⟩ := reach_ncols M C P frame data hreach
  unfold Frame_shift_row
  rw [if_neg (by omega)]
  dsimp only
  rw [if_pos rfl, if_neg (by omega)]
  have hv : vla frame.ncols = some (List.replicate frame.ncols.toNat none) := by
    unfold vla
    rw [if_neg (by omega)]
  rw [hv]
  dsimp only
  have hg : get_row data (List.replicate frame.ncols.toNat none)
      (frame.data_loaded.last_row + 1) 0 (frame.ncols - 1)
      = some (E_DTA_EOF, data, List.replicate frame.ncols.toNat none) := by
    unfold get_row
    rw [if_neg (by omega)]
    dsimp only
    rw [heof]
    dsimp only
    rw [if_pos ⟨by omega, rfl⟩]
  rw [hg]
  dsimp only
  rw [if_pos rfl]

/-- Witness of C6: the frame `wide1` holds both rows of the file `a,b` / `c,d`
(`MAX_ROWS = 8`), the end offset of row 1 is the size of the file, and
`Frame_shift_row(+1)` returns `E_DTA_EOF`. -/
theorem Frame_shift_row_eof_witness :
    arr_get csv2_rows01.row_offsets (wide1.data_loaded.last_row + 1)
      = some csv2_rows01.st_size ∧
    Frame_shift_row 8 wide1 csv2_rows01 1 = some (E_DTA_EOF, wide1, csv2_rows01) :=
  ⟨by decide,
   Frame_shift_row_eof 8 4 16 wide1 csv2_rows01
     (Reach.load 10 2 2 0 "f" 44 csv2 wide0 csv2_init csv2_open wide1 csv2_rows01
       (by decide) (by decide) (by decide) (by decide) (by decide))
     (by decide) (by decide) (by decide)⟩

/-! ## Column access -/

/-- The initial value of `*tok` matters to `get_tok_r` only when it returns
`TOK_EOF` (which leaves `*tok` alone). -/
theorem get_tok_r_tok (mem : List Nat) (tok tok1 : Ptr) (str : Int) (d : Nat) (saveptr : Ptr)
    (len : Int) :
    (get_tok_r mem tok str d saveptr len = none ∧ get_tok_r mem tok1 str d saveptr len = none) ∨
    (∃ r r1, get_tok_r mem tok str d saveptr len = some r ∧
      get_tok_r mem tok1 str d saveptr len = some r1 ∧
      r1.err = r.err ∧ r1.saveptr = r.saveptr ∧ (r.err ≠ TOK_EOF → r1 = r)) := by
  unfold get_tok_r
  dsimp only
  by_cases hneg : saveptr.getD str < 0
  · simp only [if_pos hneg, and_self, true_or]
  simp only [if_neg hneg]
  cases hl : get_tok_r_loop d (saveptr.getD str) (str + len)
      (mem.drop (saveptr.getD str).toNat) 0 false with
  | none => simp
  | some kj =>
    obtain ⟨c, j⟩ := kj
    right
    dsimp only
    by_cases hE : c = TOK_EOF
    · simp only [if_pos hE]
      exact ⟨_, _, rfl, rfl, rfl, rfl, fun h => absurd hE h⟩
    · simp only [if_neg hE]
      exact ⟨_, _, rfl, rfl, rfl, rfl, fun _ => rfl⟩

/-- The token that the inner loop of `get_col` ends with does not depend on the
token it starts with, when the loop runs at least once. -/
theorem get_col_toks_tok (mem : List Nat) (delim : Nat) (str len : Int) (k : Nat)
    (tok tok1 saveptr : Ptr) :
    get_col_toks mem delim str len (k + 1) tok saveptr
      = get_col_toks mem delim str len (k + 1) tok1 saveptr := by
  unfold get_col_toks
  rcases get_tok_r_tok mem tok tok1 str delim saveptr len with ⟨h1, h2⟩ | ⟨r, r1, h1, h2, he, hs, hr⟩
  · rw [h1, h2]
  · rw [h1, h2]
    dsimp only
    by_cases hb : r.err &&& (TOK_ERR ||| TOK_EOF) ≠ 0
    · rw [if_pos hb, if_pos (by rw [he]; exact hb)]
    · rw [if_neg hb, if_neg (by rw [he]; exact hb)]
      have hne : r.err ≠ TOK_EOF := by
        intro hF
        apply hb
        rw [hF]
        decide
      rw [hr hne]

/-- The early return of the inner loop of `get_col` is `E_DTA_PARSE_ERROR`. -/
theorem get_col_toks_inl (mem : List Nat) (delim : Nat) (str len : Int) :
    ∀ (k : Nat) (tok saveptr : Ptr) (ret : Code),
      get_col_toks mem delim str len k tok saveptr = some (Sum.inl ret) →
      ret = E_DTA_PARSE_ERROR := by
  intro k
  induction k with
  | zero =>
    intro tok saveptr ret h
    simp [get_col_toks] at h
  | succ k ih =>
    intro tok saveptr ret h
    unfold get_col_toks at h
    cases hg : get_tok_r mem tok str delim saveptr len with
    | none => rw [hg] at h; simp at h
    | some r =>
      rw [hg] at h
      dsimp only at h
      by_cases hb : r.err &&& (TOK_ERR ||| TOK_EOF) ≠ 0
      · rw [if_pos hb] at h
        simp only [Option.some.injEq, Sum.inl.injEq] at h
        exact h.symm
      · rw [if_neg hb] at h
        exact ih _ _ _ h

/-- `get_col` returns `E_OK` only from its row loop. -/
theorem get_col_ok (data : Data_T) (buf : List Ptr) (col row_start row_end : Int)
    (buf1 : List Ptr) (h : get_col data buf col row_start row_end = some (E_OK, buf1)) :
    col ≤ data.ncols - 1 ∧ row_end ≤ data.nrows - 1 ∧
    get_col_rows data col (row_end - row_start + 1).toNat row_start 0 none buf
      = some (E_OK, buf1) := by
  unfold get_col at h
  by_cases h1 : col > data.ncols - 1
  · rw [if_pos h1] at h
    simp at h
  rw [if_neg h1] at h
  by_cases h2 : row_end > data.nrows - 1
  · rw [if_pos h2] at h
    simp at h
  rw [if_neg h2] at h
  exact ⟨by omega, by omega, h⟩

/-- The buffer after the row loop of `get_col` for a column `col >= 0`: the entries
`i .. i + k - 1` hold the fields of column `col` of the rows `irow .. irow + k - 1`, in
that order, and the other entries are unchanged. -/
theorem get_col_rows_spec (data : Data_T) (col : Int) (hcol : 0 ≤ col) :
    ∀ (k : Nat) (irow : Int) (i : Nat) (tok : Ptr) (buf buf1 : List Ptr),
      get_col_rows data col k irow (i : Int) tok buf = some (E_OK, buf1) →
      buf1.length = buf.length ∧
      (∀ j, (j < i ∨ i + k ≤ j) → buf1[j]? = buf[j]?) ∧
      (∀ j, j < k → ∃ t, field_at data (irow + (j : Int)) col = some t ∧
        buf1[i + j]? = some t) := by
  intro k
  induction k with
  | zero =>
    intro irow i tok buf buf1 h
    simp only [get_col_rows, Option.some.injEq, Prod.mk.injEq, true_and] at h
    subst h
    exact ⟨rfl, fun _ _ => rfl, fun j hj => by omega⟩
  | succ k ih =>
    intro irow i tok buf buf1 h
    unfold get_col_rows at h
    cases hn : arr_get data.row_offsets (irow + 1) with
    | none => rw [hn] at h; simp at h
    | some next =>
      cases hc : arr_get data.row_offsets irow with
      | none => rw [hn, hc] at h; simp at h
      | some cur =>
        rw [hn, hc] at h
        dsimp only at h
        obtain ⟨c1, hc1⟩ : ∃ c1, (col + 1).toNat = c1 + 1 := ⟨col.toNat, by omega⟩
        cases ht : get_col_toks data.ptr data.delim cur (next - cur) (col + 1).toNat tok none with
        | none => rw [ht] at h; simp at h
        | some res =>
          rw [ht] at h
          cases res with
          | inl ret =>
            dsimp only at h
            simp only [Option.some.injEq, Prod.mk.injEq] at h
            obtain ⟨rfl, -⟩ := h
            exact absurd (get_col_toks_inl _ _ _ _ _ _ _ _ ht) (by decide)
          | inr ts =>
            obtain ⟨tok1, sp1⟩ := ts
            dsimp only at h
            cases hs : arr_set buf (i : Int) tok1 with
            | none => rw [hs] at h; simp at h
            | some buf2 =>
              rw [hs] at h
              dsimp only at h
              obtain ⟨hi, hb2⟩ := arr_set_natCast _ _ _ _ hs
              have h' : get_col_rows data col k (irow + 1) ((i + 1 : Nat) : Int) tok1 buf2
                  = some (E_OK, buf1) := by simpa using h
              obtain ⟨e1, e2, e3⟩ := ih (irow + 1) (i + 1) tok1 buf2 buf1 h'
              have hfield : field_at data irow col = some tok1 := by
                unfold field_at
                rw [hn, hc]
                dsimp only
                rw [hc1] at ht ⊢
                rw [get_col_toks_tok data.ptr data.delim cur (next - cur) c1 none tok none, ht]
              refine ⟨by rw [e1, hb2]; simp, ?_, ?_⟩
              · intro j hj
                rw [e2 j (by omega), hb2, List.getElem?_set_ne (by omega)]
              · intro j hj
                cases j with
                | zero =>
                  refine ⟨tok1, by simpa using hfield, ?_⟩
                  rw [Nat.add_zero, e2 i (by omega), hb2]
                  simp [hi]
                | succ j =>
                  obtain ⟨t, ht1, ht2⟩ := e3 j (by omega)
                  refine ⟨t, ?_, ?_⟩
                  · rw [← ht1]
                    congr 1
                    push_cast
                    omega
                  · rw [← ht2]
                    congr 1
                    omega

/-- What a successful `Frame_shift_col` does when the new column index is not
negative, on a frame that satisfies the window invariant: the column buffer at
the edge opposite to `n` is removed and a new buffer is added at the `n` edge,
the other buffers keeping their order; the new buffer has one element for each
loaded row, the `i`-th being the source's field at row `first_row + i` and the
new column; a header buffer loses its opposite-edge name and gains the field
of row 0 and the new column; `first_col` and `last_col` are increased by `n`
and the row bounds are unchanged. -/
theorem Frame_shift_col_ok_shape (frame : Frame_T) (data : Data_T) (n : Int)
    (frame1 : Frame_T) (hw : WindowInv frame)
    (h : Frame_shift_col frame data n = some (E_OK, frame1))
    (hnn : 0 ≤ (if n = 1 then frame.data_loaded.last_col + 1
      else frame.data_loaded.first_col - 1)) :
    (n = 1 ∨ n = -1) ∧
    (∃ c0 rest col,
      (n = 1 → frame.data = c0 :: rest ∧ frame1.data = rest ++ [col]) ∧
      (n = -1 → frame.data = rest ++ [c0] ∧ frame1.data = col :: rest) ∧
      (col.length : Int) = frame.data_loaded.last_row - frame.data_loaded.first_row + 1 ∧
      ∀ i, i < col.length → ∃ t,
        field_at data (frame.data_loaded.first_row + (i : Int))
          (if n = 1 then frame.data_loaded.last_col + 1 else frame.data_loaded.first_col - 1)
          = some t ∧ col[i]? = some t) ∧
    (frame.headers = none → frame1.headers = none) ∧
    (∀ hd, frame.headers = some hd → ∃ y hrest t,
      field_at data 0
        (if n = 1 then frame.data_loaded.last_col + 1 else frame.data_loaded.first_col - 1)
        = some t ∧
      (n = 1 → hd = y :: hrest ∧ frame1.headers = some (hrest ++ [t])) ∧
      (n = -1 → hd = hrest ++ [y] ∧ frame1.headers = some (t :: hrest))) ∧
    frame1.data_loaded.first_col = frame.data_loaded.first_col + n ∧
    frame1.data_loaded.last_col = frame.data_loaded.last_col + n ∧
    frame1.data_loaded.first_row = frame.data_loaded.first_row ∧
    frame1.data_loaded.last_row = frame.data_loaded.last_row := by
  obtain ⟨hn, -, data_buf0, hbuf, data_buf, hs, c0, cols1, col, hv, hh, hg, hhs, hp, hfill, hf⟩ :=
    Frame_shift_col_ok frame data n frame1 h
  have hfill' : Frame_shift_col_fill data_buf
      (frame.nrows - (if frame.headers.isSome then 1 else 0)).toNat ((0 : Nat) : Int) []
      = some col := by simpa [Deque_new] using hfill
  obtain ⟨e1, e2⟩ := Frame_shift_col_fill_spec data_buf _ 0 [] col hfill'
  have hdata : frame.data = (if n = 1 then c0 :: cols1 else cols1 ++ [c0]) := by
    by_cases h1 : n = 1
    · rw [if_pos h1] at hp ⊢
      exact (Deque_remlo_eq_some _ _ _).mp hp
    · rw [if_neg h1] at hp ⊢
      exact (Deque_remhi_eq_some _ _ _).mp hp
  have hc0 : c0 ∈ frame.data := by
    rw [hdata]
    split_ifs <;> simp
  have hlen0 := hw.rows c0 hc0
  have hnr := hw.nrows_eq
  have hcnt : (frame.nrows - (if frame.headers.isSome then 1 else 0)).toNat
      = (frame.data_loaded.last_row - frame.data_loaded.first_row + 1).toNat := by
    rw [hnr]
  -- the column that `get_col` fetched
  obtain ⟨-, -, hrows⟩ := get_col_ok _ _ _ _ _ _ hg
  have hrows' : get_col_rows data
      (if n = 1 then frame.data_loaded.last_col + 1 else frame.data_loaded.first_col - 1)
      (frame.data_loaded.last_row - frame.data_loaded.first_row + 1).toNat
      frame.data_loaded.first_row ((0 : Nat) : Int) none data_buf0 = some (E_OK, data_buf) := by
    simpa using hrows
  obtain ⟨-, -, g3⟩ := get_col_rows_spec data _ hnn _ _ 0 none data_buf0 data_buf hrows'
  have hcollen : col.length
      = (frame.data_loaded.last_row - frame.data_loaded.first_row + 1).toNat := by
    rw [e1]
    simp only [List.nil_append, List.drop_zero, List.length_take]
    omega
  have hcolget : ∀ i, i < col.length → col[i]? = data_buf[i]? := by
    intro i hi
    rw [e1]
    simp only [List.nil_append, List.drop_zero]
    rw [List.getElem?_take_of_lt (by omega)]
  subst hf
  refine ⟨hn, ⟨c0, cols1, col, ?_, ?_, ?_, ?_⟩, ?_, ?_, rfl, rfl, rfl, rfl⟩
  · intro h1
    rw [if_pos h1] at hdata
    simp only [if_pos h1, Deque_addhi]
    exact ⟨hdata, trivial⟩
  · intro h1
    have hne : ¬ (n = 1) := by omega
    rw [if_neg hne] at hdata
    simp only [if_neg hne, Deque_addlo]
    exact ⟨hdata, trivial⟩
  · omega
  · intro i hi
    obtain ⟨t, ht1, ht2⟩ := g3 i (by omega)
    refine ⟨t, ht1, ?_⟩
    rw [hcolget i hi, ← ht2]
    congr 1
    omega
  · intro hnone
    simp only
    rw [hnone] at hhs
    simp only [Frame_shift_col_headers, Option.some.injEq] at hhs
    exact hhs.symm
  · intro hd hsome
    simp only
    rw [hsome] at hhs hh
    simp only [Option.isSome_some, if_true] at hh
    unfold Frame_shift_col_headers at hhs
    dsimp only at hhs
    cases hpop : (if n = 1 then Deque_remlo hd else Deque_remhi hd) with
    | none => rw [hpop] at hhs; simp at hhs
    | some pc =>
      obtain ⟨y, hrest⟩ := pc
      cases hx : arr_get hbuf 0 with
      | none => rw [hpop, hx] at hhs; simp at hhs
      | some x =>
        rw [hpop, hx] at hhs
        simp only [Option.some.injEq] at hhs
        obtain ⟨-, -, hrows0⟩ := get_col_ok _ _ _ _ _ _ hh
        have hrows0' : get_col_rows data
            (if n = 1 then frame.data_loaded.last_col + 1 else frame.data_loaded.first_col - 1)
            1 0 ((0 : Nat) : Int) none [none] = some (E_OK, hbuf) := by
          simpa using hrows0
        obtain ⟨-, -, k3⟩ := get_col_rows_spec data _ hnn _ _ 0 none [none] hbuf hrows0'
        obtain ⟨t, ht1, ht2⟩ := k3 0 (by omega)
        have hxt : x = t := by
          have hx' : hbuf[0]? = some x := by
            have := arr_get_natCast hbuf 0
            simp only [Nat.cast_zero] at this
            rw [← this]
            exact hx
          simp only [Nat.add_zero] at ht2
          rw [hx'] at ht2
          simpa using ht2
        subst hxt
        refine ⟨y, hrest, x, by simpa using ht1, ?_, ?_⟩
        · intro h1
          rw [if_pos h1] at hpop hhs
          exact ⟨(Deque_remlo_eq_some _ _ _).mp hpop, by rw [← hhs]; rfl⟩
        · intro h1
          have hne : ¬ (n = 1) := by omega
          rw [if_neg hne] at hpop hhs
          exact ⟨(Deque_remhi_eq_some _ _ _).mp hpop, by rw [← hhs]; rfl⟩

/-- Witness of `Frame_shift_col_ok_shape`: the loaded frame `narrow1` is shifted one
column to the right; the new column holds the field of row 0 and column 1,
the token at offset 2. -/
theorem Frame_shift_col_ok_shape_witness :
    Frame_shift_col narrow1 csv2_row0 1 = some (E_OK, narrow2) ∧
    field_at csv2_row0 0 1 = some (some 2) ∧
    ∃ c0 rest col, narrow1.data = c0 :: rest ∧ narrow2.data = rest ++ [col] ∧
      ∃ t, field_at csv2_row0 0 1 = some t ∧ col[0]? = some t := by
  have hwin : WindowInv narrow1 :=
    ⟨by decide, by decide, by decide, by decide⟩
  obtain ⟨-, ⟨c0, rest, col, h1, -, hl, hcol⟩, -⟩ :=
    Frame_shift_col_ok_shape narrow1 csv2_row0 1 narrow2 hwin (by decide) (by decide)
  refine ⟨by decide, by decide, c0, rest, col, (h1 rfl).1, (h1 rfl).2, ?_⟩
  have hpos : 0 < col.length := by
    have : (col.length : Int) = 1 := by rw [hl]; decide
    omega
  obtain ⟨t, ht1, ht2⟩ := hcol 0 hpos
  exact ⟨t, by simpa using ht1, ht2⟩

/-- The upper bound check of `Frame_shift_col`: when the new column index
(`last_col + 1` for `n = +1`, `first_col - 1` for `n = -1`) is at least `data->ncols`,
the call returns `E_DTA_COL_OOB` and the frame is unchanged. -/
theorem Frame_shift_col_upper_bound (frame : Frame_T) (data : Data_T) (n : Int)
    (hn : n = 1 ∨ n = -1)
    (hb : data.ncols ≤ (if n = 1 then frame.data_loaded.last_col + 1
      else frame.data_loaded.first_col - 1)) :
    Frame_shift_col frame data n = some (E_DTA_COL_OOB, frame) := by
  unfold Frame_shift_col
  rw [if_neg (by omega)]
  dsimp only
  rw [if_pos hb]

/-- Witness of `Frame_shift_col_upper_bound`: the frame `wide1` holds both columns
of the file, and a shift to the right is refused. -/
theorem Frame_shift_col_upper_bound_witness :
    Frame_shift_col wide1 csv2_rows01 1 = some (E_DTA_COL_OOB, wide1) :=
  Frame_shift_col_upper_bound wide1 csv2_rows01 1 (by decide) (by decide)

/-- A file without a newline at its end: the scan of the last row runs on into
the zero bytes after the file (the limit handed to `get_tok_r` is the start of
the row plus the size of the whole file), so the end offset recorded for the
last row (11) is not the size of the file (7), and `Frame_shift_row(+1)` at the
last row returns `E_OK` with tokens from the zero bytes instead of `E_DTA_EOF`. -/
theorem Frame_shift_row_past_unterminated_file :
    data_open 32 csv2_unterminated csv2_init = (E_OK, csv2_unterminated_open) ∧
    Frame_load 4 wide0 csv2_unterminated_open
      = some (E_OK, wide1,
          { csv2_unterminated_open with
            ncols := 2, nrows := 2, row_offsets := [0, 4, 11, 0, 0, 0, 0, 0] }) ∧
    Frame_shift_row 8 wide1
        { csv2_unterminated_open with
          ncols := 2, nrows := 2, row_offsets := [0, 4, 11, 0, 0, 0, 0, 0] } 1
      = some (E_OK,
          { wide1 with data := [[some 4, some 11], [some 6, some 12]],
                       data_loaded := ⟨1, 2, 0, 1⟩ },
          { csv2_unterminated_open with
            ncols := 2, nrows := 3, row_offsets := [0, 4, 11, 18, 0, 0, 0, 0] }) := by
  decide

/-! ## Construction of a frame -/

/-- C19: `Frame_init` returns `NULL` exactly when one of `col_width`,
`max_cols`, `max_rows` is 0; a frame it returns holds these three parameters,
has `ncols = nrows = 0`, no column buffer, and a header buffer that is present
(and empty) exactly when `headers` is not 0. -/
theorem Frame_init_null_iff (col_width max_cols max_rows headers : Int) :
    (Frame_init col_width max_cols max_rows headers = none ↔
      (col_width = 0 ∨ max_cols = 0 ∨ max_rows = 0)) ∧
    (∀ frame, Frame_init col_width max_cols max_rows headers = some frame →
      frame.col_width = col_width ∧ frame.max_cols = max_cols ∧
      frame.max_rows = max_rows ∧ frame.ncols = 0 ∧ frame.nrows = 0 ∧ frame.data = [] ∧
      (headers ≠ 0 → frame.headers = some []) ∧ (headers = 0 → frame.headers = none)) := by
  constructor
  · unfold Frame_init
    by_cases hz : col_width = 0 ∨ max_cols = 0 ∨ max_rows = 0
    · rw [if_pos hz]
      simp [hz]
    · rw [if_neg hz]
      simp [hz]
  · intro frame h
    obtain ⟨h1, h2, h3, h4, h5, h6, h7, _⟩ :=
      Frame_init_some col_width max_cols max_rows headers frame h
    refine ⟨h1, h2, h3, h4, h5, h6, ?_, ?_⟩
    · intro hh
      rw [h7, if_pos hh]
    · intro hh
      rw [h7, if_neg (by simpa using hh)]

/-! ## Command-line arguments -/

/-- When the items of a command line are handled with at most two positional
arguments seen so far, `argp_usage` is called exactly when the command line has
no positional argument at all or at least three. -/
theorem argp_items_usage_iff (items : List Item) :
    ∀ (n : Nat) (args : arguments), n ≤ 2 →
      (argp_items items (n : Int) args = some Parsed.usage ↔
        (n + count_pos items = 0 ∨ 3 ≤ n + count_pos items)) := by
  induction items with
  | nil =>
    intro n args hn
    unfold argp_items
    simp only [count_pos, parse_opt, ARGP_KEY_NO_ARGS, ARGP_KEY_END, ARGP_KEY_ARG]
    by_cases h0 : n = 0
    · subst h0
      simp
    · have : ¬ ((n : Int) = 0) := by omega
      rw [if_neg this]
      have h1 : ¬ ((n : Int) < 1) := by omega
      simp [h1]
      omega
  | cons it rest ih =>
    intro n args hn
    cases it with
    | opt_d s =>
      unfold argp_items
      simp only [parse_opt, count_pos]
      exact ih n _ hn
    | opt_h =>
      unfold argp_items
      simp only [parse_opt, count_pos]
      exact ih n _ hn
    | pos s =>
      unfold argp_items
      simp only [parse_opt, count_pos, ARGP_KEY_ARG]
      by_cases h2 : (n : Int) > 1
      · simp [h2]
        omega
      · simp [h2]
        have := ih (n + 1) { args with path := some s } (by omega)
        simp only [Nat.cast_add, Nat.cast_one] at this
        rw [this]
        omega

/-- C18, as the code has it: over a whole command line `parse_opt` calls
`argp_usage` exactly when there is no positional argument or there are at
least three; with two positional arguments no usage error is raised, the run
ends with code 0 and `path` is the second of them. -/
theorem parse_opt_two_positional :
    (∀ (items : List Item) (args : arguments),
      argp_parse items args = some Parsed.usage ↔
        (count_pos items = 0 ∨ 3 ≤ count_pos items)) ∧
    (∀ (p q : List Nat) (args : arguments),
      argp_parse [Item.pos p, Item.pos q] args
        = some (Parsed.ret 0 { args with path := some q })) := by
  constructor
  · intro items args
    have h := argp_items_usage_iff items 0 args (by omega)
    simp only [Nat.cast_zero, Nat.zero_add] at h
    rw [← h]
    simp [argp_parse, parse_opt, ARGP_KEY_INIT, ARGP_KEY_ARG, ARGP_KEY_END]
  · intro p q args
    simp [argp_parse, argp_items, parse_opt, ARGP_KEY_INIT, ARGP_KEY_ARG, ARGP_KEY_END]

/-! ## Rows that end with the file -/

/-- The code `get_tok_r` returns is one of `TOK_OK`, `TOK_EOL` and `TOK_EOF`:
the `return TOK_ERR` after its loop is never reached. -/
theorem get_tok_r_err (mem : List Nat) (tok : Ptr) (str : Int) (d : Nat) (saveptr : Ptr)
    (len : Int) (r : TokRes) (h : get_tok_r mem tok str d saveptr len = some r) :
    r.err = TOK_OK ∨ r.err = TOK_EOL ∨ r.err = TOK_EOF := by
  obtain ⟨_, m, c, _, _, _, hc⟩ := get_tok_r_spec mem tok str d saveptr len r h
  rcases hc with ⟨_, he, _⟩ | ⟨_, _, ⟨_, he, _⟩ | ⟨_, he⟩ | ⟨_, _, _, _, he, _⟩⟩
  · exact Or.inr (Or.inr he)
  · exact Or.inl he
  · exact Or.inr (Or.inl he)
  · exact Or.inl he

/-- The first-visit loop of `get_row` never leaves with `E_DTA_PARSE_ERROR`. -/
theorem get_row_scan_no_parse_error (mem : List Nat) (d : Nat) (str len cs ce : Int) :
    ∀ (fuel : Nat) (saveptr tok : Ptr) (icol i total ncols : Int) (buf : List Ptr)
      (c : Code) (x : Int × Int × List Ptr),
      get_row_scan mem d str len cs ce fuel saveptr tok icol i total ncols buf = some (c, x) →
      c ≠ E_DTA_PARSE_ERROR := by
  intro fuel
  induction fuel with
  | zero => intro saveptr tok icol i total ncols buf c x h; simp [get_row_scan] at h
  | succ fuel ih =>
    intro saveptr tok icol i total ncols buf c x h
    unfold get_row_scan at h
    cases hr : get_tok_r mem tok str d saveptr len with
    | none => rw [hr] at h; simp at h
    | some r =>
      rw [hr] at h
      dsimp only at h
      have herr := get_tok_r_err mem tok str d saveptr len r hr
      have hne : ¬ (r.err = TOK_ERR) := by
        rcases herr with he | he | he <;> rw [he] <;> decide
      rw [if_neg hne] at h
      by_cases heof : r.err = TOK_EOF
      · rw [if_pos heof] at h
        simp only [Option.some.injEq, Prod.mk.injEq] at h
        rw [← h.1]
        decide
      · rw [if_neg heof] at h
        cases hb : (if cs ≤ icol ∧ (icol ≤ ce ∨ ce = -1) then arr_set buf i r.tok
            else some buf) with
        | none => rw [hb] at h; simp at h
        | some buf1 =>
          rw [hb] at h
          dsimp only at h
          by_cases heol : r.err = TOK_EOL
          · rw [if_pos heol] at h
            by_cases hic : icol ≠ (if ncols = 0 then icol + 1 else ncols) - 1
            · rw [if_pos hic] at h
              simp only [Option.some.injEq, Prod.mk.injEq] at h
              rw [← h.1]
              decide
            · rw [if_neg hic] at h
              simp only [Option.some.injEq, Prod.mk.injEq] at h
              rw [← h.1]
              decide
          · rw [if_neg heol] at h
            exact ih _ _ _ _ _ _ _ c x h

/-- C11, as the code has it: `get_tok_r` never returns `TOK_ERR` and the
first-visit loop of `get_row` never returns a parse error. On the file `a,"b`
the field that opens the quote is answered with `TOK_EOF`, and the first visit
of row 0 returns `E_OK`, records 2 as the end of the row and stores the first
field only. -/
theorem get_tok_r_open_quote_no_error :
    (∀ (mem : List Nat) (tok : Ptr) (str : Int) (d : Nat) (saveptr : Ptr) (len : Int)
        (r : TokRes), get_tok_r mem tok str d saveptr len = some r → r.err ≠ TOK_ERR) ∧
    (∀ (mem : List Nat) (d : Nat) (str len cs ce : Int) (fuel : Nat) (saveptr tok : Ptr)
        (icol i total ncols : Int) (buf : List Ptr) (c : Code) (x : Int × Int × List Ptr),
        get_row_scan mem d str len cs ce fuel saveptr tok icol i total ncols buf
          = some (c, x) → c ≠ E_DTA_PARSE_ERROR) ∧
    data_open 16 open_quote csv2_init = (E_OK, open_quote_open) ∧
    get_tok_r open_quote_open.ptr (some 0) 0 44 (some 2) 4
      = some ⟨TOK_EOF, some 0, 3, some 2⟩ ∧
    get_row open_quote_open [none, none] 0 0 (-1)
      = some (E_OK,
          { open_quote_open with nrows := 1, row_offsets := [0, 2, 0, 0, 0, 0, 0, 0] },
          [some 0, none]) := by
  refine ⟨?_, ?_, by decide, by decide, by decide⟩
  · intro mem tok str d saveptr len r h
    rcases get_tok_r_err mem tok str d saveptr len r h with he | he | he <;> rw [he] <;> decide
  · intro mem d str len cs ce fuel saveptr tok icol i total ncols buf c x h
    exact get_row_scan_no_parse_error mem d str len cs ce fuel saveptr tok icol i total ncols
      buf c x h

/-- C12, as the code has it: with `ncols = 2` established by row 0 of the file
`a,b` newline `c`, the first visit of row 1 (the one field `c`, no newline)
returns `E_OK`. The loop is left at `TOK_EOF` without a check of the field
count, after four tokens answered with `TOK_OK` (at offsets 4, 6, 7 and 8, the
last three in the zero bytes after the file), and 9 is recorded as the end of
the row of a file of 5 bytes. -/
theorem get_row_ok_without_field_check :
    get_row short_last_row0 [none, none] 1 0 1
      = some (E_OK,
          { short_last_row0 with nrows := 2, row_offsets := [0, 4, 9, 0, 0, 0, 0, 0] },
          [some 4, some 6]) ∧
    get_tok_r short_last_row0.ptr none 4 44 none 5 = some ⟨TOK_OK, some 4, 2, some 6⟩ ∧
    get_tok_r short_last_row0.ptr (some 4) 4 44 (some 6) 5
      = some ⟨TOK_OK, some 6, 1, some 7⟩ ∧
    get_tok_r short_last_row0.ptr (some 6) 4 44 (some 7) 5
      = some ⟨TOK_OK, some 7, 1, some 8⟩ ∧
    get_tok_r short_last_row0.ptr (some 7) 4 44 (some 8) 5
      = some ⟨TOK_OK, some 8, 1, some 9⟩ ∧
    get_tok_r short_last_row0.ptr (some 8) 4 44 (some 9) 5
      = some ⟨TOK_EOF, some 8, 1, some 9⟩ := by
  decide

/-- C20, as the code has it: on the file `a,b` (3 bytes, one row, no newline)
the first visit of row 0 returns `E_OK` and records 2 as `row_offsets[1]`, which
is neither the size of the file nor the length of the row. -/
theorem get_row_offset_unterminated_row :
    data_open 16 one_row csv2_init = (E_OK, one_row_open) ∧
    get_row one_row_open [none, none] 0 0 (-1)
      = some (E_OK,
          { one_row_open with nrows := 1, row_offsets := [0, 2, 0, 0, 0, 0, 0, 0] },
          [some 0, none]) ∧
    one_row_open.st_size = 3 := by
  decide

/-! ## A file of five rows under a frame of three lines -/

/-- The scenario of C16 evaluated in full on the file `table5` with
`Frame_init(10, 2, 3, 1)`: `Frame_load` returns `E_OK` with the header buffer
holding the first two fields of row 0 and the window rows 1 to 2, columns 0 to
1 (`max_rows = 3` counts the header line); the first `Frame_shift_row(+1)` gives
rows 2 to 3, the second rows 3 to 4, each dropping the lowest loaded row from
both column buffers and adding the fields of the next row; the third returns
`E_DTA_EOF` and changes nothing. -/
theorem Frame_load_shift_scenario :
    Frame_init 10 2 3 1 = some headed0 ∧
    Data_mmap_init 8 "f" 44 = some csv2_init ∧
    data_open 32 table5 csv2_init = (E_OK, table5_open) ∧
    Frame_load 4 headed0 table5_open = some (E_OK, headed1, table5_rows 3) ∧
    Frame_shift_row 8 headed1 (table5_rows 3) 1 = some (E_OK, headed2, table5_rows 4) ∧
    Frame_shift_row 8 headed2 (table5_rows 4) 1 = some (E_OK, headed3, table5_rows 5) ∧
    Frame_shift_row 8 headed3 (table5_rows 5) 1 = some (E_DTA_EOF, headed3, table5_rows 5) := by
  refine ⟨by decide, by decide, by decide, by decide, by decide, by decide, by decide⟩

/-! ## The paths through `get_row` -/

/-- The ways a call of `get_row` returns: by one of the checks before the
loops, with the source and the buffer as they were; from the repeat-visit
loop, with the source as it was; or from the first-visit loop, which on `E_OK`
records the end offset of the row and counts the row, and otherwise changes at
most `ncols`. -/
theorem get_row_paths (data : Data_T) (buf : List Ptr) (row cs ce : Int) (ret : Code)
    (data1 : Data_T) (buf1 : List Ptr)
    (h : get_row data buf row cs ce = some (ret, data1, buf1)) :
    (data1 = data ∧ buf1 = buf ∧
      (ret = E_DTA_COL_OOB ∨ ret = E_DTA_EOF ∨ ret = E_DTA_ROW_OOB ∨ ret = E_DTA_BAD_INPUT)) ∨
    (∃ cur next, arr_get data.row_offsets row = some cur ∧
      arr_get data.row_offsets (row + 1) = some next ∧
      ¬ (data.ncols ≠ 0 ∧ ce ≥ data.ncols) ∧
      ¬ (0 < row ∧ cur = data.st_size) ∧ ¬ (0 < row ∧ cur = 0) ∧
      ((next ≠ 0 ∧ data.ncols ≠ 0 ∧ data1 = data ∧
        get_row_cached data.ptr data.delim cur (next - cur) cs
          (if data.ncols ≠ 0 ∧ ce = -1 then data.ncols - 1 else ce)
          (data.ptr.length + 1) none none 0 0 buf = some (ret, buf1)) ∨
       (next = 0 ∧ ∃ total ncols1,
        get_row_scan data.ptr data.delim cur data.st_size cs
          (if data.ncols ≠ 0 ∧ ce = -1 then data.ncols - 1 else ce)
          (data.ptr.length + 1) none none 0 0 cur data.ncols buf
          = some (ret, total, ncols1, buf1) ∧
        ((ret ≠ E_OK ∧ data1 = { data with ncols := ncols1 }) ∨
         (ret = E_OK ∧ ∃ ro1, arr_set data.row_offsets (row + 1) total = some ro1 ∧
            data1 = { data with ncols := ncols1, row_offsets := ro1,
                                nrows := data.nrows + 1 }))))) := by
  unfold get_row at h
  by_cases hc : data.ncols ≠ 0 ∧ ce ≥ data.ncols
  · rw [if_pos hc] at h
    simp only [Option.some.injEq, Prod.mk.injEq] at h
    obtain ⟨rfl, rfl, rfl⟩ := h
    exact Or.inl ⟨rfl, rfl, Or.inl rfl⟩
  rw [if_neg hc] at h
  dsimp only at h
  cases hcur : arr_get data.row_offsets row with
  | none => rw [hcur] at h; simp at h
  | some cur =>
    rw [hcur] at h
    dsimp only at h
    by_cases h1 : 0 < row ∧ cur = data.st_size
    · rw [if_pos h1] at h
      simp only [Option.some.injEq, Prod.mk.injEq] at h
      obtain ⟨rfl, rfl, rfl⟩ := h
      exact Or.inl ⟨rfl, rfl, Or.inr (Or.inl rfl)⟩
    rw [if_neg h1] at h
    by_cases h2 : 0 < row ∧ cur = 0
    · rw [if_pos h2] at h
      simp only [Option.some.injEq, Prod.mk.injEq] at h
      obtain ⟨rfl, rfl, rfl⟩ := h
      exact Or.inl ⟨rfl, rfl, Or.inr (Or.inr (Or.inl rfl))⟩
    rw [if_neg h2] at h
    cases hnext : arr_get data.row_offsets (row + 1) with
    | none => rw [hnext] at h; simp at h
    | some next =>
      rw [hnext] at h
      dsimp only at h
      by_cases h3 : next ≠ 0
      · rw [if_pos h3] at h
        by_cases h4 : data.ncols = 0
        · rw [if_pos h4] at h
          simp only [Option.some.injEq, Prod.mk.injEq] at h
          obtain ⟨rfl, rfl, rfl⟩ := h
          exact Or.inl ⟨rfl, rfl, Or.inr (Or.inr (Or.inr rfl))⟩
        rw [if_neg h4] at h
        cases hl : get_row_cached data.ptr data.delim cur (next - cur) cs
            (if data.ncols ≠ 0 ∧ ce = -1 then data.ncols - 1 else ce)
            (data.ptr.length + 1) none none 0 0 buf with
        | none => rw [hl] at h; simp at h
        | some res =>
          obtain ⟨ret2, buf2⟩ := res
          rw [hl] at h
          simp only [Option.some.injEq, Prod.mk.injEq] at h
          obtain ⟨rfl, rfl, rfl⟩ := h
          exact Or.inr ⟨cur, next, rfl, rfl, hc, h1, h2, Or.inl ⟨h3, h4, rfl, hl⟩⟩
      · rw [if_neg h3] at h
        have hn0 : next = 0 := by simpa using h3
        cases hl : get_row_scan data.ptr data.delim cur data.st_size cs
            (if data.ncols ≠ 0 ∧ ce = -1 then data.ncols - 1 else ce)
            (data.ptr.length + 1) none none 0 0 cur data.ncols buf with
        | none => rw [hl] at h; simp at h
        | some res =>
          obtain ⟨ret2, total, ncols2, buf2⟩ := res
          rw [hl] at h
          dsimp only at h
          by_cases h5 : ret2 ≠ E_OK
          · rw [if_pos h5] at h
            simp only [Option.some.injEq, Prod.mk.injEq] at h
            obtain ⟨rfl, rfl, rfl⟩ := h
            exact Or.inr ⟨cur, next, rfl, rfl, hc, h1, h2,
              Or.inr ⟨hn0, total, ncols2, hl, Or.inl ⟨h5, rfl⟩⟩⟩
          · rw [if_neg h5] at h
            have h5' : ret2 = E_OK := by simpa using h5
            cases hs : arr_set data.row_offsets (row + 1) total with
            | none => rw [hs] at h; simp at h
            | some ro1 =>
              rw [hs] at h
              simp only [Option.some.injEq, Prod.mk.injEq] at h
              obtain ⟨rfl, rfl, rfl⟩ := h
              exact Or.inr ⟨cur, next, rfl, rfl, hc, h1, h2,
                Or.inr ⟨hn0, total, ncols2, by rw [hl, h5'], Or.inr ⟨rfl, ro1, hs, rfl⟩⟩⟩

/-- What `get_row` does to the offset array: its length stays, no entry other
than the one at `row + 1` changes, and a call that returns a changed array has
written inside it. -/
theorem get_row_offsets (data : Data_T) (buf : List Ptr) (row cs ce : Int) (ret : Code)
    (data1 : Data_T) (buf1 : List Ptr)
    (h : get_row data buf row cs ce = some (ret, data1, buf1)) :
    data1.row_offsets.length = data.row_offsets.length ∧
    (∀ j, j ≠ row + 1 → arr_get data1.row_offsets j = arr_get data.row_offsets j) ∧
    (data1.row_offsets ≠ data.row_offsets →
      0 ≤ row + 1 ∧ row + 1 < (data.row_offsets.length : Int)) := by
  rcases get_row_paths data buf row cs ce ret data1 buf1 h with
    ⟨rfl, -, -⟩ | ⟨cur, next, -, -, -, -, -, ⟨-, -, rfl, -⟩ | ⟨-, total, nc1, -, hcase⟩⟩
  · exact ⟨rfl, fun _ _ => rfl, fun hne => absurd rfl hne⟩
  · exact ⟨rfl, fun _ _ => rfl, fun hne => absurd rfl hne⟩
  · rcases hcase with ⟨-, rfl⟩ | ⟨-, ro1, hs, rfl⟩
    · exact ⟨rfl, fun _ _ => rfl, fun hne => absurd rfl hne⟩
    · refine ⟨arr_set_length _ _ _ _ hs, fun j hj => arr_get_of_arr_set_ne _ _ _ _ _ hs hj,
        fun _ => ?_⟩
      unfold arr_set at hs
      by_cases hc : 0 ≤ row + 1 ∧ (row + 1).toNat < data.row_offsets.length
      · omega
      · rw [if_neg hc] at hs
        simp at hs

/-- The source a call of `Frame_shift_row` returns is the one it was given or
the one a call of `get_row` on it returned. -/
theorem Frame_shift_row_source (M : Nat) (frame : Frame_T) (data : Data_T) (n : Int)
    (ret : Code) (frame1 : Frame_T) (data1 : Data_T)
    (h : Frame_shift_row M frame data n = some (ret, frame1, data1)) :
    data1 = data ∨ ∃ buf r buf1,
      get_row data buf
        (if n = 1 then frame.data_loaded.last_row + 1 else frame.data_loaded.first_row - 1)
        0 (frame.ncols - 1) = some (r, data1, buf1) := by
  unfold Frame_shift_row at h
  by_cases hn : n ≠ 1 ∧ n ≠ -1
  · rw [if_pos hn] at h
    simp only [Option.some.injEq, Prod.mk.injEq] at h
    exact Or.inl h.2.2.symm
  rw [if_neg hn] at h
  dsimp only at h
  by_cases hM : (if n = 1 then frame.data_loaded.last_row + 1
      else frame.data_loaded.first_row - 1) + 1 = (M : Int)
  · rw [if_pos hM] at h
    simp only [Option.some.injEq, Prod.mk.injEq] at h
    exact Or.inl h.2.2.symm
  rw [if_neg hM] at h
  cases hv : vla frame.ncols with
  | none => rw [hv] at h; simp at h
  | some buf =>
    rw [hv] at h
    dsimp only at h
    cases hg : get_row data buf
        (if n = 1 then frame.data_loaded.last_row + 1 else frame.data_loaded.first_row - 1)
        0 (frame.ncols - 1) with
    | none => rw [hg] at h; simp at h
    | some res =>
      obtain ⟨r, data2, buf2⟩ := res
      rw [hg] at h
      dsimp only at h
      refine Or.inr ⟨buf, r, buf2, ?_⟩
      by_cases h1 : r = E_DTA_EOF
      · rw [if_pos h1] at h
        simp only [Option.some.injEq, Prod.mk.injEq] at h
        rw [← h.2.2]
        exact hg
      rw [if_neg h1] at h
      by_cases h2 : r ≠ E_OK
      · rw [if_pos h2] at h
        simp only [Option.some.injEq, Prod.mk.injEq] at h
        rw [← h.2.2]
        exact hg
      rw [if_neg h2] at h
      cases hc : Frame_shift_row_cols n buf2
          (frame.data_loaded.last_col - frame.data_loaded.first_col + 1).toNat 0
          frame.data with
      | none => rw [hc] at h; simp at h
      | some cols =>
        rw [hc] at h
        simp only [Option.some.injEq, Prod.mk.injEq] at h
        rw [← h.2.2]
        exact hg

/-- A successful `Frame_load`: row 0 was fetched with `get_row` into a buffer of
`MAX_COLS` null pointers, the first loop made the columns, the row loop was
left without an error, and the window is set from the result. -/
theorem Frame_load_ok (C : Nat) (frame : Frame_T) (data : Data_T) (frame1 : Frame_T)
    (data1 : Data_T) (h : Frame_load C frame data = some (E_OK, frame1, data1)) :
    ∃ data2 buf2 headers1 cols1 frame3,
      get_row data (List.replicate C none) 0 0 (frame.max_cols - 1)
        = some (E_OK, data2, buf2) ∧
      Frame_load_cols buf2
        (if data2.ncols < frame.max_cols then data2.ncols else frame.max_cols).toNat 0
        frame.headers frame.data = some (headers1, cols1) ∧
      Frame_load_rows (frame.max_rows - 1).toNat 1
        { frame with
          ncols := if data2.ncols < frame.max_cols then data2.ncols else frame.max_cols,
          headers := headers1, data := cols1, nrows := frame.nrows + 1 } data2 buf2
        = some (E_OK, frame3, data1) ∧
      frame1 = { frame3 with data_loaded :=
                  { frame3.data_loaded with
                    first_row := if frame3.headers.isSome then 1 else 0,
                    last_col := frame3.ncols - 1,
                    last_row := data1.nrows - 1 } } := by
  unfold Frame_load at h
  cases hg : get_row data (List.replicate C none) 0 0 (frame.max_cols - 1) with
  | none => rw [hg] at h; simp at h
  | some res =>
    obtain ⟨ret, data2, buf2⟩ := res
    rw [hg] at h
    dsimp only at h
    by_cases hO : ret ≠ E_OK
    · rw [if_pos hO] at h
      simp at h
    rw [if_neg hO] at h
    have hok : ret = E_OK := by simpa using hO
    subst hok
    cases hc : Frame_load_cols buf2
        (if data2.ncols < frame.max_cols then data2.ncols else frame.max_cols).toNat 0
        frame.headers frame.data with
    | none => rw [hc] at h; simp at h
    | some res2 =>
      obtain ⟨headers1, cols1⟩ := res2
      rw [hc] at h
      dsimp only at h
      cases hr : Frame_load_rows (frame.max_rows - 1).toNat 1
          { frame with
            ncols := if data2.ncols < frame.max_cols then data2.ncols else frame.max_cols,
            headers := headers1, data := cols1, nrows := frame.nrows + 1 } data2 buf2 with
      | none => rw [hr] at h; simp at h
      | some res3 =>
        obtain ⟨ret3, frame3, data3⟩ := res3
        rw [hr] at h
        dsimp only at h
        by_cases hO3 : ret3 ≠ E_OK
        · rw [if_pos hO3] at h
          simp only [Option.some.injEq, Prod.mk.injEq] at h
          exact absurd h.1 hO3
        rw [if_neg hO3] at h
        have hok3 : ret3 = E_OK := by simpa using hO3
        subst hok3
        simp only [Option.some.injEq, Prod.mk.injEq, true_and] at h
        obtain ⟨hfr, rfl⟩ := h
        exact ⟨data2, buf2, headers1, cols1, frame3, rfl, hc, hr, hfr.symm⟩

/-- The row loop of `Frame_load` on a source that counts `irow` rows and has no
offset recorded past index `irow`: the rows it counts at the end are fewer than
the entries of the offset array, whose length has not changed. -/
theorem Frame_load_rows_cap :
    ∀ (k : Nat) (irow : Int) (frame : Frame_T) (data : Data_T) (buf : List Ptr)
      (ret : Code) (frame1 : Frame_T) (data1 : Data_T),
      Frame_load_rows k irow frame data buf = some (ret, frame1, data1) →
      (∀ j v, irow + 1 ≤ j → arr_get data.row_offsets j = some v → v = 0) →
      data.nrows = irow → irow < (data.row_offsets.length : Int) →
      data1.row_offsets.length = data.row_offsets.length ∧
      data.nrows ≤ data1.nrows ∧ data1.nrows < (data1.row_offsets.length : Int) := by
  intro k
  induction k with
  | zero =>
    intro irow frame data buf ret frame1 data1 h hz hn hlt
    simp only [Frame_load_rows, Option.some.injEq, Prod.mk.injEq] at h
    obtain ⟨-, -, rfl⟩ := h
    exact ⟨rfl, le_refl _, by omega⟩
  | succ k ih =>
    intro irow frame data buf ret frame1 data1 h hz hn hlt
    unfold Frame_load_rows at h
    cases hg : get_row data buf irow 0 (frame.ncols - 1) with
    | none => rw [hg] at h; simp at h
    | some res =>
      obtain ⟨ret2, data2, buf2⟩ := res
      rw [hg] at h
      dsimp only at h
      obtain ⟨-, -, -, -, -, g1, g2, g3⟩ := get_row_effect _ _ _ _ _ _ _ _ hg
      by_cases h1 : ret2 = E_DTA_EOF
      · rw [if_pos h1] at h
        simp only [Option.some.injEq, Prod.mk.injEq] at h
        obtain ⟨-, -, rfl⟩ := h
        obtain ⟨e1, e2⟩ := g1 (by rw [h1]; decide)
        rw [e1, e2]
        exact ⟨rfl, le_refl _, by omega⟩
      rw [if_neg h1] at h
      by_cases h2 : ret2 ≠ E_OK
      · rw [if_pos h2] at h
        simp only [Option.some.injEq, Prod.mk.injEq] at h
        obtain ⟨-, -, rfl⟩ := h
        obtain ⟨e1, e2⟩ := g1 h2
        rw [e1, e2]
        exact ⟨rfl, le_refl _, by omega⟩
      rw [if_neg h2] at h
      have hok : ret2 = E_OK := by simpa using h2
      obtain ⟨next, hnext⟩ := g2 hok
      have hnz : next = 0 := hz _ _ (le_refl _) hnext
      subst hnz
      obtain ⟨e1, t, hset⟩ := g3 hok hnext
      have hlen := arr_set_length _ _ _ _ hset
      have hin : irow + 1 < (data.row_offsets.length : Int) := by
        have := (get_row_offsets _ _ _ _ _ _ _ _ hg).2.2
        unfold arr_set at hset
        by_cases hc : 0 ≤ irow + 1 ∧ (irow + 1).toNat < data.row_offsets.length
        · omega
        · rw [if_neg hc] at hset
          simp at hset
      cases hf : Frame_load_fill buf2 frame.ncols.toNat 0 frame.data with
      | none => rw [hf] at h; simp at h
      | some cols =>
        rw [hf] at h
        dsimp only at h
        obtain ⟨r1, r2, r3⟩ := ih _ _ _ _ _ _ _ h
          (by
            intro j v hj hv
            rw [arr_get_of_arr_set_ne _ _ _ _ _ hset (by omega)] at hv
            exact hz j v (by omega) hv)
          (by omega) (by omega)
        exact ⟨by omega, by omega, r3⟩

/-! ## The capacity of the offset array -/

/-- In every state a session reaches the offset array has `MAX_ROWS` entries,
`last_row + 1` is below `MAX_ROWS`, and `first_row` is at most `last_row + 1`. -/
theorem reach_capacity (M C P : Nat) (frame : Frame_T) (data : Data_T)
    (h : Reach M C P frame data) :
    data.row_offsets.length = M ∧ frame.data_loaded.last_row + 1 < (M : Int) ∧
    frame.data_loaded.first_row ≤ frame.data_loaded.last_row + 1 := by
  induction h with
  | load cw mc mr hd path delim file frame0 data0 data1 frame data hpos hinit hsrc hopen
      hload =>
    obtain ⟨hro, hnr, -, -⟩ := fresh_source _ _ _ _ _ _ _ hsrc hopen
    have hzero : ∀ j v, arr_get data1.row_offsets j = some v → v = 0 := by
      intro j v hv
      rw [hro] at hv
      unfold arr_get at hv
      by_cases hj : j < 0
      · rw [if_pos hj] at hv
        simp at hv
      rw [if_neg hj, List.getElem?_replicate] at hv
      by_cases hj2 : j.toNat < M
      · rw [if_pos hj2] at hv
        simp only [Option.some.injEq] at hv
        exact hv.symm
      · rw [if_neg hj2] at hv
        simp at hv
    obtain ⟨data2, buf2, headers1, cols1, frame3, hg, -, hr, rfl⟩ :=
      Frame_load_ok C frame0 data1 frame data hload
    obtain ⟨-, -, -, -, -, -, g2, g3⟩ := get_row_effect _ _ _ _ _ _ _ _ hg
    obtain ⟨next, hnext⟩ := g2 rfl
    have hnz : next = 0 := hzero _ _ hnext
    subst hnz
    obtain ⟨e1, t, hset⟩ := g3 rfl hnext
    have hlen := arr_set_length _ _ _ _ hset
    have hlen1 : data1.row_offsets.length = M := by rw [hro, List.length_replicate]
    have hin : (1 : Int) < (data1.row_offsets.length : Int) := by
      unfold arr_set at hset
      by_cases hc : 0 ≤ (0 : Int) + 1 ∧ ((0 : Int) + 1).toNat < data1.row_offsets.length
      · have := hc.2
        simp only [zero_add, Int.toNat_one] at this
        omega
      · rw [if_neg hc] at hset
        simp at hset
    obtain ⟨r1, r2, r3⟩ := Frame_load_rows_cap _ _ _ _ _ _ _ _ hr
      (by
        intro j v hj hv
        rw [arr_get_of_arr_set_ne _ _ _ _ _ hset (by omega)] at hv
        exact hzero j v hv)
      (by omega) (by omega)
    dsimp only
    refine ⟨by omega, by omega, ?_⟩
    split_ifs <;> omega
  | shift_row frame data n ret frame1 data1 _ hshift ih =>
    obtain ⟨i1, i2, i3⟩ := ih
    have hlen : data1.row_offsets.length = M := by
      rcases Frame_shift_row_source M frame data n ret frame1 data1 hshift with
        rfl | ⟨buf, r, buf1, hg⟩
      · exact i1
      · rw [(get_row_offsets _ _ _ _ _ _ _ _ hg).1]
        exact i1
    by_cases hret : ret = E_OK
    · subst hret
      obtain ⟨hn, hM, buf, buf1, cols, -, -, -, rfl⟩ := Frame_shift_row_ok M frame data n
        frame1 data1 hshift
      dsimp only
      refine ⟨hlen, ?_, by omega⟩
      rcases hn with rfl | rfl
      · rw [if_pos rfl] at hM
        omega
      · omega
    · rw [Frame_shift_row_keeps M frame data n ret frame1 data1 hshift hret]
      exact ⟨hlen, i2, i3⟩
  | shift_col frame data n ret frame1 _ hshift ih =>
    obtain ⟨i1, i2, i3⟩ := ih
    by_cases hret : ret = E_OK
    · subst hret
      obtain ⟨-, -, data_buf0, hbuf, data_buf, hs, c0, cols1, col, -, -, -, -, -, -, rfl⟩ :=
        Frame_shift_col_ok frame data n frame1 hshift
      exact ⟨i1, i2, i3⟩
    · rw [Frame_shift_col_keeps frame data n ret frame1 hshift hret]
      exact ⟨i1, i2, i3⟩

/-- C17: in every state a session reaches (a loaded frame, then any calls of
`Frame_shift_row` and `Frame_shift_col`), the offset array has `MAX_ROWS`
entries and, for `n` either `+1` or `-1` and `row` the row `Frame_shift_row`
would fetch: if `row + 1` is `MAX_ROWS` the call returns `E_DTA_MAX_ROWS` with
the frame and the source as they were; otherwise `row + 1`, the only index at
which `get_row` may record an offset, is below `MAX_ROWS`, and any call of
`get_row` for that row keeps the length of the array and every entry at another
index. -/
theorem Frame_shift_row_capacity (M C P : Nat) (frame : Frame_T) (data : Data_T)
    (h : Reach M C P frame data) (n : Int) (hn : n = 1 ∨ n = -1) :
    data.row_offsets.length = M ∧
    ((if n = 1 then frame.data_loaded.last_row + 1 else frame.data_loaded.first_row - 1) + 1
        = (M : Int) →
      Frame_shift_row M frame data n = some (E_DTA_MAX_ROWS, frame, data)) ∧
    ((if n = 1 then frame.data_loaded.last_row + 1 else frame.data_loaded.first_row - 1) + 1
        ≠ (M : Int) →
      (if n = 1 then frame.data_loaded.last_row + 1 else frame.data_loaded.first_row - 1) + 1
        < (M : Int) ∧
      ∀ buf cs ce ret data1 buf1,
        get_row data buf
          (if n = 1 then frame.data_loaded.last_row + 1 else frame.data_loaded.first_row - 1)
          cs ce = some (ret, data1, buf1) →
        data1.row_offsets.length = M ∧
        ∀ j, j ≠ (if n = 1 then frame.data_loaded.last_row + 1
                  else frame.data_loaded.first_row - 1) + 1 →
          arr_get data1.row_offsets j = arr_get data.row_offsets j) := by
  obtain ⟨i1, i2, i3⟩ := reach_capacity M C P frame data h
  refine ⟨i1, ?_, ?_⟩
  · intro hM
    unfold Frame_shift_row
    have hn' : ¬ (n ≠ 1 ∧ n ≠ -1) := by omega
    rw [if_neg hn']
    dsimp only
    rw [if_pos hM]
  · intro hM
    refine ⟨?_, ?_⟩
    · rcases hn with rfl | rfl
      · rw [if_pos rfl] at hM ⊢
        omega
      · rw [if_neg (by decide)]
        omega
    · intro buf cs ce ret data1 buf1 hg
      obtain ⟨g1, g2, -⟩ := get_row_offsets _ _ _ _ _ _ _ _ hg
      exact ⟨by rw [g1, i1], g2⟩

/-- Witness of C17: the frame `tall1` holds both rows of the file `a` / `b` with
`MAX_ROWS = 3`; the row a shift by `+1` would fetch is row 2, whose end offset
would need index 3, and the call returns `E_DTA_MAX_ROWS`. -/
theorem Frame_shift_row_capacity_witness :
    Frame_shift_row 3 tall1 two_lines_done 1 = some (E_DTA_MAX_ROWS, tall1, two_lines_done) :=
  (Frame_shift_row_capacity 3 4 16 tall1 two_lines_done
    (Reach.load 10 1 2 0 "f" 44 two_lines tall0
      { two_lines_open with st_size := 0, ptr := [] } two_lines_open tall1 two_lines_done
      (by decide) (by decide) (by decide) (by decide) (by decide))
    1 (Or.inl rfl)).2.1 (by decide)

/-! ## Rows with a field count -/

/-- A row with a field count has at least one field and at least as many bytes
as fields. -/
theorem count_fields_le (d : Nat) :
    ∀ (l : List Nat) (q : Bool) (k : Nat), count_fields d l q = some k →
      1 ≤ k ∧ k ≤ l.length := by
  intro l
  induction l with
  | nil => intro q k h; simp [count_fields] at h
  | cons c rest ih =>
    intro q k h
    unfold count_fields at h
    by_cases h0 : c = 0
    · rw [if_pos h0] at h
      simp at h
    rw [if_neg h0] at h
    by_cases h10 : c = 10
    · rw [if_pos h10] at h
      simp only [Option.some.injEq] at h
      subst h
      simp
    rw [if_neg h10] at h
    by_cases h34 : c = 34
    · rw [if_pos h34] at h
      have := ih _ _ h
      simp only [List.length_cons]
      omega
    rw [if_neg h34] at h
    by_cases hd : c = d ∧ q = false
    · rw [if_pos hd] at h
      cases hr : count_fields d rest false with
      | none => rw [hr] at h; simp at h
      | some k1 =>
        rw [hr] at h
        simp only [Option.some.injEq] at h
        have := ih _ _ hr
        simp only [List.length_cons]
        omega
    · rw [if_neg hd] at h
      have := ih _ _ h
      simp only [List.length_cons]
      omega

/-- The loop of `get_tok_r` on a row with `k` fields: it returns at the end of
the first field, with `TOK_EOL` when the row has one field, and otherwise with
`TOK_OK` in front of a row of `k - 1` fields. -/
theorem get_tok_r_loop_count (d : Nat) (field lim : Int) :
    ∀ (l : List Nat) (i : Nat) (q : Bool) (k : Nat), count_fields d l q = some k →
      ∃ (m : Nat) (code : Nat), get_tok_r_loop d field lim l i q = some (code, i + m) ∧
        m < l.length ∧
        (k = 1 → code = TOK_EOL) ∧
        (k ≠ 1 → code = TOK_OK ∧ count_fields d (l.drop (m + 1)) false = some (k - 1)) := by
  intro l
  induction l with
  | nil => intro i q k h; simp [count_fields] at h
  | cons c rest ih =>
    intro i q k h
    unfold count_fields at h
    unfold get_tok_r_loop
    by_cases h0 : c = 0
    · rw [if_pos h0] at h
      simp at h
    rw [if_neg h0] at h
    rw [if_neg h0]
    by_cases h10 : c = 10
    · rw [if_pos h10] at h
      rw [if_pos h10]
      simp only [Option.some.injEq] at h
      subst h
      exact ⟨0, TOK_EOL, rfl, by simp, fun _ => rfl, fun hne => absurd rfl hne⟩
    rw [if_neg h10] at h
    rw [if_neg h10]
    by_cases h34 : c = 34
    · rw [if_pos h34] at h
      rw [if_pos h34]
      obtain ⟨m, code, e1, e2, e3, e4⟩ := ih (i + 1) (!q) k h
      refine ⟨m + 1, code, ?_, by simp only [List.length_cons]; omega, e3, ?_⟩
      · rw [e1]
        congr 2
        omega
      · intro hk
        simpa using e4 hk
    rw [if_neg h34] at h
    rw [if_neg h34]
    by_cases hd : c = d ∧ q = false
    · rw [if_pos hd] at h
      rw [if_pos hd]
      cases hr : count_fields d rest false with
      | none => rw [hr] at h; simp at h
      | some k1 =>
        rw [hr] at h
        simp only [Option.some.injEq] at h
        subst h
        have hk1 := (count_fields_le d rest false k1 hr).1
        refine ⟨0, TOK_OK, rfl, by simp, fun hk => by omega, fun _ => ⟨rfl, ?_⟩⟩
        simpa using hr
    · rw [if_neg hd] at h
      rw [if_neg hd]
      obtain ⟨m, code, e1, e2, e3, e4⟩ := ih (i + 1) q k h
      refine ⟨m + 1, code, ?_, by simp only [List.length_cons]; omega, e3, ?_⟩
      · rw [e1]
        congr 2
        omega
      · intro hk
        simpa using e4 hk

/-- A call of `get_tok_r` with the cursor at the start of a row of `k` fields
returns the first field: the token is the cursor, the new cursor is further on,
the code is `TOK_EOL` when the row has one field, and otherwise `TOK_OK` with
the new cursor in front of a row of `k - 1` fields. -/
theorem get_tok_r_count (mem : List Nat) (tok : Ptr) (str : Int) (d : Nat) (saveptr : Ptr)
    (len : Int) (k : Nat) (hp : 0 ≤ saveptr.getD str)
    (hk : count_fields d (mem.drop (saveptr.getD str).toNat) false = some k) :
    ∃ (r : TokRes) (m : Nat), get_tok_r mem tok str d saveptr len = some r ∧
      r.tok = some (saveptr.getD str) ∧ r.nbytes = (m : Int) + 1 ∧
      r.saveptr = some (saveptr.getD str + m + 1) ∧
      (saveptr.getD str).toNat + m < mem.length ∧
      (k = 1 → r.err = TOK_EOL) ∧
      (k ≠ 1 → r.err = TOK_OK ∧
        count_fields d (mem.drop ((saveptr.getD str).toNat + m + 1)) false = some (k - 1)) := by
  obtain ⟨m, code, e1, e2, e3, e4⟩ :=
    get_tok_r_loop_count d (saveptr.getD str) (str + len) _ 0 false k hk
  have hcode : code ≠ TOK_EOF := by
    by_cases h1 : k = 1
    · rw [e3 h1]; decide
    · rw [(e4 h1).1]; decide
  unfold get_tok_r
  dsimp only
  rw [if_neg (by omega), e1]
  dsimp only
  rw [if_neg hcode]
  refine ⟨_, m, rfl, rfl, ?_, ?_, ?_, e3, ?_⟩
  · simp
  · simp only [Nat.zero_add]
  · simp only [List.length_drop] at e2
    omega
  · intro h1
    refine ⟨(e4 h1).1, ?_⟩
    have := (e4 h1).2
    rw [List.drop_drop] at this
    rw [← this, Nat.add_assoc]

/-- A row with a field count has a length, which is at least the count. -/
theorem count_fields_row_length (d : Nat) :
    ∀ (l : List Nat) (q : Bool) (k : Nat), count_fields d l q = some k →
      ∃ n, row_length l = some n ∧ k ≤ n ∧ n ≤ l.length := by
  intro l
  induction l with
  | nil => intro q k h; simp [count_fields] at h
  | cons c rest ih =>
    intro q k h
    unfold count_fields at h
    unfold row_length
    by_cases h0 : c = 0
    · rw [if_pos h0] at h
      simp at h
    rw [if_neg h0] at h
    rw [if_neg h0]
    by_cases h10 : c = 10
    · rw [if_pos h10] at h
      rw [if_pos h10]
      simp only [Option.some.injEq] at h
      subst h
      exact ⟨1, rfl, le_refl _, by simp⟩
    rw [if_neg h10] at h
    rw [if_neg h10]
    by_cases h34 : c = 34
    · rw [if_pos h34] at h
      obtain ⟨n, e1, e2, e3⟩ := ih _ _ h
      rw [e1]
      exact ⟨n + 1, rfl, by omega, by simp only [List.length_cons]; omega⟩
    rw [if_neg h34] at h
    by_cases hd : c = d ∧ q = false
    · rw [if_pos hd] at h
      cases hr : count_fields d rest false with
      | none => rw [hr] at h; simp at h
      | some k1 =>
        rw [hr] at h
        simp only [Option.some.injEq] at h
        obtain ⟨n, e1, e2, e3⟩ := ih _ _ hr
        rw [e1]
        exact ⟨n + 1, rfl, by omega, by simp only [List.length_cons]; omega⟩
    · rw [if_neg hd] at h
      obtain ⟨n, e1, e2, e3⟩ := ih _ _ h
      rw [e1]
      exact ⟨n + 1, rfl, by omega, by simp only [List.length_cons]; omega⟩

/-- The length of a row seen from a byte further on in the row: after `m` bytes
that are neither NUL nor newline, the rest of the row is `m` bytes shorter. -/
theorem row_length_drop :
    ∀ (l : List Nat) (m n : Nat), row_length l = some n →
      (∀ x ∈ l.take m, x ≠ 0 ∧ x ≠ 10) → m ≤ l.length →
      m < n ∧ row_length (l.drop m) = some (n - m) := by
  intro l
  induction l with
  | nil => intro m n h; simp [row_length] at h
  | cons c rest ih =>
    intro m n h hx hm
    cases m with
    | zero =>
      refine ⟨?_, by simpa using h⟩
      unfold row_length at h
      by_cases h0 : c = 0
      · rw [if_pos h0] at h
        simp at h
      rw [if_neg h0] at h
      by_cases h10 : c = 10
      · rw [if_pos h10] at h
        simp only [Option.some.injEq] at h
        omega
      rw [if_neg h10] at h
      cases hr : row_length rest with
      | none => rw [hr] at h; simp at h
      | some n1 =>
        rw [hr] at h
        simp only [Option.some.injEq] at h
        omega
    | succ m =>
      have hc := hx c (by simp)
      unfold row_length at h
      rw [if_neg hc.1, if_neg hc.2] at h
      cases hr : row_length rest with
      | none => rw [hr] at h; simp at h
      | some n1 =>
        rw [hr] at h
        simp only [Option.some.injEq] at h
        subst h
        obtain ⟨e1, e2⟩ := ih m n1 hr
          (by
            intro x hxm
            exact hx x (by simp only [List.take_succ_cons, List.mem_cons]; exact Or.inr hxm))
          (by simp only [List.length_cons] at hm; omega)
        refine ⟨by omega, ?_⟩
        simp only [List.drop_succ_cons]
        rw [e2]
        congr 1
        omega

/-- The length of a row and the first token `get_tok_r` returns in it: when the
token ends at a newline the row is as long as the token with its terminator,
and otherwise the row goes on behind the token, shorter by that many bytes. -/
theorem get_tok_r_row_length (mem : List Nat) (tok : Ptr) (str : Int) (d : Nat) (saveptr : Ptr)
    (len : Int) (r : TokRes) (n : Nat)
    (h : get_tok_r mem tok str d saveptr len = some r)
    (hn : row_length (mem.drop (saveptr.getD str).toNat) = some n) :
    (r.err = TOK_EOL → r.nbytes = (n : Int)) ∧
    (r.err = TOK_OK → r.nbytes < (n : Int) ∧
      row_length (mem.drop ((saveptr.getD str).toNat + r.nbytes.toNat))
        = some (n - r.nbytes.toNat)) ∧
    r.err ≠ TOK_EOF := by
  obtain ⟨hnn, m, c, hb, hc, hx, hcase⟩ := get_tok_r_spec mem tok str d saveptr len r h
  have hm : m < (mem.drop (saveptr.getD str).toNat).length := by
    rw [List.length_drop]
    have := (List.getElem?_eq_some.mp hc).1
    omega
  obtain ⟨e1, e2⟩ := row_length_drop _ m n hn hx (by omega)
  rw [List.drop_drop] at e2
  have hcons : mem.drop ((saveptr.getD str).toNat + m)
      = c :: mem.drop ((saveptr.getD str).toNat + m + 1) := by
    have hlt := (List.getElem?_eq_some.mp hc).1
    rw [List.drop_eq_getElem_cons hlt]
    congr 1
    exact (List.getElem?_eq_some.mp hc).2
  rw [hcons] at e2
  unfold row_length at e2
  have hnb : r.nbytes.toNat = m + 1 := by omega
  have hc0 : c ≠ 0 := by
    intro h0
    rw [if_pos h0] at e2
    simp at e2
  rw [if_neg hc0] at e2
  have hEOL : TOK_EOL ≠ TOK_OK := by decide
  have hEOF : TOK_EOL ≠ TOK_EOF := by decide
  have hOK : TOK_OK ≠ TOK_EOF := by decide
  rcases hcase with ⟨h0, -⟩ | ⟨-, -, ⟨h0, -⟩ | ⟨h10, hE⟩ | ⟨-, h10, -, -, hE, -⟩⟩
  · exact absurd h0 hc0
  · exact absurd h0 hc0
  · rw [if_pos h10] at e2
    simp only [Option.some.injEq] at e2
    rw [hE]
    exact ⟨fun _ => by omega, fun hh => absurd hh hEOL, hEOF⟩
  · rw [if_neg h10] at e2
    rw [hE]
    cases hr : row_length (mem.drop ((saveptr.getD str).toNat + m + 1)) with
    | none => rw [hr] at e2; simp at e2
    | some n1 =>
      rw [hr] at e2
      simp only [Option.some.injEq] at e2
      have hpos := (row_length_drop _ 0 n1 hr (by simp) (by omega)).1
      refine ⟨fun hh => absurd hh.symm hEOL, fun _ => ⟨by omega, ?_⟩, hOK⟩
      rw [hnb, ← Nat.add_assoc, hr]
      congr 1
      omega

/-- A write into an array at an index inside it succeeds. -/
theorem arr_set_some {α : Type} (a : List α) (i : Int) (v : α) (h0 : 0 ≤ i)
    (h1 : i < (a.length : Int)) : arr_set a i v = some (a.set i.toNat v) := by
  unfold arr_set
  rw [if_pos ⟨h0, by omega⟩]

/-- The first-visit loop of `get_row` on a row of `k` fields, the cursor at the
start of the row, with room in the buffer for the columns asked for: the loop
ends at the newline of the row after `k` tokens. With no column count yet the
count becomes `icol + k` and the code is `E_OK`; with a column count the code
is `E_OK` when `icol + k` equals it and `E_DTA_MISSING_FIELD` otherwise. The
byte total has grown by the length of the row. -/
theorem get_row_scan_count (mem : List Nat) (d : Nat) (str len cs ce : Int) (hce : ce ≠ -1) :
    ∀ (k fuel : Nat) (saveptr tok : Ptr) (icol i total ncols : Int) (buf : List Ptr),
      count_fields d (mem.drop (saveptr.getD str).toNat) false = some k →
      0 ≤ saveptr.getD str → k ≤ fuel →
      0 ≤ i → (i ≤ icol - cs ∨ i = 0) → ce - cs < (buf.length : Int) →
      ∃ total1 buf1,
        get_row_scan mem d str len cs ce fuel saveptr tok icol i total ncols buf
          = some (if icol + k = (if ncols = 0 then icol + k else ncols) then E_OK
                  else E_DTA_MISSING_FIELD,
                  total1, if ncols = 0 then icol + k else ncols, buf1) ∧
        buf1.length = buf.length ∧
        (∀ n, row_length (mem.drop (saveptr.getD str).toNat) = some n →
          total1 = total + n) := by
  intro k
  induction k with
  | zero =>
    intro fuel saveptr tok icol i total ncols buf hk
    have := (count_fields_le d _ false 0 hk).1
    omega
  | succ k ih =>
    intro fuel saveptr tok icol i total ncols buf hk hp hfuel hi hic hbuf
    obtain ⟨r, m, hr, htok, hnb, hsp, hin, hone, hmore⟩ :=
      get_tok_r_count mem tok str d saveptr len (k + 1) hp hk
    cases fuel with
    | zero => omega
    | succ fuel =>
      unfold get_row_scan
      rw [hr]
      dsimp only
      have hstore : ∃ buf1, (if cs ≤ icol ∧ (icol ≤ ce ∨ ce = -1)
          then arr_set buf i r.tok else some buf) = some buf1 ∧ buf1.length = buf.length := by
        by_cases hs : cs ≤ icol ∧ (icol ≤ ce ∨ ce = -1)
        · rw [if_pos hs]
          have hlt : i < (buf.length : Int) := by
            rcases hs with ⟨hs1, hs2 | hs2⟩
            · omega
            · exact absurd hs2 hce
          rw [arr_set_some buf i r.tok hi hlt]
          exact ⟨_, rfl, by simp⟩
        · rw [if_neg hs]
          exact ⟨_, rfl, rfl⟩
      obtain ⟨buf1, hb1, hlen1⟩ := hstore
      by_cases h1 : k + 1 = 1
      · have hE := hone h1
        rw [if_neg (by rw [hE]; decide), if_neg (by rw [hE]; decide), hb1]
        dsimp only
        rw [if_pos hE]
        have hk0 : k = 0 := by omega
        subst hk0
        refine ⟨total + r.nbytes, buf1, ?_, hlen1, ?_⟩
        · by_cases hnc : ncols = 0
          · simp only [hnc, if_true]
            simp
          · simp only [if_neg hnc]
            by_cases he : icol + 1 = ncols
            · have he2 : ¬ (icol ≠ ncols - 1) := by omega
              rw [if_neg he2]
              simp [he]
            · have he2 : icol ≠ ncols - 1 := by omega
              rw [if_pos he2]
              simp [he]
        · intro n hn
          have := (get_tok_r_row_length mem tok str d saveptr len r n hr hn).1 hE
          omega
      · obtain ⟨hOK, hrest⟩ := hmore h1
        rw [if_neg (by rw [hOK]; decide), if_neg (by rw [hOK]; decide), hb1]
        dsimp only
        rw [if_neg (by rw [hOK]; decide)]
        have hcur : (r.saveptr.getD str).toNat = (saveptr.getD str).toNat + m + 1 := by
          rw [hsp]
          simp only [Option.getD_some]
          omega
        obtain ⟨total1, buf2, e1, e2, e3⟩ := ih fuel r.saveptr r.tok (icol + 1)
          (if cs ≤ icol ∧ (icol ≤ ce ∨ ce = -1) then i + 1 else i) (total + r.nbytes) ncols buf1
          (by rw [hcur]; simpa using hrest)
          (by rw [hsp]; simp only [Option.getD_some]; omega)
          (by omega)
          (by split_ifs <;> omega)
          (by split_ifs <;> omega)
          (by omega)
        refine ⟨total1, buf2, ?_, by omega, ?_⟩
        · rw [e1]
          have ha : icol + 1 + (k : Int) = icol + ((k + 1 : Nat) : Int) := by
            push_cast
            omega
          rw [ha]
        · intro n hn
          obtain ⟨-, g2, -⟩ := get_tok_r_row_length mem tok str d saveptr len r n hr hn
          obtain ⟨g3, g4⟩ := g2 hOK
          have hnb2 : r.nbytes.toNat = m + 1 := by omega
          rw [hnb2, ← Nat.add_assoc, ← hcur] at g4
          have := e3 _ g4
          omega

/-- The first visit of a row of `k` fields by `get_row`, with a column count
established and room in the buffer for the columns asked for: the call returns
`E_OK` when `k` is the column count and `E_DTA_MISSING_FIELD` otherwise; in the
first case it records the start of the row plus the length of the row as the
end offset and counts the row, in the second it leaves the source as it was. -/
theorem get_row_first_visit (data : Data_T) (buf : List Ptr) (row cs ce cur : Int) (k : Nat)
    (hnc : data.ncols ≠ 0) (hce : ce < data.ncols)
    (hbuf : (if ce = -1 then data.ncols - 1 else ce) - cs < (buf.length : Int))
    (hcur : arr_get data.row_offsets row = some cur) (hcur0 : 0 ≤ cur)
    (hvis : 0 < row → cur ≠ 0 ∧ cur ≠ data.st_size)
    (hnext : arr_get data.row_offsets (row + 1) = some 0)
    (hk : count_fields data.delim (data.ptr.drop cur.toNat) false = some k) :
    ∃ buf1, buf1.length = buf.length ∧
      (((k : Int) ≠ data.ncols ∧
        get_row data buf row cs ce = some (E_DTA_MISSING_FIELD, data, buf1)) ∨
       ((k : Int) = data.ncols ∧ ∃ n ro1, row_length (data.ptr.drop cur.toNat) = some n ∧
        arr_set data.row_offsets (row + 1) (cur + n) = some ro1 ∧
        get_row data buf row cs ce
          = some (E_OK, { data with row_offsets := ro1, nrows := data.nrows + 1 }, buf1)) ∨
       ((k : Int) = data.ncols ∧ get_row data buf row cs ce = none ∧
        ¬ (row + 1 < (data.row_offsets.length : Int)))) := by
  have hce1 : (if data.ncols ≠ 0 ∧ ce = -1 then data.ncols - 1 else ce) ≠ -1 := by
    split_ifs with h
    · omega
    · intro h1
      exact h ⟨hnc, h1⟩
  have hce2 : (if data.ncols ≠ 0 ∧ ce = -1 then data.ncols - 1 else ce)
      = (if ce = -1 then data.ncols - 1 else ce) := by
    by_cases h : ce = -1
    · rw [if_pos ⟨hnc, h⟩, if_pos h]
    · rw [if_neg (fun hh => h hh.2), if_neg h]
  obtain ⟨n, hn, hkn, hnl⟩ := count_fields_row_length data.delim _ false k hk
  have hfuel : k ≤ data.ptr.length + 1 := by
    have := (count_fields_le data.delim _ false k hk).2
    rw [List.length_drop] at this
    omega
  obtain ⟨total1, buf1, hscan, hlen, htot⟩ := get_row_scan_count data.ptr data.delim cur
    data.st_size cs (if data.ncols ≠ 0 ∧ ce = -1 then data.ncols - 1 else ce) hce1 k
    (data.ptr.length + 1) none none 0 0 cur data.ncols buf
    (by simpa using hk) (by simpa using hcur0) hfuel (le_refl 0) (Or.inr rfl)
    (by rw [hce2]; exact hbuf)
  have htot1 : total1 = cur + n := htot n (by simpa using hn)
  rw [if_neg hnc] at hscan
  refine ⟨buf1, hlen, ?_⟩
  unfold get_row
  rw [if_neg (by omega : ¬ (data.ncols ≠ 0 ∧ ce ≥ data.ncols))]
  dsimp only
  rw [hcur]
  dsimp only
  have hv1 : ¬ (0 < row ∧ cur = data.st_size) := fun hh => (hvis hh.1).2 hh.2
  have hv2 : ¬ (0 < row ∧ cur = 0) := fun hh => (hvis hh.1).1 hh.2
  rw [if_neg hv1, if_neg hv2, hnext]
  dsimp only
  rw [if_neg (by simp)]
  by_cases hkn2 : (k : Int) = data.ncols
  · rw [if_pos (by omega : 0 + (k : Int) = data.ncols)] at hscan
    rw [hscan]
    dsimp only
    rw [if_neg (by simp)]
    cases hs : arr_set data.row_offsets (row + 1) total1 with
    | none =>
      refine Or.inr (Or.inr ⟨hkn2, rfl, ?_⟩)
      intro hlt
      have hrow : 0 ≤ row + 1 := by
        unfold arr_get at hnext
        by_cases hneg : row + 1 < 0
        · rw [if_pos hneg] at hnext
          simp at hnext
        · omega
      rw [arr_set_some _ _ _ hrow hlt] at hs
      simp at hs
    | some ro1 =>
      refine Or.inr (Or.inl ⟨hkn2, n, ro1, hn, by rw [← htot1]; exact hs, rfl⟩)
  · rw [if_neg (by omega : ¬ (0 + (k : Int) = data.ncols))] at hscan
    rw [hscan]
    dsimp only
    rw [if_pos (by decide)]
    exact Or.inl ⟨hkn2, rfl⟩

/-- With a column count established, the first visit by `get_row` of a row
that holds no NUL byte before its first newline and has, up to that newline, a
number of fields (`count_fields`) other than the column count returns `E_DTA_MISSING_FIELD` and leaves the source (`ncols`,
`nrows`, every entry of `row_offsets`) as it was, whatever columns are asked for
below the column count with room for them in the buffer; and
`Frame_shift_row(+1)` onto such a row returns `E_DTA_PARSE_ERROR` with the
frame and the source as they were. -/
theorem get_row_missing_field (data : Data_T) (buf : List Ptr) (row cs ce cur : Int) (k : Nat)
    (hnc : data.ncols ≠ 0) (hce : ce < data.ncols)
    (hbuf : (if ce = -1 then data.ncols - 1 else ce) - cs < (buf.length : Int))
    (hcur : arr_get data.row_offsets row = some cur) (hcur0 : 0 ≤ cur)
    (hvis : 0 < row → cur ≠ 0 ∧ cur ≠ data.st_size)
    (hnext : arr_get data.row_offsets (row + 1) = some 0)
    (hk : count_fields data.delim (data.ptr.drop cur.toNat) false = some k)
    (hne : (k : Int) ≠ data.ncols) :
    (∃ buf1, get_row data buf row cs ce = some (E_DTA_MISSING_FIELD, data, buf1)) ∧
    (∀ (M : Nat) (frame : Frame_T), 0 < frame.ncols → frame.ncols ≤ data.ncols →
      frame.data_loaded.last_row + 1 = row → row + 1 ≠ (M : Int) →
      Frame_shift_row M frame data 1 = some (E_DTA_PARSE_ERROR, frame, data)) := by
  constructor
  · obtain ⟨buf1, -, h | h | h⟩ :=
      get_row_first_visit data buf row cs ce cur k hnc hce hbuf hcur hcur0 hvis hnext hk
    · exact ⟨buf1, h.2⟩
    · exact absurd h.1 hne
    · exact absurd h.1 hne
  · intro M frame hf0 hf1 hrow hM
    obtain ⟨buf1, -, h | h | h⟩ :=
      get_row_first_visit data (List.replicate frame.ncols.toNat none) row 0 (frame.ncols - 1)
        cur k hnc (by omega)
        (by
          rw [if_neg (by omega)]
          simp only [List.length_replicate]
          omega)
        hcur hcur0 hvis hnext hk
    · unfold Frame_shift_row
      rw [if_neg (by decide)]
      dsimp only
      rw [if_pos rfl, hrow, if_neg hM]
      unfold vla
      rw [if_neg (by omega)]
      dsimp only
      rw [h.2]
      dsimp only
      rw [if_neg (by decide), if_pos (by decide)]
    · exact absurd h.1 hne
    · exact absurd h.1 hne

/-- Witness of `get_row_missing_field`: in the file `a,b,c` / `d,e` the column
count 3 is established by row 0; row 1 has two fields, its first visit returns
`E_DTA_MISSING_FIELD` with the source unchanged, and `Frame_shift_row(+1)` from
the frame that holds row 0 returns `E_DTA_PARSE_ERROR`. -/
theorem get_row_missing_field_witness :
    Frame_load 4
        { ragged_frame with ncols := 0, nrows := 0, data := [], data_loaded := ⟨0, 0, 0, 0⟩ }
        { ragged_row0 with ncols := 0, nrows := 0, row_offsets := List.replicate 8 0 }
      = some (E_OK, ragged_frame, ragged_row0) ∧
    count_fields 44 (ragged_row0.ptr.drop 6) false = some 2 ∧
    (∃ buf1, get_row ragged_row0 [none, none, none] 1 0 2
      = some (E_DTA_MISSING_FIELD, ragged_row0, buf1)) ∧
    Frame_shift_row 8 ragged_frame ragged_row0 1
      = some (E_DTA_PARSE_ERROR, ragged_frame, ragged_row0) :=
  ⟨by decide, by decide,
   (get_row_missing_field ragged_row0 [none, none, none] 1 0 2 6 2 (by decide) (by decide)
     (by decide) (by decide) (by decide) (by decide) (by decide) (by decide) (by decide)).1,
   (get_row_missing_field ragged_row0 [none, none, none] 1 0 2 6 2 (by decide) (by decide)
     (by decide) (by decide) (by decide) (by decide) (by decide) (by decide) (by decide)).2
     8 ragged_frame (by decide) (by decide) (by decide) (by decide)⟩

/-! ## Tokens and limits -/

/-- The test `err & (TOK_ERR | TOK_EOF)` of the repeat-visit loops: it is 0 for
`TOK_OK` and `TOK_EOL`, and not 0 for `TOK_EOF`. -/
theorem tok_mask (e : Nat) :
    ((e = TOK_OK ∨ e = TOK_EOL) → ¬ (e &&& (TOK_ERR ||| TOK_EOF) ≠ 0)) ∧
    (e = TOK_EOF → e &&& (TOK_ERR ||| TOK_EOF) ≠ 0) := by
  constructor
  · rintro (rfl | rfl) <;> decide
  · rintro rfl
    decide

/-- The loop of `get_tok_r` returns the same when the limit is changed, as long
as it does not return `TOK_EOF` and the terminator is below the new limit. -/
theorem get_tok_r_loop_limit (d : Nat) (field lim lim1 : Int) :
    ∀ (l : List Nat) (i : Nat) (q : Bool) (code j : Nat),
      get_tok_r_loop d field lim l i q = some (code, j) → code ≠ TOK_EOF →
      field + j < lim1 → get_tok_r_loop d field lim1 l i q = some (code, j) := by
  intro l
  induction l with
  | nil => intro i q code j h; simp [get_tok_r_loop] at h
  | cons c rest ih =>
    intro i q code j h hne hlt
    unfold get_tok_r_loop at h
    unfold get_tok_r_loop
    by_cases h0 : c = 0
    · rw [if_pos h0] at h
      rw [if_pos h0]
      by_cases hl : field + (i : Int) ≥ lim
      · rw [if_pos hl] at h
        simp only [Option.some.injEq, Prod.mk.injEq] at h
        exact absurd h.1.symm hne
      · rw [if_neg hl] at h
        simp only [Option.some.injEq, Prod.mk.injEq] at h
        obtain ⟨rfl, rfl⟩ := h
        rw [if_neg (by omega)]
    rw [if_neg h0] at h
    rw [if_neg h0]
    by_cases h10 : c = 10
    · rw [if_pos h10] at h
      rw [if_pos h10]
      exact h
    rw [if_neg h10] at h
    rw [if_neg h10]
    by_cases h34 : c = 34
    · rw [if_pos h34] at h
      rw [if_pos h34]
      exact ih _ _ _ _ h hne hlt
    rw [if_neg h34] at h
    rw [if_neg h34]
    by_cases hd : c = d ∧ q = false
    · rw [if_pos hd] at h
      rw [if_pos hd]
      exact h
    · rw [if_neg hd] at h
      rw [if_neg hd]
      exact ih _ _ _ _ h hne hlt

/-- A call of `get_tok_r` that does not return `TOK_EOF` returns the same under
every length that puts the limit at or behind the new cursor. -/
theorem get_tok_r_limit (mem : List Nat) (tok : Ptr) (str : Int) (d : Nat) (saveptr : Ptr)
    (len len1 : Int) (r : TokRes) (h : get_tok_r mem tok str d saveptr len = some r)
    (hne : r.err ≠ TOK_EOF) (hlim : r.saveptr.getD str ≤ str + len1) :
    get_tok_r mem tok str d saveptr len1 = some r := by
  unfold get_tok_r at h
  unfold get_tok_r
  dsimp only at h ⊢
  by_cases hneg : saveptr.getD str < 0
  · rw [if_pos hneg] at h
    simp at h
  rw [if_neg hneg] at h
  rw [if_neg hneg]
  cases hl : get_tok_r_loop d (saveptr.getD str) (str + len)
      (mem.drop (saveptr.getD str).toNat) 0 false with
  | none => rw [hl] at h; simp at h
  | some res =>
    obtain ⟨code, j⟩ := res
    rw [hl] at h
    dsimp only at h
    by_cases hE : code = TOK_EOF
    · rw [if_pos hE] at h
      simp only [Option.some.injEq] at h
      rw [← h] at hne
      exact absurd hE hne
    rw [if_neg hE] at h
    simp only [Option.some.injEq] at h
    have hj : saveptr.getD str + (j : Int) < str + len1 := by
      rw [← h] at hlim
      simp only [Option.getD_some] at hlim
      omega
    rw [get_tok_r_loop_limit d _ _ (str + len1) _ _ _ _ _ hl hE hj]
    dsimp only
    rw [if_neg hE]
    simp only [Option.some.injEq]
    exact h

/-- One more round of the inner loop of `get_col`, from its first call of
`get_tok_r`. -/
theorem get_col_toks_succ (mem : List Nat) (d : Nat) (str len : Int) (k : Nat)
    (tok saveptr : Ptr) (r : TokRes) (h : get_tok_r mem tok str d saveptr len = some r)
    (hne : r.err ≠ TOK_EOF) :
    get_col_toks mem d str len (k + 1) tok saveptr
      = get_col_toks mem d str len k r.tok r.saveptr := by
  have hmask : ¬ (r.err &&& (TOK_ERR ||| TOK_EOF) ≠ 0) := by
    rcases get_tok_r_err mem tok str d saveptr len r h with he | he | he
    · exact (tok_mask r.err).1 (Or.inl he)
    · exact (tok_mask r.err).1 (Or.inr he)
    · exact absurd he hne
  rw [get_col_toks, h]
  dsimp only
  rw [if_neg hmask]

/-- A run of the inner loop of `get_col` that goes through has made `k` calls of
`get_tok_r`, none with `TOK_EOF`: its first call, if there is one, and the rest
of the run from there. -/
theorem get_col_toks_inr (mem : List Nat) (d : Nat) (str len : Int) (k : Nat)
    (tok saveptr t s : Ptr)
    (h : get_col_toks mem d str len (k + 1) tok saveptr = some (Sum.inr (t, s))) :
    ∃ r, get_tok_r mem tok str d saveptr len = some r ∧ r.err ≠ TOK_EOF ∧
      get_col_toks mem d str len k r.tok r.saveptr = some (Sum.inr (t, s)) := by
  rw [get_col_toks] at h
  cases hr : get_tok_r mem tok str d saveptr len with
  | none => rw [hr] at h; simp at h
  | some r =>
    rw [hr] at h
    dsimp only at h
    by_cases hm : r.err &&& (TOK_ERR ||| TOK_EOF) ≠ 0
    · rw [if_pos hm] at h
      simp at h
    · rw [if_neg hm] at h
      refine ⟨r, rfl, ?_, h⟩
      intro hE
      exact hm ((tok_mask r.err).2 hE)

/-- The cursor after `k` tokens is at least `k` bytes behind the cursor before
them, and is not negative. -/
theorem get_col_toks_cursor (mem : List Nat) (d : Nat) (str len : Int) :
    ∀ (k : Nat) (tok saveptr t s : Ptr),
      get_col_toks mem d str len k tok saveptr = some (Sum.inr (t, s)) →
      saveptr.getD str + k ≤ s.getD str := by
  intro k
  induction k with
  | zero =>
    intro tok saveptr t s h
    simp only [get_col_toks, Option.some.injEq, Sum.inr.injEq, Prod.mk.injEq] at h
    rw [h.2]
    simp
  | succ k ih =>
    intro tok saveptr t s h
    obtain ⟨r, hr, hne, hrest⟩ := get_col_toks_inr mem d str len k tok saveptr t s h
    have := ih _ _ _ _ hrest
    have hadv := get_tok_r_advance mem tok str d saveptr len r hr hne
    obtain ⟨hnn, -⟩ := get_tok_r_spec mem tok str d saveptr len r hr
    push_cast
    omega

/-- A run of the inner loop of `get_col` that goes through does so under every
length that puts the limit at or behind its last cursor. -/
theorem get_col_toks_limit (mem : List Nat) (d : Nat) (str len len1 : Int) :
    ∀ (k : Nat) (tok saveptr t s : Ptr),
      get_col_toks mem d str len k tok saveptr = some (Sum.inr (t, s)) →
      s.getD str ≤ str + len1 →
      get_col_toks mem d str len1 k tok saveptr = some (Sum.inr (t, s)) := by
  intro k
  induction k with
  | zero =>
    intro tok saveptr t s h _
    simpa [get_col_toks] using h
  | succ k ih =>
    intro tok saveptr t s h hlim
    obtain ⟨r, hr, hne, hrest⟩ := get_col_toks_inr mem d str len k tok saveptr t s h
    have hcur := get_col_toks_cursor mem d str len k _ _ _ _ hrest
    have hr1 := get_tok_r_limit mem tok str d saveptr len len1 r hr hne (by omega)
    rw [get_col_toks_succ mem d str len1 k tok saveptr r hr1 hne]
    exact ih _ _ _ _ hrest hlim

/-- A run of the inner loop of `get_col` that goes through `k` rounds goes
through every smaller number of rounds, ending at a cursor that is not behind
the last one. -/
theorem get_col_toks_prefix (mem : List Nat) (d : Nat) (str len : Int) :
    ∀ (k : Nat) (tok saveptr t s : Ptr),
      get_col_toks mem d str len k tok saveptr = some (Sum.inr (t, s)) →
      ∀ j, j ≤ k → ∃ t1 s1, get_col_toks mem d str len j tok saveptr = some (Sum.inr (t1, s1)) ∧
        s1.getD str ≤ s.getD str := by
  intro k
  induction k with
  | zero =>
    intro tok saveptr t s h j hj
    have : j = 0 := by omega
    subst this
    exact ⟨t, s, h, le_refl _⟩
  | succ k ih =>
    intro tok saveptr t s h j hj
    obtain ⟨r, hr, hne, hrest⟩ := get_col_toks_inr mem d str len k tok saveptr t s h
    cases j with
    | zero =>
      refine ⟨tok, saveptr, by simp [get_col_toks], ?_⟩
      have := get_col_toks_cursor mem d str len (k + 1) _ _ _ _ h
      omega
    | succ j =>
      obtain ⟨t1, s1, e1, e2⟩ := ih _ _ _ _ hrest j (by omega)
      exact ⟨t1, s1, by rw [get_col_toks_succ mem d str len j tok saveptr r hr hne]; exact e1, e2⟩

/-- The token a run of the inner loop of `get_col` ends with, when it has made
at least one round: a pointer into the mapping, not before the first cursor and
before the last. -/
theorem get_col_toks_token (mem : List Nat) (d : Nat) (str len : Int) :
    ∀ (k : Nat) (tok saveptr t s : Ptr),
      get_col_toks mem d str len (k + 1) tok saveptr = some (Sum.inr (t, s)) →
      ∃ p, t = some p ∧ saveptr.getD str ≤ p ∧ p < s.getD str := by
  intro k
  induction k with
  | zero =>
    intro tok saveptr t s h
    obtain ⟨r, hr, hne, hrest⟩ := get_col_toks_inr mem d str len 0 tok saveptr t s h
    simp only [get_col_toks, Option.some.injEq, Sum.inr.injEq, Prod.mk.injEq] at hrest
    obtain ⟨hnn, m, c, -, -, -, hcase⟩ := get_tok_r_spec mem tok str d saveptr len r hr
    rcases hcase with ⟨-, hE, -⟩ | ⟨ht, hs, -⟩
    · exact absurd hE hne
    · refine ⟨saveptr.getD str, by rw [← hrest.1, ht], le_refl _, ?_⟩
      rw [← hrest.2, hs]
      simp only [Option.getD_some]
      omega
  | succ k ih =>
    intro tok saveptr t s h
    obtain ⟨r, hr, hne, hrest⟩ := get_col_toks_inr mem d str len (k + 1) tok saveptr t s h
    obtain ⟨p, e1, e2, e3⟩ := ih _ _ _ _ hrest
    have hadv := get_tok_r_advance mem tok str d saveptr len r hr hne
    obtain ⟨hnn, -⟩ := get_tok_r_spec mem tok str d saveptr len r hr
    exact ⟨p, e1, by omega, e3⟩

/-! ## The first-visit loop as a run of tokens -/

/-- A write into an array that succeeds is a write at an index inside it. -/
theorem arr_set_inv {α : Type} (a a1 : List α) (i : Int) (v : α)
    (h : arr_set a i v = some a1) : 0 ≤ i ∧ i.toNat < a.length ∧ a1 = a.set i.toNat v := by
  unfold arr_set at h
  by_cases hc : 0 ≤ i ∧ i.toNat < a.length
  · rw [if_pos hc] at h
    simp only [Option.some.injEq] at h
    exact ⟨hc.1, hc.2, h.symm⟩
  · rw [if_neg hc] at h
    simp at h

/-- A property of the `m` bytes from index `a` on holds for the byte at every
index from `a` to below `a + m`. -/
theorem mem_take_drop (mem : List Nat) (a m : Nat) (P : Nat → Prop)
    (h : ∀ x ∈ (mem.drop a).take m, P x) (q : Nat) (hq1 : a ≤ q) (hq2 : q < a + m) (v : Nat)
    (hv : mem[q]? = some v) : P v := by
  apply h
  rw [List.mem_iff_getElem?]
  refine ⟨q - a, ?_⟩
  rw [List.getElem?_take_of_lt (by omega), List.getElem?_drop]
  rw [← hv]
  congr 1
  omega

/-- The first-visit loop of `get_row` leaves an established column count as it
is, and changes no column count unless it returns `E_OK`. -/
theorem get_row_scan_ncols (mem : List Nat) (d : Nat) (str len cs ce : Int) :
    ∀ (fuel : Nat) (saveptr tok : Ptr) (icol i total ncols : Int) (buf : List Ptr)
      (ret : Code) (total1 ncols1 : Int) (buf1 : List Ptr),
      get_row_scan mem d str len cs ce fuel saveptr tok icol i total ncols buf
        = some (ret, total1, ncols1, buf1) →
      (ncols ≠ 0 → ncols1 = ncols) ∧ (ret ≠ E_OK → ncols1 = ncols) := by
  intro fuel
  induction fuel with
  | zero => intro saveptr tok icol i total ncols buf ret total1 ncols1 buf1 h
            simp [get_row_scan] at h
  | succ fuel ih =>
    intro saveptr tok icol i total ncols buf ret total1 ncols1 buf1 h
    unfold get_row_scan at h
    cases hr : get_tok_r mem tok str d saveptr len with
    | none => rw [hr] at h; simp at h
    | some r =>
      rw [hr] at h
      dsimp only at h
      by_cases h1 : r.err = TOK_ERR
      · rw [if_pos h1] at h
        simp only [Option.some.injEq, Prod.mk.injEq] at h
        exact ⟨fun _ => h.2.2.1.symm, fun _ => h.2.2.1.symm⟩
      rw [if_neg h1] at h
      by_cases h2 : r.err = TOK_EOF
      · rw [if_pos h2] at h
        simp only [Option.some.injEq, Prod.mk.injEq] at h
        exact ⟨fun _ => h.2.2.1.symm, fun _ => h.2.2.1.symm⟩
      rw [if_neg h2] at h
      cases hb : (if cs ≤ icol ∧ (icol ≤ ce ∨ ce = -1) then arr_set buf i r.tok
          else some buf) with
      | none => rw [hb] at h; simp at h
      | some buf2 =>
        rw [hb] at h
        dsimp only at h
        by_cases h3 : r.err = TOK_EOL
        · rw [if_pos h3] at h
          by_cases h4 : icol ≠ (if ncols = 0 then icol + 1 else ncols) - 1
          · rw [if_pos h4] at h
            simp only [Option.some.injEq, Prod.mk.injEq] at h
            by_cases hn : ncols = 0
            · rw [if_pos hn] at h4
              omega
            · rw [if_neg hn] at h
              exact ⟨fun _ => h.2.2.1.symm, fun _ => h.2.2.1.symm⟩
          · rw [if_neg h4] at h
            simp only [Option.some.injEq, Prod.mk.injEq] at h
            refine ⟨fun hn => ?_, fun hne => absurd h.1.symm hne⟩
            rw [if_neg hn] at h
            exact h.2.2.1.symm
        · rw [if_neg h3] at h
          exact ih _ _ _ _ _ _ _ _ _ _ _ h

/-- A successful run of the first-visit loop of `get_row`, with `total_bytes`
at the cursor, as a run of tokens: the loop has made `cnt` calls of `get_tok_r`
that the inner loop of `get_col` makes as well, and `total_bytes` ends at the
cursor behind them. Either the last of them returned `TOK_EOL`, the column
count is `icol + cnt` (and was that or 0 before) and the byte before the last
cursor is a newline; or the next call returns `TOK_EOF`, the column count is
as before and no byte from the first cursor to the limit is a newline. When
the columns asked for start at 0 and `i` runs with `icol`, the buffer holds the
tokens of the columns up to `col_end` and its lower entries are unchanged. -/
theorem get_row_scan_run (mem : List Nat) (d : Nat) (str len cs ce : Int) :
    ∀ (fuel : Nat) (saveptr tok : Ptr) (icol i total ncols : Int) (buf : List Ptr)
      (t ncols1 : Int) (buf1 : List Ptr),
      get_row_scan mem d str len cs ce fuel saveptr tok icol i total ncols buf
        = some (E_OK, t, ncols1, buf1) →
      total = saveptr.getD str →
      ∃ (cnt : Nat) (tf sf : Ptr),
        get_col_toks mem d str len cnt tok saveptr = some (Sum.inr (tf, sf)) ∧
        sf.getD str = t ∧
        ((1 ≤ cnt ∧ ncols1 = icol + cnt ∧ (ncols = 0 ∨ ncols = ncols1) ∧
            1 ≤ t ∧ mem[(t - 1).toNat]? = some 10) ∨
         (ncols1 = ncols ∧
            (∃ r, get_tok_r mem tf str d sf len = some r ∧ r.err = TOK_EOF) ∧
            ∀ q : Nat, saveptr.getD str ≤ q → (q : Int) < str + len → mem[q]? ≠ some 10)) ∧
        (cs = 0 → 0 ≤ ce → 0 ≤ icol → (icol ≤ ce → i = icol) →
          (∀ j : Nat, (j : Int) < icol → buf1[j]? = buf[j]?) ∧
          (∀ n : Nat, n < cnt → icol + n ≤ ce →
            ∃ tj sj, get_col_toks mem d str len (n + 1) tok saveptr = some (Sum.inr (tj, sj)) ∧
              buf1[(icol + n).toNat]? = some tj)) := by
  intro fuel
  induction fuel with
  | zero => intro saveptr tok icol i total ncols buf t ncols1 buf1 h
            simp [get_row_scan] at h
  | succ fuel ih =>
    intro saveptr tok icol i total ncols buf t ncols1 buf1 h htot
    unfold get_row_scan at h
    cases hr : get_tok_r mem tok str d saveptr len with
    | none => rw [hr] at h; simp at h
    | some r =>
      rw [hr] at h
      dsimp only at h
      obtain ⟨hnn, m, c, hnb, hc, hx, hcase⟩ := get_tok_r_spec mem tok str d saveptr len r hr
      by_cases h1 : r.err = TOK_ERR
      · rw [if_pos h1] at h
        simp at h
      rw [if_neg h1] at h
      by_cases h2 : r.err = TOK_EOF
      · -- the loop is left at once
        rw [if_pos h2] at h
        simp only [Option.some.injEq, Prod.mk.injEq, true_and] at h
        obtain ⟨rfl, rfl, rfl⟩ := h
        refine ⟨0, tok, saveptr, by simp [get_col_toks], htot.symm, Or.inr ⟨rfl, ⟨r, hr, h2⟩, ?_⟩,
          fun _ _ _ _ => ⟨fun _ _ => rfl, fun n hn => by omega⟩⟩
        intro q hq1 hq2 hq
        have hlim : str + len ≤ saveptr.getD str + m := by
          rcases hcase with ⟨-, -, hl, -⟩ | ⟨-, -, ⟨-, hE, -⟩ | ⟨-, hE⟩ | ⟨-, -, -, -, hE, -⟩⟩
          · exact hl
          · rw [hE] at h2; exact absurd h2 (by decide)
          · rw [hE] at h2; exact absurd h2 (by decide)
          · rw [hE] at h2; exact absurd h2 (by decide)
        exact (mem_take_drop mem _ m (fun x => x ≠ 0 ∧ x ≠ 10) hx q (by omega) (by omega) 10
          hq).2 rfl
      rw [if_neg h2] at h
      -- the token and the cursor of a call that is not at the end
      have hts : r.tok = some (saveptr.getD str) ∧
          r.saveptr = some (saveptr.getD str + m + 1) := by
        rcases hcase with ⟨-, hE, -⟩ | ⟨ht, hs, -⟩
        · exact absurd hE h2
        · exact ⟨ht, hs⟩
      have hone : get_col_toks mem d str len 1 tok saveptr
          = some (Sum.inr (r.tok, r.saveptr)) := by
        rw [get_col_toks_succ mem d str len 0 tok saveptr r hr h2]
        simp [get_col_toks]
      cases hb : (if cs ≤ icol ∧ (icol ≤ ce ∨ ce = -1) then arr_set buf i r.tok
          else some buf) with
      | none => rw [hb] at h; simp at h
      | some buf2 =>
        rw [hb] at h
        dsimp only at h
        -- what the store has done when the columns start at 0
        have hstore : cs = 0 → 0 ≤ ce → 0 ≤ icol → (icol ≤ ce → i = icol) →
            (∀ j : Nat, (j : Int) < icol → buf2[j]? = buf[j]?) ∧
            (icol ≤ ce → buf2[icol.toNat]? = some r.tok) := by
          intro hcs hce0 hic hi
          by_cases hs : cs ≤ icol ∧ (icol ≤ ce ∨ ce = -1)
          · rw [if_pos hs] at hb
            obtain ⟨b1, b2, b3⟩ := arr_set_inv _ _ _ _ hb
            have hle : icol ≤ ce := by
              rcases hs.2 with h' | h'
              · exact h'
              · omega
            have hii := hi hle
            subst b3
            refine ⟨fun j hj => ?_, fun _ => ?_⟩
            · rw [List.getElem?_set_ne (by omega)]
            · rw [hii] at b2 ⊢
              rw [List.getElem?_set, if_pos rfl]
              simp [b2]
          · rw [if_neg hs] at hb
            simp only [Option.some.injEq] at hb
            subst hb
            refine ⟨fun _ _ => rfl, fun hle => ?_⟩
            exact absurd ⟨by omega, Or.inl hle⟩ hs
        by_cases h3 : r.err = TOK_EOL
        · -- the loop is left at the end of the line
          rw [if_pos h3] at h
          by_cases h4 : icol ≠ (if ncols = 0 then icol + 1 else ncols) - 1
          · rw [if_pos h4] at h
            simp at h
          rw [if_neg h4] at h
          simp only [Option.some.injEq, Prod.mk.injEq, true_and] at h
          obtain ⟨rfl, rfl, rfl⟩ := h
          have hc10 : c = 10 := by
            rcases hcase with ⟨-, hE, -⟩ | ⟨-, -, ⟨-, hE, -⟩ | ⟨h10, -⟩ | ⟨-, -, -, -, hE, -⟩⟩
            · exact absurd hE h2
            · rw [hE] at h3; exact absurd h3 (by decide)
            · exact h10
            · rw [hE] at h3; exact absurd h3 (by decide)
          refine ⟨1, r.tok, r.saveptr, hone, ?_, Or.inl ⟨le_refl _, ?_, ?_, ?_, ?_⟩, ?_⟩
          · rw [hts.2, htot, hnb]
            simp only [Option.getD_some]
            omega
          · by_cases hn : ncols = 0
            · rw [if_pos hn]
              simp
            · rw [if_neg hn] at h4 ⊢
              push_cast
              omega
          · by_cases hn : ncols = 0
            · exact Or.inl hn
            · rw [if_neg hn]
              exact Or.inr rfl
          · omega
          · rw [← hc10, ← hc]
            congr 1
            omega
          · intro hcs hce0 hic hi
            obtain ⟨s1, s2⟩ := hstore hcs hce0 hic hi
            refine ⟨s1, fun n hn hle => ?_⟩
            have hn0 : n = 0 := by omega
            subst hn0
            refine ⟨r.tok, r.saveptr, hone, ?_⟩
            simp only [Nat.cast_zero, add_zero] at hle ⊢
            exact s2 hle
        · -- the loop goes on behind the token
          rw [if_neg h3] at h
          have hOK : r.err = TOK_OK := by
            rcases get_tok_r_err mem tok str d saveptr len r hr with he | he | he
            · exact he
            · exact absurd he h3
            · exact absurd he h2
          obtain ⟨cnt, tf, sf, e1, e2, e3, e4⟩ := ih r.saveptr r.tok (icol + 1)
            (if cs ≤ icol ∧ (icol ≤ ce ∨ ce = -1) then i + 1 else i) (total + r.nbytes) ncols
            buf2 t ncols1 buf1 h
            (by rw [hts.2, htot, hnb]; simp only [Option.getD_some]; omega)
          refine ⟨cnt + 1, tf, sf, ?_, e2, ?_, ?_⟩
          · rw [get_col_toks_succ mem d str len cnt tok saveptr r hr h2]
            exact e1
          · rcases e3 with ⟨a1, a2, a3, a4, a5⟩ | ⟨a1, a2, a3⟩
            · exact Or.inl ⟨by omega, by push_cast; omega, a3, a4, a5⟩
            · refine Or.inr ⟨a1, a2, ?_⟩
              intro q hq1 hq2 hq
              by_cases hlt : (q : Int) < saveptr.getD str + m
              · exact (mem_take_drop mem _ m (fun x => x ≠ 0 ∧ x ≠ 10) hx q (by omega)
                  (by omega) 10 hq).2 rfl
              · by_cases heq : (q : Int) = saveptr.getD str + m
                · have hqc : mem[q]? = some c := by
                    rw [← hc]
                    congr 1
                    omega
                  rw [hqc] at hq
                  simp only [Option.some.injEq] at hq
                  rcases hcase with ⟨-, hE, -⟩ | ⟨-, -, ⟨h0, -⟩ | ⟨h10, hE⟩ | ⟨-, h10, -⟩⟩
                  · exact absurd hE h2
                  · omega
                  · exact absurd hE h3
                  · exact h10 hq
                · refine a3 q ?_ hq2 hq
                  rw [hts.2]
                  simp only [Option.getD_some]
                  omega
          · intro hcs hce0 hic hi
            obtain ⟨s1, s2⟩ := hstore hcs hce0 hic hi
            obtain ⟨b1, b2⟩ := e4 hcs hce0 (by omega)
              (by
                intro hle
                have hs : cs ≤ icol ∧ (icol ≤ ce ∨ ce = -1) := ⟨by omega, Or.inl (by omega)⟩
                rw [if_pos hs]
                have := hi (by omega)
                omega)
            refine ⟨fun j hj => ?_, fun n hn hle => ?_⟩
            · rw [b1 j (by omega), s1 j hj]
            · cases n with
              | zero =>
                refine ⟨r.tok, r.saveptr, hone, ?_⟩
                simp only [Nat.cast_zero, add_zero] at hle ⊢
                rw [b1 icol.toNat (by omega)]
                exact s2 hle
              | succ n =>
                obtain ⟨tj, sj, c1, c2⟩ := b2 n (by omega) (by push_cast at hle ⊢; omega)
                refine ⟨tj, sj, ?_, ?_⟩
                · rw [get_col_toks_succ mem d str len (n + 1) tok saveptr r hr h2]
                  exact c1
                · rw [← c2]
                  congr 2
                  push_cast
                  omega

/-! ## Tokens in a mapping that ends in zero bytes -/

/-- In a mapping whose bytes from index `S` on are zero, a token that
`get_tok_r` returns ends at or before index `S`, or is a single zero byte. -/
theorem get_tok_r_padded (mem : List Nat) (S : Nat) (hS : S < mem.length)
    (hz : ∀ q, S ≤ q → q < mem.length → mem[q]? = some 0)
    (tok : Ptr) (str : Int) (d : Nat) (saveptr : Ptr) (len : Int) (r : TokRes)
    (h : get_tok_r mem tok str d saveptr len = some r) :
    saveptr.getD str + r.nbytes ≤ max (saveptr.getD str) S + 1 := by
  obtain ⟨hnn, m, c, hnb, hc, hx, -⟩ := get_tok_r_spec mem tok str d saveptr len r h
  have hlt := (List.getElem?_eq_some.mp hc).1
  by_cases hp : S ≤ (saveptr.getD str).toNat
  · have hm : m = 0 := by
      by_contra hm
      have h0 := hz (saveptr.getD str).toNat hp (by omega)
      exact (mem_take_drop mem _ m (fun x => x ≠ 0 ∧ x ≠ 10) hx _ (le_refl _) (by omega) 0
        h0).1 rfl
    subst hm
    rw [hnb]
    have : saveptr.getD str ≤ max (saveptr.getD str) S := le_max_left _ _
    omega
  · have hm : (saveptr.getD str).toNat + m ≤ S := by
      by_contra hm
      have h0 := hz S (le_refl _) hS
      exact (mem_take_drop mem _ m (fun x => x ≠ 0 ∧ x ≠ 10) hx S (by omega) (by omega) 0
        h0).1 rfl
    rw [hnb]
    have : (S : Int) ≤ max (saveptr.getD str) S := le_max_right _ _
    omega

/-- In a mapping whose bytes from index `S` on are zero, `k` tokens move the
cursor at most `k` bytes past the larger of the first cursor and `S`. -/
theorem get_col_toks_count (mem : List Nat) (S : Nat) (hS : S < mem.length)
    (hz : ∀ q, S ≤ q → q < mem.length → mem[q]? = some 0) (d : Nat) (str len : Int) :
    ∀ (k : Nat) (tok saveptr t s : Ptr),
      get_col_toks mem d str len k tok saveptr = some (Sum.inr (t, s)) →
      s.getD str ≤ max (saveptr.getD str) S + k := by
  intro k
  induction k with
  | zero =>
    intro tok saveptr t s h
    simp only [get_col_toks, Option.some.injEq, Sum.inr.injEq, Prod.mk.injEq] at h
    rw [h.2]
    simp
  | succ k ih =>
    intro tok saveptr t s h
    obtain ⟨r, hr, hne, hrest⟩ := get_col_toks_inr mem d str len k tok saveptr t s h
    have h1 := ih _ _ _ _ hrest
    have h2 := get_tok_r_padded mem S hS hz tok str d saveptr len r hr
    obtain ⟨hnn, m, c, hnb, -, -, hcase⟩ := get_tok_r_spec mem tok str d saveptr len r hr
    have hs : r.saveptr.getD str = saveptr.getD str + r.nbytes := by
      rcases hcase with ⟨-, hE, -⟩ | ⟨-, hs, -⟩
      · exact absurd hE hne
      · rw [hs, hnb]
        simp only [Option.getD_some]
        omega
    have h3 : max (r.saveptr.getD str) (S : Int) ≤ max (saveptr.getD str) S + 1 := by
      rw [hs]
      have : (S : Int) ≤ max (saveptr.getD str) S := le_max_right _ _
      exact max_le h2 (by omega)
    push_cast
    omega

/-- In a mapping whose bytes from index `S` on are zero, a call of `get_tok_r`
that returns `TOK_EOF` under a limit behind `S` has its cursor at or behind
the limit. -/
theorem get_tok_r_eof_padded (mem : List Nat) (S : Nat) (hS : S < mem.length)
    (hz : ∀ q, S ≤ q → q < mem.length → mem[q]? = some 0)
    (tok : Ptr) (str : Int) (d : Nat) (saveptr : Ptr) (len : Int) (r : TokRes)
    (h : get_tok_r mem tok str d saveptr len = some r) (hE : r.err = TOK_EOF)
    (hlim : (S : Int) < str + len) : str + len ≤ saveptr.getD str := by
  obtain ⟨hnn, m, c, hnb, hc, hx, hcase⟩ := get_tok_r_spec mem tok str d saveptr len r h
  have hlt := (List.getElem?_eq_some.mp hc).1
  have hl : str + len ≤ saveptr.getD str + m := by
    rcases hcase with ⟨-, -, hl, -⟩ | ⟨-, -, ⟨-, hE1, -⟩ | ⟨-, hE1⟩ | ⟨-, -, -, -, hE1, -⟩⟩
    · exact hl
    · rw [hE1] at hE; exact absurd hE (by decide)
    · rw [hE1] at hE; exact absurd hE (by decide)
    · rw [hE1] at hE; exact absurd hE (by decide)
  by_cases hp : S ≤ (saveptr.getD str).toNat
  · have hm : m = 0 := by
      by_contra hm
      have h0 := hz (saveptr.getD str).toNat hp (by omega)
      exact (mem_take_drop mem _ m (fun x => x ≠ 0 ∧ x ≠ 10) hx _ (le_refl _) (by omega) 0
        h0).1 rfl
    omega
  · have hm : (saveptr.getD str).toNat + m ≤ S := by
      by_contra hm
      have h0 := hz S (le_refl _) hS
      exact (mem_take_drop mem _ m (fun x => x ≠ 0 ∧ x ≠ 10) hx S (by omega) (by omega) 0
        h0).1 rfl
    omega

/-! ## The invariant of an opened source -/

/-- A successful first visit of a row that starts behind offset 0, in a mapping
that ends in zero bytes, with a column count that is at most the start of the
row and at most the size of the file: the column count stays, the loop has made
at least that many calls of `get_tok_r`, the end it records leaves a byte for
each column, and the inner loop of `get_col` goes through every number of
rounds up to the column count within the recorded length. With columns asked
for from 0 on, the buffer holds the token of every column up to `col_end`. -/
theorem get_row_scan_established (mem : List Nat) (S : Nat) (hS : S < mem.length)
    (hz : ∀ q, S ≤ q → q < mem.length → mem[q]? = some 0)
    (d : Nat) (cur cs ce : Int) (fuel : Nat) (ncols : Int) (buf : List Ptr)
    (t ncols1 : Int) (buf1 : List Ptr)
    (h : get_row_scan mem d cur S cs ce fuel none none 0 0 cur ncols buf
      = some (E_OK, t, ncols1, buf1))
    (hn0 : 0 < ncols) (hnS : ncols ≤ S) (hcur : ncols ≤ cur) :
    ncols1 = ncols ∧ cur + ncols ≤ t ∧
    ∃ (cnt : Nat), ncols ≤ cnt ∧
      (∀ k : Nat, k ≤ cnt → ∃ tk sk,
        get_col_toks mem d cur (t - cur) k none none = some (Sum.inr (tk, sk)) ∧
        sk.getD cur ≤ t) ∧
      (cs = 0 → 0 ≤ ce → ∀ n : Nat, n < cnt → (n : Int) ≤ ce →
        ∃ tj sj, get_col_toks mem d cur (t - cur) (n + 1) none none
            = some (Sum.inr (tj, sj)) ∧ buf1[n]? = some tj) := by
  obtain ⟨cnt, tf, sf, e1, e2, e3, e4⟩ :=
    get_row_scan_run mem d cur S cs ce fuel none none 0 0 cur ncols buf t ncols1 buf1 h rfl
  have hnc := (get_row_scan_ncols mem d cur S cs ce fuel none none 0 0 cur ncols buf E_OK t
    ncols1 buf1 h).1 (by omega)
  have hcurs := get_col_toks_cursor mem d cur S cnt _ _ _ _ e1
  simp only [Option.getD_none] at hcurs
  have hcnt : ncols ≤ cnt := by
    rcases e3 with ⟨a1, a2, -⟩ | ⟨-, ⟨r, hr, hE⟩, -⟩
    · omega
    · have hlim := get_tok_r_eof_padded mem S hS hz tf cur d sf S r hr hE (by omega)
      have hc := get_col_toks_count mem S hS hz d cur S cnt _ _ _ _ e1
      simp only [Option.getD_none] at hc
      rcases le_total cur (S : Int) with hle | hle
      · rw [max_eq_right hle] at hc
        omega
      · rw [max_eq_left hle] at hc
        omega
  have hpre : ∀ k : Nat, k ≤ cnt → ∃ tk sk,
      get_col_toks mem d cur (t - cur) k none none = some (Sum.inr (tk, sk)) ∧
      sk.getD cur ≤ t := by
    intro k hk
    obtain ⟨tk, sk, p1, p2⟩ := get_col_toks_prefix mem d cur S cnt _ _ _ _ e1 k hk
    exact ⟨tk, sk, get_col_toks_limit mem d cur S (t - cur) k _ _ _ _ p1 (by omega), by omega⟩
  refine ⟨hnc, by omega, cnt, hcnt, hpre, ?_⟩
  intro hcs hce n hn hle
  obtain ⟨-, b2⟩ := e4 hcs hce (le_refl 0) (fun _ => rfl)
  obtain ⟨tj, sj, c1, c2⟩ := b2 n hn (by omega)
  obtain ⟨tk, sk, p1, p2⟩ := get_col_toks_prefix mem d cur S cnt _ _ _ _ e1 (n + 1) (by omega)
  rw [p1] at c1
  simp only [Option.some.injEq, Sum.inr.injEq, Prod.mk.injEq] at c1
  refine ⟨tj, sj, ?_, by simpa using c2⟩
  rw [← c1.1, ← c1.2]
  exact get_col_toks_limit mem d cur S (t - cur) (n + 1) _ _ _ _ p1 (by omega)

/-- A successful first visit of the row at offset 0 with no column count yet, in
a mapping that ends in zero bytes. Either a column count is established: it is
positive, the end recorded is at most the size of the file and leaves a byte
for each column, the inner loop of `get_col` goes through every number of
rounds up to the column count within the recorded length, and with columns
asked for from 0 on the buffer holds the token of every column up to
`col_end`. Or no column count is established, and the mapping holds no
newline. -/
theorem get_row_scan_first (mem : List Nat) (S : Nat)
    (hz : ∀ q, S ≤ q → q < mem.length → mem[q]? = some 0)
    (d : Nat) (cs ce : Int) (fuel : Nat) (buf : List Ptr)
    (t ncols1 : Int) (buf1 : List Ptr)
    (h : get_row_scan mem d 0 S cs ce fuel none none 0 0 0 0 buf
      = some (E_OK, t, ncols1, buf1)) :
    (ncols1 = 0 ∧ ∀ q : Nat, mem[q]? ≠ some 10) ∨
    (0 < ncols1 ∧ ncols1 ≤ t ∧ t ≤ S ∧
      (∀ k : Nat, (k : Int) ≤ ncols1 → ∃ tk sk,
        get_col_toks mem d 0 (t - 0) k none none = some (Sum.inr (tk, sk)) ∧
        sk.getD 0 ≤ t) ∧
      (cs = 0 → 0 ≤ ce → ∀ n : Nat, (n : Int) < ncols1 → (n : Int) ≤ ce →
        ∃ tj sj, get_col_toks mem d 0 (t - 0) (n + 1) none none
            = some (Sum.inr (tj, sj)) ∧ buf1[n]? = some tj)) := by
  obtain ⟨cnt, tf, sf, e1, e2, e3, e4⟩ :=
    get_row_scan_run mem d 0 S cs ce fuel none none 0 0 0 0 buf t ncols1 buf1 h rfl
  have hcurs := get_col_toks_cursor mem d 0 S cnt _ _ _ _ e1
  simp only [Option.getD_none] at hcurs
  rcases e3 with ⟨a1, a2, -, a4, a5⟩ | ⟨a1, -, a3⟩
  · refine Or.inr ⟨by omega, by omega, ?_, ?_, ?_⟩
    · by_contra hgt
      have hlt := (List.getElem?_eq_some.mp a5).1
      have h0 := hz (t - 1).toNat (by omega) hlt
      rw [h0] at a5
      simp at a5
    · intro k hk
      obtain ⟨tk, sk, p1, p2⟩ := get_col_toks_prefix mem d 0 S cnt _ _ _ _ e1 k (by omega)
      exact ⟨tk, sk, get_col_toks_limit mem d 0 S (t - 0) k _ _ _ _ p1 (by omega), by omega⟩
    · intro hcs hce n hn hle
      obtain ⟨-, b2⟩ := e4 hcs hce (le_refl 0) (fun _ => rfl)
      obtain ⟨tj, sj, c1, c2⟩ := b2 n (by omega) (by omega)
      obtain ⟨tk, sk, p1, p2⟩ :=
        get_col_toks_prefix mem d 0 S cnt _ _ _ _ e1 (n + 1) (by omega)
      rw [p1] at c1
      simp only [Option.some.injEq, Sum.inr.injEq, Prod.mk.injEq] at c1
      refine ⟨tj, sj, ?_, by simpa using c2⟩
      rw [← c1.1, ← c1.2]
      exact get_col_toks_limit mem d 0 S (t - 0) (n + 1) _ _ _ _ p1 (by omega)
  · refine Or.inl ⟨a1, ?_⟩
    intro q hq
    by_cases hlt : q < S
    · exact a3 q (by simp) (by omega) hq
    · have hlen := (List.getElem?_eq_some.mp hq).1
      have h0 := hz q (by omega) hlen
      rw [h0] at hq
      simp at hq

/-- An array read that succeeds is a read at an index inside the array. -/
theorem arr_get_inv {α : Type} (a : List α) (i : Int) (v : α) (h : arr_get a i = some v) :
    0 ≤ i ∧ i.toNat < a.length ∧ a[i.toNat]? = some v := by
  unfold arr_get at h
  by_cases hneg : i < 0
  · rw [if_pos hneg] at h
    simp at h
  · rw [if_neg hneg] at h
    exact ⟨by omega, (List.getElem?_eq_some.mp h).1, h⟩

/-- A read at the index of a write that succeeded gives the value written. -/
theorem arr_get_of_arr_set_eq {α : Type} (a a1 : List α) (i : Int) (v : α)
    (h : arr_set a i v = some a1) : arr_get a1 i = some v := by
  obtain ⟨h0, h1, rfl⟩ := arr_set_inv a a1 i v h
  unfold arr_get
  rw [if_neg (by omega), List.getElem?_set, if_pos rfl]
  simp [h1]

/-- What a call of `get_row` changes: nothing of the source, unless it is a
successful first visit, which sets `ncols` to what the loop leaves, records the
byte total at index `row + 1` and counts the row. -/
theorem get_row_changes (data : Data_T) (buf : List Ptr) (row cs ce : Int) (ret : Code)
    (data1 : Data_T) (buf1 : List Ptr)
    (h : get_row data buf row cs ce = some (ret, data1, buf1)) :
    data1 = data ∨
    (ret = E_OK ∧ ∃ cur total ncols1 ro1, arr_get data.row_offsets row = some cur ∧
      arr_get data.row_offsets (row + 1) = some 0 ∧
      ¬ (0 < row ∧ cur = data.st_size) ∧ ¬ (0 < row ∧ cur = 0) ∧
      get_row_scan data.ptr data.delim cur data.st_size cs
        (if data.ncols ≠ 0 ∧ ce = -1 then data.ncols - 1 else ce)
        (data.ptr.length + 1) none none 0 0 cur data.ncols buf
        = some (E_OK, total, ncols1, buf1) ∧
      arr_set data.row_offsets (row + 1) total = some ro1 ∧
      data1 = { data with ncols := ncols1, row_offsets := ro1, nrows := data.nrows + 1 }) := by
  rcases get_row_paths data buf row cs ce ret data1 buf1 h with
    ⟨rfl, -, -⟩ | ⟨cur, next, hcur, hnext, -, h1, h2, ⟨-, -, rfl, -⟩ | ⟨hn0, total, nc1, hscan, hcase⟩⟩
  · exact Or.inl rfl
  · exact Or.inl rfl
  · rcases hcase with ⟨hne, rfl⟩ | ⟨rfl, ro1, hs, rfl⟩
    · left
      have := (get_row_scan_ncols _ _ _ _ _ _ _ _ _ _ _ _ _ _ _ _ _ _ hscan).2 hne
      rw [this]
    · right
      subst hn0
      exact ⟨rfl, cur, total, nc1, ro1, hcur, hnext, h1, h2, hscan, hs, rfl⟩

/-- A successful first visit of a row keeps the invariant of the source. When
there is a column count afterwards, the row visited is row `nrows`, and with
columns asked for from 0 on the buffer holds, for every column up to `col_end`,
the token that the inner loop of `get_col` finds in the recorded row. A column
count that was there, and the lack of one in a mapping without a newline, are
kept. -/
theorem get_row_first_inv (data : Data_T) (hI : SrcInv data) (buf : List Ptr)
    (row cs ce cur total nc1 : Int) (ro1 : List Int) (buf1 : List Ptr)
    (hcur : arr_get data.row_offsets row = some cur)
    (hnext : arr_get data.row_offsets (row + 1) = some 0)
    (hv1 : ¬ (0 < row ∧ cur = data.st_size)) (hv2 : ¬ (0 < row ∧ cur = 0))
    (hscan : get_row_scan data.ptr data.delim cur data.st_size cs
        (if data.ncols ≠ 0 ∧ ce = -1 then data.ncols - 1 else ce)
        (data.ptr.length + 1) none none 0 0 cur data.ncols buf
        = some (E_OK, total, nc1, buf1))
    (hset : arr_set data.row_offsets (row + 1) total = some ro1) :
    SrcInv { data with ncols := nc1, row_offsets := ro1, nrows := data.nrows + 1 } ∧
    (nc1 ≠ 0 → row = data.nrows ∧
      (cs = 0 → 0 ≤ ce → ∀ n : Nat, (n : Int) < nc1 → (n : Int) ≤ ce →
        ∃ tj sj, get_col_toks data.ptr data.delim cur (total - cur) (n + 1) none none
            = some (Sum.inr (tj, sj)) ∧ buf1[n]? = some tj)) ∧
    ((data.ncols ≠ 0 ∨ ∀ q : Nat, data.ptr[q]? ≠ some 10) → nc1 = data.ncols) := by
  have hSS : ((data.st_size.toNat : Nat) : Int) = data.st_size :=
    Int.toNat_of_nonneg hI.size_nonneg
  obtain ⟨hrow0, -, -⟩ := arr_get_inv _ _ _ hcur
  have hne1 : ∀ j, j ≠ row + 1 → arr_get ro1 j = arr_get data.row_offsets j :=
    fun j hj => arr_get_of_arr_set_ne _ _ _ _ _ hset hj
  have hat1 : arr_get ro1 (row + 1) = some total := arr_get_of_arr_set_eq _ _ _ _ hset
  have hfirst : ∀ v, arr_get ro1 0 = some v → v = 0 := by
    intro v hv
    rw [hne1 0 (by omega)] at hv
    exact hI.first v hv
  by_cases hnc : data.ncols = 0
  · -- no column count yet
    have hce : (if data.ncols ≠ 0 ∧ ce = -1 then data.ncols - 1 else ce) = ce := by
      rw [if_neg (fun hh => hh.1 hnc)]
    rw [hce, hnc] at hscan
    rcases hI.unset hnc with ⟨hnr, hzero⟩ | hnl
    · -- nothing recorded yet: the row is row 0 at offset 0
      have hc0 : cur = 0 := hzero _ _ hcur
      subst hc0
      have hr0 : row = 0 := by
        by_contra hr
        exact hv2 ⟨by omega, rfl⟩
      subst hr0
      rw [← hSS] at hscan
      rcases get_row_scan_first data.ptr data.st_size.toNat hI.zeros data.delim cs ce _ buf
        total nc1 buf1 hscan with ⟨a1, a2⟩ | ⟨a1, a2, a3, a4, a5⟩
      · refine ⟨?_, fun hne => absurd a1 hne, fun _ => by rw [a1, hnc]⟩
        exact { size_nonneg := hI.size_nonneg, size_lt := hI.size_lt, zeros := hI.zeros,
                first := hfirst, unset := fun _ => Or.inr a2,
                rows := fun hne => absurd a1 hne }
      · refine ⟨?_, fun _ => ⟨by omega, ?_⟩, ?_⟩
        · refine { size_nonneg := hI.size_nonneg, size_lt := hI.size_lt, zeros := hI.zeros,
                   first := hfirst, unset := fun h0 => ?_, rows := fun _ => ?_ }
          · simp only at h0
            omega
          · refine ⟨a1, by simp only; omega, by simp only; omega, ?_, ?_⟩
            · intro r hr1 hr2
              have hr : r = 0 := by simp only at hr2; omega
              subst hr
              refine ⟨0, total, ?_, hat1, le_refl 0, by simp only; omega,
                fun hh => absurd hh (by omega), fun hh => absurd hh (by omega), ?_⟩
              · rw [hne1 0 (by omega)]
                exact hcur
              · intro k hk
                exact a4 k hk
            · intro j v hj hv
              simp only at hj
              rw [hne1 j (by omega)] at hv
              exact hzero j v hv
        · intro hcs hce0 n hn hle
          exact a5 hcs hce0 n hn hle
        · rintro (hh | hh)
          · exact absurd hnc hh
          · exfalso
            -- the newline that ended the row is in the mapping
            obtain ⟨cnt, tf, sf, e1, e2, e3, -⟩ := get_row_scan_run _ _ _ _ _ _ _ _ _ _ _ _ _
              _ _ _ _ hscan rfl
            rcases e3 with ⟨-, -, -, -, b5⟩ | ⟨b1, -, -⟩
            · exact hh _ b5
            · omega
    · -- the mapping holds no newline: no column count is ever established
      obtain ⟨cnt, tf, sf, e1, e2, e3, -⟩ := get_row_scan_run _ _ _ _ _ _ _ _ _ _ _ _ _
        _ _ _ _ hscan rfl
      have hnc1 : nc1 = 0 := by
        rcases e3 with ⟨-, -, -, -, b5⟩ | ⟨b1, -, -⟩
        · exact absurd b5 (hnl _)
        · exact b1
      refine ⟨?_, fun hne => absurd hnc1 hne, fun _ => by rw [hnc1, hnc]⟩
      exact { size_nonneg := hI.size_nonneg, size_lt := hI.size_lt, zeros := hI.zeros,
              first := hfirst, unset := fun _ => Or.inr hnl,
              rows := fun hne => absurd hnc1 hne }
  · -- a column count is established
    obtain ⟨i1, i2, i3, i4, i5⟩ := hI.rows hnc
    have hrow : row = data.nrows := by
      rcases lt_trichotomy row data.nrows with hlt | heq | hgt
      · obtain ⟨c, nx, r1, r2, r3, r4, -⟩ := i4 row hrow0 hlt
        rw [hnext] at r2
        simp only [Option.some.injEq] at r2
        omega
      · exact heq
      · have := i5 row cur hgt hcur
        exact absurd ⟨by omega, this⟩ hv2
    subst hrow
    -- the row before it
    obtain ⟨cp, np, p1, p2, p3, p4, p5, p6, p7⟩ := i4 (data.nrows - 1) (by omega) (by omega)
    rw [show data.nrows - 1 + 1 = data.nrows by omega, hcur] at p2
    simp only [Option.some.injEq] at p2
    subst p2
    have hend : ∃ e, arr_get data.row_offsets 1 = some e ∧ e ≤ cur := by
      by_cases h1 : data.nrows = 1
      · refine ⟨cur, ?_, le_refl _⟩
        rw [← h1]
        exact hcur
      · obtain ⟨e, q1, q2⟩ := p6 (by omega)
        exact ⟨e, q1, by omega⟩
    have hce : (if data.ncols ≠ 0 ∧ ce = -1 then data.ncols - 1 else ce)
        = (if ce = -1 then data.ncols - 1 else ce) := by
      by_cases h : ce = -1
      · rw [if_pos ⟨hnc, h⟩, if_pos h]
      · rw [if_neg (fun hh => h hh.2), if_neg h]
    rw [← hSS] at hscan
    obtain ⟨g1, g2, cnt, g3, g4, g5⟩ := get_row_scan_established data.ptr data.st_size.toNat
      hI.size_lt hI.zeros data.delim cur cs _ _ data.ncols buf total nc1 buf1 hscan i1
      (by omega) (by omega)
    subst g1
    refine ⟨?_, fun _ => ⟨rfl, ?_⟩, fun _ => rfl⟩
    · refine { size_nonneg := hI.size_nonneg, size_lt := hI.size_lt, zeros := hI.zeros,
               first := hfirst, unset := fun h0 => absurd h0 hnc, rows := fun _ => ?_ }
      refine ⟨i1, i2, by simp only; omega, ?_, ?_⟩
      · intro r hr1 hr2
        simp only at hr2
        by_cases hr : r = data.nrows
        · subst hr
          refine ⟨cur, total, ?_, hat1, p3.trans (by omega), g2,
            fun _ hh => hv1 ⟨by omega, hh⟩, fun _ => ?_, ?_⟩
          · rw [hne1 _ (by omega)]
            exact hcur
          · obtain ⟨e, q1, q2⟩ := hend
            refine ⟨e, ?_, q2⟩
            rw [hne1 1 (by omega)]
            exact q1
          · intro k hk
            simp only at hk
            exact g4 k (by omega)
        · obtain ⟨c, nx, r1, r2, r3, r4, r5, r6, r7⟩ := i4 r hr1 (by omega)
          refine ⟨c, nx, ?_, ?_, r3, r4, r5, fun hh => ?_, r7⟩
          · rw [hne1 _ (by omega)]
            exact r1
          · rw [hne1 _ (by omega)]
            exact r2
          · obtain ⟨e, q1, q2⟩ := r6 hh
            refine ⟨e, ?_, q2⟩
            rw [hne1 1 (by omega)]
            exact q1
      · intro j v hj hv
        simp only at hj
        rw [hne1 j (by omega)] at hv
        exact i5 j v (by omega) hv
    · intro hcs hce0 n hn hle
      have hce2 : (if data.ncols ≠ 0 ∧ ce = -1 then data.ncols - 1 else ce) = ce := by
        rw [if_neg (fun hh => by omega)]
      rw [hce2] at g5
      exact g5 hcs hce0 n (by omega) hle

/-- Every call of `get_row` keeps the invariant of the source. -/
theorem get_row_src_inv (data : Data_T) (hI : SrcInv data) (buf : List Ptr)
    (row cs ce : Int) (ret : Code) (data1 : Data_T) (buf1 : List Ptr)
    (h : get_row data buf row cs ce = some (ret, data1, buf1)) : SrcInv data1 := by
  rcases get_row_changes data buf row cs ce ret data1 buf1 h with
    rfl | ⟨-, cur, total, nc1, ro1, hcur, hnext, hv1, hv2, hscan, hset, rfl⟩
  · exact hI
  · exact (get_row_first_inv data hI buf row cs ce cur total nc1 ro1 buf1 hcur hnext hv1 hv2
      hscan hset).1

/-- A source that `Data_mmap_init` created and `data_open` opened, on a system
with a positive page size, satisfies the invariant. -/
theorem fresh_src_inv (M P : Nat) (hP : 0 < P) (path : String) (delim : Nat)
    (file : List Nat) (data0 data1 : Data_T)
    (hsrc : Data_mmap_init M path delim = some data0)
    (hopen : data_open P file data0 = (E_OK, data1)) : SrcInv data1 := by
  obtain ⟨hro, hnr, hnc, -, -, hs, hp, hmod⟩ := fresh_source _ _ _ _ _ _ _ hsrc hopen
  have hzero : ∀ j v, arr_get data1.row_offsets j = some v → v = 0 := by
    intro j v hv
    rw [hro] at hv
    obtain ⟨-, h2, h3⟩ := arr_get_inv _ _ _ hv
    rw [List.getElem?_replicate] at h3
    simp only [List.length_replicate] at h2
    rw [if_pos h2] at h3
    simp only [Option.some.injEq] at h3
    exact h3.symm
  have hpad : 0 < P - file.length % P := by
    have := Nat.mod_lt file.length hP
    omega
  refine { size_nonneg := by rw [hs]; omega, size_lt := ?_, zeros := ?_,
           first := fun v hv => hzero 0 v hv, unset := fun _ => Or.inl ⟨hnr, hzero⟩,
           rows := fun hne => absurd hnc hne }
  · rw [hs, hp]
    simp only [Int.toNat_ofNat, List.length_append, List.length_replicate]
    omega
  · intro q hq1 hq2
    rw [hs] at hq1
    simp only [Int.toNat_ofNat] at hq1
    rw [hp] at hq2 ⊢
    simp only [List.length_append, List.length_replicate] at hq2
    rw [List.getElem?_append_right hq1, List.getElem?_replicate, if_pos (by omega)]

/-- Every source a program can hold, on a system with a positive page size,
satisfies the invariant. -/
theorem src_reach_inv (M P : Nat) (hP : 0 < P) (data : Data_T) (h : SrcReach M P data) :
    SrcInv data := by
  induction h with
  | opened path delim file data0 data1 hsrc hopen =>
    exact fresh_src_inv M P hP path delim file data0 data1 hsrc hopen
  | row data buf row cs ce ret data1 buf1 _ hrow ih =>
    exact get_row_src_inv data ih buf row cs ce ret data1 buf1 hrow

/-! ## Column access and row access -/

/-- The repeat-visit loop of `get_row` for the single column `col`, from column
`icol` on: when the inner loop of `get_col` goes through the `n` rounds up to
column `col`, the loop returns `E_OK` with the token of the last round in entry
0 of the buffer. -/
theorem get_row_cached_col (mem : List Nat) (d : Nat) (str len col : Int) :
    ∀ (n fuel : Nat) (saveptr tok : Ptr) (icol : Int) (buf : List Ptr) (t s : Ptr),
      icol + n = col ∧ n < fuel → 0 < buf.length →
      get_col_toks mem d str len (n + 1) tok saveptr = some (Sum.inr (t, s)) →
      get_row_cached mem d str len col col fuel saveptr tok icol 0 buf
        = some (E_OK, buf.set 0 t) := by
  intro n
  induction n with
  | zero =>
    intro fuel saveptr tok icol buf t s hn hb h
    obtain ⟨r, hr, hne, hrest⟩ := get_col_toks_inr mem d str len 0 tok saveptr t s h
    simp only [get_col_toks, Option.some.injEq, Sum.inr.injEq, Prod.mk.injEq] at hrest
    have hmask : ¬ (r.err &&& (TOK_ERR ||| TOK_EOF) ≠ 0) := by
      rcases get_tok_r_err mem tok str d saveptr len r hr with he | he | he
      · exact (tok_mask r.err).1 (Or.inl he)
      · exact (tok_mask r.err).1 (Or.inr he)
      · exact absurd he hne
    have hic : icol = col := by omega
    cases fuel with
    | zero => omega
    | succ fuel =>
      unfold get_row_cached
      rw [hr]
      dsimp only
      rw [if_neg hmask, if_pos ⟨by omega, by omega⟩,
        arr_set_some buf 0 r.tok (le_refl 0) (by omega)]
      dsimp only
      rw [if_pos hic, hrest.1]
      rfl
  | succ n ih =>
    intro fuel saveptr tok icol buf t s hn hb h
    obtain ⟨r, hr, hne, hrest⟩ := get_col_toks_inr mem d str len (n + 1) tok saveptr t s h
    have hmask : ¬ (r.err &&& (TOK_ERR ||| TOK_EOF) ≠ 0) := by
      rcases get_tok_r_err mem tok str d saveptr len r hr with he | he | he
      · exact (tok_mask r.err).1 (Or.inl he)
      · exact (tok_mask r.err).1 (Or.inr he)
      · exact absurd he hne
    cases fuel with
    | zero => omega
    | succ fuel =>
      unfold get_row_cached
      rw [hr]
      dsimp only
      have hno : ¬ (col ≤ icol ∧ icol ≤ col) := by
        push_cast at hn
        omega
      rw [if_neg hmask, if_neg hno]
      dsimp only
      rw [if_neg (by push_cast at hn; omega), if_neg hno]
      exact ih fuel r.saveptr r.tok (icol + 1) buf t s (by push_cast at hn ⊢; omega) hb hrest

/-- The row loop of `get_col` returns `E_OK` when the buffer has room and the
inner loop goes through in each of the rows. -/
theorem get_col_rows_ok (data : Data_T) (col : Int) (hcol : 0 ≤ col) :
    ∀ (k : Nat) (irow : Int) (i : Nat) (tok : Ptr) (buf : List Ptr),
      (∀ j : Nat, j < k → ∃ cur next t s, arr_get data.row_offsets (irow + j) = some cur ∧
        arr_get data.row_offsets (irow + j + 1) = some next ∧
        get_col_toks data.ptr data.delim cur (next - cur) (col + 1).toNat none none
          = some (Sum.inr (t, s))) →
      i + k ≤ buf.length →
      ∃ buf1, get_col_rows data col k irow i tok buf = some (E_OK, buf1) := by
  intro k
  induction k with
  | zero =>
    intro irow i tok buf _ _
    exact ⟨buf, by simp [get_col_rows]⟩
  | succ k ih =>
    intro irow i tok buf hrows hlen
    obtain ⟨cur, next, t, s, h1, h2, h3⟩ := hrows 0 (by omega)
    simp only [Nat.cast_zero, add_zero] at h1 h2
    obtain ⟨c, hc⟩ : ∃ c : Nat, (col + 1).toNat = c + 1 := ⟨col.toNat, by omega⟩
    rw [hc] at h3
    unfold get_col_rows
    rw [h2, h1]
    dsimp only
    rw [hc, get_col_toks_tok data.ptr data.delim cur (next - cur) c tok none none, h3]
    dsimp only
    rw [arr_set_some buf i t (by omega) (by omega)]
    dsimp only
    have := ih (irow + 1) (i + 1) t (buf.set (i : Int).toNat t)
      (by
        intro j hj
        obtain ⟨cur1, next1, t1, s1, g1, g2, g3⟩ := hrows (j + 1) (by omega)
        refine ⟨cur1, next1, t1, s1, ?_, ?_, g3⟩
        · rw [← g1]
          congr 1
          push_cast
          omega
        · rw [← g2]
          congr 1
          push_cast
          omega)
      (by simp only [List.length_set]; omega)
    simpa using this

/-- C14: in every source a program can hold (opened on a system with a positive
page size, then any calls of `get_row`), for every column `0 <= col < ncols`
and every row range with `0 <= row_start` and `row_end <= nrows - 1`, with room
in the buffer for the rows of the range: `get_col` returns `E_OK`, keeps the
length of the buffer, and its entry `i` is the token that `get_row` for row
`row_start + i` and the single column `col` puts into entry 0 of its buffer,
returning `E_OK` and the source as it was. (`get_col` itself has no way to
change the source: it returns the code and the buffer only.) -/
theorem get_col_agrees_with_get_row (M P : Nat) (hP : 0 < P) (data : Data_T)
    (h : SrcReach M P data) (buf : List Ptr) (col row_start row_end : Int)
    (hcol : 0 ≤ col ∧ col < data.ncols) (hrs : 0 ≤ row_start)
    (hre : row_end ≤ data.nrows - 1) (hbuf : row_end - row_start < (buf.length : Int)) :
    ∃ buf1, get_col data buf col row_start row_end = some (E_OK, buf1) ∧
      buf1.length = buf.length ∧
      ∀ i : Nat, row_start + i ≤ row_end →
        ∃ t, buf1[i]? = some t ∧
          ∀ b : List Ptr, 0 < b.length →
            get_row data b (row_start + i) col col = some (E_OK, data, b.set 0 t) := by
  have hI := src_reach_inv M P hP data h
  have hnc : data.ncols ≠ 0 := by omega
  obtain ⟨i1, i2, i3, i4, i5⟩ := hI.rows hnc
  obtain ⟨c, hc⟩ : ∃ c : Nat, (col + 1).toNat = c + 1 := ⟨col.toNat, by omega⟩
  -- the rows of the range
  have hrows : ∀ j : Nat, row_start + j ≤ row_end →
      ∃ cur next t s, arr_get data.row_offsets (row_start + j) = some cur ∧
        arr_get data.row_offsets (row_start + j + 1) = some next ∧
        get_col_toks data.ptr data.delim cur (next - cur) (col + 1).toNat none none
          = some (Sum.inr (t, s)) ∧
        (0 < row_start + j → cur ≠ data.st_size ∧ cur ≠ 0) ∧ next ≠ 0 := by
    intro j hj
    obtain ⟨cur, next, r1, r2, r3, r4, r5, r6, r7⟩ := i4 (row_start + j) (by omega) (by omega)
    obtain ⟨t, s, g1, -⟩ := r7 (col + 1).toNat (by omega)
    refine ⟨cur, next, t, s, r1, r2, g1, fun hpos => ⟨r5 hpos, ?_⟩, by omega⟩
    obtain ⟨e, q1, q2⟩ := r6 hpos
    obtain ⟨c0, n0, z1, z2, z3, z4, -⟩ := i4 0 (le_refl 0) (by omega)
    rw [show (0 : Int) + 1 = 1 by rfl, q1] at z2
    simp only [Option.some.injEq] at z2
    omega
  obtain ⟨buf1, hb1⟩ := get_col_rows_ok data col hcol.1 (row_end - row_start + 1).toNat
    row_start 0 none buf
    (by
      intro j hj
      obtain ⟨cur, next, t, s, r1, r2, r3, -⟩ := hrows j (by omega)
      exact ⟨cur, next, t, s, r1, r2, r3⟩)
    (by omega)
  obtain ⟨s1, -, s3⟩ := get_col_rows_spec data col hcol.1 _ row_start 0 none buf buf1
    (by simpa using hb1)
  refine ⟨buf1, ?_, s1, ?_⟩
  · unfold get_col
    rw [if_neg (by omega), if_neg (by omega)]
    exact hb1
  · intro i hi
    obtain ⟨t, f1, f2⟩ := s3 i (by omega)
    refine ⟨t, by simpa using f2, ?_⟩
    intro b hb
    obtain ⟨cur, next, t1, s, r1, r2, r3, r4, r5⟩ := hrows i hi
    have ht : t1 = t := by
      unfold field_at at f1
      rw [r2, r1] at f1
      dsimp only at f1
      rw [r3] at f1
      simpa using f1
    subst ht
    unfold get_row
    rw [if_neg (by omega)]
    dsimp only
    rw [r1]
    dsimp only
    rw [if_neg (fun hh => (r4 hh.1).1 hh.2), if_neg (fun hh => (r4 hh.1).2 hh.2), r2]
    dsimp only
    rw [if_pos r5, if_neg hnc, if_neg (by omega)]
    rw [hc] at r3
    rw [get_row_cached_col data.ptr data.delim cur (next - cur) col c (data.ptr.length + 1) none
      none 0 b t1 s
      ⟨by omega, by
        have := hI.size_lt
        have := hI.size_nonneg
        omega⟩ hb r3]

/-- Witness of C14: in the source for `a,b` / `c,d` with both rows visited,
`get_col` for column 1 and rows 0 to 1 returns the tokens at offsets 2 and 6. -/
theorem get_col_agrees_with_get_row_witness :
    ∃ buf1, get_col csv2_rows01 [none, none] 1 0 1 = some (E_OK, buf1) ∧
      buf1.length = 2 ∧
      ∀ i : Nat, (0 : Int) + i ≤ 1 →
        ∃ t, buf1[i]? = some t ∧
          ∀ b : List Ptr, 0 < b.length →
            get_row csv2_rows01 b (0 + i) 1 1 = some (E_OK, csv2_rows01, b.set 0 t) :=
  get_col_agrees_with_get_row 8 16 (by decide) csv2_rows01
    (SrcReach.row csv2_row0 [none, none] 1 0 1 E_OK csv2_rows01 [some 4, some 6]
      (SrcReach.row csv2_open [none, none] 0 0 1 E_OK csv2_row0 [some 0, some 2]
        (SrcReach.opened "f" 44 csv2 csv2_init csv2_open (by decide) (by decide))
        (by decide))
      (by decide))
    [none, none] 1 0 1 (by decide) (by decide) (by decide) (by decide)

/-! ## What `Frame_load` puts into the frame -/

/-- The first loop of `Frame_load`, in full: the columns that were there stay,
`k` columns are added, and the buffer entries `i .. i + k - 1` go, in order,
to the end of the header deque when there is one (the new columns are empty
then), and otherwise each as the only element of its new column. -/
theorem Frame_load_cols_content (buf : List Ptr) :
    ∀ (k i : Nat) (headers : Option (List Ptr)) (data : List (List Ptr))
      (headers1 : Option (List Ptr)) (data1 : List (List Ptr)),
      Frame_load_cols buf k (i : Int) headers data = some (headers1, data1) →
      data1.length = data.length + k ∧
      (∀ j, j < data.length → data1[j]? = data[j]?) ∧
      (headers = none → headers1 = none ∧
        ∀ j, j < k → ∃ x, buf[i + j]? = some x ∧ data1[data.length + j]? = some [x]) ∧
      (∀ h, headers = some h → ∃ h1, headers1 = some h1 ∧ h1.length = h.length + k ∧
        (∀ j, j < h.length → h1[j]? = h[j]?) ∧
        (∀ j, j < k → ∃ x, buf[i + j]? = some x ∧ h1[h.length + j]? = some x) ∧
        ∀ j, j < k → data1[data.length + j]? = some []) := by
  intro k
  induction k with
  | zero =>
    intro i headers data headers1 data1 h
    simp only [Frame_load_cols, Option.some.injEq, Prod.mk.injEq] at h
    obtain ⟨rfl, rfl⟩ := h
    refine ⟨rfl, fun _ _ => rfl, fun hn => ⟨hn, fun j hj => by omega⟩, fun h hh => ?_⟩
    exact ⟨h, hh, rfl, fun _ _ => rfl, fun j hj => by omega, fun j hj => by omega⟩
  | succ k ih =>
    intro i headers data headers1 data1 h
    unfold Frame_load_cols at h
    cases hx : arr_get buf (i : Int) with
    | none => rw [hx] at h; simp at h
    | some x =>
      rw [hx] at h
      dsimp only at h
      rw [arr_get_natCast] at hx
      cases headers with
      | none =>
        dsimp only at h
        obtain ⟨e1, e2, e3, -⟩ := ih (i + 1) none _ headers1 data1 (by exact_mod_cast h)
        simp only [Deque_addhi, Deque_new, List.length_append, List.length_singleton,
          List.nil_append] at e1 e2 e3
        refine ⟨by omega, fun j hj => ?_, fun _ => ⟨(e3 trivial).1, fun j hj => ?_⟩,
          fun h hh => by simp at hh⟩
        · rw [e2 j (by omega), List.getElem?_append_left hj]
        · cases j with
          | zero =>
            refine ⟨x, by simpa using hx, ?_⟩
            rw [Nat.add_zero, e2 data.length (by omega), List.getElem?_append_right (le_refl _)]
            simp
          | succ j =>
            obtain ⟨y, y1, y2⟩ := (e3 trivial).2 j (by omega)
            refine ⟨y, ?_, ?_⟩
            · rw [← y1]
              congr 1
              omega
            · rw [← y2]
              congr 1
              omega
      | some hd =>
        dsimp only at h
        obtain ⟨e1, e2, -, e4⟩ := ih (i + 1) _ _ headers1 data1 (by exact_mod_cast h)
        obtain ⟨h1, g1, g2, g3, g4, g5⟩ := e4 _ rfl
        simp only [Deque_addhi, Deque_new, List.length_append, List.length_singleton] at e1 e2 g2 g3 g4 g5
        refine ⟨by omega, fun j hj => ?_, fun hn => by simp at hn, fun h hh => ?_⟩
        · rw [e2 j (by omega), List.getElem?_append_left hj]
        · simp only [Option.some.injEq] at hh
          subst hh
          refine ⟨h1, g1, by omega, fun j hj => ?_, fun j hj => ?_, fun j hj => ?_⟩
          · rw [g3 j (by omega), List.getElem?_append_left hj]
          · cases j with
            | zero =>
              refine ⟨x, by simpa using hx, ?_⟩
              rw [Nat.add_zero, g3 hd.length (by omega),
                List.getElem?_append_right (le_refl _)]
              simp
            | succ j =>
              obtain ⟨y, y1, y2⟩ := g4 j (by omega)
              refine ⟨y, ?_, ?_⟩
              · rw [← y1]
                congr 1
                omega
              · rw [← y2]
                congr 1
                omega
          · cases j with
            | zero =>
              rw [Nat.add_zero, e2 data.length (by omega),
                List.getElem?_append_right (le_refl _)]
              simp
            | succ j =>
              rw [← g5 j (by omega)]
              congr 1
              omega

/-- A call of `get_row` on a source that has a column count, or has counted a
row, leaves the column count as it is; no call lowers the row count. -/
theorem get_row_ncols_stable (data : Data_T) (hI : SrcInv data) (buf : List Ptr)
    (row cs ce : Int) (ret : Code) (data1 : Data_T) (buf1 : List Ptr)
    (h : get_row data buf row cs ce = some (ret, data1, buf1))
    (hs : data.ncols ≠ 0 ∨ 1 ≤ data.nrows) :
    data1.ncols = data.ncols ∧ data.nrows ≤ data1.nrows := by
  rcases get_row_changes data buf row cs ce ret data1 buf1 h with
    rfl | ⟨-, cur, total, nc1, ro1, hcur, hnext, hv1, hv2, hscan, hset, rfl⟩
  · exact ⟨rfl, le_refl _⟩
  · obtain ⟨-, -, g3⟩ := get_row_first_inv data hI buf row cs ce cur total nc1 ro1 buf1 hcur
      hnext hv1 hv2 hscan hset
    refine ⟨g3 ?_, by simp only; omega⟩
    by_cases hnc : data.ncols = 0
    · rcases hI.unset hnc with ⟨hnr, -⟩ | hnl
      · omega
      · exact Or.inr hnl
    · exact Or.inl hnc

/-- The row loop of `Frame_load` on a source that has counted the rows below
`irow`, with a frame of at most as many columns as the source: the invariant of
the source, its column count, mapping and delimiter are kept, the offsets up to index `irow` stay,
and every column of the frame is the column it was followed by tokens that are
pointers to bytes not before the end of row 0. -/
theorem Frame_load_rows_content :
    ∀ (k : Nat) (irow : Int) (frame : Frame_T) (data : Data_T) (buf : List Ptr)
      (ret : Code) (frame1 : Frame_T) (data1 : Data_T),
      Frame_load_rows k irow frame data buf = some (ret, frame1, data1) →
      SrcInv data → 1 ≤ irow → data.nrows = irow →
      0 ≤ frame.ncols → frame.ncols ≤ data.ncols →
      (frame.data.length : Int) = frame.ncols →
      ∀ e, arr_get data.row_offsets 1 = some e →
      SrcInv data1 ∧ data1.ncols = data.ncols ∧
      data1.ptr = data.ptr ∧ data1.delim = data.delim ∧
      (∀ j, j ≤ irow → arr_get data1.row_offsets j = arr_get data.row_offsets j) ∧
      ∀ j : Nat, j < frame.data.length → ∃ col tail, frame.data[j]? = some col ∧
        frame1.data[j]? = some (col ++ tail) ∧ ∀ x ∈ tail, ∃ p, x = some p ∧ e ≤ p := by
  intro k
  induction k with
  | zero =>
    intro irow frame data buf ret frame1 data1 h hI _ _ _ _ _ e _
    simp only [Frame_load_rows, Option.some.injEq, Prod.mk.injEq] at h
    obtain ⟨-, rfl, rfl⟩ := h
    refine ⟨hI, rfl, rfl, rfl, fun _ _ => rfl, fun j hj => ?_⟩
    exact ⟨frame.data[j], [], List.getElem?_eq_getElem hj,
      by rw [List.append_nil]; exact List.getElem?_eq_getElem hj, fun x hx => by simp at hx⟩
  | succ k ih =>
    intro irow frame data buf ret frame1 data1 h hI hirow hnr hf0 hfn hfl e he
    have hsame : ∀ j : Nat, j < frame.data.length → ∃ col tail, frame.data[j]? = some col ∧
        frame.data[j]? = some (col ++ tail) ∧ ∀ x ∈ tail, ∃ p, x = some p ∧ e ≤ p :=
      fun j hj => ⟨frame.data[j], [], List.getElem?_eq_getElem hj,
        by rw [List.append_nil]; exact List.getElem?_eq_getElem hj, fun x hx => by simp at hx⟩
    unfold Frame_load_rows at h
    cases hg : get_row data buf irow 0 (frame.ncols - 1) with
    | none => rw [hg] at h; simp at h
    | some res =>
      obtain ⟨ret2, data2, buf2⟩ := res
      rw [hg] at h
      dsimp only at h
      by_cases h1 : ret2 = E_DTA_EOF
      · rw [if_pos h1] at h
        simp only [Option.some.injEq, Prod.mk.injEq] at h
        obtain ⟨-, rfl, rfl⟩ := h
        rcases get_row_changes _ _ _ _ _ _ _ _ hg with rfl | ⟨hok, -⟩
        · exact ⟨hI, rfl, rfl, rfl, fun _ _ => rfl, hsame⟩
        · rw [h1] at hok
          exact absurd hok (by decide)
      rw [if_neg h1] at h
      by_cases h2 : ret2 ≠ E_OK
      · rw [if_pos h2] at h
        simp only [Option.some.injEq, Prod.mk.injEq] at h
        obtain ⟨-, rfl, rfl⟩ := h
        rcases get_row_changes _ _ _ _ _ _ _ _ hg with rfl | ⟨hok, -⟩
        · exact ⟨hI, rfl, rfl, rfl, fun _ _ => rfl, hsame⟩
        · exact absurd hok h2
      rw [if_neg h2] at h
      have hok : ret2 = E_OK := by simpa using h2
      subst hok
      have hstab := get_row_ncols_stable data hI buf irow 0 (frame.ncols - 1) E_OK data2 buf2 hg
        (Or.inr (by omega))
      have hI2 := get_row_src_inv data hI buf irow 0 (frame.ncols - 1) E_OK data2 buf2 hg
      rcases get_row_paths _ _ _ _ _ _ _ _ hg with
        ⟨-, -, hc | hc | hc | hc⟩ |
        ⟨cur, next, hcur, hnext, -, hv1, hv2, ⟨hn0, hnc, -, -⟩ | ⟨hn0, total, nc1, hscan, hcase⟩⟩
      · exact absurd hc (by decide)
      · exact absurd hc (by decide)
      · exact absurd hc (by decide)
      · exact absurd hc (by decide)
      · exact absurd ((hI.rows hnc).2.2.2.2 (irow + 1) next (by omega) hnext) hn0
      · rcases hcase with ⟨hne, -⟩ | ⟨-, ro1, hs, hd2⟩
        · exact absurd rfl hne
        · subst hn0
          obtain ⟨-, g2, -⟩ := get_row_first_inv data hI buf irow 0 (frame.ncols - 1) cur total
            nc1 ro1 buf2 hcur hnext hv1 hv2 hscan hs
          have hne1 : ∀ j, j ≠ irow + 1 → arr_get ro1 j = arr_get data.row_offsets j :=
            fun j hj => arr_get_of_arr_set_ne _ _ _ _ _ hs hj
          have hnc1 : nc1 = data.ncols := by
            have := hstab.1
            rw [hd2] at this
            exact this
          cases hf : Frame_load_fill buf2 frame.ncols.toNat 0 frame.data with
          | none => rw [hf] at h; simp at h
          | some cols =>
            rw [hf] at h
            dsimp only at h
            obtain ⟨f1, -, f3⟩ := Frame_load_fill_spec buf2 frame.ncols.toNat 0 frame.data cols
              (by simpa using hf)
            obtain ⟨-, m1, m2, -⟩ := get_row_effect _ _ _ _ _ _ _ _ hg
            obtain ⟨r1, r2, r5, r6, r3, r4⟩ := ih (irow + 1)
              { frame with data := cols, nrows := frame.nrows + 1 } data2 buf2 ret frame1 data1 h
              hI2 (by omega) (by rw [hd2]; simp only; omega) hf0 (by rw [hstab.1]; exact hfn)
              (by simp only; omega) e
              (by
                rw [hd2]
                simp only
                rw [hne1 1 (by omega)]
                exact he)
            refine ⟨r1, by rw [r2, hstab.1], by rw [r5, m1], by rw [r6, m2], fun j hj => ?_,
              fun j hj => ?_⟩
            · rw [r3 j (by omega), hd2]
              simp only
              exact hne1 j (by omega)
            · obtain ⟨col, x, c1, c2, c3⟩ := f3 j (by omega) (by omega)
              obtain ⟨col1, tail1, d1, d2, d3⟩ := r4 j (by simp only; omega)
              simp only at d1
              rw [c3] at d1
              simp only [Option.some.injEq, Deque_addhi] at d1
              subst d1
              refine ⟨col, x :: tail1, c1, by rw [d2]; simp, fun y hy => ?_⟩
              rcases List.mem_cons.mp hy with rfl | hy
              · -- the token of column `j` in the row just visited
                have hncj : (j : Int) < nc1 := by omega
                obtain ⟨-, g4⟩ := g2 (by omega)
                obtain ⟨tj, sj, t1, t2⟩ := g4 rfl (by omega) j hncj (by omega)
                rw [t2] at c2
                simp only [Option.some.injEq] at c2
                subst c2
                obtain ⟨p, p1, p2, -⟩ := get_col_toks_token _ _ _ _ j _ _ _ _ t1
                simp only [Option.getD_none] at p2
                refine ⟨p, p1, ?_⟩
                obtain ⟨-, -, -, i4, -⟩ := hI2.rows (by rw [hstab.1]; omega)
                obtain ⟨c', n', q1, -, -, -, -, q6, -⟩ := i4 irow (by omega)
                  (by rw [hd2]; simp only; omega)
                obtain ⟨e', z1, z2⟩ := q6 (by omega)
                rw [hd2] at q1 z1
                simp only at q1 z1
                rw [hne1 irow (by omega), hcur] at q1
                rw [hne1 1 (by omega), he] at z1
                simp only [Option.some.injEq] at q1 z1
                omega
              · exact d3 y hy

/-- The row loop of `Frame_load` changes nothing of the frame but the columns
and the row count, and keeps the number of columns. -/
theorem Frame_load_rows_frame :
    ∀ (k : Nat) (irow : Int) (frame : Frame_T) (data : Data_T) (buf : List Ptr)
      (ret : Code) (frame1 : Frame_T) (data1 : Data_T),
      Frame_load_rows k irow frame data buf = some (ret, frame1, data1) →
      frame1.ncols = frame.ncols ∧ frame1.headers = frame.headers ∧
      frame1.data_loaded = frame.data_loaded ∧ frame1.data.length = frame.data.length := by
  intro k
  induction k with
  | zero =>
    intro irow frame data buf ret frame1 data1 h
    simp only [Frame_load_rows, Option.some.injEq, Prod.mk.injEq] at h
    obtain ⟨-, rfl, -⟩ := h
    exact ⟨rfl, rfl, rfl, rfl⟩
  | succ k ih =>
    intro irow frame data buf ret frame1 data1 h
    unfold Frame_load_rows at h
    cases hg : get_row data buf irow 0 (frame.ncols - 1) with
    | none => rw [hg] at h; simp at h
    | some res =>
      obtain ⟨ret2, data2, buf2⟩ := res
      rw [hg] at h
      dsimp only at h
      by_cases h1 : ret2 = E_DTA_EOF
      · rw [if_pos h1] at h
        simp only [Option.some.injEq, Prod.mk.injEq] at h
        obtain ⟨-, rfl, -⟩ := h
        exact ⟨rfl, rfl, rfl, rfl⟩
      rw [if_neg h1] at h
      by_cases h2 : ret2 ≠ E_OK
      · rw [if_pos h2] at h
        simp only [Option.some.injEq, Prod.mk.injEq] at h
        obtain ⟨-, rfl, -⟩ := h
        exact ⟨rfl, rfl, rfl, rfl⟩
      rw [if_neg h2] at h
      cases hf : Frame_load_fill buf2 frame.ncols.toNat 0 frame.data with
      | none => rw [hf] at h; simp at h
      | some cols =>
        rw [hf] at h
        dsimp only at h
        obtain ⟨f1, -, -⟩ := Frame_load_fill_spec buf2 frame.ncols.toNat 0 frame.data cols
          (by simpa using hf)
        obtain ⟨r1, r2, r3, r4⟩ := ih _ _ _ _ _ _ _ h
        exact ⟨r1, r2, r3, by rw [r4]; exact f1⟩

/-- C15, amended: a successful `Frame_load` of a fresh frame (`Frame_init` with
`max_cols > 0`) from a freshly opened source (on a system with a positive
page size): `frame->ncols` is the smaller of `data->ncols` and `max_cols`,
there are that many column buffers, `first_col` is 0 and `last_col` is
`ncols - 1`. With headers, the header buffer holds the fields of columns
`0 .. ncols - 1` of row 0 in order, and no element of a column buffer is a
field of row 0 (of a column below `data->ncols`). Without headers there is no
header buffer and the field of column `j` of row 0 is the first element of
column buffer `j`. -/
theorem Frame_load_columns (M C P : Nat) (hP : 0 < P)
    (col_width max_cols max_rows headers : Int) (path : String) (delim : Nat)
    (file : List Nat) (frame0 : Frame_T) (data0 data1 : Data_T) (frame : Frame_T)
    (data : Data_T) (hpos : 0 < max_cols)
    (hinit : Frame_init col_width max_cols max_rows headers = some frame0)
    (hsrc : Data_mmap_init M path delim = some data0)
    (hopen : data_open P file data0 = (E_OK, data1))
    (hload : Frame_load C frame0 data1 = some (E_OK, frame, data)) :
    frame.ncols = min data.ncols max_cols ∧
    (frame.data.length : Int) = frame.ncols ∧
    frame.data_loaded.first_col = 0 ∧ frame.data_loaded.last_col = frame.ncols - 1 ∧
    (headers ≠ 0 → ∃ hd, frame.headers = some hd ∧ (hd.length : Int) = frame.ncols ∧
      (∀ j : Nat, (j : Int) < frame.ncols →
        ∃ t, field_at data 0 j = some t ∧ hd[j]? = some t) ∧
      (∀ col ∈ frame.data, ∀ x ∈ col, ∀ j : Int, 0 ≤ j → j < data.ncols →
        field_at data 0 j ≠ some x)) ∧
    (headers = 0 → frame.headers = none ∧
      ∀ j : Nat, (j : Int) < frame.ncols →
        ∃ t col, field_at data 0 j = some t ∧ frame.data[j]? = some col ∧
          col.head? = some t) := by
  obtain ⟨-, hf0m, -, -, -, hf0d, hf0h, hf0w⟩ := Frame_init_some _ _ _ _ _ hinit
  obtain ⟨-, hnr1, hnc1, -⟩ := fresh_source _ _ _ _ _ _ _ hsrc hopen
  have hI1 := fresh_src_inv M P hP path delim file data0 data1 hsrc hopen
  obtain ⟨data2, buf2, headers1, cols1, frame3, hg, hc, hr, rfl⟩ :=
    Frame_load_ok C frame0 data1 frame data hload
  rw [hf0m] at hg hc hr
  -- the visit of row 0
  rcases get_row_paths _ _ _ _ _ _ _ _ hg with
    ⟨-, -, hc' | hc' | hc' | hc'⟩ |
    ⟨cur, next, hcur, hnext, -, hv1, hv2, ⟨-, hnc, -, -⟩ | ⟨hn0, total, nc1, hscan, hcase⟩⟩
  · exact absurd hc' (by decide)
  · exact absurd hc' (by decide)
  · exact absurd hc' (by decide)
  · exact absurd hc' (by decide)
  · exact absurd hnc1 hnc
  rcases hcase with ⟨hne, -⟩ | ⟨-, ro1, hs, hd2⟩
  · exact absurd rfl hne
  subst hn0
  subst hd2
  have hcur0 : cur = 0 := hI1.first cur hcur
  subst hcur0
  obtain ⟨hI2, g2, -⟩ := get_row_first_inv data1 hI1 _ 0 0 (max_cols - 1) 0 total nc1 ro1 buf2
    hcur hnext hv1 hv2 hscan hs
  have hat1 : arr_get ro1 1 = some total := arr_get_of_arr_set_eq _ _ _ _ hs
  have hat0 : arr_get ro1 0 = some 0 := by
    rw [arr_get_of_arr_set_ne _ _ _ _ _ hs (by omega)]
    exact hcur
  have hnc0 : 0 ≤ nc1 := by
    by_cases h0 : nc1 = 0
    · omega
    · have := (hI2.rows h0).1
      simp only at this
      omega
  have hK : (if nc1 < max_cols then nc1 else max_cols) = min nc1 max_cols := by
    split_ifs <;> omega
  simp only [hK] at hc hr
  obtain ⟨c1, -, c3, c4⟩ := Frame_load_cols_content buf2 (min nc1 max_cols).toNat 0
    frame0.headers frame0.data headers1 cols1 (by simpa using hc)
  rw [hf0d] at c1 c3 c4
  simp only [List.length_nil, Nat.zero_add] at c1 c3 c4
  obtain ⟨w1, w2, w3, w4⟩ := Frame_load_rows_frame _ _ _ _ _ _ _ _ hr
  simp only at w1 w2 w3 w4
  obtain ⟨hI, r2, r5, r6, r3, r4⟩ := Frame_load_rows_content _ _ _ _ _ _ _ _ hr hI2 (le_refl 1)
    (by simp only; omega) (by simp only; omega) (by simp only; omega)
    (by simp only; omega) total hat1
  simp only at r2 r3 r4 r5 r6
  have hdn : data.ncols = nc1 := r2
  have hro0 : arr_get data.row_offsets 0 = some 0 := by
    rw [r3 0 (by omega)]
    exact hat0
  have hro1 : arr_get data.row_offsets (0 + 1) = some total := by
    rw [show (0 : Int) + 1 = 1 by rfl, r3 1 (by omega)]
    exact hat1
  -- the fields of row 0 in the buffer
  have hfield : ∀ j : Nat, (j : Int) < min nc1 max_cols →
      ∃ t, field_at data 0 j = some t ∧ buf2[j]? = some t := by
    intro j hj
    obtain ⟨-, g4⟩ := g2 (by omega)
    obtain ⟨tj, sj, t1, t2⟩ := g4 rfl (by omega) j (by omega) (by omega)
    refine ⟨tj, ?_, t2⟩
    unfold field_at
    rw [hro1, hro0]
    dsimp only
    rw [r5, r6, show ((j : Int) + 1).toNat = j + 1 by omega, t1]
  -- the fields of row 0 are pointers to bytes before the end of row 0
  have hrow0 : ∀ j : Int, 0 ≤ j → j < data.ncols → ∀ t, field_at data 0 j = some t →
      ∃ p, t = some p ∧ p < total := by
    intro j hj0 hj1 t ht
    obtain ⟨-, -, i3, i4, -⟩ := hI.rows (by omega)
    obtain ⟨c0, n0, q1, q2, -, -, -, -, q7⟩ := i4 0 (le_refl 0) (by omega)
    rw [hro0] at q1
    rw [hro1] at q2
    simp only [Option.some.injEq] at q1 q2
    subst q1 q2
    obtain ⟨t', s', u1, u2⟩ := q7 (j + 1).toNat (by omega)
    unfold field_at at ht
    rw [hro1, hro0] at ht
    dsimp only at ht
    rw [u1] at ht
    simp only [Option.some.injEq] at ht
    subst ht
    obtain ⟨c, hcj⟩ : ∃ c : Nat, (j + 1).toNat = c + 1 := ⟨j.toNat, by omega⟩
    rw [hcj] at u1
    obtain ⟨p, p1, -, p3⟩ := get_col_toks_token _ _ _ _ c _ _ _ _ u1
    exact ⟨p, p1, by omega⟩
  dsimp only
  refine ⟨by rw [w1, hdn], by rw [w4, c1]; omega, by rw [w3, hf0w],
    by rw [w1], fun hh => ?_, fun hh => ?_⟩
  · rw [hf0h, if_pos hh] at c4
    obtain ⟨h1, a1, a2, -, a4, a5⟩ := c4 [] rfl
    simp only [List.length_nil, Nat.zero_add] at a2 a4 a5
    refine ⟨h1, by rw [w2, a1], by rw [a2, w1]; omega, fun j hj => ?_, fun col hcol x hx j hj0 hj1 => ?_⟩
    · rw [w1] at hj
      obtain ⟨t, f1, f2⟩ := hfield j hj
      obtain ⟨x, x1, x2⟩ := a4 j (by omega)
      rw [f2] at x1
      simp only [Option.some.injEq] at x1
      subst x1
      exact ⟨t, f1, x2⟩
    · obtain ⟨i, hi⟩ := List.mem_iff_getElem?.mp hcol
      have hil : i < frame3.data.length := (List.getElem?_eq_some.mp hi).1
      obtain ⟨col0, tail, d1, d2, d3⟩ := r4 i (by omega)
      rw [a5 i (by omega)] at d1
      simp only [Option.some.injEq] at d1
      subst d1
      rw [hi] at d2
      simp only [Option.some.injEq, List.nil_append] at d2
      subst d2
      obtain ⟨p, p1, p2⟩ := d3 x hx
      intro hfa
      obtain ⟨p', q1, q2⟩ := hrow0 j hj0 hj1 _ hfa
      rw [p1] at q1
      simp only [Option.some.injEq] at q1
      omega
  · rw [hf0h, if_neg (by simpa using hh)] at c3
    obtain ⟨a1, a2⟩ := c3 rfl
    refine ⟨by rw [w2, a1], fun j hj => ?_⟩
    rw [w1] at hj
    obtain ⟨t, f1, f2⟩ := hfield j hj
    obtain ⟨x, x1, x2⟩ := a2 j (by omega)
    rw [f2] at x1
    simp only [Option.some.injEq] at x1
    subst x1
    obtain ⟨col0, tail, d1, d2, -⟩ := r4 j (by omega)
    rw [x2] at d1
    simp only [Option.some.injEq] at d1
    subst d1
    exact ⟨t, _, f1, d2, by simp⟩

/-- Witness of C15, amended: the file `table5` loaded with headers into
`Frame_init(10, 2, 3, 1)`: the header buffer holds the first two fields of row
0, and no element of the two column buffers is a field of row 0. -/
theorem Frame_load_columns_witness :
    ∃ hd, headed1.headers = some hd ∧ (hd.length : Int) = headed1.ncols ∧
      (∀ j : Nat, (j : Int) < headed1.ncols →
        ∃ t, field_at (table5_rows 3) 0 j = some t ∧ hd[j]? = some t) ∧
      (∀ col ∈ headed1.data, ∀ x ∈ col, ∀ j : Int, 0 ≤ j → j < (table5_rows 3).ncols →
        field_at (table5_rows 3) 0 j ≠ some x) :=
  (Frame_load_columns 8 4 32 (by decide) 10 2 3 1 "f" 44 table5 headed0 csv2_init table5_open
    headed1 (table5_rows 3) (by decide) (by decide) (by decide) (by decide)
    (by decide)).2.2.2.2.1 (by decide)

/-- Rows that end at a newline: with a column count established, the first
visit by `get_row` of a row that ends at a newline and holds no NUL byte, with
room in the buffer for the columns asked for, returns `E_OK` exactly when the
row has as many fields as the column count; then the offset recorded at
`row + 1` is the start of the row plus the number of its bytes, the newline
included, the row is counted and the column count stays. Otherwise the call
returns `E_DTA_MISSING_FIELD` and the source is as it was. -/
theorem get_row_terminated_row (data : Data_T) (buf : List Ptr) (row cs ce cur : Int)
    (k n : Nat) (ret : Code) (data1 : Data_T) (buf1 : List Ptr)
    (hnc : data.ncols ≠ 0) (hce : ce < data.ncols)
    (hbuf : (if ce = -1 then data.ncols - 1 else ce) - cs < (buf.length : Int))
    (hcur : arr_get data.row_offsets row = some cur) (hcur0 : 0 ≤ cur)
    (hvis : 0 < row → cur ≠ 0 ∧ cur ≠ data.st_size)
    (hnext : arr_get data.row_offsets (row + 1) = some 0)
    (hk : count_fields data.delim (data.ptr.drop cur.toNat) false = some k)
    (hn : row_length (data.ptr.drop cur.toNat) = some n)
    (hg : get_row data buf row cs ce = some (ret, data1, buf1)) :
    (ret = E_OK ↔ (k : Int) = data.ncols) ∧
    (ret = E_OK → arr_get data1.row_offsets (row + 1) = some (cur + n) ∧
      data1.nrows = data.nrows + 1 ∧ data1.ncols = data.ncols) ∧
    (ret ≠ E_OK → ret = E_DTA_MISSING_FIELD ∧ data1 = data) := by
  obtain ⟨b1, -, h | ⟨h1, n1, ro1, h2, h3, h4⟩ | h⟩ :=
    get_row_first_visit data buf row cs ce cur k hnc hce hbuf hcur hcur0 hvis hnext hk
  · rw [h.2] at hg
    simp only [Option.some.injEq, Prod.mk.injEq] at hg
    obtain ⟨rfl, rfl, -⟩ := hg
    exact ⟨⟨fun hh => absurd hh (by decide), fun hh => absurd hh h.1⟩,
      fun hh => absurd hh (by decide), fun _ => ⟨rfl, rfl⟩⟩
  · rw [h4] at hg
    simp only [Option.some.injEq, Prod.mk.injEq] at hg
    obtain ⟨rfl, rfl, -⟩ := hg
    rw [hn] at h2
    simp only [Option.some.injEq] at h2
    subst h2
    exact ⟨⟨fun _ => h1, fun _ => rfl⟩,
      fun _ => ⟨arr_get_of_arr_set_eq _ _ _ _ h3, rfl, rfl⟩, fun hh => absurd rfl hh⟩
  · rw [h.2.1] at hg
    simp at hg

/-- Rows that end at a newline, an instance: row 1 of the file `a,b` / `c,d`
has two fields and four bytes; its first visit returns `E_OK` and records
`4 + 4` as its end. -/
theorem get_row_terminated_row_witness :
    get_row csv2_row0 [none, none] 1 0 1 = some (E_OK, csv2_rows01, [some 4, some 6]) ∧
    arr_get csv2_rows01.row_offsets (1 + 1) = some (4 + (4 : Nat)) :=
  ⟨by decide,
   ((get_row_terminated_row csv2_row0 [none, none] 1 0 1 4 2 4 E_OK csv2_rows01
      [some 4, some 6] (by decide) (by decide) (by decide) (by decide) (by decide) (by decide)
      (by decide) (by decide) (by decide) (by decide)).2.1 rfl).1⟩

/-! ## Files made of rows -/

/-- The field count of a row is not changed by bytes that follow the row. -/
theorem count_fields_append (d : Nat) (l2 : List Nat) :
    ∀ (l : List Nat) (q : Bool) (k : Nat), count_fields d l q = some k →
      count_fields d (l ++ l2) q = some k := by
  intro l
  induction l with
  | nil => intro q k h; simp [count_fields] at h
  | cons c rest ih =>
    intro q k h
    unfold count_fields at h
    rw [List.cons_append]
    unfold count_fields
    by_cases h0 : c = 0
    · rw [if_pos h0] at h
      simp at h
    rw [if_neg h0] at h
    rw [if_neg h0]
    by_cases h10 : c = 10
    · rw [if_pos h10] at h
      rw [if_pos h10]
      exact h
    rw [if_neg h10] at h
    rw [if_neg h10]
    by_cases h34 : c = 34
    · rw [if_pos h34] at h
      rw [if_pos h34]
      exact ih _ _ h
    rw [if_neg h34] at h
    rw [if_neg h34]
    by_cases hd : c = d ∧ q = false
    · rw [if_pos hd] at h
      rw [if_pos hd]
      cases hr : count_fields d rest false with
      | none => rw [hr] at h; simp at h
      | some k1 =>
        rw [hr] at h
        rw [ih _ _ hr]
        exact h
    · rw [if_neg hd] at h
      rw [if_neg hd]
      exact ih _ _ h

/-- The length of a row is not changed by bytes that follow the row. -/
theorem row_length_append (l2 : List Nat) :
    ∀ (l : List Nat) (n : Nat), row_length l = some n → row_length (l ++ l2) = some n := by
  intro l
  induction l with
  | nil => intro n h; simp [row_length] at h
  | cons c rest ih =>
    intro n h
    unfold row_length at h
    rw [List.cons_append]
    unfold row_length
    by_cases h0 : c = 0
    · rw [if_pos h0] at h
      simp at h
    rw [if_neg h0] at h
    rw [if_neg h0]
    by_cases h10 : c = 10
    · rw [if_pos h10] at h
      rw [if_pos h10]
      exact h
    rw [if_neg h10] at h
    rw [if_neg h10]
    cases hr : row_length rest with
    | none => rw [hr] at h; simp at h
    | some n1 =>
      rw [hr] at h
      rw [ih _ hr]
      exact h

/-- In a file made of rows, the bytes from the end of the first `j` rows on are
row `j` and what follows it. -/
theorem join_drop (X : List Nat) :
    ∀ (rows : List (List Nat)) (j : Nat) (hj : j < rows.length),
      (rows.flatten ++ X).drop (rows.take j).flatten.length
        = rows[j] ++ ((rows.drop (j + 1)).flatten ++ X) := by
  intro rows
  induction rows with
  | nil => intro j hj; simp at hj
  | cons r rest ih =>
    intro j hj
    cases j with
    | zero => simp
    | succ j =>
      simp only [List.length_cons] at hj
      have := ih j (by omega)
      simp only [List.take_succ_cons, List.flatten_cons, List.length_append, List.append_assoc,
        List.getElem_cons_succ, List.drop_succ_cons]
      rw [← this, ← List.drop_drop]
      simp

/-- The first `j + 1` rows of a file are as long as the first `j` rows and row
`j` together, and at most as long as the file. -/
theorem join_take_succ :
    ∀ (rows : List (List Nat)) (j : Nat) (hj : j < rows.length),
      (rows.take (j + 1)).flatten.length = (rows.take j).flatten.length + rows[j].length ∧
      (rows.take (j + 1)).flatten.length ≤ rows.flatten.length := by
  intro rows
  induction rows with
  | nil => intro j hj; simp at hj
  | cons r rest ih =>
    intro j hj
    cases j with
    | zero => simp
    | succ j =>
      simp only [List.length_cons] at hj
      have := ih j (by omega)
      simp only [List.take_succ_cons, List.flatten_cons, List.length_append,
        List.getElem_cons_succ]
      omega

/-- The first visit of row `n` of a file made of rows of `c` fields each, every
row ending at its only newline and free of NUL bytes, when the rows before it
have been visited in order: `get_row` returns `E_OK`, the column count is `c`,
the row is counted and the end of the row is recorded at index `n + 1`. -/
theorem get_row_visit (M : Nat) (rows : List (List Nat)) (pad : List Nat) (c : Nat)
    (data : Data_T)
    (hrows : ∀ r ∈ rows, count_fields data.delim r false = some c ∧
      row_length r = some r.length)
    (n : Nat) (hn : n < rows.length) (hM : n + 1 < M)
    (hptr : data.ptr = rows.flatten ++ pad) (hsize : data.st_size = rows.flatten.length)
    (hlen : data.row_offsets.length = M)
    (hnc : data.ncols = if n = 0 then 0 else (c : Int))
    (hro : ∀ j : Nat, j ≤ n →
      arr_get data.row_offsets j = some ((rows.take j).flatten.length : Int))
    (hzero : ∀ j : Nat, n < j → j < M → arr_get data.row_offsets j = some 0)
    (buf : List Ptr) (ce : Int) (hce0 : 0 ≤ ce) (hce : ce < c)
    (hbuf : ce < (buf.length : Int)) :
    ∃ data1 buf1, get_row data buf n 0 ce = some (E_OK, data1, buf1) ∧
      buf1.length = buf.length ∧ data1.ptr = data.ptr ∧ data1.st_size = data.st_size ∧
      data1.delim = data.delim ∧ data1.row_offsets.length = M ∧ data1.ncols = c ∧
      data1.nrows = data.nrows + 1 ∧
      (∀ j : Nat, j ≤ n + 1 →
        arr_get data1.row_offsets j = some ((rows.take j).flatten.length : Int)) ∧
      (∀ j : Nat, n + 1 < j → j < M → arr_get data1.row_offsets j = some 0) := by
  obtain ⟨hk, hl⟩ := hrows rows[n] (List.getElem_mem hn)
  obtain ⟨t1, t2⟩ := join_take_succ rows n hn
  have hpos : 1 ≤ rows[n].length := by
    have := (count_fields_le _ _ _ _ hk).1
    have := (count_fields_le _ _ _ _ hk).2
    omega
  have hc1 : 1 ≤ c := (count_fields_le _ _ _ _ hk).1
  have hdrop : data.ptr.drop ((rows.take n).flatten.length : Int).toNat
      = rows[n] ++ ((rows.drop (n + 1)).flatten ++ pad) := by
    rw [hptr, Int.toNat_ofNat]
    exact join_drop pad rows n hn
  have hcnt := count_fields_append data.delim ((rows.drop (n + 1)).flatten ++ pad) _ _ _ hk
  have hrl := row_length_append ((rows.drop (n + 1)).flatten ++ pad) _ _ hl
  rw [← hdrop] at hcnt hrl
  have hfuel : c ≤ data.ptr.length + 1 := by
    have := (count_fields_le _ _ _ _ hcnt).2
    rw [List.length_drop] at this
    omega
  have hce1 : (if data.ncols ≠ 0 ∧ ce = -1 then data.ncols - 1 else ce) = ce := by
    rw [if_neg (fun hh => by omega)]
  obtain ⟨total1, buf1, hscan, hlen1, htot⟩ := get_row_scan_count data.ptr data.delim
    ((rows.take n).flatten.length : Int) data.st_size 0 ce (by omega) c (data.ptr.length + 1)
    none none 0 0 ((rows.take n).flatten.length : Int) data.ncols buf
    (by simp only [Option.getD_none]; exact hcnt) (by simp only [Option.getD_none]; omega)
    hfuel (le_refl 0) (Or.inr rfl) (by omega)
  have htot1 := htot _ (by simp only [Option.getD_none]; exact hrl)
  have hcode : (if (0 : Int) + c = (if data.ncols = 0 then 0 + (c : Int) else data.ncols)
      then E_OK else E_DTA_MISSING_FIELD) = E_OK := by
    rw [hnc]
    by_cases h0 : n = 0
    · simp [h0]
    · simp only [if_neg h0]
      have : ¬ ((c : Int) = 0) := by omega
      rw [if_neg this]
      simp
  have hnc1 : (if data.ncols = 0 then 0 + (c : Int) else data.ncols) = c := by
    rw [hnc]
    by_cases h0 : n = 0
    · simp [h0]
    · simp only [if_neg h0]
      have : ¬ ((c : Int) = 0) := by omega
      rw [if_neg this]
  rw [hcode, hnc1] at hscan
  have hnext : arr_get data.row_offsets ((n : Int) + 1) = some 0 := by
    have := hzero (n + 1) (by omega) hM
    rw [← this]
    congr 1
  have hset : arr_set data.row_offsets ((n : Int) + 1) total1
      = some (data.row_offsets.set ((n : Int) + 1).toNat total1) :=
    arr_set_some _ _ _ (by omega) (by omega)
  refine ⟨{ data with ncols := c, row_offsets := data.row_offsets.set ((n : Int) + 1).toNat total1,
                        nrows := data.nrows + 1 }, buf1, ?_, hlen1, rfl, rfl, rfl,
    by simp only [List.length_set]; exact hlen, rfl, rfl, ?_, ?_⟩
  · unfold get_row
    have hncc : ¬ (data.ncols ≠ 0 ∧ ce ≥ data.ncols) := by
      rw [hnc]
      by_cases h0 : n = 0
      · simp [h0]
      · simp only [if_neg h0]
        omega
    rw [if_neg hncc]
    dsimp only
    rw [hro n (le_refl n)]
    dsimp only
    have hv1 : ¬ (0 < (n : Int) ∧ ((rows.take n).flatten.length : Int) = data.st_size) := by
      rw [hsize]
      omega
    have hv2 : ¬ (0 < (n : Int) ∧ ((rows.take n).flatten.length : Int) = 0) := by
      intro hh
      obtain ⟨m, hm⟩ : ∃ m, n = m + 1 := ⟨n - 1, by omega⟩
      subst hm
      obtain ⟨u1, -⟩ := join_take_succ rows m (by omega)
      obtain ⟨hk', -⟩ := hrows rows[m] (List.getElem_mem (by omega))
      have := (count_fields_le _ _ _ _ hk').1
      have := (count_fields_le _ _ _ _ hk').2
      omega
    rw [if_neg hv1, if_neg hv2, hnext]
    dsimp only
    rw [if_neg (by simp), hce1, hscan]
    dsimp only
    rw [if_neg (by simp), hset]
  · intro j hj
    simp only
    by_cases hjn : j = n + 1
    · subst hjn
      have := arr_get_of_arr_set_eq _ _ _ _ hset
      rw [show ((n + 1 : Nat) : Int) = (n : Int) + 1 by push_cast; rfl, this, htot1, t1]
      push_cast
      rfl
    · rw [arr_get_of_arr_set_ne _ _ _ _ _ hset (by omega)]
      exact hro j (by omega)
  · intro j hj1 hj2
    simp only
    rw [arr_get_of_arr_set_ne _ _ _ _ _ hset (by omega)]
    exact hzero j (by omega) hj2

/-- The first visit of the next row of a file made of rows: `get_row` returns
`E_OK`, keeps the length of the buffer, and one more row is visited. -/
theorem get_row_visited (rows : List (List Nat)) (M c n : Nat) (data : Data_T)
    (hv : RowsVisited rows M c n data) (hn : n < rows.length) (hM : n + 1 < M)
    (buf : List Ptr) (ce : Int) (hce0 : 0 ≤ ce) (hce : ce < c)
    (hbuf : ce < (buf.length : Int)) :
    ∃ data1 buf1, get_row data buf n 0 ce = some (E_OK, data1, buf1) ∧
      buf1.length = buf.length ∧ RowsVisited rows M c (n + 1) data1 := by
  obtain ⟨pad, hpad⟩ := hv.mapping
  obtain ⟨data1, buf1, g1, g2, g3, g4, g5, g6, g7, g8, g9, g10⟩ :=
    get_row_visit M rows pad c data hv.fields n hn hM hpad hv.size hv.len hv.ncols_eq
      hv.recorded hv.unrecorded buf ce hce0 hce hbuf
  refine ⟨data1, buf1, g1, g2, ?_⟩
  exact { mapping := ⟨pad, by rw [g3, hpad]⟩, size := by rw [g4, hv.size],
          fields := by rw [g5]; exact hv.fields, len := g6,
          ncols_eq := by rw [g7, if_neg (by omega)],
          nrows_eq := by rw [g8, hv.nrows_eq]; push_cast; rfl,
          recorded := g9, unrecorded := g10 }

/-- A first visit that leaves its loop by `break` ends at or after the start of
the row, and not before offset 0. -/
theorem get_row_scan_total (mem : List Nat) (d : Nat) (cur len cs ce : Int) (fuel : Nat)
    (ncols : Int) (buf : List Ptr) (t ncols1 : Int) (buf1 : List Ptr)
    (h : get_row_scan mem d cur len cs ce fuel none none 0 0 cur ncols buf
      = some (E_OK, t, ncols1, buf1)) :
    cur ≤ t ∧ 0 ≤ t := by
  obtain ⟨cnt, tf, sf, hrun, hsf, hend, -⟩ :=
    get_row_scan_run mem d cur len cs ce fuel none none 0 0 cur ncols buf t ncols1 buf1 h rfl
  have hcur := get_col_toks_cursor mem d cur len cnt none none tf sf hrun
  simp only [Option.getD_none] at hcur
  refine ⟨by omega, ?_⟩
  rcases hend with ⟨-, -, -, h1, -⟩ | ⟨-, ⟨r, hr, -⟩, -⟩
  · omega
  · have := (get_tok_r_spec mem tf cur d sf len r hr).1
    omega

/-- The offsets of a fresh source are all zero. -/
theorem fresh_offsets (M P : Nat) (path : String) (delim : Nat) (file : List Nat)
    (data0 data1 : Data_T) (hsrc : Data_mmap_init M path delim = some data0)
    (hopen : data_open P file data0 = (E_OK, data1)) :
    ∀ j v, arr_get data1.row_offsets j = some v → v = 0 := by
  obtain ⟨hro, -⟩ := fresh_source _ _ _ _ _ _ _ hsrc hopen
  intro j v hv
  rw [hro] at hv
  obtain ⟨-, h2, h3⟩ := arr_get_inv _ _ _ hv
  rw [List.getElem?_replicate] at h3
  simp only [List.length_replicate] at h2
  rw [if_pos h2] at h3
  simp only [Option.some.injEq] at h3
  exact h3.symm

/-- The offsets of every source a program can hold: none is negative, the
first is 0, from index 1 on an entry that is not recorded is followed by
entries that are not recorded, and a recorded entry is not below the entry
before it. -/
theorem src_reach_offsets (M P : Nat) (data : Data_T) (h : SrcReach M P data) :
    (∀ j v, arr_get data.row_offsets j = some v → 0 ≤ v) ∧
    (∀ v, arr_get data.row_offsets 0 = some v → v = 0) ∧
    (∀ j w, 1 ≤ j → arr_get data.row_offsets j = some 0 →
      arr_get data.row_offsets (j + 1) = some w → w = 0) ∧
    (∀ i a b, arr_get data.row_offsets i = some a → arr_get data.row_offsets (i + 1) = some b →
      b ≠ 0 → a ≤ b) := by
  induction h with
  | opened path delim file data0 data1 hsrc hopen =>
    have hz := fresh_offsets M P path delim file data0 data1 hsrc hopen
    refine ⟨?_, ?_, ?_, ?_⟩
    · intro j v hv
      have := hz j v hv
      omega
    · intro v hv
      exact hz 0 v hv
    · intro j w _ _ hw
      exact hz _ w hw
    · intro i a b _ hb hb0
      exact absurd (hz _ b hb) hb0
  | row data buf row cs ce ret data1 buf1 _ hrow ih =>
    obtain ⟨i1, i2, i3, i4⟩ := ih
    rcases get_row_changes data buf row cs ce ret data1 buf1 hrow with
      rfl | ⟨-, cur, total, nc1, ro1, hcur, hnext, -, hv2, hscan, hset, rfl⟩
    · exact ⟨i1, i2, i3, i4⟩
    · obtain ⟨ht1, ht0⟩ := get_row_scan_total _ _ _ _ _ _ _ _ _ _ _ _ hscan
      have hrow0 : 0 ≤ row := (arr_get_inv _ _ _ hcur).1
      have hne : ∀ j, j ≠ row + 1 → arr_get ro1 j = arr_get data.row_offsets j :=
        fun j hj => arr_get_of_arr_set_ne _ _ _ _ _ hset hj
      have heq : arr_get ro1 (row + 1) = some total := arr_get_of_arr_set_eq _ _ _ _ hset
      refine ⟨?_, ?_, ?_, ?_⟩
      · intro j v hv
        simp only at hv
        by_cases hj : j = row + 1
        · subst hj
          rw [heq] at hv
          simp only [Option.some.injEq] at hv
          omega
        · rw [hne j hj] at hv
          exact i1 j v hv
      · intro v hv
        simp only at hv
        rw [hne 0 (by omega)] at hv
        exact i2 v hv
      · intro j w hj1 hj hw
        simp only at hj hw
        by_cases hA : j = row
        · subst hA
          rw [hne j (by omega)] at hj
          rw [hcur] at hj
          simp only [Option.some.injEq] at hj
          exact absurd ⟨by omega, hj⟩ hv2
        · by_cases hB : j = row + 1
          · subst hB
            rw [hne (row + 1 + 1) (by omega)] at hw
            exact i3 (row + 1) w (by omega) hnext hw
          · rw [hne j hB] at hj
            rw [hne (j + 1) (by omega)] at hw
            exact i3 j w hj1 hj hw
      · intro i a b ha hb hb0
        simp only at ha hb
        by_cases hA : i = row
        · subst hA
          rw [hne i (by omega), hcur] at ha
          rw [heq] at hb
          simp only [Option.some.injEq] at ha hb
          omega
        · by_cases hB : i = row + 1
          · subst hB
            rw [hne (row + 1 + 1) (by omega)] at hb
            exact absurd (i3 (row + 1) b (by omega) hnext hb) hb0
          · rw [hne i hB] at ha
            rw [hne (i + 1) (by omega)] at hb
            exact i4 i a b ha hb hb0

/-- C21 (offset monotonicity).  In every source that `Data_mmap_init` created,
`data_open` opened and any sequence of `get_row` calls has worked on (`get_col`
assigns nothing in the source), whenever `row_offsets[i+1]` is recorded
(non-zero), `0 ≤ row_offsets[i] ≤ row_offsets[i+1]`; and a `get_row` call after
which `row_offsets[i+1]` is recorded while it was not before is a call for row
`i` that returned `E_OK`, whose first-visit loop took a run of tokens from the
start of the row up to the recorded offset, the last of them ended by a
newline (the byte before the recorded offset) or followed by the answer
`TOK_EOF` of the tokenizer. -/
theorem row_offsets_monotone (M P : Nat) (data : Data_T) (h : SrcReach M P data) :
    (∀ i a b, arr_get data.row_offsets i = some a → arr_get data.row_offsets (i + 1) = some b →
      b ≠ 0 → 0 ≤ a ∧ a ≤ b) ∧
    (∀ buf row cs ce ret data1 buf1 i b,
      get_row data buf row cs ce = some (ret, data1, buf1) →
      arr_get data.row_offsets (i + 1) = some 0 →
      arr_get data1.row_offsets (i + 1) = some b → b ≠ 0 →
      row = i ∧ ret = E_OK ∧
      ∃ cur cnt tf sf, arr_get data.row_offsets i = some cur ∧ cur ≤ b ∧
        get_col_toks data.ptr data.delim cur data.st_size cnt none none
          = some (Sum.inr (tf, sf)) ∧ sf.getD cur = b ∧
        ((1 ≤ cnt ∧ 1 ≤ b ∧ data.ptr[(b - 1).toNat]? = some 10) ∨
         (∃ r, get_tok_r data.ptr tf cur data.delim sf data.st_size = some r ∧
            r.err = TOK_EOF))) := by
  obtain ⟨i1, -, -, i4⟩ := src_reach_offsets M P data h
  refine ⟨fun i a b ha hb hb0 => ⟨i1 i a ha, i4 i a b ha hb hb0⟩, ?_⟩
  intro buf row cs ce ret data1 buf1 i b hrow h0 hb hb0
  rcases get_row_changes data buf row cs ce ret data1 buf1 hrow with
    rfl | ⟨hret, cur, total, nc1, ro1, hcur, -, -, -, hscan, hset, rfl⟩
  · rw [h0] at hb
    simp only [Option.some.injEq] at hb
    exact absurd hb.symm hb0
  · simp only at hb
    have hi : i = row := by
      by_contra hne
      rw [arr_get_of_arr_set_ne _ _ _ _ _ hset (by omega), h0] at hb
      simp only [Option.some.injEq] at hb
      exact hb0 hb.symm
    subst hi
    rw [arr_get_of_arr_set_eq _ _ _ _ hset] at hb
    simp only [Option.some.injEq] at hb
    subst hb
    obtain ⟨cnt, tf, sf, hrun, hsf, hend, -⟩ :=
      get_row_scan_run _ _ _ _ _ _ _ none none 0 0 cur _ buf total nc1 buf1 hscan rfl
    obtain ⟨ht1, -⟩ := get_row_scan_total _ _ _ _ _ _ _ _ _ _ _ _ hscan
    refine ⟨rfl, hret, cur, cnt, tf, sf, hcur, ht1, hrun, hsf, ?_⟩
    rcases hend with ⟨hc, -, -, h1, h10⟩ | ⟨-, hr, -⟩
    · exact Or.inl ⟨hc, h1, h10⟩
    · exact Or.inr hr

/-- Witness of C21: the source for `a,b` / `c,d` with both rows visited; its
offsets are 0, 4, 8. -/
theorem row_offsets_monotone_witness :
    (∀ i a b, arr_get csv2_rows01.row_offsets i = some a →
      arr_get csv2_rows01.row_offsets (i + 1) = some b → b ≠ 0 → 0 ≤ a ∧ a ≤ b) ∧
    arr_get csv2_rows01.row_offsets 2 = some 8 :=
  ⟨(row_offsets_monotone 8 16 csv2_rows01
    (SrcReach.row csv2_row0 [none, none] 1 0 1 E_OK csv2_rows01 [some 4, some 6]
      (SrcReach.row csv2_open [none, none] 0 0 1 E_OK csv2_row0 [some 0, some 2]
        (SrcReach.opened "f" 44 csv2 csv2_init csv2_open (by decide) (by decide))
        (by decide))
      (by decide))).1, by decide⟩

/-! ## The offset cache is append-only -/

/-- C22 (append-only cache).  For every source and every call of `get_row` that
has a result, whatever the code: every entry of `row_offsets` that was recorded
(non-zero) before the call has the same value after it; and when the end
offset `row_offsets[row+1]` of the row asked for was recorded before the call
(a repeat visit of a cached row) the call changes nothing in the source, so
`row_offsets`, `nrows` and `ncols` are as before.  `get_col` reads the source
and assigns nothing in it, which is why its embedding returns no source. -/
theorem row_offsets_append_only (data : Data_T) (buf : List Ptr) (row cs ce : Int)
    (ret : Code) (data1 : Data_T) (buf1 : List Ptr)
    (h : get_row data buf row cs ce = some (ret, data1, buf1)) :
    (∀ j v, arr_get data.row_offsets j = some v → v ≠ 0 →
      arr_get data1.row_offsets j = some v) ∧
    (∀ next, arr_get data.row_offsets (row + 1) = some next → next ≠ 0 →
      data1 = data ∧ data1.row_offsets = data.row_offsets ∧ data1.nrows = data.nrows ∧
      data1.ncols = data.ncols) := by
  rcases get_row_changes data buf row cs ce ret data1 buf1 h with
    rfl | ⟨-, cur, total, nc1, ro1, -, hnext, -, -, -, hset, rfl⟩
  · exact ⟨fun j v hv _ => hv, fun _ _ _ => ⟨rfl, rfl, rfl, rfl⟩⟩
  · refine ⟨?_, ?_⟩
    · intro j v hv hv0
      simp only
      by_cases hj : j = row + 1
      · subst hj
        rw [hnext] at hv
        simp only [Option.some.injEq] at hv
        exact absurd hv.symm hv0
      · rw [arr_get_of_arr_set_ne _ _ _ _ _ hset hj]
        exact hv
    · intro next hn hn0
      rw [hnext] at hn
      simp only [Option.some.injEq] at hn
      exact absurd hn.symm hn0

/-- Witness of C22: the first visit of row 1 of `a,b` / `c,d` keeps the offset 4
recorded at index 1, and the repeat visit of row 0 that follows changes
nothing in the source. -/
theorem row_offsets_append_only_witness :
    (arr_get csv2_row0.row_offsets 1 = some 4 ∧
      ∀ j v, arr_get csv2_row0.row_offsets j = some v → v ≠ 0 →
        arr_get csv2_rows01.row_offsets j = some v) ∧
    (arr_get csv2_rows01.row_offsets (0 + 1) = some 4 ∧
      ∀ next, arr_get csv2_rows01.row_offsets (0 + 1) = some next → next ≠ 0 →
        csv2_rows01 = csv2_rows01 ∧ csv2_rows01.row_offsets = csv2_rows01.row_offsets ∧
        csv2_rows01.nrows = csv2_rows01.nrows ∧ csv2_rows01.ncols = csv2_rows01.ncols) :=
  ⟨⟨by decide, (row_offsets_append_only csv2_row0 [none, none] 1 0 1 E_OK csv2_rows01
      [some 4, some 6] (by decide)).1⟩,
   ⟨by decide, (row_offsets_append_only csv2_rows01 [none, none] 0 0 1 E_OK csv2_rows01
      [some 0, some 2] (by decide)).2⟩⟩

/-- A row whose end offset is recorded as 0 is not cached: in the file `ab` (one
field, no delimiter, no newline) the first visit of row 0 ends with `TOK_EOF` at
the first token, so `total_bytes` is still 0 when it is stored in
`row_offsets[1]`; the call returns `E_OK` and counts the row, and every further
call for row 0 scans again and counts the row again. -/
theorem get_row_single_field_recount :
    data_open 16 single_field csv2_init = (E_OK, single_field_open) ∧
    get_row single_field_open [none] 0 0 (-1)
      = some (E_OK, { single_field_open with nrows := 1 }, [none]) ∧
    arr_get single_field_open.row_offsets 1 = some 0 ∧
    get_row { single_field_open with nrows := 1 } [none] 0 0 (-1)
      = some (E_OK, { single_field_open with nrows := 2 }, [none]) := by
  decide

/-! ## Scrolling up at the top -/

/-- With a negative row and a column range that passes the column check,
`get_row` has no defined result: `row > 0` is false, so the first thing it does
with the row is to read `row_offsets[row + 1]` and `row_offsets[row]`, and one of
them lies before the array. -/
theorem get_row_negative_row (data : Data_T) (buf : List Ptr) (row cs ce : Int) (hrow : row < 0)
    (hce : ¬ (data.ncols ≠ 0 ∧ ce ≥ data.ncols)) : get_row data buf row cs ce = none := by
  unfold get_row
  rw [if_neg hce]
  have : arr_get data.row_offsets row = none := by
    unfold arr_get
    rw [if_pos hrow]
  dsimp only
  rw [this]

/-- A frame without rows above it (`first_row = 0`) whose column count is within
that of the source: `Frame_shift_row(frame, data, -1)` asks `get_row` for row -1,
and the call has no defined result. -/
theorem Frame_shift_row_up_row0 (M : Nat) (frame : Frame_T) (data : Data_T)
    (hfirst : frame.data_loaded.first_row = 0) (hM : M ≠ 0) (hn : 0 ≤ frame.ncols)
    (hc : frame.ncols ≤ data.ncols) :
    Frame_shift_row M frame data (-1) = none := by
  unfold Frame_shift_row
  rw [if_neg (by omega)]
  dsimp only
  rw [if_neg (by omega : ¬ ((-1 : Int) = 1)), hfirst, if_neg (by omega)]
  unfold vla
  rw [if_neg (by omega)]
  dsimp only
  rw [get_row_negative_row data _ (0 - 1) 0 (frame.ncols - 1) (by omega) (by omega)]

/-- Scrolling up from row 0 in a session: for every frame and source reached by
`Frame_load` and shifts, when the window starts at row 0,
`Frame_shift_row(frame, data, -1)` has no defined result (`get_row` is called for
row -1 and reads `row_offsets[-1]`); it does not return a code. -/
theorem Frame_shift_row_up_undefined (M C P : Nat) (frame : Frame_T) (data : Data_T)
    (h : Reach M C P frame data) (hfirst : frame.data_loaded.first_row = 0) :
    Frame_shift_row M frame data (-1) = none := by
  obtain ⟨h1, h2⟩ := reach_ncols M C P frame data h
  obtain ⟨-, h3, h4⟩ := reach_capacity M C P frame data h
  exact Frame_shift_row_up_row0 M frame data hfirst (by omega) h1 h2

/-- Witness of `Frame_shift_row_up_undefined`: the frame loaded from `a,b` / `c,d`
without headers. -/
theorem Frame_shift_row_up_undefined_witness :
    wide1.data_loaded.first_row = 0 ∧ Frame_shift_row 8 wide1 csv2_rows01 (-1) = none :=
  ⟨by decide, Frame_shift_row_up_undefined 8 4 16 wide1 csv2_rows01
    (Reach.load 10 2 2 0 "f" 44 csv2 wide0 csv2_init csv2_open wide1 csv2_rows01
      (by decide) (by decide) (by decide) (by decide) (by decide)) (by decide)⟩

/-- C23 (scrolling up at the top), evaluated.  With headers: the frame
`Frame_init(10, 2, 3, 1)` loaded from the file `x,y,z` / `a,b,c` / ... has
`first_row = 1`, the first data row; `Frame_shift_row(frame, data, -1)` returns
`E_OK`, puts the header fields `x` and `y` (offsets 0 and 2, the entries of the
header buffer) at the low end of the two column buffers and sets the
window to rows 0 to 1.  Without headers: the frame `Frame_init(10, 2, 2, 0)`
loaded from `a,b` / `c,d` has `first_row = 0`; `Frame_shift_row(frame, data, -1)`
calls `get_row` for row -1, which reads `row_offsets[-1]`, so neither call has a
defined result.  In neither case is a non-OK code returned. -/
theorem Frame_shift_row_up_at_top :
    Frame_load 4 headed0 table5_open = some (E_OK, headed1, table5_rows 3) ∧
    headed1.data_loaded.first_row = 1 ∧ headed1.headers = some [some 0, some 2] ∧
    get_row (table5_rows 3) [none, none] 0 0 1
      = some (E_OK, table5_rows 3, [some 0, some 2]) ∧
    Frame_shift_row 8 headed1 (table5_rows 3) (-1) = some (E_OK, headed_up, table5_rows 3) ∧
    headed_up.data = [[some 0, some 6], [some 2, some 8]] ∧
    headed_up.data_loaded.first_row = 0 ∧
    Frame_load 4 wide0 csv2_open = some (E_OK, wide1, csv2_rows01) ∧
    wide1.headers = none ∧ wide1.data_loaded.first_row = 0 ∧
    arr_get csv2_rows01.row_offsets (wide1.data_loaded.first_row - 1) = none ∧
    get_row csv2_rows01 [none, none] (wide1.data_loaded.first_row - 1) 0 1 = none ∧
    Frame_shift_row 8 wide1 csv2_rows01 (-1) = none := by
  refine ⟨by decide, by decide, by decide, by decide, by decide, by decide, by decide,
    by decide, by decide, by decide, by decide, by decide, by decide⟩

/-! ## Drawing a token -/

/-- The loop of `mvaddntok` on a run of `m` bytes that are neither the
delimiter nor a newline, followed by a delimiter or a newline: the first
`min k m` bytes are drawn in consecutive columns. -/
theorem mvaddntok_loop_field (mem : List Nat) (row : Int) (d : Nat) :
    ∀ (m k t : Nat) (col : Int) (c : Nat),
      (∀ x ∈ (mem.drop t).take m, x ≠ d ∧ x ≠ 10) → mem[t + m]? = some c → (c = d ∨ c = 10) →
      mvaddntok_loop mem row d k col (some (t : Int))
        = some (draw_field row col (((mem.drop t).take m).take k)) := by
  intro m
  induction m with
  | zero =>
    intro k t col c _ hc hterm
    cases k with
    | zero => simp [mvaddntok_loop, draw_field]
    | succ k =>
      unfold mvaddntok_loop
      simp only [arr_get_natCast, Nat.add_zero] at hc ⊢
      rw [hc]
      simp only [List.take_zero, List.take_nil, draw_field]
      rw [if_pos hterm]
  | succ m ih =>
    intro k t col c hfree hc hterm
    have hlt : t < mem.length := by
      have := (List.getElem?_eq_some_iff.mp hc).1
      omega
    have hdrop : (mem.drop t).take (m + 1) = mem[t] :: (mem.drop (t + 1)).take m := by
      rw [List.drop_eq_getElem_cons hlt, List.take_succ_cons]
    rw [hdrop] at hfree ⊢
    cases k with
    | zero => simp [mvaddntok_loop, draw_field]
    | succ k =>
      have h0 := hfree mem[t] (List.mem_cons_self _ _)
      have ht : arr_get mem (t : Int) = some mem[t] := by
        rw [arr_get_natCast]
        exact List.getElem?_eq_getElem hlt
      have hrec := ih k (t + 1) (col + 1) c
        (fun x hx => hfree x (List.mem_cons_of_mem _ hx))
        (by rw [← hc]; congr 1; omega) hterm
      unfold mvaddntok_loop
      simp only [ht]
      rw [if_neg (by
        intro hcon
        rcases hcon with hcon | hcon
        · exact h0.1 hcon
        · exact h0.2 hcon)]
      have hcast : ((t : Int) + 1) = ((t + 1 : Nat) : Int) := by push_cast; rfl
      rw [hcast, hrec]
      simp only [List.take_succ_cons, draw_field]

/-- Rendering a field that holds no delimiter byte.  For every field that
`get_tok_r` returns, ended by the delimiter or by a newline (not by a NUL byte;
the answer is then `TOK_OK` or `TOK_EOL`), with no byte equal to the delimiter
among its `nbytes - 1` bytes, and for every width `n`:
`mvaddntok(row, col, tok, n, delim)` returns 1 and draws exactly the first
`min n (nbytes - 1)` bytes of the field, one per consecutive screen column from
`col` on. -/
theorem mvaddntok_plain_field (mem : List Nat) (tok : Ptr) (str : Int) (d : Nat)
    (saveptr : Ptr) (len : Int) (r : TokRes) (row col n : Int)
    (h : get_tok_r mem tok str d saveptr len = some r)
    (hterm : arr_get mem (saveptr.getD str + r.nbytes - 1) ≠ some 0)
    (hfree : ∀ x ∈ (mem.drop (saveptr.getD str).toNat).take (r.nbytes - 1).toNat, x ≠ d) :
    r.tok = some (saveptr.getD str) ∧ (r.err = TOK_OK ∨ r.err = TOK_EOL) ∧
    mvaddntok mem row col r.tok n d
      = some (1, draw_field row col
          (((mem.drop (saveptr.getD str).toNat).take (r.nbytes - 1).toNat).take n.toNat)) := by
  obtain ⟨hf0, m, c, hnb, hc, hfield, hcase⟩ := get_tok_r_spec mem tok str d saveptr len r h
  have hm : (r.nbytes - 1).toNat = m := by omega
  have hidx : saveptr.getD str + r.nbytes - 1 = (((saveptr.getD str).toNat + m : Nat) : Int) := by
    push_cast
    omega
  rw [hidx, arr_get_natCast, hc] at hterm
  rw [hm] at hfree ⊢
  have hc0 : c ≠ 0 := fun h0 => hterm (by rw [h0])
  rcases hcase with ⟨h0, -⟩ | ⟨htok, -, hk⟩
  · exact absurd h0 hc0
  · have hcd : c = d ∨ c = 10 := by
      rcases hk with ⟨h0, -⟩ | ⟨h10, -⟩ | ⟨-, -, -, hd, -⟩
      · exact absurd h0 hc0
      · exact Or.inr h10
      · exact Or.inl hd
    refine ⟨htok, ?_, ?_⟩
    · rcases hk with ⟨-, h1, -⟩ | ⟨-, h1⟩ | ⟨-, -, -, -, h1, -⟩
      · exact Or.inl h1
      · exact Or.inr h1
      · exact Or.inl h1
    have hloop := mvaddntok_loop_field mem row d m n.toNat (saveptr.getD str).toNat col c
      (fun x hx => ⟨hfree x hx, (hfield x hx).2⟩) hc hcd
    have hcast : (((saveptr.getD str).toNat : Nat) : Int) = saveptr.getD str := by omega
    rw [hcast] at hloop
    unfold mvaddntok
    rw [htok, hloop]

/-- Witness of `mvaddntok_plain_field`: the field `c` of the row `"a,b",c,d` (offset
6, one byte), drawn with width 7 at row 0 from column 11 on. -/
theorem mvaddntok_plain_field_witness :
    get_tok_r quoted_row (some 0) 0 44 (some 6) 10 = some ⟨TOK_OK, some 6, 2, some 8⟩ ∧
    mvaddntok quoted_row 0 11 (some 6) 7 44 = some (1, [⟨0, 11, 99⟩]) :=
  ⟨by decide,
   (mvaddntok_plain_field quoted_row (some 0) 0 44 (some 6) 10 ⟨TOK_OK, some 6, 2, some 8⟩
      0 11 7 (by decide) (by decide) (by decide)).2.2⟩

/-- C25 (rendering agrees with tokenizing), evaluated.  In the row `"a,b",c,d` with
the delimiter `,` the tokenizer returns the field at offset 0 with `nbytes = 6`:
the five bytes `"a,b"`, the comma between the quotes being content.
`mvaddntok(0, 1, tok, 7, ',')` draws two characters, `"` and `a`, and returns at the
comma inside the quotes; the claim asks for the `min(7, 5) = 5` bytes of the
field.  And the last field `d` of the file `a,b` / `c,d` without a newline at its
end (offset 6, one byte, ended by the NUL after the file): with width 7 the
call draws seven characters, `d` and six NUL bytes. -/
theorem mvaddntok_stops_inside_quotes :
    get_tok_r quoted_row none 0 44 none 10 = some ⟨TOK_OK, some 0, 6, some 6⟩ ∧
    mvaddntok quoted_row 0 1 (some 0) 7 44 = some (1, [⟨0, 1, 34⟩, ⟨0, 2, 97⟩]) ∧
    draw_field 0 1 ((quoted_row.take 5).take 7)
      = [⟨0, 1, 34⟩, ⟨0, 2, 97⟩, ⟨0, 3, 44⟩, ⟨0, 4, 98⟩, ⟨0, 5, 34⟩] ∧
    (get_row { csv2_unterminated_open with ncols := 2, nrows := 1,
                                           row_offsets := [0, 4, 0, 0, 0, 0, 0, 0] }
        [none, none] 1 0 1).map (fun x => (x.1, x.2.2)) = some (E_OK, [some 4, some 6]) ∧
    get_tok_r csv2_unterminated_open.ptr (some 4) 4 44 (some 6) 7
      = some ⟨TOK_OK, some 6, 2, some 8⟩ ∧
    mvaddntok csv2_unterminated_open.ptr 1 11 (some 6) 7 44
      = some (1, [⟨1, 11, 100⟩, ⟨1, 12, 0⟩, ⟨1, 13, 0⟩, ⟨1, 14, 0⟩, ⟨1, 15, 0⟩, ⟨1, 16, 0⟩,
                  ⟨1, 17, 0⟩]) := by
  refine ⟨by decide, by decide, by decide, by decide, by decide, by decide⟩

/-! ## Bytes that a call does not read -/

/-- The loop of `get_tok_r` reads only the bytes it returns on: bytes appended
behind the list do not change a result. -/
theorem get_tok_r_loop_append (d : Nat) (field lim : Int) (l2 : List Nat) :
    ∀ (l : List Nat) (i : Nat) (q : Bool) (x : Nat × Nat),
      get_tok_r_loop d field lim l i q = some x →
      get_tok_r_loop d field lim (l ++ l2) i q = some x := by
  intro l
  induction l with
  | nil =>
    intro i q x h
    simp [get_tok_r_loop] at h
  | cons c rest ih =>
    intro i q x h
    rw [List.cons_append]
    unfold get_tok_r_loop at h ⊢
    by_cases h0 : c = 0
    · rw [if_pos h0] at h ⊢
      exact h
    rw [if_neg h0] at h ⊢
    by_cases h10 : c = 10
    · rw [if_pos h10] at h ⊢
      exact h
    rw [if_neg h10] at h ⊢
    by_cases h34 : c = 34
    · rw [if_pos h34] at h ⊢
      exact ih _ _ _ h
    rw [if_neg h34] at h ⊢
    by_cases hd : c = d ∧ q = false
    · rw [if_pos hd] at h ⊢
      exact h
    rw [if_neg hd] at h ⊢
    exact ih _ _ _ h

/-- A result of `get_tok_r` on a mapping is its result on every longer mapping
that starts with the same bytes. -/
theorem get_tok_r_append (m1 m2 : List Nat) (tok : Ptr) (str : Int) (d : Nat) (saveptr : Ptr)
    (len : Int) (r : TokRes) (h : get_tok_r m1 tok str d saveptr len = some r) :
    get_tok_r (m1 ++ m2) tok str d saveptr len = some r := by
  unfold get_tok_r at h ⊢
  dsimp only at h ⊢
  by_cases hf : saveptr.getD str < 0
  · rw [if_pos hf] at h
    simp at h
  rw [if_neg hf] at h ⊢
  cases hl : get_tok_r_loop d (saveptr.getD str) (str + len)
      (m1.drop (saveptr.getD str).toNat) 0 false with
  | none =>
    rw [hl] at h
    simp at h
  | some x =>
    have hle : (saveptr.getD str).toNat ≤ m1.length := by
      by_contra hcon
      rw [List.drop_eq_nil_of_le (by omega)] at hl
      simp [get_tok_r_loop] at hl
    rw [List.drop_append_of_le_length hle, get_tok_r_loop_append _ _ _ _ _ _ _ _ hl]
    rw [hl] at h
    exact h

/-- A call of `get_tok_r` that has a result has read no byte at or behind the
end of the mapping: the last index it dereferences is `*saveptr + nbytes - 1`
(the value of `*saveptr`, or `str`, at entry). -/
theorem get_tok_r_reads (mem : List Nat) (tok : Ptr) (str : Int) (d : Nat) (saveptr : Ptr)
    (len : Int) (r : TokRes) (h : get_tok_r mem tok str d saveptr len = some r) :
    0 ≤ saveptr.getD str ∧ 1 ≤ r.nbytes ∧ saveptr.getD str + r.nbytes - 1 < mem.length := by
  obtain ⟨h0, m, c, hnb, hc, -⟩ := get_tok_r_spec mem tok str d saveptr len r h
  have := (List.getElem?_eq_some_iff.mp hc).1
  omega

/-- The inner loop of `get_col` on a longer mapping that starts with the same
bytes. -/
theorem get_col_toks_append (m1 m2 : List Nat) (d : Nat) (str len : Int) :
    ∀ (k : Nat) (tok saveptr : Ptr) (x : Code ⊕ (Ptr × Ptr)),
      get_col_toks m1 d str len k tok saveptr = some x →
      get_col_toks (m1 ++ m2) d str len k tok saveptr = some x := by
  intro k
  induction k with
  | zero =>
    intro tok saveptr x h
    unfold get_col_toks at h ⊢
    exact h
  | succ k ih =>
    intro tok saveptr x h
    unfold get_col_toks at h ⊢
    cases hg : get_tok_r m1 tok str d saveptr len with
    | none =>
      rw [hg] at h
      simp at h
    | some r =>
      rw [hg] at h
      rw [get_tok_r_append m1 m2 _ _ _ _ _ _ hg]
      dsimp only at h ⊢
      by_cases hE : r.err &&& (TOK_ERR ||| TOK_EOF) ≠ 0
      · rw [if_pos hE] at h ⊢
        exact h
      rw [if_neg hE] at h ⊢
      exact ih _ _ _ h

/-- The repeat-visit loop of `get_row` on a longer mapping that starts with the
same bytes, with at least the same iteration bound. -/
theorem get_row_cached_append (m1 m2 : List Nat) (d : Nat) (str len cs ce : Int) :
    ∀ (f1 f2 : Nat) (saveptr tok : Ptr) (icol i : Int) (buf : List Ptr) (x : Code × List Ptr),
      f1 ≤ f2 →
      get_row_cached m1 d str len cs ce f1 saveptr tok icol i buf = some x →
      get_row_cached (m1 ++ m2) d str len cs ce f2 saveptr tok icol i buf = some x := by
  intro f1
  induction f1 with
  | zero =>
    intro f2 saveptr tok icol i buf x _ h
    unfold get_row_cached at h
    simp at h
  | succ k ih =>
    intro f2 saveptr tok icol i buf x hf h
    obtain ⟨j, rfl⟩ : ∃ j, f2 = j + 1 := ⟨f2 - 1, by omega⟩
    unfold get_row_cached at h ⊢
    cases hg : get_tok_r m1 tok str d saveptr len with
    | none =>
      rw [hg] at h
      simp at h
    | some r =>
      rw [hg] at h
      rw [get_tok_r_append m1 m2 _ _ _ _ _ _ hg]
      dsimp only at h ⊢
      by_cases hE : r.err &&& (TOK_ERR ||| TOK_EOF) ≠ 0
      · rw [if_pos hE] at h ⊢
        exact h
      rw [if_neg hE] at h ⊢
      cases hb : (if cs ≤ icol ∧ icol ≤ ce then arr_set buf i r.tok else some buf) with
      | none =>
        rw [hb] at h
        simp at h
      | some buf1 =>
        rw [hb] at h
        dsimp only at h ⊢
        by_cases hL : icol = ce
        · rw [if_pos hL] at h ⊢
          exact h
        rw [if_neg hL] at h ⊢
        exact ih j _ _ _ _ _ _ (by omega) h

/-- The first-visit loop of `get_row` on a longer mapping that starts with the
same bytes, with at least the same iteration bound. -/
theorem get_row_scan_append (m1 m2 : List Nat) (d : Nat) (str len cs ce : Int) :
    ∀ (f1 f2 : Nat) (saveptr tok : Ptr) (icol i total ncols : Int) (buf : List Ptr)
      (x : Code × Int × Int × List Ptr),
      f1 ≤ f2 →
      get_row_scan m1 d str len cs ce f1 saveptr tok icol i total ncols buf = some x →
      get_row_scan (m1 ++ m2) d str len cs ce f2 saveptr tok icol i total ncols buf
        = some x := by
  intro f1
  induction f1 with
  | zero =>
    intro f2 saveptr tok icol i total ncols buf x _ h
    unfold get_row_scan at h
    simp at h
  | succ k ih =>
    intro f2 saveptr tok icol i total ncols buf x hf h
    obtain ⟨j, rfl⟩ : ∃ j, f2 = j + 1 := ⟨f2 - 1, by omega⟩
    unfold get_row_scan at h ⊢
    cases hg : get_tok_r m1 tok str d saveptr len with
    | none =>
      rw [hg] at h
      simp at h
    | some r =>
      rw [hg] at h
      rw [get_tok_r_append m1 m2 _ _ _ _ _ _ hg]
      dsimp only at h ⊢
      by_cases hE : r.err = TOK_ERR
      · rw [if_pos hE] at h ⊢
        exact h
      rw [if_neg hE] at h ⊢
      by_cases hF : r.err = TOK_EOF
      · rw [if_pos hF] at h ⊢
        exact h
      rw [if_neg hF] at h ⊢
      cases hb : (if cs ≤ icol ∧ (icol ≤ ce ∨ ce = -1) then arr_set buf i r.tok
          else some buf) with
      | none =>
        rw [hb] at h
        simp at h
      | some buf1 =>
        rw [hb] at h
        dsimp only at h ⊢
        by_cases hL : r.err = TOK_EOL
        · rw [if_pos hL] at h ⊢
          exact h
        rw [if_neg hL] at h ⊢
        exact ih j _ _ _ _ _ _ _ _ (by omega) h


/-- The outer loop of `get_col` on a longer mapping that starts with the same
bytes. -/
theorem get_col_rows_append (data : Data_T) (m2 : List Nat) (col : Int) :
    ∀ (k : Nat) (irow i : Int) (tok : Ptr) (buf : List Ptr) (x : Code × List Ptr),
      get_col_rows data col k irow i tok buf = some x →
      get_col_rows { data with ptr := data.ptr ++ m2 } col k irow i tok buf = some x := by
  intro k
  induction k with
  | zero =>
    intro irow i tok buf x h
    unfold get_col_rows at h ⊢
    exact h
  | succ k ih =>
    intro irow i tok buf x h
    unfold get_col_rows at h ⊢
    dsimp only at h ⊢
    cases hn : arr_get data.row_offsets (irow + 1) with
    | none =>
      rw [hn] at h
      simp at h
    | some next =>
      cases hc : arr_get data.row_offsets irow with
      | none =>
        rw [hn, hc] at h
        simp at h
      | some cur =>
        rw [hn, hc] at h
        dsimp only at h ⊢
        cases ht : get_col_toks data.ptr data.delim cur (next - cur) (col + 1).toNat tok none with
        | none =>
          rw [ht] at h
          simp at h
        | some y =>
          rw [ht] at h
          rw [get_col_toks_append data.ptr m2 _ _ _ _ _ _ _ ht]
          cases y with
          | inl ret =>
            dsimp only at h ⊢
            exact h
          | inr p =>
            obtain ⟨tok1, s1⟩ := p
            dsimp only at h ⊢
            cases hs : arr_set buf i tok1 with
            | none =>
              rw [hs] at h
              simp at h
            | some buf1 =>
              rw [hs] at h
              dsimp only at h ⊢
              exact ih _ _ _ _ _ h

/-- A result of `get_col` on a source is its result on the source with a longer
mapping that starts with the same bytes. -/
theorem get_col_append (data : Data_T) (m2 : List Nat) (buf : List Ptr)
    (col row_start row_end : Int) (x : Code × List Ptr)
    (h : get_col data buf col row_start row_end = some x) :
    get_col { data with ptr := data.ptr ++ m2 } buf col row_start row_end = some x := by
  unfold get_col at h ⊢
  dsimp only at h ⊢
  by_cases h1 : col > data.ncols - 1
  · rw [if_pos h1] at h ⊢
    exact h
  rw [if_neg h1] at h ⊢
  by_cases h2 : row_end > data.nrows - 1
  · rw [if_pos h2] at h ⊢
    exact h
  rw [if_neg h2] at h ⊢
  exact get_col_rows_append data m2 col _ _ _ _ _ _ h

/-- A result of `get_row` on a source is its result on the source with a longer
mapping that starts with the same bytes. -/
theorem get_row_append (data : Data_T) (m2 : List Nat) (buf : List Ptr) (row cs ce : Int)
    (ret : Code) (data1 : Data_T) (buf1 : List Ptr)
    (h : get_row data buf row cs ce = some (ret, data1, buf1)) :
    get_row { data with ptr := data.ptr ++ m2 } buf row cs ce
      = some (ret, { data1 with ptr := data.ptr ++ m2 }, buf1) := by
  unfold get_row at h ⊢
  dsimp only at h ⊢
  by_cases hc : data.ncols ≠ 0 ∧ ce ≥ data.ncols
  · rw [if_pos hc] at h ⊢
    simp only [Option.some.injEq, Prod.mk.injEq] at h
    obtain ⟨rfl, rfl, rfl⟩ := h
    rfl
  rw [if_neg hc] at h ⊢
  cases hcur : arr_get data.row_offsets row with
  | none => rw [hcur] at h; simp at h
  | some cur =>
    rw [hcur] at h
    dsimp only at h ⊢
    by_cases h1 : 0 < row ∧ cur = data.st_size
    · rw [if_pos h1] at h ⊢
      simp only [Option.some.injEq, Prod.mk.injEq] at h
      obtain ⟨rfl, rfl, rfl⟩ := h
      rfl
    rw [if_neg h1] at h ⊢
    by_cases h2 : 0 < row ∧ cur = 0
    · rw [if_pos h2] at h ⊢
      simp only [Option.some.injEq, Prod.mk.injEq] at h
      obtain ⟨rfl, rfl, rfl⟩ := h
      rfl
    rw [if_neg h2] at h ⊢
    cases hnext : arr_get data.row_offsets (row + 1) with
    | none => rw [hnext] at h; simp at h
    | some next =>
      rw [hnext] at h
      dsimp only at h ⊢
      by_cases h3 : next ≠ 0
      · rw [if_pos h3] at h ⊢
        by_cases h4 : data.ncols = 0
        · rw [if_pos h4] at h ⊢
          simp only [Option.some.injEq, Prod.mk.injEq] at h
          obtain ⟨rfl, rfl, rfl⟩ := h
          rfl
        rw [if_neg h4] at h ⊢
        cases hl : get_row_cached data.ptr data.delim cur (next - cur) cs
            (if data.ncols ≠ 0 ∧ ce = -1 then data.ncols - 1 else ce)
            (data.ptr.length + 1) none none 0 0 buf with
        | none => rw [hl] at h; simp at h
        | some res =>
          obtain ⟨ret2, buf2⟩ := res
          rw [hl] at h
          simp only [Option.some.injEq, Prod.mk.injEq] at h
          obtain ⟨rfl, rfl, rfl⟩ := h
          rw [get_row_cached_append data.ptr m2 _ _ _ _ _ _ ((data.ptr ++ m2).length + 1)
            _ _ _ _ _ _ (by simp) hl]
      · rw [if_neg h3] at h ⊢
        cases hl : get_row_scan data.ptr data.delim cur data.st_size cs
            (if data.ncols ≠ 0 ∧ ce = -1 then data.ncols - 1 else ce)
            (data.ptr.length + 1) none none 0 0 cur data.ncols buf with
        | none => rw [hl] at h; simp at h
        | some res =>
          obtain ⟨ret2, total, ncols2, buf2⟩ := res
          rw [hl] at h
          rw [get_row_scan_append data.ptr m2 _ _ _ _ _ _ ((data.ptr ++ m2).length + 1)
            _ _ _ _ _ _ _ _ (by simp) hl]
          dsimp only at h ⊢
          by_cases h5 : ret2 ≠ E_OK
          · rw [if_pos h5] at h ⊢
            simp only [Option.some.injEq, Prod.mk.injEq] at h
            obtain ⟨rfl, rfl, rfl⟩ := h
            rfl
          · rw [if_neg h5] at h ⊢
            cases hs : arr_set data.row_offsets (row + 1) total with
            | none => rw [hs] at h; simp at h
            | some ro1 =>
              rw [hs] at h
              simp only [Option.some.injEq, Prod.mk.injEq] at h
              obtain ⟨rfl, rfl, rfl⟩ := h
              rfl




/-- What `get_row` returns on a source with the mapping cut off, it returns on
the source itself. -/
theorem get_row_cut (n : Nat) (data : Data_T) (buf : List Ptr) (row cs ce : Int)
    (ret : Code) (data1 : Data_T) (buf1 : List Ptr)
    (h : get_row (cut_mapping n data) buf row cs ce = some (ret, data1, buf1)) :
    get_row data buf row cs ce = some (ret, { data1 with ptr := data.ptr }, buf1) := by
  have h1 := get_row_append (cut_mapping n data) (data.ptr.drop n) buf row cs ce ret data1 buf1 h
  have h2 : (cut_mapping n data).ptr ++ data.ptr.drop n = data.ptr := by
    unfold cut_mapping
    exact List.take_append_drop n data.ptr
  rw [h2] at h1
  exact h1

/-- What `get_col` returns on a source with the mapping cut off, it returns on
the source itself. -/
theorem get_col_cut (n : Nat) (data : Data_T) (buf : List Ptr) (col row_start row_end : Int)
    (x : Code × List Ptr)
    (h : get_col (cut_mapping n data) buf col row_start row_end = some x) :
    get_col data buf col row_start row_end = some x := by
  have h1 := get_col_append (cut_mapping n data) (data.ptr.drop n) buf col row_start row_end x h
  have h2 : (cut_mapping n data).ptr ++ data.ptr.drop n = data.ptr := by
    unfold cut_mapping
    exact List.take_append_drop n data.ptr
  rw [h2] at h1
  exact h1


/-! ## Reads in a file made of rows -/

/-- The repeat-visit loop of `get_row` for the columns 0 to `ce`, from column
`icol` on, at the start of a field of a row that has `k` fields left and ends
at a newline: when the columns asked for are among these fields, the loop stores
the tokens and returns `E_OK`. -/
theorem get_row_cached_count (mem : List Nat) (d : Nat) (str len ce : Int) :
    ∀ (k fuel : Nat) (saveptr tok : Ptr) (icol : Int) (buf : List Ptr),
      count_fields d (mem.drop (saveptr.getD str).toNat) false = some k →
      0 ≤ saveptr.getD str → k ≤ fuel → 0 ≤ icol → icol ≤ ce → ce < icol + k →
      ce < (buf.length : Int) →
      ∃ buf1, get_row_cached mem d str len 0 ce fuel saveptr tok icol icol buf
          = some (E_OK, buf1) ∧ buf1.length = buf.length := by
  intro k
  induction k with
  | zero =>
    intro fuel saveptr tok icol buf hk
    have := (count_fields_le _ _ _ _ hk).1
    omega
  | succ k ih =>
    intro fuel saveptr tok icol buf hk hp hfuel hi0 hi1 hi2 hbuf
    obtain ⟨f, rfl⟩ : ∃ f, fuel = f + 1 := ⟨fuel - 1, by omega⟩
    obtain ⟨r, m, hg, htok, hnb, hsp, hin, hone, hmore⟩ :=
      get_tok_r_count mem tok str d saveptr len (k + 1) hp hk
    have herr : r.err = TOK_OK ∨ r.err = TOK_EOL := by
      by_cases h1 : k + 1 = 1
      · exact Or.inr (hone h1)
      · exact Or.inl (hmore h1).1
    unfold get_row_cached
    rw [hg]
    dsimp only
    rw [if_neg ((tok_mask r.err).1 herr), if_pos ⟨hi0, hi1⟩,
      arr_set_some buf icol r.tok hi0 (by omega)]
    dsimp only
    by_cases hL : icol = ce
    · rw [if_pos hL]
      exact ⟨_, rfl, by simp⟩
    rw [if_neg hL, if_pos ⟨hi0, hi1⟩]
    have hk1 : k + 1 ≠ 1 := by omega
    obtain ⟨-, hrest⟩ := hmore hk1
    have hsp' : r.saveptr.getD str = saveptr.getD str + m + 1 := by rw [hsp]; rfl
    have hnat : (r.saveptr.getD str).toNat = (saveptr.getD str).toNat + m + 1 := by
      rw [hsp']
      omega
    obtain ⟨buf1, h1, h2⟩ := ih f r.saveptr r.tok (icol + 1) (buf.set icol.toNat r.tok)
      (by rw [hnat]; exact hrest) (by omega) (by omega) (by omega) (by omega) (by omega)
      (by simp only [List.length_set]; exact hbuf)
    exact ⟨buf1, h1, by rw [h2]; simp⟩

/-- The inner loop of `get_col` at the start of a field of a row that has `k`
fields left and ends at a newline: it goes through every number of rounds up
to `k`. -/
theorem get_col_toks_fields (mem : List Nat) (d : Nat) (str len : Int) :
    ∀ (j k : Nat) (tok saveptr : Ptr),
      count_fields d (mem.drop (saveptr.getD str).toNat) false = some k →
      0 ≤ saveptr.getD str → j ≤ k →
      ∃ t s, get_col_toks mem d str len j tok saveptr = some (Sum.inr (t, s)) := by
  intro j
  induction j with
  | zero =>
    intro k tok saveptr _ _ _
    exact ⟨tok, saveptr, by unfold get_col_toks; rfl⟩
  | succ j ih =>
    intro k tok saveptr hk hp hj
    obtain ⟨r, m, hg, htok, hnb, hsp, hin, hone, hmore⟩ :=
      get_tok_r_count mem tok str d saveptr len k hp hk
    have herr : r.err = TOK_OK ∨ r.err = TOK_EOL := by
      by_cases h1 : k = 1
      · exact Or.inr (hone h1)
      · exact Or.inl (hmore h1).1
    unfold get_col_toks
    rw [hg]
    dsimp only
    rw [if_neg ((tok_mask r.err).1 herr)]
    by_cases h1 : k = 1
    · have hj0 : j = 0 := by omega
      subst hj0
      exact ⟨r.tok, r.saveptr, by unfold get_col_toks; rfl⟩
    · obtain ⟨-, hrest⟩ := hmore h1
      have hsp' : r.saveptr.getD str = saveptr.getD str + m + 1 := by rw [hsp]; rfl
      have hnat : (r.saveptr.getD str).toNat = (saveptr.getD str).toNat + m + 1 := by
        rw [hsp']
        omega
      exact ih (k - 1) r.tok r.saveptr (by rw [hnat]; exact hrest) (by omega) (by omega)

/-- A row of a file made of rows, seen from the mapping: at the offset of row
`r` the mapping holds a row of `c` fields that ends at its newline after
`rows[r].length` bytes; a row has at least one byte, and its end is the start of
the next row. -/
theorem rows_visited_row (rows : List (List Nat)) (M c n : Nat) (data : Data_T)
    (hv : RowsVisited rows M c n data) (r : Nat) (hr : r < rows.length) :
    count_fields data.delim (data.ptr.drop (rows.take r).flatten.length) false = some c ∧
    row_length (data.ptr.drop (rows.take r).flatten.length) = some rows[r].length ∧
    1 ≤ rows[r].length ∧ 1 ≤ c ∧ c ≤ rows[r].length ∧
    (rows.take (r + 1)).flatten.length = (rows.take r).flatten.length + rows[r].length ∧
    (rows.take (r + 1)).flatten.length ≤ rows.flatten.length := by
  obtain ⟨pad, hptr⟩ := hv.mapping
  obtain ⟨hk, hl⟩ := hv.fields rows[r] (List.getElem_mem hr)
  obtain ⟨t1, t2⟩ := join_take_succ rows r hr
  have hdrop : data.ptr.drop (rows.take r).flatten.length
      = rows[r] ++ ((rows.drop (r + 1)).flatten ++ pad) := by
    rw [hptr]
    exact join_drop pad rows r hr
  have hcnt := count_fields_append data.delim ((rows.drop (r + 1)).flatten ++ pad) _ _ _ hk
  have hrl := row_length_append ((rows.drop (r + 1)).flatten ++ pad) _ _ hl
  rw [← hdrop] at hcnt hrl
  have h1 := (count_fields_le _ _ _ _ hk).1
  have h2 := (count_fields_le _ _ _ _ hk).2
  exact ⟨hcnt, hrl, by omega, h1, h2, t1, t2⟩

/-- The repeat visit of a row of a file made of rows: for a row `r` that has been
visited, `get_row` for the columns 0 to `ce` returns `E_OK` and leaves the source
as it is. -/
theorem get_row_revisited (rows : List (List Nat)) (M c n : Nat) (data : Data_T)
    (hv : RowsVisited rows M c n data) (r : Nat) (hr : r < n) (hrl : r < rows.length)
    (buf : List Ptr) (ce : Int) (hce0 : 0 ≤ ce) (hce : ce < c)
    (hbuf : ce < (buf.length : Int)) :
    ∃ buf1, get_row data buf r 0 ce = some (E_OK, data, buf1) ∧ buf1.length = buf.length := by
  obtain ⟨hcnt, -, hpos, hc1, hcle, t1, t2⟩ := rows_visited_row rows M c n data hv r hrl
  have hnc : data.ncols = c := by
    rw [hv.ncols_eq, if_neg (by omega)]
  have hcur := hv.recorded r (by omega)
  have hnext := hv.recorded (r + 1) (by omega)
  have hfuel : c ≤ data.ptr.length + 1 := by
    have := (count_fields_le _ _ _ _ hcnt).2
    rw [List.length_drop] at this
    omega
  obtain ⟨buf1, hloop, hlen⟩ := get_row_cached_count data.ptr data.delim
    ((rows.take r).flatten.length : Int)
    (((rows.take (r + 1)).flatten.length : Int) - ((rows.take r).flatten.length : Int)) ce c
    (data.ptr.length + 1) none none 0 buf
    (by simp only [Option.getD_none, Int.toNat_ofNat]; exact hcnt)
    (by simp only [Option.getD_none]; omega) hfuel (le_refl 0) hce0 (by omega) hbuf
  refine ⟨buf1, ?_, hlen⟩
  unfold get_row
  rw [if_neg (by rw [hnc]; omega)]
  dsimp only
  rw [hcur]
  dsimp only
  have hv1 : ¬ (0 < (r : Int) ∧ ((rows.take r).flatten.length : Int) = data.st_size) := by
    rw [hv.size]
    omega
  have hv2 : ¬ (0 < (r : Int) ∧ ((rows.take r).flatten.length : Int) = 0) := by
    intro hh
    obtain ⟨m, hm⟩ : ∃ m, r = m + 1 := ⟨r - 1, by omega⟩
    subst hm
    obtain ⟨-, -, u1, -, -, u2, -⟩ := rows_visited_row rows M c n data hv m (by omega)
    omega
  have hnext' : arr_get data.row_offsets ((r : Int) + 1)
      = some ((rows.take (r + 1)).flatten.length : Int) := by
    rw [← hnext]
    congr 1
  rw [if_neg hv1, if_neg hv2, hnext']
  dsimp only
  rw [if_pos (by omega), if_neg (by rw [hnc]; omega), if_neg (by omega), hloop]

/-- Column access in a file made of rows: for a column of the file and visited
rows, `get_col` returns `E_OK`. -/
theorem get_col_visited (rows : List (List Nat)) (M c n : Nat) (data : Data_T)
    (hv : RowsVisited rows M c n data) (hn1 : 1 ≤ n) (hn : n ≤ rows.length)
    (buf : List Ptr) (col row_start row_end : Int) (hcol : 0 ≤ col ∧ col < c)
    (hrs : 0 ≤ row_start) (hre : row_end < n)
    (hbuf : row_end - row_start < (buf.length : Int)) :
    ∃ buf1, get_col data buf col row_start row_end = some (E_OK, buf1) := by
  have hnc : data.ncols = c := by
    rw [hv.ncols_eq, if_neg (by omega)]
  unfold get_col
  rw [if_neg (by rw [hnc]; omega), if_neg (by rw [hv.nrows_eq]; omega)]
  apply get_col_rows_ok data col hcol.1 _ row_start 0 none buf
  · intro j hj
    obtain ⟨q, hq⟩ : ∃ q : Nat, row_start + (j : Int) = (q : Int) :=
      ⟨(row_start + j).toNat, by omega⟩
    have hqn : q < n := by omega
    obtain ⟨hcnt, -, -, -, -, -, -⟩ := rows_visited_row rows M c n data hv q (by omega)
    obtain ⟨t, s, hts⟩ := get_col_toks_fields data.ptr data.delim
      ((rows.take q).flatten.length : Int)
      (((rows.take (q + 1)).flatten.length : Int) - ((rows.take q).flatten.length : Int))
      (col + 1).toNat c none none
      (by simp only [Option.getD_none, Int.toNat_ofNat]; exact hcnt)
      (by simp only [Option.getD_none]; omega) (by omega)
    refine ⟨_, _, t, s, ?_, ?_, hts⟩
    · rw [hq]
      exact hv.recorded q (by omega)
    · rw [hq]
      have := hv.recorded (q + 1) (by omega)
      rw [← this]
      congr 1
  · omega


/-! ## Reads of the first visit of row 0 -/

/-- The loop of `get_tok_r` on a list cut off behind the index at which it
returns. -/
theorem get_tok_r_loop_take (d : Nat) (field lim : Int) :
    ∀ (l : List Nat) (i : Nat) (q : Bool) (code j m : Nat),
      get_tok_r_loop d field lim l i q = some (code, j) → j < i + m →
      get_tok_r_loop d field lim (l.take m) i q = some (code, j) := by
  intro l
  induction l with
  | nil =>
    intro i q code j m h
    simp [get_tok_r_loop] at h
  | cons c rest ih =>
    intro i q code j m h hj
    obtain ⟨m', c', hj', -⟩ := get_tok_r_loop_spec d field lim (c :: rest) i q code j h
    obtain ⟨m1, rfl⟩ : ∃ m1, m = m1 + 1 := ⟨m - 1, by omega⟩
    rw [List.take_succ_cons]
    unfold get_tok_r_loop at h ⊢
    by_cases h0 : c = 0
    · rw [if_pos h0] at h ⊢
      exact h
    rw [if_neg h0] at h ⊢
    by_cases h10 : c = 10
    · rw [if_pos h10] at h ⊢
      exact h
    rw [if_neg h10] at h ⊢
    by_cases h34 : c = 34
    · rw [if_pos h34] at h ⊢
      exact ih _ _ _ _ _ h (by omega)
    rw [if_neg h34] at h ⊢
    by_cases hd : c = d ∧ q = false
    · rw [if_pos hd] at h ⊢
      exact h
    rw [if_neg hd] at h ⊢
    exact ih _ _ _ _ _ h (by omega)

/-- A call of `get_tok_r` whose last read lies below `n` has the same result on
the mapping cut off behind the first `n` bytes. -/
theorem get_tok_r_take (mem : List Nat) (n : Nat) (tok : Ptr) (str : Int) (d : Nat)
    (saveptr : Ptr) (len : Int) (r : TokRes)
    (h : get_tok_r mem tok str d saveptr len = some r)
    (hn : saveptr.getD str + r.nbytes ≤ n) :
    get_tok_r (mem.take n) tok str d saveptr len = some r := by
  unfold get_tok_r at h ⊢
  dsimp only at h ⊢
  by_cases hf : saveptr.getD str < 0
  · rw [if_pos hf] at h
    simp at h
  rw [if_neg hf] at h ⊢
  cases hl : get_tok_r_loop d (saveptr.getD str) (str + len)
      (mem.drop (saveptr.getD str).toNat) 0 false with
  | none =>
    rw [hl] at h
    simp at h
  | some x =>
    obtain ⟨code, j⟩ := x
    rw [hl] at h
    dsimp only at h
    have hnb : r.nbytes = (j : Int) + 1 := by
      by_cases hE : code = TOK_EOF
      · rw [if_pos hE] at h
        simp only [Option.some.injEq] at h
        rw [← h]
      · rw [if_neg hE] at h
        simp only [Option.some.injEq] at h
        rw [← h]
    rw [List.drop_take]
    rw [get_tok_r_loop_take d _ _ _ 0 false code j (n - (saveptr.getD str).toNat) hl (by omega)]
    exact h

/-- The first-visit loop of `get_row` for row 0 (`str` is the start of the
mapping and `len` the size of the file) in a mapping that is zero from index
`S` on: every token starts at or before index `S` and is read up to index
`S` at most, so the loop has the same result on the mapping cut off behind
index `S`. -/
theorem get_row_scan_row0_cut (mem : List Nat) (S : Nat) (hS : S < mem.length)
    (hz : ∀ q, S ≤ q → q < mem.length → mem[q]? = some 0) (d : Nat) (cs ce : Int) :
    ∀ (fuel : Nat) (saveptr tok : Ptr) (icol i total ncols : Int) (buf : List Ptr)
      (x : Code × Int × Int × List Ptr),
      saveptr.getD 0 ≤ S →
      get_row_scan mem d 0 S cs ce fuel saveptr tok icol i total ncols buf = some x →
      get_row_scan (mem.take (S + 1)) d 0 S cs ce fuel saveptr tok icol i total ncols buf
        = some x := by
  intro fuel
  induction fuel with
  | zero =>
    intro saveptr tok icol i total ncols buf x _ h
    unfold get_row_scan at h
    simp at h
  | succ k ih =>
    intro saveptr tok icol i total ncols buf x hsp h
    unfold get_row_scan at h ⊢
    cases hg : get_tok_r mem tok 0 d saveptr S with
    | none =>
      rw [hg] at h
      simp at h
    | some r =>
      rw [hg] at h
      have hpad := get_tok_r_padded mem S hS hz tok 0 d saveptr S r hg
      have hmax : max (saveptr.getD 0) (S : Int) = S := max_eq_right hsp
      rw [hmax] at hpad
      rw [get_tok_r_take mem (S + 1) tok 0 d saveptr S r hg (by push_cast; omega)]
      dsimp only at h ⊢
      by_cases hE : r.err = TOK_ERR
      · rw [if_pos hE] at h ⊢
        exact h
      rw [if_neg hE] at h ⊢
      by_cases hF : r.err = TOK_EOF
      · rw [if_pos hF] at h ⊢
        exact h
      rw [if_neg hF] at h ⊢
      cases hb : (if cs ≤ icol ∧ (icol ≤ ce ∨ ce = -1) then arr_set buf i r.tok
          else some buf) with
      | none =>
        rw [hb] at h
        simp at h
      | some buf1 =>
        rw [hb] at h
        dsimp only at h ⊢
        by_cases hL : r.err = TOK_EOL
        · rw [if_pos hL] at h ⊢
          exact h
        rw [if_neg hL] at h ⊢
        have hnext : r.saveptr.getD 0 ≤ S := by
          obtain ⟨h0, m, c, hnb, hc, -, hcase⟩ := get_tok_r_spec mem tok 0 d saveptr S r hg
          have hlt := (List.getElem?_eq_some_iff.mp hc).1
          rcases hcase with ⟨-, hEof, -⟩ | ⟨-, hs, hk⟩
          · exact absurd hEof hF
          · rw [hs]
            simp only [Option.getD_some]
            rcases hk with ⟨-, -, hlim⟩ | ⟨-, hEol⟩ | ⟨hc0, -⟩
            · omega
            · exact absurd hEol hL
            · by_contra hcon
              have hzero := hz ((saveptr.getD 0).toNat + m) (by omega) hlt
              rw [hc] at hzero
              simp only [Option.some.injEq] at hzero
              exact hc0 hzero
        exact ih _ _ _ _ _ _ _ _ hnext h

/-- The first visit of row 0 reads no byte behind the first zero byte after
the file: in a source with the invariant of an opened source, a call of
`get_row` for row 0 while `row_offsets[1]` is not recorded has the same result on
the source whose mapping is cut off behind index `st_size`. -/
theorem get_row_row0_cut (data : Data_T) (hI : SrcInv data) (buf : List Ptr) (cs ce : Int)
    (ret : Code) (data1 : Data_T) (buf1 : List Ptr)
    (h1 : arr_get data.row_offsets 1 = some 0)
    (h : get_row data buf 0 cs ce = some (ret, data1, buf1)) :
    get_row (cut_mapping (data.st_size.toNat + 1) data) buf 0 cs ce
      = some (ret, cut_mapping (data.st_size.toNat + 1) data1, buf1) := by
  have hS := hI.size_lt
  have hS0 := hI.size_nonneg
  have hsz : ((data.st_size.toNat : Nat) : Int) = data.st_size := by omega
  obtain ⟨v, hv⟩ : ∃ v, arr_get data.row_offsets 0 = some v := by
    cases hc : arr_get data.row_offsets 0 with
    | none =>
      unfold get_row at h
      by_cases hcc : data.ncols ≠ 0 ∧ ce ≥ data.ncols
      · exact absurd (hI.rows hcc.1).2.2.1 (by
          intro hn
          obtain ⟨cur, next, hcur, -⟩ := (hI.rows hcc.1).2.2.2.1 0 (le_refl 0) (by omega)
          rw [hc] at hcur
          simp at hcur)
      · rw [if_neg hcc] at h
        dsimp only at h
        rw [hc] at h
        simp at h
    | some v => exact ⟨v, rfl⟩
  have hv0 : v = 0 := hI.first v hv
  subst hv0
  have hlen : (data.ptr.take (data.st_size.toNat + 1)).length = data.st_size.toNat + 1 := by
    rw [List.length_take]
    omega
  unfold get_row at h ⊢
  unfold cut_mapping
  dsimp only at h ⊢
  by_cases hc : data.ncols ≠ 0 ∧ ce ≥ data.ncols
  · rw [if_pos hc] at h ⊢
    simp only [Option.some.injEq, Prod.mk.injEq] at h
    obtain ⟨rfl, rfl, rfl⟩ := h
    rfl
  rw [if_neg hc] at h ⊢
  rw [hv] at h ⊢
  dsimp only at h ⊢
  rw [if_neg (by omega), if_neg (by omega)] at h ⊢
  rw [show ((0 : Int) + 1) = 1 by rfl, h1] at h ⊢
  dsimp only at h ⊢
  rw [if_neg (by simp)] at h ⊢
  cases hl : get_row_scan data.ptr data.delim 0 data.st_size cs
      (if data.ncols ≠ 0 ∧ ce = -1 then data.ncols - 1 else ce)
      (data.ptr.length + 1) none none 0 0 0 data.ncols buf with
  | none => rw [hl] at h; simp at h
  | some res =>
    obtain ⟨ret2, total, ncols2, buf2⟩ := res
    rw [hl] at h
    have hl' := hl
    rw [← hsz] at hl'
    have hcut := get_row_scan_row0_cut data.ptr data.st_size.toNat hS hI.zeros data.delim cs
      (if data.ncols ≠ 0 ∧ ce = -1 then data.ncols - 1 else ce) (data.ptr.length + 1)
      none none 0 0 0 data.ncols buf _ (by simp only [Option.getD_none]; omega) hl'
    rw [hsz] at hcut
    rw [get_row_scan_fuel (data.ptr.take (data.st_size.toNat + 1)) data.delim 0 data.st_size cs
      (if data.ncols ≠ 0 ∧ ce = -1 then data.ncols - 1 else ce)
      ((data.ptr.take (data.st_size.toNat + 1)).length + 1) (data.ptr.length + 1)
      none none 0 0 0 data.ncols buf (by simp only [Option.getD_none]; omega)
      (by simp only [Option.getD_none]; omega), hcut]
    dsimp only at h ⊢
    by_cases h5 : ret2 ≠ E_OK
    · rw [if_pos h5] at h ⊢
      simp only [Option.some.injEq, Prod.mk.injEq] at h
      obtain ⟨rfl, rfl, rfl⟩ := h
      rfl
    · rw [if_neg h5] at h ⊢
      cases hs : arr_set data.row_offsets 1 total with
      | none => rw [hs] at h; simp at h
      | some ro1 =>
        rw [hs] at h
        simp only [Option.some.injEq, Prod.mk.injEq] at h
        obtain ⟨rfl, rfl, rfl⟩ := h
        rfl


/-- The source of a file made of rows is one also when its mapping is cut off
at the end of the file. -/
theorem rows_visited_cut (rows : List (List Nat)) (M c n : Nat) (data : Data_T)
    (hv : RowsVisited rows M c n data) :
    RowsVisited rows M c n (cut_mapping data.st_size.toNat data) := by
  obtain ⟨pad, hpad⟩ := hv.mapping
  exact { mapping := ⟨[], by
            unfold cut_mapping
            simp only
            rw [hpad, hv.size, Int.toNat_ofNat, List.append_nil]
            exact List.take_left' rfl⟩,
          size := hv.size, fields := hv.fields, len := hv.len, ncols_eq := hv.ncols_eq,
          nrows_eq := hv.nrows_eq, recorded := hv.recorded, unrecorded := hv.unrecorded }

/-- Read bounds in a file made of rows.  A call on the source whose mapping is
cut off behind the first `n` bytes has a result only if it dereferences no
byte index from `n` on.  (a) For every source a program can hold, a first visit
of row 0 (`row_offsets[1]` not recorded) has the same result on the mapping cut
off behind index `st_size`.  (b) For a file made of rows that each end at a
newline, have `c` fields and no NUL byte, with the rows `0 .. n - 1` visited:
the first visit of row `n`, every repeat visit of a visited row and every
`get_col` call for a column of the file over visited rows return `E_OK`, and do
so on the mapping cut off at the end of the file as well: every byte index
they dereference is smaller than `st_size`. -/
theorem get_row_reads_rows (M P : Nat) (hP : 0 < P) (data : Data_T) (h : SrcReach M P data) :
    (∀ (buf : List Ptr) (cs ce : Int) (ret : Code) (data1 : Data_T) (buf1 : List Ptr),
      arr_get data.row_offsets 1 = some 0 →
      get_row data buf 0 cs ce = some (ret, data1, buf1) →
      get_row (cut_mapping (data.st_size.toNat + 1) data) buf 0 cs ce
        = some (ret, cut_mapping (data.st_size.toNat + 1) data1, buf1)) ∧
    (∀ (rows : List (List Nat)) (c n : Nat), RowsVisited rows M c n data → n ≤ rows.length →
      (∀ (buf : List Ptr) (ce : Int), n < rows.length → n + 1 < M → 0 ≤ ce → ce < c →
        ce < (buf.length : Int) →
        ∃ data1 buf1, get_row data buf n 0 ce = some (E_OK, data1, buf1) ∧
          get_row (cut_mapping data.st_size.toNat data) buf n 0 ce
            = some (E_OK, cut_mapping data.st_size.toNat data1, buf1)) ∧
      (∀ (r : Nat) (buf : List Ptr) (ce : Int), r < n → 0 ≤ ce → ce < c →
        ce < (buf.length : Int) →
        ∃ buf1, get_row data buf r 0 ce = some (E_OK, data, buf1) ∧
          get_row (cut_mapping data.st_size.toNat data) buf r 0 ce
            = some (E_OK, cut_mapping data.st_size.toNat data, buf1)) ∧
      (∀ (buf : List Ptr) (col row_start row_end : Int), 0 ≤ col → col < c →
        0 ≤ row_start → row_start ≤ row_end → row_end < n →
        row_end - row_start < (buf.length : Int) →
        ∃ buf1, get_col data buf col row_start row_end = some (E_OK, buf1) ∧
          get_col (cut_mapping data.st_size.toNat data) buf col row_start row_end
            = some (E_OK, buf1))) := by
  have hI := src_reach_inv M P hP data h
  refine ⟨?_, ?_⟩
  · intro buf cs ce ret data1 buf1 h1 hg
    exact get_row_row0_cut data hI buf cs ce ret data1 buf1 h1 hg
  · intro rows c n hv hn
    have hvc := rows_visited_cut rows M c n data hv
    refine ⟨?_, ?_, ?_⟩
    · intro buf ce hn1 hM hce0 hce hbuf
      obtain ⟨d1, b1, g1, -, -⟩ := get_row_visited rows M c n _ hvc hn1 hM buf ce hce0 hce hbuf
      have hfull := get_row_cut _ _ _ _ _ _ _ _ _ g1
      have hp : d1.ptr = data.ptr.take data.st_size.toNat :=
        (get_row_effect _ _ _ _ _ _ _ _ g1).2.1
      refine ⟨{ d1 with ptr := data.ptr }, b1, hfull, ?_⟩
      rw [g1]
      unfold cut_mapping
      simp only [← hp]
    · intro r buf ce hr hce0 hce hbuf
      obtain ⟨b1, g1, -⟩ := get_row_revisited rows M c n _ hvc r hr (by omega) buf ce hce0 hce
        hbuf
      have hfull := get_row_cut _ _ _ _ _ _ _ _ _ g1
      exact ⟨b1, hfull, g1⟩
    · intro buf col rs re hc0 hc1 hrs hle hre hbuf
      obtain ⟨b1, g1⟩ := get_col_visited rows M c n _ hvc (by omega) hn buf col rs re
        ⟨hc0, hc1⟩ hrs hre hbuf
      exact ⟨b1, get_col_cut _ _ _ _ _ _ _ g1, g1⟩

/-- Witness of `get_row_reads_rows`: in the source for `a,b` / `c,d` (8 bytes) with
both rows visited, the repeat visit of row 1 has its result also when the
mapping ends with the file. -/
theorem get_row_reads_rows_witness :
    (∃ buf1, get_row csv2_rows01 [none, none] (1 : Nat) 0 1
        = some (E_OK, csv2_rows01, buf1) ∧
      get_row (cut_mapping csv2_rows01.st_size.toNat csv2_rows01) [none, none] (1 : Nat) 0 1
        = some (E_OK, cut_mapping csv2_rows01.st_size.toNat csv2_rows01, buf1)) ∧
    csv2_rows01.st_size.toNat = 8 ∧ (cut_mapping 8 csv2_rows01).ptr = csv2 :=
  ⟨((get_row_reads_rows 8 16 (by decide) csv2_rows01
      (SrcReach.row csv2_row0 [none, none] 1 0 1 E_OK csv2_rows01 [some 4, some 6]
        (SrcReach.row csv2_open [none, none] 0 0 1 E_OK csv2_row0 [some 0, some 2]
          (SrcReach.opened "f" 44 csv2 csv2_init csv2_open (by decide) (by decide))
          (by decide))
        (by decide))).2 csv2_lines 2 2
      { mapping := ⟨List.replicate 8 0, by decide⟩, size := by decide, fields := by decide,
        len := by decide, ncols_eq := by decide, nrows_eq := by decide,
        recorded := by decide,
        unrecorded := by
          intro j h1 h2
          interval_cases j <;> decide }
      (by decide)).2.1 1 [none, none] 1 (by decide) (by decide) (by decide) (by decide),
   by decide, by decide⟩

/-- The first visit of a last row that has no newline and is not row 0: the
file `a,b` newline `c` (5 bytes) mapped with pages of 8 bytes.  The limit handed
to `get_tok_r` is the start of the row plus the size of the file, offset
`4 + 5 = 9`, so the zero bytes at the offsets 5, 6 and 7 each end a field with
`TOK_OK`, and the fourth call starts at offset 8, outside the mapping of 8
bytes: the call of `get_row` has no defined result. -/
theorem get_row_reads_outside_mapping :
    data_open 8 short_last csv2_init = (E_OK, short_last_open8) ∧
    get_row short_last_open8 [none, none] 0 0 1
      = some (E_OK, short_last_row0_8, [some 0, some 2]) ∧
    short_last_row0_8.ptr.length = 8 ∧
    get_tok_r short_last_row0_8.ptr none 4 44 none 5 = some ⟨TOK_OK, some 4, 2, some 6⟩ ∧
    get_tok_r short_last_row0_8.ptr (some 4) 4 44 (some 6) 5
      = some ⟨TOK_OK, some 6, 1, some 7⟩ ∧
    get_tok_r short_last_row0_8.ptr (some 6) 4 44 (some 7) 5
      = some ⟨TOK_OK, some 7, 1, some 8⟩ ∧
    get_tok_r short_last_row0_8.ptr (some 7) 4 44 (some 8) 5 = none ∧
    get_row short_last_row0_8 [none, none] 1 0 1 = none := by
  refine ⟨by decide, by decide, by decide, by decide, by decide, by decide, by decide,
    by decide⟩

/-! ## The field count of the specification -/

/-- On a row without a NUL byte whose only newline is its last byte, the field
count of the specification is the count on the bytes up to the first
newline. -/
theorem spec_fields_count (d : Nat) :
    ∀ (l : List Nat) (q : Bool) (k : Nat), spec_fields d l q = some k →
      row_length l = some l.length → count_fields d l q = some k := by
  intro l
  induction l with
  | nil =>
    intro q k h
    simp [spec_fields] at h
  | cons c rest ih =>
    intro q k h hl
    unfold row_length at hl
    unfold spec_fields at h
    unfold count_fields
    by_cases h0 : c = 0
    · rw [if_pos h0] at hl
      simp at hl
    rw [if_neg h0] at hl
    rw [if_neg h0]
    by_cases h10 : c = 10
    · rw [if_pos h10] at hl
      simp only [List.length_cons, Option.some.injEq] at hl
      have hrest : rest = [] := List.length_eq_zero.mp (by omega)
      subst hrest
      rw [if_pos h10]
      rw [if_neg (by omega)] at h
      cases q with
      | true => simp [spec_fields] at h
      | false =>
        simp only [Bool.false_eq_true, if_false, if_pos h10] at h
        exact h
    rw [if_neg h10] at hl
    rw [if_neg h10]
    have hrl : row_length rest = some rest.length := by
      cases hr : row_length rest with
      | none => rw [hr] at hl; simp at hl
      | some n =>
        rw [hr] at hl
        simp only [List.length_cons, Option.some.injEq] at hl
        congr 1
        omega
    by_cases h34 : c = 34
    · rw [if_pos h34] at h
      rw [if_pos h34]
      exact ih _ _ h hrl
    rw [if_neg h34] at h
    rw [if_neg h34]
    cases q with
    | true =>
      simp only [if_true] at h
      rw [if_neg (by simp)]
      exact ih _ _ h hrl
    | false =>
      simp only [Bool.false_eq_true, if_false, if_neg h10] at h
      by_cases hd : c = d
      · rw [if_pos hd] at h
        rw [if_pos ⟨hd, rfl⟩]
        cases hs : spec_fields d rest false with
        | none => rw [hs] at h; simp at h
        | some k1 =>
          rw [hs] at h
          rw [ih _ _ hs hrl]
          exact h
      · rw [if_neg hd] at h
        rw [if_neg (fun hh => hd hh.1)]
        exact ih _ _ h hrl

/-! ## Rows that the tokenizer cuts differently -/

/-- Counterexample to C13 as stated.  In the file `a,b` / `c,"d` newline `",e` the
column count 2 is established by row 0.  The second row has three fields by the count
of the specification (the newline at offset 8 stands inside double quotes),
yet its first visit returns `E_OK`, counts the row and records offset 9 as its
end: the tokenizer ends the row at the quoted newline, after two tokens.  In
the file `a,b` / `c` NUL `d` the second row is one field, and its first visit
returns `E_OK` as well: the NUL byte ends the first of two tokens. -/
theorem get_row_accepts_ragged_row :
    data_open 16 quoted_ragged csv2_init = (E_OK, quoted_ragged_open) ∧
    get_row quoted_ragged_open [none, none] 0 0 1
      = some (E_OK, quoted_ragged_row0, [some 0, some 2]) ∧
    quoted_ragged_row0.ncols = 2 ∧ arr_get quoted_ragged_row0.row_offsets 2 = some 0 ∧
    spec_fields 44 (quoted_ragged.drop 4) false = some 3 ∧
    get_row quoted_ragged_row0 [none, none] 1 0 1
      = some (E_OK,
          { quoted_ragged_row0 with nrows := 2, row_offsets := [0, 4, 9, 0, 0, 0, 0, 0] },
          [some 4, some 6]) ∧
    data_open 16 nul_ragged csv2_init = (E_OK, nul_ragged_open) ∧
    get_row nul_ragged_open [none, none] 0 0 1
      = some (E_OK, nul_ragged_row0, [some 0, some 2]) ∧
    spec_fields 44 (nul_ragged.drop 4) false = some 1 ∧
    get_row nul_ragged_row0 [none, none] 1 0 1
      = some (E_OK,
          { nul_ragged_row0 with nrows := 2, row_offsets := [0, 4, 8, 0, 0, 0, 0, 0] },
          [some 4, some 6]) := by
  refine ⟨by decide, by decide, by decide, by decide, by decide, by decide, by decide,
    by decide, by decide, by decide⟩

/-! ## A negative `max_cols` -/

/-- Counterexample to C4 as stated: `Frame_init(10, -2, 3, 0)` returns a frame (only
0 is refused), and `Frame_load` on the file `a,b` / `c,d` returns `E_OK` with
`ncols = min(2, -2) = -2`, no column buffer, `first_col = 0` and `last_col = -3`:
the number of column buffers is 0 and `last_col - first_col + 1` is -2. -/
theorem Frame_load_negative_max_cols :
    Frame_init 10 (-2) 3 0 = some negcols0 ∧
    Frame_load 4 negcols0 csv2_open = some (E_OK, negcols1, csv2_rows01) ∧
    negcols1.data.length = 0 ∧
    negcols1.data_loaded.last_col - negcols1.data_loaded.first_col + 1 = -2 := by
  refine ⟨by decide, by decide, by decide, by decide⟩

/-- Counterexample to C15 as stated: `Frame_init(10, -2, 3, 1)` returns a frame, and
`Frame_load` on the file `table5` (three columns) returns `E_OK` with
`ncols = min(3, -2) = -2`: no column buffer is created (a number of buffers
cannot be -2), the header buffer stays empty, and `last_col` is -3. -/
theorem Frame_load_negative_ncols :
    Frame_init 10 (-2) 3 1 = some neghead0 ∧
    Frame_load 4 neghead0 table5_open = some (E_OK, neghead1, table5_rows 3) ∧
    neghead1.ncols = -2 ∧ (table5_rows 3).ncols = 3 ∧ neghead1.max_cols = -2 ∧
    neghead1.data = [] ∧ neghead1.headers = some [] ∧
    neghead1.data_loaded.last_col = -3 := by
  refine ⟨by decide, by decide, by decide, by decide, by decide, by decide, by decide,
    by decide⟩

/-! ## The fields of a file made of rows -/

/-- A call of `get_tok_r` in a mapping that is zero from index `S` on, with the
cursor and the limit at or before `S`: the call reads up to index `S` at most,
so it has the same result on the mapping cut off behind index `S`, and unless
it returns `TOK_EOF` the new cursor is at or before `S` again. -/
theorem get_tok_r_bounded (mem : List Nat) (S : Nat) (hS : S < mem.length)
    (hz : ∀ q, S ≤ q → q < mem.length → mem[q]? = some 0)
    (tok : Ptr) (str : Int) (d : Nat) (saveptr : Ptr) (len : Int) (r : TokRes)
    (h : get_tok_r mem tok str d saveptr len = some r)
    (hsp : saveptr.getD str ≤ S) (hlim : str + len ≤ S) :
    get_tok_r (mem.take (S + 1)) tok str d saveptr len = some r ∧
    (r.err ≠ TOK_EOF → r.saveptr.getD str ≤ S) := by
  have hpad := get_tok_r_padded mem S hS hz tok str d saveptr len r h
  have hmax : max (saveptr.getD str) (S : Int) = S := max_eq_right hsp
  rw [hmax] at hpad
  refine ⟨get_tok_r_take mem (S + 1) tok str d saveptr len r h (by push_cast; omega), ?_⟩
  intro hF
  obtain ⟨h0, m, c, hnb, hc, -, hcase⟩ := get_tok_r_spec mem tok str d saveptr len r h
  have hlt := (List.getElem?_eq_some_iff.mp hc).1
  rcases hcase with ⟨-, hEof, -⟩ | ⟨-, hs, hk⟩
  · exact absurd hEof hF
  · rw [hs]
    simp only [Option.getD_some]
    rcases hk with ⟨-, -, hl⟩ | ⟨hc10, -⟩ | ⟨hc0, -⟩
    · omega
    · by_contra hcon
      have hzero := hz ((saveptr.getD str).toNat + m) (by omega) hlt
      rw [hc] at hzero
      simp only [Option.some.injEq] at hzero
      omega
    · by_contra hcon
      have hzero := hz ((saveptr.getD str).toNat + m) (by omega) hlt
      rw [hc] at hzero
      simp only [Option.some.injEq] at hzero
      exact hc0 hzero

/-- The inner loop of `get_col` with the cursor and the limit at or before the
first zero byte after the file: the same result on the mapping cut off
behind that byte, and a cursor at or before it at the end. -/
theorem get_col_toks_bounded (mem : List Nat) (S : Nat) (hS : S < mem.length)
    (hz : ∀ q, S ≤ q → q < mem.length → mem[q]? = some 0) (d : Nat) (str len : Int)
    (hlim : str + len ≤ S) :
    ∀ (k : Nat) (tok saveptr : Ptr) (x : Code ⊕ (Ptr × Ptr)),
      saveptr.getD str ≤ S →
      get_col_toks mem d str len k tok saveptr = some x →
      get_col_toks (mem.take (S + 1)) d str len k tok saveptr = some x ∧
      ∀ t s, x = Sum.inr (t, s) → s.getD str ≤ S := by
  intro k
  induction k with
  | zero =>
    intro tok saveptr x hsp h
    unfold get_col_toks at h ⊢
    simp only [Option.some.injEq] at h
    subst h
    refine ⟨rfl, ?_⟩
    intro t s hts
    simp only [Sum.inr.injEq, Prod.mk.injEq] at hts
    rw [← hts.2]
    exact hsp
  | succ k ih =>
    intro tok saveptr x hsp h
    unfold get_col_toks at h ⊢
    cases hg : get_tok_r mem tok str d saveptr len with
    | none => rw [hg] at h; simp at h
    | some r =>
      rw [hg] at h
      obtain ⟨hcut, hnext⟩ := get_tok_r_bounded mem S hS hz tok str d saveptr len r hg hsp hlim
      rw [hcut]
      dsimp only at h ⊢
      by_cases hm : r.err &&& (TOK_ERR ||| TOK_EOF) ≠ 0
      · rw [if_pos hm] at h ⊢
        simp only [Option.some.injEq] at h
        subst h
        exact ⟨rfl, fun t s hts => by simp at hts⟩
      · rw [if_neg hm] at h ⊢
        have hne : r.err ≠ TOK_EOF := fun hE => hm ((tok_mask r.err).2 hE)
        exact ih _ _ _ (hnext hne) h

/-- The repeat-visit loop of `get_row` with the cursor and the limit at or
before the first zero byte after the file: the same result on the mapping
cut off behind that byte. -/
theorem get_row_cached_bounded (mem : List Nat) (S : Nat) (hS : S < mem.length)
    (hz : ∀ q, S ≤ q → q < mem.length → mem[q]? = some 0) (d : Nat) (str len cs ce : Int)
    (hlim : str + len ≤ S) :
    ∀ (fuel : Nat) (saveptr tok : Ptr) (icol i : Int) (buf : List Ptr) (x : Code × List Ptr),
      saveptr.getD str ≤ S →
      get_row_cached mem d str len cs ce fuel saveptr tok icol i buf = some x →
      get_row_cached (mem.take (S + 1)) d str len cs ce fuel saveptr tok icol i buf = some x := by
  intro fuel
  induction fuel with
  | zero =>
    intro saveptr tok icol i buf x _ h
    simp [get_row_cached] at h
  | succ fuel ih =>
    intro saveptr tok icol i buf x hsp h
    unfold get_row_cached at h ⊢
    cases hg : get_tok_r mem tok str d saveptr len with
    | none => rw [hg] at h; simp at h
    | some r =>
      rw [hg] at h
      obtain ⟨hcut, hnext⟩ := get_tok_r_bounded mem S hS hz tok str d saveptr len r hg hsp hlim
      rw [hcut]
      dsimp only at h ⊢
      by_cases hm : r.err &&& (TOK_ERR ||| TOK_EOF) ≠ 0
      · rw [if_pos hm] at h ⊢
        exact h
      rw [if_neg hm] at h ⊢
      have hne : r.err ≠ TOK_EOF := fun hE => hm ((tok_mask r.err).2 hE)
      cases hb : (if cs ≤ icol ∧ icol ≤ ce then arr_set buf i r.tok else some buf) with
      | none => rw [hb] at h; simp at h
      | some buf1 =>
        rw [hb] at h
        dsimp only at h ⊢
        by_cases he : icol = ce
        · rw [if_pos he] at h ⊢
          exact h
        · rw [if_neg he] at h ⊢
          exact ih _ _ _ _ _ _ (hnext hne) h

/-- The first-visit loop of `get_row` with the cursor and the limit at or
before the first zero byte after the file: the same result on the mapping
cut off behind that byte. -/
theorem get_row_scan_bounded (mem : List Nat) (S : Nat) (hS : S < mem.length)
    (hz : ∀ q, S ≤ q → q < mem.length → mem[q]? = some 0) (d : Nat) (str len cs ce : Int)
    (hlim : str + len ≤ S) :
    ∀ (fuel : Nat) (saveptr tok : Ptr) (icol i total ncols : Int) (buf : List Ptr)
      (x : Code × Int × Int × List Ptr),
      saveptr.getD str ≤ S →
      get_row_scan mem d str len cs ce fuel saveptr tok icol i total ncols buf = some x →
      get_row_scan (mem.take (S + 1)) d str len cs ce fuel saveptr tok icol i total ncols buf
        = some x := by
  intro fuel
  induction fuel with
  | zero =>
    intro saveptr tok icol i total ncols buf x _ h
    simp [get_row_scan] at h
  | succ fuel ih =>
    intro saveptr tok icol i total ncols buf x hsp h
    unfold get_row_scan at h ⊢
    cases hg : get_tok_r mem tok str d saveptr len with
    | none => rw [hg] at h; simp at h
    | some r =>
      rw [hg] at h
      obtain ⟨hcut, hnext⟩ := get_tok_r_bounded mem S hS hz tok str d saveptr len r hg hsp hlim
      rw [hcut]
      dsimp only at h ⊢
      by_cases hE : r.err = TOK_ERR
      · rw [if_pos hE] at h ⊢
        exact h
      rw [if_neg hE] at h ⊢
      by_cases hF : r.err = TOK_EOF
      · rw [if_pos hF] at h ⊢
        exact h
      rw [if_neg hF] at h ⊢
      cases hb : (if cs ≤ icol ∧ (icol ≤ ce ∨ ce = -1) then arr_set buf i r.tok
          else some buf) with
      | none => rw [hb] at h; simp at h
      | some buf1 =>
        rw [hb] at h
        dsimp only at h ⊢
        by_cases hL : r.err = TOK_EOL
        · rw [if_pos hL] at h ⊢
          exact h
        rw [if_neg hL] at h ⊢
        exact ih _ _ _ _ _ _ _ _ (hnext hF) h

/-- The first-visit loop of `get_row` with the cursor at or before a newline:
the loop reads up to that newline at most, so it has the same result on the
mapping cut off anywhere behind the newline. -/
theorem get_row_scan_newline (mem : List Nat) (e n : Nat) (he : mem[e]? = some 10)
    (hn : e < n) (d : Nat) (str len cs ce : Int) :
    ∀ (fuel : Nat) (saveptr tok : Ptr) (icol i total ncols : Int) (buf : List Ptr)
      (x : Code × Int × Int × List Ptr),
      saveptr.getD str ≤ e →
      get_row_scan mem d str len cs ce fuel saveptr tok icol i total ncols buf = some x →
      get_row_scan (mem.take n) d str len cs ce fuel saveptr tok icol i total ncols buf
        = some x := by
  intro fuel
  induction fuel with
  | zero =>
    intro saveptr tok icol i total ncols buf x _ h
    simp [get_row_scan] at h
  | succ fuel ih =>
    intro saveptr tok icol i total ncols buf x hsp h
    unfold get_row_scan at h ⊢
    cases hg : get_tok_r mem tok str d saveptr len with
    | none => rw [hg] at h; simp at h
    | some r =>
      rw [hg] at h
      obtain ⟨h0, m, c, hnb, hc, hx, hcase⟩ := get_tok_r_spec mem tok str d saveptr len r hg
      have hme : (saveptr.getD str).toNat + m ≤ e := by
        by_contra hcon
        exact (mem_take_drop mem _ m (fun x => x ≠ 0 ∧ x ≠ 10) hx e (by omega) (by omega) 10
          he).2 rfl
      rw [get_tok_r_take mem n tok str d saveptr len r hg (by rw [hnb]; omega)]
      dsimp only at h ⊢
      by_cases hE : r.err = TOK_ERR
      · rw [if_pos hE] at h ⊢
        exact h
      rw [if_neg hE] at h ⊢
      by_cases hF : r.err = TOK_EOF
      · rw [if_pos hF] at h ⊢
        exact h
      rw [if_neg hF] at h ⊢
      cases hb : (if cs ≤ icol ∧ (icol ≤ ce ∨ ce = -1) then arr_set buf i r.tok
          else some buf) with
      | none => rw [hb] at h; simp at h
      | some buf1 =>
        rw [hb] at h
        dsimp only at h ⊢
        by_cases hL : r.err = TOK_EOL
        · rw [if_pos hL] at h ⊢
          exact h
        rw [if_neg hL] at h ⊢
        have hnext : r.saveptr.getD str ≤ e := by
          rcases hcase with ⟨-, hEof, -⟩ | ⟨-, hs, hk⟩
          · exact absurd hEof hF
          · rw [hs]
            simp only [Option.getD_some]
            have hne : (saveptr.getD str).toNat + m ≠ e := by
              intro heq
              rw [heq, he] at hc
              simp only [Option.some.injEq] at hc
              rcases hk with ⟨hc0, -⟩ | ⟨-, hEol⟩ | ⟨-, hc10, -⟩
              · omega
              · exact hL hEol
              · exact hc10 hc.symm
            omega
        exact ih _ _ _ _ _ _ _ _ hnext h

/-- A call of `get_row` on the source with the mapping cut off behind its first
`n` bytes, when its loop has the same result there: the result of the call on
the whole mapping, the source in it with the mapping cut off. -/
theorem get_row_take (n : Nat) (data : Data_T) (buf : List Ptr) (row cs ce : Int)
    (ret : Code) (data1 : Data_T) (buf1 : List Ptr)
    (hc : ∀ cur next x, arr_get data.row_offsets row = some cur →
      arr_get data.row_offsets (row + 1) = some next → next ≠ 0 →
      get_row_cached data.ptr data.delim cur (next - cur) cs
        (if data.ncols ≠ 0 ∧ ce = -1 then data.ncols - 1 else ce)
        (data.ptr.length + 1) none none 0 0 buf = some x →
      get_row_cached (data.ptr.take n) data.delim cur (next - cur) cs
        (if data.ncols ≠ 0 ∧ ce = -1 then data.ncols - 1 else ce)
        ((data.ptr.take n).length + 1) none none 0 0 buf = some x)
    (hs : ∀ cur x, arr_get data.row_offsets row = some cur →
      arr_get data.row_offsets (row + 1) = some 0 →
      ¬ (0 < row ∧ cur = data.st_size) → ¬ (0 < row ∧ cur = 0) →
      get_row_scan data.ptr data.delim cur data.st_size cs
        (if data.ncols ≠ 0 ∧ ce = -1 then data.ncols - 1 else ce)
        (data.ptr.length + 1) none none 0 0 cur data.ncols buf = some x →
      get_row_scan (data.ptr.take n) data.delim cur data.st_size cs
        (if data.ncols ≠ 0 ∧ ce = -1 then data.ncols - 1 else ce)
        ((data.ptr.take n).length + 1) none none 0 0 cur data.ncols buf = some x)
    (h : get_row data buf row cs ce = some (ret, data1, buf1)) :
    get_row (cut_mapping n data) buf row cs ce = some (ret, cut_mapping n data1, buf1) := by
  unfold get_row at h ⊢
  unfold cut_mapping
  dsimp only at h ⊢
  by_cases hcol : data.ncols ≠ 0 ∧ ce ≥ data.ncols
  · rw [if_pos hcol] at h ⊢
    simp only [Option.some.injEq, Prod.mk.injEq] at h
    obtain ⟨rfl, rfl, rfl⟩ := h
    rfl
  rw [if_neg hcol] at h ⊢
  cases hcur : arr_get data.row_offsets row with
  | none => rw [hcur] at h; simp at h
  | some cur =>
    rw [hcur] at h
    dsimp only at h ⊢
    by_cases h1 : 0 < row ∧ cur = data.st_size
    · rw [if_pos h1] at h ⊢
      simp only [Option.some.injEq, Prod.mk.injEq] at h
      obtain ⟨rfl, rfl, rfl⟩ := h
      rfl
    rw [if_neg h1] at h ⊢
    by_cases h2 : 0 < row ∧ cur = 0
    · rw [if_pos h2] at h ⊢
      simp only [Option.some.injEq, Prod.mk.injEq] at h
      obtain ⟨rfl, rfl, rfl⟩ := h
      rfl
    rw [if_neg h2] at h ⊢
    cases hnext : arr_get data.row_offsets (row + 1) with
    | none => rw [hnext] at h; simp at h
    | some next =>
      rw [hnext] at h
      dsimp only at h ⊢
      by_cases hn0 : next ≠ 0
      · rw [if_pos hn0] at h ⊢
        by_cases hnc : data.ncols = 0
        · rw [if_pos hnc] at h ⊢
          simp only [Option.some.injEq, Prod.mk.injEq] at h
          obtain ⟨rfl, rfl, rfl⟩ := h
          rfl
        rw [if_neg hnc] at h ⊢
        cases hl : get_row_cached data.ptr data.delim cur (next - cur) cs
            (if data.ncols ≠ 0 ∧ ce = -1 then data.ncols - 1 else ce)
            (data.ptr.length + 1) none none 0 0 buf with
        | none => rw [hl] at h; simp at h
        | some res =>
          obtain ⟨ret2, buf2⟩ := res
          rw [hl] at h
          rw [hc cur next _ hcur hnext hn0 hl]
          simp only [Option.some.injEq, Prod.mk.injEq] at h ⊢
          obtain ⟨rfl, rfl, rfl⟩ := h
          exact ⟨rfl, rfl, rfl⟩
      · rw [if_neg hn0] at h ⊢
        have hz : next = 0 := by
          by_contra hne
          exact hn0 hne
        subst hz
        cases hl : get_row_scan data.ptr data.delim cur data.st_size cs
            (if data.ncols ≠ 0 ∧ ce = -1 then data.ncols - 1 else ce)
            (data.ptr.length + 1) none none 0 0 cur data.ncols buf with
        | none => rw [hl] at h; simp at h
        | some res =>
          obtain ⟨ret2, total, ncols2, buf2⟩ := res
          rw [hl] at h
          rw [hs cur _ hcur hnext h1 h2 hl]
          dsimp only at h ⊢
          by_cases h5 : ret2 ≠ E_OK
          · rw [if_pos h5] at h ⊢
            simp only [Option.some.injEq, Prod.mk.injEq] at h
            obtain ⟨rfl, rfl, rfl⟩ := h
            rfl
          · rw [if_neg h5] at h ⊢
            cases hset : arr_set data.row_offsets (row + 1) total with
            | none => rw [hset] at h; simp at h
            | some ro1 =>
              rw [hset] at h
              simp only [Option.some.injEq, Prod.mk.injEq] at h
              obtain ⟨rfl, rfl, rfl⟩ := h
              rfl

/-- The first-visit loop of `get_row` has a result only with a cursor that is
not negative. -/
theorem get_row_scan_start (mem : List Nat) (d : Nat) (str len cs ce : Int) (fuel : Nat)
    (saveptr tok : Ptr) (icol i total ncols : Int) (buf : List Ptr)
    (x : Code × Int × Int × List Ptr)
    (h : get_row_scan mem d str len cs ce fuel saveptr tok icol i total ncols buf = some x) :
    0 ≤ saveptr.getD str := by
  cases fuel with
  | zero => simp [get_row_scan] at h
  | succ fuel =>
    unfold get_row_scan at h
    cases hg : get_tok_r mem tok str d saveptr len with
    | none => rw [hg] at h; simp at h
    | some r => exact (get_tok_r_spec mem tok str d saveptr len r hg).1

/-- An entry read from the offset array is one of its entries. -/
theorem arr_get_mem {α : Type} (a : List α) (i : Int) (v : α) (h : arr_get a i = some v) :
    v ∈ a := by
  obtain ⟨-, -, h3⟩ := arr_get_inv a i v h
  obtain ⟨hlt, heq⟩ := List.getElem?_eq_some_iff.mp h3
  rw [← heq]
  exact List.getElem_mem hlt

/-- Every call of `get_row` that is not the first visit of a row behind row 0,
in a source with the invariant of an opened source and no recorded offset
behind the end of the file: the call reads up to index `st_size` at most (it
has the same result on the mapping cut off behind that index), and no offset
behind the end of the file is recorded afterwards. -/
theorem get_row_bounded_cut (data : Data_T) (hI : SrcInv data)
    (hoff : ∀ v ∈ data.row_offsets, v ≤ data.st_size)
    (buf : List Ptr) (row cs ce : Int) (ret : Code) (data1 : Data_T) (buf1 : List Ptr)
    (hnot : 0 < row → ∀ cur, arr_get data.row_offsets row = some cur → cur ≠ 0 →
      cur ≠ data.st_size → arr_get data.row_offsets (row + 1) ≠ some 0)
    (h : get_row data buf row cs ce = some (ret, data1, buf1)) :
    get_row (cut_mapping (data.st_size.toNat + 1) data) buf row cs ce
      = some (ret, cut_mapping (data.st_size.toNat + 1) data1, buf1) ∧
    ∀ v ∈ data1.row_offsets, v ≤ data1.st_size := by
  have hS := hI.size_lt
  have hS0 := hI.size_nonneg
  have hsz : ((data.st_size.toNat : Nat) : Int) = data.st_size := by omega
  have hlen : (data.ptr.take (data.st_size.toNat + 1)).length = data.st_size.toNat + 1 := by
    rw [List.length_take]
    omega
  have hrow0 : ∀ cur, arr_get data.row_offsets row = some cur →
      arr_get data.row_offsets (row + 1) = some 0 →
      ¬ (0 < row ∧ cur = data.st_size) → ¬ (0 < row ∧ cur = 0) → row = 0 ∧ cur = 0 := by
    intro cur hcur hnext h1 h2
    obtain ⟨hr0, -, -⟩ := arr_get_inv _ _ _ hcur
    have hr : row = 0 := by
      by_contra hne
      have hpos : 0 < row := by omega
      exact hnot hpos cur hcur (fun hc => h2 ⟨hpos, hc⟩) (fun hc => h1 ⟨hpos, hc⟩) hnext
    subst hr
    exact ⟨rfl, hI.first cur hcur⟩
  refine ⟨?_, ?_⟩
  · refine get_row_take _ data buf row cs ce ret data1 buf1 ?_ ?_ h
    · intro cur next x hcur hnext hn0 hl
      have hc1 := hoff cur (arr_get_mem _ _ _ hcur)
      have hn1 := hoff next (arr_get_mem _ _ _ hnext)
      have hcut := get_row_cached_bounded data.ptr data.st_size.toNat hS hI.zeros data.delim cur
        (next - cur) cs (if data.ncols ≠ 0 ∧ ce = -1 then data.ncols - 1 else ce) (by omega)
        (data.ptr.length + 1) none none 0 0 buf x (by simp only [Option.getD_none]; omega) hl
      rw [get_row_cached_fuel (data.ptr.take (data.st_size.toNat + 1)) data.delim cur
        (next - cur) cs (if data.ncols ≠ 0 ∧ ce = -1 then data.ncols - 1 else ce)
        ((data.ptr.take (data.st_size.toNat + 1)).length + 1) (data.ptr.length + 1)
        none none 0 0 buf (by omega) (by omega), hcut]
    · intro cur x hcur hnext h1 h2 hl
      obtain ⟨-, rfl⟩ := hrow0 cur hcur hnext h1 h2
      have hcut := get_row_scan_bounded data.ptr data.st_size.toNat hS hI.zeros data.delim 0
        data.st_size cs (if data.ncols ≠ 0 ∧ ce = -1 then data.ncols - 1 else ce) (by omega)
        (data.ptr.length + 1) none none 0 0 0 data.ncols buf x
        (by simp only [Option.getD_none]; omega) hl
      rw [get_row_scan_fuel (data.ptr.take (data.st_size.toNat + 1)) data.delim 0
        data.st_size cs (if data.ncols ≠ 0 ∧ ce = -1 then data.ncols - 1 else ce)
        ((data.ptr.take (data.st_size.toNat + 1)).length + 1) (data.ptr.length + 1)
        none none 0 0 0 data.ncols buf (by omega) (by omega), hcut]
  · rcases get_row_changes data buf row cs ce ret data1 buf1 h with
      rfl | ⟨-, cur, total, nc1, ro1, hcur, hnext, h1, h2, hscan, hset, rfl⟩
    · exact hoff
    · obtain ⟨-, rfl⟩ := hrow0 cur hcur hnext h1 h2
      obtain ⟨cnt, tf, sf, hrun, hsf, -, -⟩ :=
        get_row_scan_run _ _ _ _ _ _ _ none none 0 0 _ _ buf total nc1 buf1 hscan rfl
      have hb := (get_col_toks_bounded data.ptr data.st_size.toNat hS hI.zeros data.delim 0
        data.st_size (by omega) cnt none none _ (by simp only [Option.getD_none]; omega)
        hrun).2 tf sf rfl
      obtain ⟨-, -, rfl⟩ := arr_set_inv _ _ _ _ hset
      intro v hv
      simp only at hv ⊢
      rcases List.mem_or_eq_of_mem_set hv with hm | rfl
      · exact hoff v hm
      · omega

/-- The first visit of a row from whose start on the mapping holds a newline,
in a source with the invariant of an opened source: the newline lies in the
file, the call reads up to that newline at most, so it has the same result on
the mapping cut off anywhere behind the newline, and when no recorded offset
was behind the end of the file none is afterwards. -/
theorem get_row_newline_cut (data : Data_T) (hI : SrcInv data)
    (buf : List Ptr) (row cs ce : Int) (ret : Code) (data1 : Data_T) (buf1 : List Ptr)
    (cur : Int) (e : Nat) (hcur : arr_get data.row_offsets row = some cur)
    (hnext : arr_get data.row_offsets (row + 1) = some 0) (hce : cur ≤ e)
    (he : data.ptr[e]? = some 10)
    (h : get_row data buf row cs ce = some (ret, data1, buf1)) :
    e < data.st_size.toNat ∧
    (∀ n, e < n →
      get_row (cut_mapping n data) buf row cs ce = some (ret, cut_mapping n data1, buf1)) ∧
    ((∀ v ∈ data.row_offsets, v ≤ data.st_size) →
      ∀ v ∈ data1.row_offsets, v ≤ data1.st_size) := by
  have hS := hI.size_lt
  have hS0 := hI.size_nonneg
  have heS : e < data.st_size.toNat := by
    by_contra hcon
    have hlt := (List.getElem?_eq_some_iff.mp he).1
    have := hI.zeros e (by omega) hlt
    rw [he] at this
    simp at this
  refine ⟨heS, ?_, ?_⟩
  · intro n hn
    have hlen : (data.ptr.take n).length ≤ data.ptr.length := by
      rw [List.length_take]
      omega
    refine get_row_take _ data buf row cs ce ret data1 buf1 ?_ ?_ h
    · intro cur1 next x hcur1 hnext1 hn0 _
      rw [hnext] at hnext1
      simp only [Option.some.injEq] at hnext1
      exact absurd hnext1.symm hn0
    · intro cur1 x hcur1 _ _ _ hl
      rw [hcur] at hcur1
      simp only [Option.some.injEq] at hcur1
      subst hcur1
      have hcut := get_row_scan_newline data.ptr e n he hn data.delim cur
        data.st_size cs (if data.ncols ≠ 0 ∧ ce = -1 then data.ncols - 1 else ce)
        (data.ptr.length + 1) none none 0 0 cur data.ncols buf x
        (by simp only [Option.getD_none]; exact hce) hl
      rw [get_row_scan_fuel (data.ptr.take n) data.delim cur
        data.st_size cs (if data.ncols ≠ 0 ∧ ce = -1 then data.ncols - 1 else ce)
        ((data.ptr.take n).length + 1) (data.ptr.length + 1)
        none none 0 0 cur data.ncols buf (by omega) (by omega), hcut]
  · intro hoff
    rcases get_row_changes data buf row cs ce ret data1 buf1 h with
      rfl | ⟨-, cur1, total, nc1, ro1, hcur1, -, -, -, hscan, hset, rfl⟩
    · exact hoff
    · rw [hcur] at hcur1
      simp only [Option.some.injEq] at hcur1
      subst hcur1
      obtain ⟨cnt, tf, sf, -, -, hend, -⟩ :=
        get_row_scan_run _ _ _ _ _ _ _ none none 0 0 _ _ buf total nc1 buf1 hscan rfl
      have htot : total ≤ data.st_size := by
        rcases hend with ⟨-, -, -, h1, h10⟩ | ⟨-, -, hno⟩
        · by_contra hcon
          have hlt := (List.getElem?_eq_some_iff.mp h10).1
          have := hI.zeros (total - 1).toNat (by omega) hlt
          rw [h10] at this
          simp at this
        · have hc0 := get_row_scan_start _ _ _ _ _ _ _ _ _ _ _ _ _ _ _ hscan
          simp only [Option.getD_none] at hc0
          exact absurd he (hno e (by simp only [Option.getD_none]; exact hce) (by omega))
      obtain ⟨-, -, rfl⟩ := arr_set_inv _ _ _ _ hset
      intro v hv
      simp only at hv ⊢
      rcases List.mem_or_eq_of_mem_set hv with hm | rfl
      · exact hoff v hm
      · exact htot

/-- The outer loop of `get_col` in a source with the invariant of an opened
source and no recorded offset behind the end of the file: the same result on
the mapping cut off behind index `st_size`. -/
theorem get_col_rows_bounded (data : Data_T) (hI : SrcInv data)
    (hoff : ∀ v ∈ data.row_offsets, v ≤ data.st_size) (col : Int) :
    ∀ (k : Nat) (irow i : Int) (tok : Ptr) (buf : List Ptr) (x : Code × List Ptr),
      get_col_rows data col k irow i tok buf = some x →
      get_col_rows (cut_mapping (data.st_size.toNat + 1) data) col k irow i tok buf = some x := by
  have hS := hI.size_lt
  have hS0 := hI.size_nonneg
  intro k
  induction k with
  | zero =>
    intro irow i tok buf x h
    unfold get_col_rows at h ⊢
    exact h
  | succ k ih =>
    intro irow i tok buf x h
    unfold get_col_rows at h ⊢
    unfold cut_mapping
    dsimp only at h ⊢
    cases hn : arr_get data.row_offsets (irow + 1) with
    | none =>
      rw [hn] at h
      simp at h
    | some next =>
      cases hc : arr_get data.row_offsets irow with
      | none =>
        rw [hn, hc] at h
        simp at h
      | some cur =>
        rw [hn, hc] at h
        dsimp only at h ⊢
        have hc1 := hoff cur (arr_get_mem _ _ _ hc)
        have hn1 := hoff next (arr_get_mem _ _ _ hn)
        cases ht : get_col_toks data.ptr data.delim cur (next - cur) (col + 1).toNat tok none with
        | none =>
          rw [ht] at h
          simp at h
        | some y =>
          rw [ht] at h
          rw [(get_col_toks_bounded data.ptr data.st_size.toNat hS hI.zeros data.delim cur
            (next - cur) (by omega) _ tok none y (by simp only [Option.getD_none]; omega) ht).1]
          cases y with
          | inl ret =>
            dsimp only at h ⊢
            exact h
          | inr p =>
            obtain ⟨tok1, s1⟩ := p
            dsimp only at h ⊢
            cases hs : arr_set buf i tok1 with
            | none =>
              rw [hs] at h
              simp at h
            | some buf1 =>
              rw [hs] at h
              dsimp only at h ⊢
              exact ih _ _ _ _ _ h

/-- Every call of `get_col` in a source with the invariant of an opened source
and no recorded offset behind the end of the file reads up to index `st_size`
at most: it has the same result on the mapping cut off behind that index. -/
theorem get_col_bounded_cut (data : Data_T) (hI : SrcInv data)
    (hoff : ∀ v ∈ data.row_offsets, v ≤ data.st_size) (buf : List Ptr)
    (col row_start row_end : Int) (x : Code × List Ptr)
    (h : get_col data buf col row_start row_end = some x) :
    get_col (cut_mapping (data.st_size.toNat + 1) data) buf col row_start row_end = some x := by
  unfold get_col at h ⊢
  have hn : (cut_mapping (data.st_size.toNat + 1) data).ncols = data.ncols := rfl
  have hr : (cut_mapping (data.st_size.toNat + 1) data).nrows = data.nrows := rfl
  rw [hn, hr]
  by_cases h1 : col > data.ncols - 1
  · rw [if_pos h1] at h ⊢
    exact h
  rw [if_neg h1] at h ⊢
  by_cases h2 : row_end > data.nrows - 1
  · rw [if_pos h2] at h ⊢
    exact h
  rw [if_neg h2] at h ⊢
  exact get_col_rows_bounded data hI hoff col _ _ _ _ _ _ h

/-- A call of `get_row` that the column check answers reads nothing: it has the
same result on every mapping. -/
theorem get_row_col_oob (n : Nat) (data : Data_T) (buf : List Ptr) (row cs ce : Int)
    (ret : Code) (data1 : Data_T) (buf1 : List Ptr)
    (hcol : data.ncols ≠ 0 ∧ ce ≥ data.ncols)
    (h : get_row data buf row cs ce = some (ret, data1, buf1)) :
    data1 = data ∧
    get_row (cut_mapping n data) buf row cs ce = some (ret, cut_mapping n data1, buf1) := by
  unfold get_row at h ⊢
  unfold cut_mapping
  dsimp only at h ⊢
  rw [if_pos hcol] at h ⊢
  simp only [Option.some.injEq, Prod.mk.injEq] at h
  obtain ⟨rfl, rfl, rfl⟩ := h
  exact ⟨rfl, rfl⟩

/-- C24 (read bounds), amended.  The mapping of an opened source is the file
followed by at least one zero byte.  A call on the source whose mapping is cut
off behind its first `n` bytes has a result only if it dereferences no byte
index from `n` on.  A fresh source has no recorded offset behind the end of
the file.  For every source a program can hold in which no recorded offset
lies behind the end of the file: (a) every call of `get_row`, unless it is the
first visit of a row behind row 0 from whose start on the file holds no
newline, has the result it has also on the mapping cut off behind index
`st_size`, so it reads the bytes of the file and at most the first zero byte
after them, and it records no offset behind the end of the file; (b) the
first visit of a row, behind row 0 or not, from whose start on the file holds
a newline has the result it has also on the mapping cut off at the end of the
file, so every byte index it dereferences is smaller than `st_size`; (c) every
call of `get_col` has the result it has also on the mapping cut off behind
index `st_size`. -/
theorem get_row_read_bounds (M P : Nat) (hP : 0 < P) (data : Data_T) (h : SrcReach M P data)
    (hoff : ∀ v ∈ data.row_offsets, v ≤ data.st_size) :
    (data.st_size.toNat < data.ptr.length ∧
      ∀ q, data.st_size.toNat ≤ q → q < data.ptr.length → data.ptr[q]? = some 0) ∧
    (∀ (path : String) (delim : Nat) (file : List Nat) (data0 d1 : Data_T),
      Data_mmap_init M path delim = some data0 → data_open P file data0 = (E_OK, d1) →
      ∀ v ∈ d1.row_offsets, v ≤ d1.st_size) ∧
    (∀ (buf : List Ptr) (row cs ce : Int) (ret : Code) (data1 : Data_T) (buf1 : List Ptr),
      (0 < row → ¬ (data.ncols ≠ 0 ∧ ce ≥ data.ncols) →
        ∀ cur, arr_get data.row_offsets row = some cur → cur ≠ 0 → cur ≠ data.st_size →
          arr_get data.row_offsets (row + 1) = some 0 →
          ∃ e : Nat, cur ≤ e ∧ data.ptr[e]? = some 10) →
      get_row data buf row cs ce = some (ret, data1, buf1) →
      get_row (cut_mapping (data.st_size.toNat + 1) data) buf row cs ce
        = some (ret, cut_mapping (data.st_size.toNat + 1) data1, buf1) ∧
      ∀ v ∈ data1.row_offsets, v ≤ data1.st_size) ∧
    (∀ (buf : List Ptr) (row cs ce : Int) (ret : Code) (data1 : Data_T) (buf1 : List Ptr)
      (cur : Int) (e : Nat),
      arr_get data.row_offsets row = some cur →
      arr_get data.row_offsets (row + 1) = some 0 → cur ≤ e → data.ptr[e]? = some 10 →
      get_row data buf row cs ce = some (ret, data1, buf1) →
      get_row (cut_mapping data.st_size.toNat data) buf row cs ce
        = some (ret, cut_mapping data.st_size.toNat data1, buf1)) ∧
    (∀ (buf : List Ptr) (col row_start row_end : Int) (x : Code × List Ptr),
      get_col data buf col row_start row_end = some x →
      get_col (cut_mapping (data.st_size.toNat + 1) data) buf col row_start row_end
        = some x) := by
  have hI := src_reach_inv M P hP data h
  refine ⟨⟨hI.size_lt, hI.zeros⟩, ?_, ?_, ?_, ?_⟩
  · intro path delim file data0 d1 hsrc hopen v hv
    obtain ⟨hro, -, -, -, -, hsz, -, -⟩ := fresh_source M P path delim file data0 d1 hsrc hopen
    rw [hro] at hv
    rw [List.eq_of_mem_replicate hv, hsz]
    omega
  · intro buf row cs ce ret data1 buf1 hex hg
    by_cases hfirst : 0 < row ∧ ∃ cur, arr_get data.row_offsets row = some cur ∧ cur ≠ 0 ∧
        cur ≠ data.st_size ∧ arr_get data.row_offsets (row + 1) = some 0
    · obtain ⟨hrow, cur, hcur, hc0, hcS, hnext⟩ := hfirst
      by_cases hcol : data.ncols ≠ 0 ∧ ce ≥ data.ncols
      · obtain ⟨rfl, g⟩ := get_row_col_oob (data.st_size.toNat + 1) data buf row cs ce ret
          data1 buf1 hcol hg
        exact ⟨g, hoff⟩
      · obtain ⟨e, hce, he⟩ := hex hrow hcol cur hcur hc0 hcS hnext
        obtain ⟨g0, g1, g2⟩ := get_row_newline_cut data hI buf row cs ce ret data1 buf1 cur e
          hcur hnext hce he hg
        exact ⟨g1 _ (by omega), g2 hoff⟩
    · refine get_row_bounded_cut data hI hoff buf row cs ce ret data1 buf1 ?_ hg
      intro hrow cur hcur hc0 hcS hnext
      exact hfirst ⟨hrow, cur, hcur, hc0, hcS, hnext⟩
  · intro buf row cs ce ret data1 buf1 cur e hcur hnext hce he hg
    obtain ⟨g0, g1, -⟩ := get_row_newline_cut data hI buf row cs ce ret data1 buf1 cur e hcur
      hnext hce he hg
    exact g1 _ g0
  · intro buf col rs re x hg
    exact get_col_bounded_cut data hI hoff buf col rs re x hg

/-- Witness of C24, amended: in the source for `a,b` / `c,d` (8 bytes, pages of
16 bytes) with row 0 visited, the first visit of row 1, which starts at offset
4 and has its newline at index 7, has its result also when the mapping ends
with the file. -/
theorem get_row_read_bounds_witness :
    get_row (cut_mapping csv2_row0.st_size.toNat csv2_row0) [none, none] 1 0 1
        = some (E_OK, cut_mapping csv2_row0.st_size.toNat csv2_rows01, [some 4, some 6]) ∧
    csv2_row0.st_size.toNat = 8 ∧ (cut_mapping 8 csv2_row0).ptr = csv2 :=
  ⟨(get_row_read_bounds 8 16 (by decide) csv2_row0
      (SrcReach.row csv2_open [none, none] 0 0 1 E_OK csv2_row0 [some 0, some 2]
        (SrcReach.opened "f" 44 csv2 csv2_init csv2_open (by decide) (by decide))
        (by decide))
      (by decide)).2.2.2.1 [none, none] 1 0 1 E_OK csv2_rows01 [some 4, some 6] 4 7
      (by decide) (by decide) (by decide) (by decide) (by decide),
   by decide, by decide⟩

/-- Counterexample to C24 as stated, in two files.  The file `a,b` (3 bytes, no
newline): the first visit of row 0 returns `E_OK`; its second call of
`get_tok_r` starts at offset 2 and returns with `nbytes = 2`, having read the
bytes at the indices 2 and 3, and index 3 is `st_size`, the first zero byte
after the file; on the mapping cut off at the end of the file the call has
no defined result, on the mapping cut off behind index 3 it has the result it
has on the whole mapping.  The file `a,b` newline `c` (5 bytes, pages of 16
bytes) with row 0 visited: the first visit of row 1, the last row, which has no
newline, is handed the limit `4 + 5 = 9`; it returns `E_OK` and records
`row_offsets[2] = 9`, and it has no defined result on the mapping cut off behind
index `st_size = 5`, nor on the one cut off behind index 8: it reads the zero
bytes up to index 9. -/
theorem get_row_reads_behind_file :
    data_open 16 one_row csv2_init = (E_OK, one_row_open) ∧ one_row_open.st_size = 3 ∧
    get_row one_row_open [none, none] 0 0 (-1)
      = some (E_OK,
          { one_row_open with nrows := 1, row_offsets := [0, 2, 0, 0, 0, 0, 0, 0] },
          [some 0, none]) ∧
    get_tok_r one_row_open.ptr (some 0) 0 44 (some 2) 3 = some ⟨TOK_EOF, some 0, 2, some 2⟩ ∧
    arr_get one_row_open.ptr (2 + 2 - 1) = some 0 ∧
    get_tok_r (one_row_open.ptr.take 3) (some 0) 0 44 (some 2) 3 = none ∧
    get_row (cut_mapping 3 one_row_open) [none, none] 0 0 (-1) = none ∧
    get_row (cut_mapping 4 one_row_open) [none, none] 0 0 (-1)
      = some (E_OK,
          cut_mapping 4
            { one_row_open with nrows := 1, row_offsets := [0, 2, 0, 0, 0, 0, 0, 0] },
          [some 0, none]) ∧
    short_last_row0.st_size = 5 ∧
    get_row short_last_row0 [none, none] 1 0 1
      = some (E_OK,
          { short_last_row0 with nrows := 2, row_offsets := [0, 4, 9, 0, 0, 0, 0, 0] },
          [some 4, some 6]) ∧
    get_row (cut_mapping 6 short_last_row0) [none, none] 1 0 1 = none ∧
    get_row (cut_mapping 9 short_last_row0) [none, none] 1 0 1 = none ∧
    get_row (cut_mapping 10 short_last_row0) [none, none] 1 0 1
      = some (E_OK,
          cut_mapping 10
            { short_last_row0 with nrows := 2, row_offsets := [0, 4, 9, 0, 0, 0, 0, 0] },
          [some 4, some 6]) := by
  refine ⟨by decide, by decide, by decide, by decide, by decide, by decide, by decide,
    by decide, by decide, by decide, by decide, by decide, by decide⟩

/-! ## Rows with a number of fields other than the column count -/

/-- C13 (ragged row), amended: with a column count established, the first visit
by `get_row` of a row that ends at a newline, holds no NUL byte and no newline
inside double quotes, and has a number of fields (as the specification counts
them) other than the column count returns `E_DTA_MISSING_FIELD` and leaves the
source (`ncols`, `nrows`, every entry of `row_offsets`) as it was, so
`row_offsets[row + 1]` stays 0, whatever columns are asked for below the column
count with room for them in the buffer; and `Frame_shift_row(+1)` onto such a
row returns `E_DTA_PARSE_ERROR` with the frame and the source as they were. -/
theorem get_row_ragged_row (data : Data_T) (buf : List Ptr) (row cs ce cur : Int) (k : Nat)
    (line rest : List Nat)
    (hnc : data.ncols ≠ 0) (hce : ce < data.ncols)
    (hbuf : (if ce = -1 then data.ncols - 1 else ce) - cs < (buf.length : Int))
    (hcur : arr_get data.row_offsets row = some cur) (hcur0 : 0 ≤ cur)
    (hvis : 0 < row → cur ≠ 0 ∧ cur ≠ data.st_size)
    (hnext : arr_get data.row_offsets (row + 1) = some 0)
    (hline : data.ptr.drop cur.toNat = line ++ rest)
    (hrl : row_length line = some line.length)
    (hk : spec_fields data.delim line false = some k)
    (hne : (k : Int) ≠ data.ncols) :
    (∃ buf1, get_row data buf row cs ce = some (E_DTA_MISSING_FIELD, data, buf1)) ∧
    arr_get data.row_offsets (row + 1) = some 0 ∧
    (∀ (M : Nat) (frame : Frame_T), 0 < frame.ncols → frame.ncols ≤ data.ncols →
      frame.data_loaded.last_row + 1 = row → row + 1 ≠ (M : Int) →
      Frame_shift_row M frame data 1 = some (E_DTA_PARSE_ERROR, frame, data)) := by
  have hcnt : count_fields data.delim (data.ptr.drop cur.toNat) false = some k := by
    rw [hline]
    exact count_fields_append data.delim rest line false k
      (spec_fields_count data.delim line false k hk hrl)
  obtain ⟨h1, h2⟩ := get_row_missing_field data buf row cs ce cur k hnc hce hbuf hcur hcur0 hvis
    hnext hcnt hne
  exact ⟨h1, hnext, h2⟩

/-- Witness of C13, amended: in the file `a,b,c` / `d,e` the column count 3 is
established by row 0; row 1 is `d,e` newline, two fields; its first visit returns
`E_DTA_MISSING_FIELD` with the source unchanged, and `Frame_shift_row(+1)` from
the frame that holds row 0 returns `E_DTA_PARSE_ERROR`. -/
theorem get_row_ragged_row_witness :
    spec_fields 44 [100, 44, 101, 10] false = some 2 ∧ ragged_row0.ncols = 3 ∧
    (∃ buf1, get_row ragged_row0 [none, none, none] 1 0 2
      = some (E_DTA_MISSING_FIELD, ragged_row0, buf1)) ∧
    arr_get ragged_row0.row_offsets (1 + 1) = some 0 ∧
    Frame_shift_row 8 ragged_frame ragged_row0 1
      = some (E_DTA_PARSE_ERROR, ragged_frame, ragged_row0) :=
  ⟨by decide, by decide,
   (get_row_ragged_row ragged_row0 [none, none, none] 1 0 2 6 2 [100, 44, 101, 10]
     (List.replicate 6 0) (by decide) (by decide) (by decide) (by decide) (by decide)
     (by decide) (by decide) (by decide) (by decide) (by decide) (by decide)).1,
   (get_row_ragged_row ragged_row0 [none, none, none] 1 0 2 6 2 [100, 44, 101, 10]
     (List.replicate 6 0) (by decide) (by decide) (by decide) (by decide) (by decide)
     (by decide) (by decide) (by decide) (by decide) (by decide) (by decide)).2.1,
   (get_row_ragged_row ragged_row0 [none, none, none] 1 0 2 6 2 [100, 44, 101, 10]
     (List.replicate 6 0) (by decide) (by decide) (by decide) (by decide) (by decide)
     (by decide) (by decide) (by decide) (by decide) (by decide) (by decide)).2.2
     8 ragged_frame (by decide) (by decide) (by decide) (by decide)⟩

end Preview
